import Mathlib

/-!
# Containers of the ics library

A shallow embedding of `hash_map.hpp`, `hash_set.hpp`, `bst_map.hpp`, `linked_queue.hpp`,
`linked_priority_queue.hpp`, `heap_priority_queue.hpp` and of `extended_dijkstra` in
`dijkstra.hpp`.

* A bin array `LN** map` of `bins` chains is a list of chains; a chain is the
  list of the payloads of its nodes in link order, and the trailer node that
  ends every chain is the end of the list.
* `int` counters (`bins`, `used`, `mod_count`) are natural numbers; they grow
  by one or double, and no arithmetic on them is taken modulo `2^32`; `--used`
  stops at `0`, which a table that satisfies its invariant never reaches.
  The value a hash function returns is an integer, and `std::abs` on it is
  modelled on 32 bits (see `abs32`).
* `double load_threshold` is an exact fraction `num/den`; the comparison
  `new_used/(bins*1.0) > load_threshold` is made in exact arithmetic (for
  thresholds such as `1.0`, `0.5`, `0.25` and counters below `2^31` the
  rounded quotient compares the same way).
* A member function that changes the table returns its result together with
  the table it leaves behind; a function that throws leaves the table as it
  was at the `throw`.
* Keys and values are compared with decidable equality (`==`, `!=` of the
  element types).
* A binary search tree is an inductive tree of its nodes; a linked list is the list
  of the values of its nodes; the array of a heap is a list of `length` cells of
  which the first `used` are in the heap.
* A loop that the source does not bound takes the number of rounds allowed to it
  and gives no result when they do not suffice.
-/

namespace ics

/-- Exceptions of `ics_exceptions.hpp` raised by the modelled code (the message text is left
out). `UndefinedBehaviour` is not an exception: it is the outcome the model gives to a
dereference of a deleted node, of the trailer's `next` or of `nullptr`. -/
inductive IcsError where
  | TemplateFunctionError
  | KeyError
  | ConcurrentModificationError
  | CannotEraseError
  | IteratorPositionIllegal
  | ComparingDifferentIteratorsError
  | EmptyError
  | UndefinedBehaviour
  deriving DecidableEq, Repr

/-- Decidable equality of results, so that a result of the model can be compared by evaluation. -/
instance instDecidableEqExcept {ε α : Type} [DecidableEq ε] [DecidableEq α] :
    DecidableEq (Except ε α)
  | Except.ok a, Except.ok b =>
    if h : a = b then isTrue (by rw [h]) else isFalse (fun h2 => h (by injection h2))
  | Except.error a, Except.error b =>
    if h : a = b then isTrue (by rw [h]) else isFalse (fun h2 => h (by injection h2))
  | Except.ok _, Except.error _ => isFalse (fun h => by cases h)
  | Except.error _, Except.ok _ => isFalse (fun h => by cases h)

/-- A function pointer `int (*)(const KEY&)`: `addr` is what `==` and `!=` on
pointers compare, `call` is the function reached through the pointer. -/
structure hashfunc (KEY : Type) where
  addr : Nat
  call : KEY → Int

/-- The marker `undefinedhash<T>`: `int undefinedhash (const T& a) {return 0;}`. -/
def undefinedhash {KEY : Type} : hashfunc KEY := ⟨0, fun _ => 0⟩

/-- Pointer comparison `f == g` of two hash functions. -/
def hashfunc.same {KEY : Type} (f g : hashfunc KEY) : Bool := f.addr == g.addr

/-- The member initialiser `hash(thash != undefinedhash ? thash : chash)` of every constructor. -/
def pick_hash {KEY : Type} (thash chash : hashfunc KEY) : hashfunc KEY :=
  if thash.same undefinedhash then chash else thash

/-- The test `thash != undefinedhash && chash != undefinedhash && thash != chash` of every constructor. -/
def both_different {KEY : Type} (thash chash : hashfunc KEY) : Bool :=
  !thash.same undefinedhash && !chash.same undefinedhash && !thash.same chash

/-- A `double` load threshold, as the fraction `num/den` (with `den > 0`). -/
structure Threshold where
  num : Int
  den : Nat
  deriving DecidableEq, Repr

/-- The default argument `the_load_threshold = 1.0`. -/
def Threshold.one : Threshold := ⟨1, 1⟩

/-- The test `new_used/(bins*1.0) > load_threshold` of `ensure_load_threshold`,
cross-multiplied: `new_used * den > num * bins`. -/
def load_factor_exceeds (new_used bins : Nat) (t : Threshold) : Bool :=
  decide (t.num * (bins : Int) < (new_used : Int) * (t.den : Int))

/-- The least value of a 32-bit `int`. -/
def INT_MIN : Int := -2147483648

/-- The function `std::abs` on a 32-bit `int`: negating `INT_MIN` overflows (undefined
in the language) and gives `INT_MIN` back on a two's complement machine. -/
def abs32 (x : Int) : Int := if x = INT_MIN then INT_MIN else (Int.natAbs x : Int)

/-- The expression `std::abs(hash_value) % bins`; `%` on `int` truncates toward zero. -/
def compress (hash_value : Int) (bins : Nat) : Int := Int.tmod (abs32 hash_value) (bins : Int)

/-- A hash function whose values all have an absolute value, so that `std::abs` is defined on them. -/
def hashfunc.NoAbsOverflow {KEY : Type} (h : hashfunc KEY) : Prop := ∀ k, h.call k ≠ INT_MIN

/-- The chain `tbl[i]`. Indexing outside the array is undefined in the source; the
model reads an empty chain there. -/
def chain_at {α : Type} (tbl : List (List α)) (i : Int) : List α :=
  if 0 ≤ i then tbl.getD i.toNat [] else []

/-- The assignment `tbl[i] = c`. Indexing outside the array is undefined in the
source; the model writes nothing there. -/
def set_chain {α : Type} (tbl : List (List α)) (i : Int) (c : List α) : List (List α) :=
  if 0 ≤ i then tbl.set i.toNat c else tbl

/-- The relinking loop of `ensure_load_threshold`: for `i` from `0` below `n`, every node
of the old chain `old[i]`, front to back, is linked in front of the chain
`new_table[idx node]`. -/
def relink {α : Type} (idx : α → Int) (old : List (List α)) (n : Nat)
    (new_table : List (List α)) : List (List α) :=
  (List.range n).foldl
    (fun nt (i : Nat) => (chain_at old (i : Int)).foldl
      (fun nt current => set_chain nt (idx current) (current :: chain_at nt (idx current))) nt)
    new_table

/-- The statement `find->value.second = value` on the first node of a chain whose key is `key`. -/
def chain_assign {KEY T : Type} [DecidableEq KEY] (key : KEY) (value : T) :
    List (KEY × T) → List (KEY × T)
  | [] => []
  | e :: rest => if e.1 = key then (e.1, value) :: rest else e :: chain_assign key value rest

/-! ## HashMap -/

/-- The data members of `HashMap<KEY,T,thash>`. -/
structure HashMap (KEY T : Type) (thash : hashfunc KEY) where
  hash : hashfunc KEY
  map : List (List (KEY × T))
  load_threshold : Threshold
  bins : Nat
  used : Nat
  mod_count : Nat

namespace HashMap

variable {KEY T : Type} {thash : hashfunc KEY}

def empty (m : HashMap KEY T thash) : Bool := m.used == 0

def size (m : HashMap KEY T thash) : Nat := m.used

def hash_compress (m : HashMap KEY T thash) (key : KEY) : Int :=
  compress (m.hash.call key) m.bins

/-- The node `find_key` returns, as its payload; `none` is `nullptr`. -/
def find_key [DecidableEq KEY] (m : HashMap KEY T thash) (key : KEY) : Option (KEY × T) :=
  (chain_at m.map (m.hash_compress key)).find? (fun p => decide (p.1 = key))

def has_key [DecidableEq KEY] (m : HashMap KEY T thash) (key : KEY) : Bool :=
  (m.find_key key).isSome

def has_value [DecidableEq T] (m : HashMap KEY T thash) (value : T) : Bool :=
  (List.range m.bins).any (fun (i : Nat) => (chain_at m.map (i : Int)).any (fun p => decide (p.2 = value)))

def ensure_load_threshold (m : HashMap KEY T thash) (new_used : Nat) : HashMap KEY T thash :=
  if load_factor_exceeds new_used m.bins m.load_threshold then
    let m1 : HashMap KEY T thash := { m with bins := m.bins * 2 }
    let new_table : List (List (KEY × T)) := List.replicate m1.bins []
    { m1 with map := relink (fun current => m1.hash_compress current.1) m.map (m1.bins / 2) new_table }
  else m

def put [DecidableEq KEY] (m : HashMap KEY T thash) (key : KEY) (value : T) :
    T × HashMap KEY T thash :=
  let m : HashMap KEY T thash := { m with mod_count := m.mod_count + 1 }
  match m.find_key key with
  | some found =>
    let bin_index := m.hash_compress key
    (found.2, { m with map := set_chain m.map bin_index (chain_assign key value (chain_at m.map bin_index)) })
  | none =>
    let m : HashMap KEY T thash := { m with used := m.used + 1 }
    let m : HashMap KEY T thash := m.ensure_load_threshold m.used
    let bin_index := m.hash_compress key
    let front := chain_at m.map bin_index
    (value, { m with map := set_chain m.map bin_index ((key, value) :: front) })

/-- The copy `*to_erase = *to_erase_next` followed by `delete to_erase_next` unlinks the
first node of the chain whose key is `key`. -/
def erase [DecidableEq KEY] (m : HashMap KEY T thash) (key : KEY) :
    Except IcsError T × HashMap KEY T thash :=
  match m.find_key key with
  | none => (Except.error IcsError.KeyError, m)
  | some to_erase =>
    let bin_index := m.hash_compress key
    (Except.ok to_erase.2,
     { m with map := set_chain m.map bin_index
                       (List.eraseP (fun p => decide (p.1 = key)) (chain_at m.map bin_index)),
              mod_count := m.mod_count + 1,
              used := m.used - 1 })

def clear (m : HashMap KEY T thash) : HashMap KEY T thash :=
  { m with map := (List.range m.bins).foldl (fun tbl (i : Nat) => set_chain tbl (i : Int) []) m.map,
           used := 0,
           mod_count := m.mod_count + 1 }

/-- The member `put_all`, over the sequence of entries the for-each loop yields. -/
def put_all [DecidableEq KEY] (m : HashMap KEY T thash) (i : List (KEY × T)) :
    Nat × HashMap KEY T thash :=
  let m : HashMap KEY T thash := i.foldl (fun m e => (m.put e.1 e.2).2) m
  (i.length, { m with mod_count := m.mod_count + 1 })

/-- The non-const `operator []`: the value it refers to and the table afterwards. -/
def index [DecidableEq KEY] [Inhabited T] (m : HashMap KEY T thash) (key : KEY) :
    T × HashMap KEY T thash :=
  match m.find_key key with
  | some found => (found.2, m)
  | none =>
    let m : HashMap KEY T thash := { m with used := m.used + 1 }
    let m : HashMap KEY T thash := m.ensure_load_threshold m.used
    let hash_value := m.hash_compress key
    let m : HashMap KEY T thash :=
      { m with map := set_chain m.map hash_value ((key, default) :: chain_at m.map hash_value) }
    let m : HashMap KEY T thash := { m with mod_count := m.mod_count + 1 }
    (default, m)

/-- The const `operator []`. -/
def index_const [DecidableEq KEY] (m : HashMap KEY T thash) (key : KEY) : Except IcsError T :=
  match m.find_key key with
  | none => Except.error IcsError.KeyError
  | some found => Except.ok found.2

/-- The entries a for-each loop over the map visits: `begin()` is the end cursor when
`used == 0`, otherwise the cursor walks the non-empty chains in bin order. -/
def traverse (m : HashMap KEY T thash) : List (KEY × T) :=
  if m.used = 0 then [] else (List.range m.bins).flatMap (fun (i : Nat) => chain_at m.map (i : Int))

/-- The comparison `operator ==` of two distinct objects. (For `this == &rhs` the source
answers `true` at once.) -/
def op_eq [DecidableEq KEY] [DecidableEq T] (a rhs : HashMap KEY T thash) : Bool :=
  if a.used ≠ rhs.size then false
  else (List.range a.bins).all (fun (i : Nat) => (chain_at a.map (i : Int)).all (fun p =>
    match rhs.find_key p.1 with
    | none => false
    | some to_find => decide (to_find.2 = p.2)))

def op_ne [DecidableEq KEY] [DecidableEq T] (a rhs : HashMap KEY T thash) : Bool :=
  !(a.op_eq rhs)

/-- The table a constructor has after `map=new LN*[bins]` and the loop `map[i]=new LN()`. -/
def fresh (thash : hashfunc KEY) (hash : hashfunc KEY) (t : Threshold) (bins : Nat) :
    HashMap KEY T thash :=
  { hash := hash, map := List.replicate bins [], load_threshold := t, bins := bins,
    used := 0, mod_count := 0 }

/-- The constructor `HashMap(double the_load_threshold, chash)`. -/
def ctor_default (thash : hashfunc KEY) (the_load_threshold : Threshold) (chash : hashfunc KEY) :
    Except IcsError (HashMap KEY T thash) :=
  let hash := pick_hash thash chash
  if hash.same undefinedhash then Except.error IcsError.TemplateFunctionError
  else if both_different thash chash then Except.error IcsError.TemplateFunctionError
  else Except.ok (fresh thash hash the_load_threshold 1)

/-- The constructor `HashMap(int initial_bins, double the_load_threshold, chash)`. -/
def ctor_bins (thash : hashfunc KEY) (initial_bins : Int) (the_load_threshold : Threshold)
    (chash : hashfunc KEY) : Except IcsError (HashMap KEY T thash) :=
  let hash := pick_hash thash chash
  if hash.same undefinedhash then Except.error IcsError.TemplateFunctionError
  else if both_different thash chash then Except.error IcsError.TemplateFunctionError
  else Except.ok (fresh thash hash the_load_threshold (if initial_bins < 1 then 1 else initial_bins.toNat))

/-- The constructor `HashMap(const HashMap& to_copy, double the_load_threshold, chash)`. -/
def ctor_copy [DecidableEq KEY] (thash : hashfunc KEY) (to_copy : HashMap KEY T thash)
    (the_load_threshold : Threshold) (chash : hashfunc KEY) :
    Except IcsError (HashMap KEY T thash) :=
  let hash := pick_hash thash chash
  let hash := if hash.same undefinedhash then to_copy.hash else hash
  if both_different thash chash then Except.error IcsError.TemplateFunctionError
  else if hash.same to_copy.hash then
    Except.ok { hash := hash, load_threshold := the_load_threshold, bins := to_copy.bins,
                used := to_copy.used, mod_count := 0,
                map := (List.range to_copy.bins).map (fun (i : Nat) => chain_at to_copy.map (i : Int)) }
  else
    Except.ok ((fresh thash hash the_load_threshold 1).put_all to_copy.traverse).2

/-- The constructor `HashMap(const std::initializer_list<Entry>& il, double the_load_threshold, chash)`. -/
def ctor_il [DecidableEq KEY] (thash : hashfunc KEY) (il : List (KEY × T))
    (the_load_threshold : Threshold) (chash : hashfunc KEY) :
    Except IcsError (HashMap KEY T thash) :=
  let hash := pick_hash thash chash
  if hash.same undefinedhash then Except.error IcsError.TemplateFunctionError
  else if both_different thash chash then Except.error IcsError.TemplateFunctionError
  else Except.ok ((fresh thash hash the_load_threshold 1).put_all il).2

/-- The constructor `HashMap(const Iterable& i, double the_load_threshold, chash)`, over
the sequence of entries the iterable yields. -/
def ctor_iterable [DecidableEq KEY] (thash : hashfunc KEY) (i : List (KEY × T))
    (the_load_threshold : Threshold) (chash : hashfunc KEY) :
    Except IcsError (HashMap KEY T thash) :=
  let hash := pick_hash thash chash
  if hash.same undefinedhash then Except.error IcsError.TemplateFunctionError
  else if both_different thash chash then Except.error IcsError.TemplateFunctionError
  else Except.ok ((fresh thash hash the_load_threshold 1).put_all i).2

end HashMap

/-! ## HashSet -/

/-- The data members of `HashSet<T,thash>`. -/
structure HashSet (T : Type) (thash : hashfunc T) where
  hash : hashfunc T
  set : List (List T)
  load_threshold : Threshold
  bins : Nat
  used : Nat
  mod_count : Nat

namespace HashSet

variable {T : Type} {thash : hashfunc T}

def empty (s : HashSet T thash) : Bool := s.used == 0

def size (s : HashSet T thash) : Nat := s.used

def hash_compress (s : HashSet T thash) (element : T) : Int :=
  compress (s.hash.call element) s.bins

/-- The node `find_element` returns, as its payload; `none` is `nullptr`. -/
def find_element [DecidableEq T] (s : HashSet T thash) (element : T) : Option T :=
  (chain_at s.set (s.hash_compress element)).find? (fun v => decide (v = element))

def contains [DecidableEq T] (s : HashSet T thash) (element : T) : Bool :=
  (s.find_element element).isSome

def contains_all [DecidableEq T] (s : HashSet T thash) (i : List T) : Bool :=
  i.all (fun v => s.contains v)

def ensure_load_threshold (s : HashSet T thash) (new_used : Nat) : HashSet T thash :=
  if load_factor_exceeds new_used s.bins s.load_threshold then
    let s1 : HashSet T thash := { s with bins := s.bins * 2 }
    let new_table : List (List T) := List.replicate s1.bins []
    { s1 with set := relink (fun current => s1.hash_compress current) s.set (s1.bins / 2) new_table }
  else s

def insert [DecidableEq T] (s : HashSet T thash) (element : T) : Nat × HashSet T thash :=
  let s : HashSet T thash := { s with mod_count := s.mod_count + 1 }
  match s.find_element element with
  | none =>
    let s : HashSet T thash := { s with used := s.used + 1 }
    let s : HashSet T thash := s.ensure_load_threshold s.used
    let bin_index := s.hash_compress element
    let front := chain_at s.set bin_index
    (1, { s with set := set_chain s.set bin_index (element :: front) })
  | some _ => (0, s)

/-- The copy `*to_erase = *to_erase_next` followed by `delete to_erase_next` unlinks the
first node of the chain whose value is `element`. -/
def erase [DecidableEq T] (s : HashSet T thash) (element : T) : Nat × HashSet T thash :=
  match s.find_element element with
  | none => (0, s)
  | some _ =>
    let bin_index := s.hash_compress element
    (1, { s with set := set_chain s.set bin_index
                          (List.eraseP (fun v => decide (v = element)) (chain_at s.set bin_index)),
                 mod_count := s.mod_count + 1,
                 used := s.used - 1 })

/-- The member `clear`: `delete_hash_table(set,bins)` zeroes `used` (its `bins=1` is an
assignment to its own parameter), then a new array of `bins` empty chains is made. -/
def clear (s : HashSet T thash) : HashSet T thash :=
  { s with set := List.replicate s.bins [], used := 0, mod_count := s.mod_count + 1 }

/-- The member `insert_all`, over the sequence of elements the for-each loop yields. -/
def insert_all [DecidableEq T] (s : HashSet T thash) (i : List T) : Nat × HashSet T thash :=
  i.foldl (fun acc v => (acc.1 + (acc.2.insert v).1, (acc.2.insert v).2)) (0, s)

/-- The elements a for-each loop over the set visits: `begin()` is the end cursor when
`used == 0`, otherwise the cursor walks the non-empty chains in bin order. -/
def traverse (s : HashSet T thash) : List T :=
  if s.used = 0 then [] else (List.range s.bins).flatMap (fun (i : Nat) => chain_at s.set (i : Int))

/-- The comparison `operator ==` of two distinct objects. (For `this == &rhs` the source
answers `true` at once.) -/
def op_eq [DecidableEq T] (a rhs : HashSet T thash) : Bool :=
  if a.used ≠ rhs.size then false
  else (List.range a.bins).all (fun (i : Nat) => (chain_at a.set (i : Int)).all (fun v =>
    (rhs.find_element v).isSome))

def op_ne [DecidableEq T] (a rhs : HashSet T thash) : Bool :=
  !(a.op_eq rhs)

/-- The table a constructor has after `set=new LN*[bins]` and the loop `set[i]=new LN()`. -/
def fresh (thash : hashfunc T) (hash : hashfunc T) (t : Threshold) (bins : Nat) :
    HashSet T thash :=
  { hash := hash, set := List.replicate bins [], load_threshold := t, bins := bins,
    used := 0, mod_count := 0 }

/-- The constructor `HashSet(double the_load_threshold, chash)`. -/
def ctor_default (thash : hashfunc T) (the_load_threshold : Threshold) (chash : hashfunc T) :
    Except IcsError (HashSet T thash) :=
  let hash := pick_hash thash chash
  if hash.same undefinedhash then Except.error IcsError.TemplateFunctionError
  else if both_different thash chash then Except.error IcsError.TemplateFunctionError
  else Except.ok (fresh thash hash the_load_threshold 1)

/-- The constructor `HashSet(int initial_bins, double the_load_threshold, chash)`. -/
def ctor_bins (thash : hashfunc T) (initial_bins : Int) (the_load_threshold : Threshold)
    (chash : hashfunc T) : Except IcsError (HashSet T thash) :=
  let hash := pick_hash thash chash
  if hash.same undefinedhash then Except.error IcsError.TemplateFunctionError
  else if both_different thash chash then Except.error IcsError.TemplateFunctionError
  else Except.ok (fresh thash hash the_load_threshold (if initial_bins < 1 then 1 else initial_bins.toNat))

/-- The constructor `HashSet(const HashSet& to_copy, double the_load_threshold, chash)`. -/
def ctor_copy [DecidableEq T] (thash : hashfunc T) (to_copy : HashSet T thash)
    (the_load_threshold : Threshold) (chash : hashfunc T) :
    Except IcsError (HashSet T thash) :=
  let hash := pick_hash thash chash
  let hash := if hash.same undefinedhash then to_copy.hash else hash
  if both_different thash chash then Except.error IcsError.TemplateFunctionError
  else if hash.same to_copy.hash then
    Except.ok { hash := hash, load_threshold := the_load_threshold, bins := to_copy.bins,
                used := to_copy.used, mod_count := 0,
                set := (List.range to_copy.bins).map (fun (i : Nat) => chain_at to_copy.set (i : Int)) }
  else
    Except.ok ((fresh thash hash the_load_threshold 1).insert_all to_copy.traverse).2

/-- The constructor `HashSet(const std::initializer_list<T>& il, double the_load_threshold, chash)`. -/
def ctor_il [DecidableEq T] (thash : hashfunc T) (il : List T)
    (the_load_threshold : Threshold) (chash : hashfunc T) :
    Except IcsError (HashSet T thash) :=
  let hash := pick_hash thash chash
  if hash.same undefinedhash then Except.error IcsError.TemplateFunctionError
  else if both_different thash chash then Except.error IcsError.TemplateFunctionError
  else Except.ok ((fresh thash hash the_load_threshold 1).insert_all il).2

/-- The constructor `HashSet(const Iterable& i, double the_load_threshold, chash)`, over
the sequence of elements the iterable yields. -/
def ctor_iterable [DecidableEq T] (thash : hashfunc T) (i : List T)
    (the_load_threshold : Threshold) (chash : hashfunc T) :
    Except IcsError (HashSet T thash) :=
  let hash := pick_hash thash chash
  if hash.same undefinedhash then Except.error IcsError.TemplateFunctionError
  else if both_different thash chash then Except.error IcsError.TemplateFunctionError
  else Except.ok ((fresh thash hash the_load_threshold 1).insert_all i).2

end HashSet

/-! ## Representation invariant and client call sequences -/

/-- Representation invariant of a bin array of `bins` chains whose entries have the key
`key e` and belong in bin `c (key e)`: the array has `bins ≥ 1` chains, every entry
lies in the chain of its own bin, and no key is stored twice. -/
structure BinsInv {α K : Type} (key : α → K) (c : K → Int) (tbl : List (List α)) (bins : Nat) :
    Prop where
  len : tbl.length = bins
  pos : 0 < bins
  home : ∀ (i : Nat) (e : α), e ∈ chain_at tbl (i : Int) → c (key e) = (i : Int)
  nodup : (tbl.flatten.map key).Nodup

/-- Representation invariant of a `HashMap`: the bin array is well formed for the current
hash and bin count, and `used` caches the number of stored entries. -/
def HashMap.WF {KEY T : Type} {thash : hashfunc KEY} (m : HashMap KEY T thash) : Prop :=
  BinsInv Prod.fst (fun k => m.hash_compress k) m.map m.bins ∧ m.used = m.map.flatten.length

/-- Representation invariant of a `HashSet`: the bin array is well formed for the current
hash and bin count, and `used` caches the number of stored elements. -/
def HashSet.WF {T : Type} {thash : hashfunc T} (s : HashSet T thash) : Prop :=
  BinsInv id (fun v => s.hash_compress v) s.set s.bins ∧ s.used = s.set.flatten.length

/-- A client's sequence of calls `put(k, v)`, one for each entry of `kvs` in order: the table afterwards. -/
def HashMap.puts {KEY T : Type} {thash : hashfunc KEY} [DecidableEq KEY]
    (m : HashMap KEY T thash) (kvs : List (KEY × T)) : HashMap KEY T thash :=
  kvs.foldl (fun m e => (m.put e.1 e.2).2) m

/-- A client's sequence of calls `erase(k)`, one for each key of `ks` in order: the results
in call order and the table afterwards. -/
def HashMap.erases {KEY T : Type} {thash : hashfunc KEY} [DecidableEq KEY]
    (m : HashMap KEY T thash) : List KEY → List (Except IcsError T) × HashMap KEY T thash
  | [] => ([], m)
  | k :: ks => ((m.erase k).1 :: ((m.erase k).2.erases ks).1, ((m.erase k).2.erases ks).2)

/-- A client's sequence of calls `insert(v)`, one for each element of `vs` in order: the table afterwards. -/
def HashSet.inserts {T : Type} {thash : hashfunc T} [DecidableEq T]
    (s : HashSet T thash) (vs : List T) : HashSet T thash :=
  vs.foldl (fun s v => (s.insert v).2) s

/-- A client's sequence of calls `erase(v)`, one for each element of `vs` in order: the
results in call order and the table afterwards. -/
def HashSet.erases {T : Type} {thash : hashfunc T} [DecidableEq T]
    (s : HashSet T thash) : List T → List Nat × HashSet T thash
  | [] => ([], s)
  | v :: vs => ((s.erase v).1 :: ((s.erase v).2.erases vs).1, ((s.erase v).2.erases vs).2)

/-- The failure condition of the resolution rule stated in the class comment: neither
`thash` nor `chash` is supplied, or both are supplied and are different functions. -/
def hash_unresolved {KEY : Type} (thash chash : hashfunc KEY) : Bool :=
  (thash.same undefinedhash && chash.same undefinedhash) ||
  (!thash.same undefinedhash && !chash.same undefinedhash && !thash.same chash)

/-! ## Iterators, assignment and set comparisons -/

/-- A node pointer `LN*` held by an iterator or a loop: `nullptr`; the node reached from
the head of chain `bin` by `pos` steps of `->next` (the trailer is `pos = ` length of the
chain); or a node that has been deleted. -/
inductive NodePtr where
  | null
  | node (bin : Nat) (pos : Nat)
  | freed
  deriving DecidableEq, Repr

/-- The type `Cursor`, a `pair<int,LN*>`: bin index and node pointer. -/
structure Cursor where
  first : Int
  second : NodePtr
  deriving DecidableEq, Repr

/-- The loop `for (int i = start; i < bins; ++i) if (tbl[i]->next != nullptr) ...` over
`n = bins - start` indices: the first index from `start` on whose chain is not empty. -/
def scan_bins {α : Type} (tbl : List (List α)) : Nat → Nat → Option Nat
  | _, 0 => none
  | i, n + 1 => if (chain_at tbl (i : Int)).isEmpty then scan_bins tbl (i + 1) n else some i

/-- The value `p->value` of a node pointer into `tbl`; the pointer must be a node before
the trailer of its chain. -/
def node_value {α : Type} (tbl : List (List α)) : NodePtr → Except IcsError α
  | NodePtr.node b p =>
    match (chain_at tbl (b : Int)).get? p with
    | some v => Except.ok v
    | none => Except.error IcsError.UndefinedBehaviour
  | _ => Except.error IcsError.UndefinedBehaviour

/-- The test `p->next->next == nullptr`: `p` is the last node before the trailer. -/
def next_is_trailer {α : Type} (tbl : List (List α)) : NodePtr → Bool
  | NodePtr.node b p => p + 1 == (chain_at tbl (b : Int)).length
  | _ => false

/-- The body of `advance_cursors`, the same in both iterator classes: step to `->next`, and
from a trailer on to the head of the next non-empty chain, or to `(-1, nullptr)`. -/
def advance_cursor {α : Type} (tbl : List (List α)) (bins : Nat) (current : Cursor) :
    Except IcsError Cursor :=
  if current.first ≠ -1 ∧ current.second ≠ NodePtr.null then
    match current.second with
    | NodePtr.node b p =>
      if p < (chain_at tbl (b : Int)).length then
        if p + 1 = (chain_at tbl (b : Int)).length then
          match scan_bins tbl (current.first + 1).toNat (bins - (current.first + 1).toNat) with
          | some i => Except.ok ⟨(i : Int), NodePtr.node i 0⟩
          | none => Except.ok ⟨-1, NodePtr.null⟩
        else Except.ok ⟨current.first, NodePtr.node b (p + 1)⟩
      else Except.error IcsError.UndefinedBehaviour
    | _ => Except.error IcsError.UndefinedBehaviour
  else Except.ok current

/-- Where a node pointer points after `erase` has unlinked the node at position `j` of
chain `bin` by copying node `j + 1` into it and deleting node `j + 1`: a pointer to node
`j + 1` is left dangling, pointers to later nodes of that chain are one step nearer the
head, every other pointer is as before. -/
def reseat (ptr : NodePtr) (bin : Int) (j : Nat) : NodePtr :=
  match ptr with
  | NodePtr.node b p =>
    if (b : Int) = bin then
      if p = j + 1 then NodePtr.freed
      else if j + 1 < p then NodePtr.node b (p - 1)
      else ptr
    else ptr
  | _ => ptr

/-- The cursor an iterator constructor computes: `(-1, nullptr)` when `used == 0` or not
`from_begin`, else the head of the first non-empty chain (and the default-constructed
pair when the loop finds none). -/
def first_cursor {α : Type} (tbl : List (List α)) (bins used : Nat) (from_begin : Bool) : Cursor :=
  if used = 0 ∨ from_begin = false then ⟨-1, NodePtr.null⟩
  else
    match scan_bins tbl 0 bins with
    | some i => ⟨(i : Int), NodePtr.node i 0⟩
    | none => ⟨0, NodePtr.null⟩

namespace HashMap

variable {KEY T : Type} {thash : hashfunc KEY}

/-- The data members of `HashMap::Iterator`; `ref_map` is the address of the map. -/
structure Iterator where
  current : Cursor
  ref_map : Nat
  expected_mod_count : Nat
  can_erase : Bool
  deriving DecidableEq, Repr

/-- The constructor `Iterator(iterate_over, from_begin)`; `m` is the map at `iterate_over`. -/
def Iterator.ctor (iterate_over : Nat) (m : HashMap KEY T thash) (from_begin : Bool) : Iterator :=
  { ref_map := iterate_over, expected_mod_count := m.mod_count, can_erase := true,
    current := first_cursor m.map m.bins m.used from_begin }

/-- The member `begin()` of the map at address `this`. -/
def begin (m : HashMap KEY T thash) (this : Nat) : Iterator := Iterator.ctor this m true

/-- The member `end()` of the map at address `this`. -/
def end_ (m : HashMap KEY T thash) (this : Nat) : Iterator := Iterator.ctor this m false

/-- The position of the node `erase(key)` unlinks: the bin of the key and the index of
the first node of that chain with this key. -/
def erase_pos [DecidableEq KEY] (m : HashMap KEY T thash) (key : KEY) : Int × Nat :=
  (m.hash_compress key,
   (chain_at m.map (m.hash_compress key)).findIdx (fun p => decide (p.1 = key)))

/-- The member `advance_cursors` on the map `m` the iterator refers to. -/
def Iterator.advance_cursors (it : Iterator) (m : HashMap KEY T thash) :
    Except IcsError Iterator :=
  match advance_cursor m.map m.bins it.current with
  | Except.ok c => Except.ok { it with current := c }
  | Except.error e => Except.error e

/-- The member `Iterator::erase`: its result, the iterator and the map afterwards. -/
def Iterator.erase [DecidableEq KEY] (it : Iterator) (m : HashMap KEY T thash) :
    Except IcsError (KEY × T) × Iterator × HashMap KEY T thash :=
  if it.expected_mod_count ≠ m.mod_count then
    (Except.error IcsError.ConcurrentModificationError, it, m)
  else if it.can_erase = false then (Except.error IcsError.CannotEraseError, it, m)
  else if it.current.first = -1 ∨ it.current.second = NodePtr.null then
    (Except.error IcsError.CannotEraseError, it, m)
  else
    let it : Iterator := { it with can_erase := false }
    match node_value m.map it.current.second with
    | Except.error e => (Except.error e, it, m)
    | Except.ok to_return =>
      match (if next_is_trailer m.map it.current.second then it.advance_cursors m
             else Except.ok it) with
      | Except.error e => (Except.error e, it, m)
      | Except.ok it =>
        match (m.erase to_return.1).1 with
        | Except.error e => (Except.error e, it, (m.erase to_return.1).2)
        | Except.ok _ =>
          (Except.ok to_return,
           { it with
               current := ⟨it.current.first,
                 reseat it.current.second (m.erase_pos to_return.1).1 (m.erase_pos to_return.1).2⟩,
               expected_mod_count := (m.erase to_return.1).2.mod_count },
           (m.erase to_return.1).2)

/-- The prefix `operator ++`: the iterator afterwards, or the exception. -/
def Iterator.incr (it : Iterator) (m : HashMap KEY T thash) : Except IcsError Iterator :=
  if it.expected_mod_count ≠ m.mod_count then
    Except.error IcsError.ConcurrentModificationError
  else if it.current.first = -1 ∧ it.current.second = NodePtr.null then Except.ok it
  else if it.can_erase then it.advance_cursors m
  else Except.ok { it with can_erase := true }

/-- The postfix `operator ++ (int)`: the iterator returned and the iterator afterwards, or
the exception. -/
def Iterator.post_incr (it : Iterator) (m : HashMap KEY T thash) :
    Except IcsError (Iterator × Iterator) :=
  if it.expected_mod_count ≠ m.mod_count then
    Except.error IcsError.ConcurrentModificationError
  else if it.current.first = -1 ∧ it.current.second = NodePtr.null then Except.ok (it, it)
  else if it.can_erase then
    match it.advance_cursors m with
    | Except.ok it2 => Except.ok (it, it2)
    | Except.error e => Except.error e
  else Except.ok (it, { it with can_erase := true })

/-- The comparison `operator ==` of two iterators. -/
def Iterator.op_eq (it rhs : Iterator) (m : HashMap KEY T thash) : Except IcsError Bool :=
  if it.expected_mod_count ≠ m.mod_count then
    Except.error IcsError.ConcurrentModificationError
  else if it.ref_map ≠ rhs.ref_map then Except.error IcsError.ComparingDifferentIteratorsError
  else Except.ok (decide (it.current.second = rhs.current.second))

/-- The comparison `operator !=` of two iterators. -/
def Iterator.op_ne (it rhs : Iterator) (m : HashMap KEY T thash) : Except IcsError Bool :=
  if it.expected_mod_count ≠ m.mod_count then
    Except.error IcsError.ConcurrentModificationError
  else if it.ref_map ≠ rhs.ref_map then Except.error IcsError.ComparingDifferentIteratorsError
  else Except.ok (decide (it.current.second ≠ rhs.current.second))

/-- The dereference `operator *`: the entry referred to. -/
def Iterator.deref (it : Iterator) (m : HashMap KEY T thash) : Except IcsError (KEY × T) :=
  if it.expected_mod_count ≠ m.mod_count then
    Except.error IcsError.ConcurrentModificationError
  else if it.can_erase = false ∨ it.current.first = -1 ∨ it.current.second = NodePtr.null then
    Except.error IcsError.IteratorPositionIllegal
  else node_value m.map it.current.second

/-- The member access `operator ->`: the entry pointed to. -/
def Iterator.arrow (it : Iterator) (m : HashMap KEY T thash) : Except IcsError (KEY × T) :=
  if it.expected_mod_count ≠ m.mod_count then
    Except.error IcsError.ConcurrentModificationError
  else if it.can_erase = false ∨ it.current.first = -1 ∨ it.current.second = NodePtr.null then
    Except.error IcsError.IteratorPositionIllegal
  else node_value m.map it.current.second

/-- The assignment `operator =`; `same_object` says that `rhs` is the object assigned to
(`this == &rhs`). -/
def assign [DecidableEq KEY] (a rhs : HashMap KEY T thash) (same_object : Bool) :
    HashMap KEY T thash :=
  if same_object then a
  else
    let a : HashMap KEY T thash :=
      if a.hash.same rhs.hash then
        { a with bins := rhs.bins, used := rhs.used,
                 map := (List.range rhs.bins).map (fun (i : Nat) => chain_at rhs.map (i : Int)) }
      else
        let a : HashMap KEY T thash := a.clear
        let a : HashMap KEY T thash := (a.put_all rhs.traverse).2
        { a with hash := rhs.hash }
    { a with mod_count := a.mod_count + 1 }

/-- A client's loop `for (it = begin(); it != end(); ++it) it.erase();` run for at most
`fuel` rounds from the iterator `it`: the entries `erase()` returned (after `acc`) or the
exception that ended it, with the iterator and the map afterwards; `none` when the loop
has not ended after `fuel` rounds. -/
def erase_loop [DecidableEq KEY] (this : Nat) :
    Nat → Iterator → HashMap KEY T thash → List (KEY × T) →
    Option (Except IcsError (List (KEY × T)) × Iterator × HashMap KEY T thash)
  | 0, _, _, _ => none
  | fuel + 1, it, m, acc =>
    match it.op_ne (m.end_ this) m with
    | Except.error e => some (Except.error e, it, m)
    | Except.ok false => some (Except.ok acc, it, m)
    | Except.ok true =>
      match it.erase m with
      | (Except.error e, it, m) => some (Except.error e, it, m)
      | (Except.ok x, it, m) =>
        match it.incr m with
        | Except.error e => some (Except.error e, it, m)
        | Except.ok it => erase_loop this fuel it m (acc ++ [x])

end HashMap

namespace HashSet

variable {T : Type} {thash : hashfunc T}

/-- The data members of `HashSet::Iterator`; `ref_set` is the address of the set. -/
structure Iterator where
  current : Cursor
  ref_set : Nat
  expected_mod_count : Nat
  can_erase : Bool
  deriving DecidableEq, Repr

/-- The constructor `Iterator(iterate_over, begin)`; `s` is the set at `iterate_over`. -/
def Iterator.ctor (iterate_over : Nat) (s : HashSet T thash) (from_begin : Bool) : Iterator :=
  { ref_set := iterate_over, expected_mod_count := s.mod_count, can_erase := true,
    current := first_cursor s.set s.bins s.used from_begin }

/-- The member `begin()` of the set at address `this`. -/
def begin (s : HashSet T thash) (this : Nat) : Iterator := Iterator.ctor this s true

/-- The member `end()` of the set at address `this`. -/
def end_ (s : HashSet T thash) (this : Nat) : Iterator := Iterator.ctor this s false

/-- The position of the node `erase(element)` unlinks: the bin of the element and the
index of the first node of that chain with this value. -/
def erase_pos [DecidableEq T] (s : HashSet T thash) (element : T) : Int × Nat :=
  (s.hash_compress element,
   (chain_at s.set (s.hash_compress element)).findIdx (fun v => decide (v = element)))

/-- The member `advance_cursors` on the set `s` the iterator refers to. -/
def Iterator.advance_cursors (it : Iterator) (s : HashSet T thash) :
    Except IcsError Iterator :=
  match advance_cursor s.set s.bins it.current with
  | Except.ok c => Except.ok { it with current := c }
  | Except.error e => Except.error e

/-- The member `Iterator::erase`: its result, the iterator and the set afterwards. The
cursor is advanced before every `ref_set->erase`. -/
def Iterator.erase [DecidableEq T] (it : Iterator) (s : HashSet T thash) :
    Except IcsError T × Iterator × HashSet T thash :=
  if it.expected_mod_count ≠ s.mod_count then
    (Except.error IcsError.ConcurrentModificationError, it, s)
  else if it.can_erase = false then (Except.error IcsError.CannotEraseError, it, s)
  else if it.current.first = -1 ∨ it.current.second = NodePtr.null then
    (Except.error IcsError.CannotEraseError, it, s)
  else
    let it : Iterator := { it with can_erase := false }
    match node_value s.set it.current.second with
    | Except.error e => (Except.error e, it, s)
    | Except.ok to_return =>
      match it.advance_cursors s with
      | Except.error e => (Except.error e, it, s)
      | Except.ok it =>
        (Except.ok to_return,
         { it with
             current := ⟨it.current.first,
               if (s.erase to_return).1 = 0 then it.current.second
               else reseat it.current.second (s.erase_pos to_return).1 (s.erase_pos to_return).2⟩,
             expected_mod_count := (s.erase to_return).2.mod_count },
         (s.erase to_return).2)

/-- The prefix `operator ++`: the iterator afterwards, or the exception. -/
def Iterator.incr (it : Iterator) (s : HashSet T thash) : Except IcsError Iterator :=
  if it.expected_mod_count ≠ s.mod_count then
    Except.error IcsError.ConcurrentModificationError
  else if it.current.first = -1 ∧ it.current.second = NodePtr.null then Except.ok it
  else if it.can_erase then it.advance_cursors s
  else Except.ok { it with can_erase := true }

/-- The postfix `operator ++ (int)`: the iterator returned and the iterator afterwards, or
the exception. -/
def Iterator.post_incr (it : Iterator) (s : HashSet T thash) :
    Except IcsError (Iterator × Iterator) :=
  if it.expected_mod_count ≠ s.mod_count then
    Except.error IcsError.ConcurrentModificationError
  else if it.current.first = -1 ∧ it.current.second = NodePtr.null then Except.ok (it, it)
  else if it.can_erase then
    match it.advance_cursors s with
    | Except.ok it2 => Except.ok (it, it2)
    | Except.error e => Except.error e
  else Except.ok (it, { it with can_erase := true })

/-- The comparison `operator ==` of two iterators. -/
def Iterator.op_eq (it rhs : Iterator) (s : HashSet T thash) : Except IcsError Bool :=
  if it.expected_mod_count ≠ s.mod_count then
    Except.error IcsError.ConcurrentModificationError
  else if it.ref_set ≠ rhs.ref_set then Except.error IcsError.ComparingDifferentIteratorsError
  else Except.ok (decide (it.current.second = rhs.current.second))

/-- The comparison `operator !=` of two iterators. -/
def Iterator.op_ne (it rhs : Iterator) (s : HashSet T thash) : Except IcsError Bool :=
  if it.expected_mod_count ≠ s.mod_count then
    Except.error IcsError.ConcurrentModificationError
  else if it.ref_set ≠ rhs.ref_set then Except.error IcsError.ComparingDifferentIteratorsError
  else Except.ok (decide (it.current.second ≠ rhs.current.second))

/-- The dereference `operator *`: the element referred to. -/
def Iterator.deref (it : Iterator) (s : HashSet T thash) : Except IcsError T :=
  if it.expected_mod_count ≠ s.mod_count then
    Except.error IcsError.ConcurrentModificationError
  else if it.can_erase = false ∨ it.current.first = -1 ∨ it.current.second = NodePtr.null then
    Except.error IcsError.IteratorPositionIllegal
  else node_value s.set it.current.second

/-- The member access `operator ->`: the element pointed to. -/
def Iterator.arrow (it : Iterator) (s : HashSet T thash) : Except IcsError T :=
  if it.expected_mod_count ≠ s.mod_count then
    Except.error IcsError.ConcurrentModificationError
  else if it.can_erase = false ∨ it.current.first = -1 ∨ it.current.second = NodePtr.null then
    Except.error IcsError.IteratorPositionIllegal
  else node_value s.set it.current.second

/-- The assignment `operator =`; `same_object` says that `rhs` is the object assigned to
(`this == &rhs`). -/
def assign [DecidableEq T] (a rhs : HashSet T thash) (same_object : Bool) : HashSet T thash :=
  if same_object then a
  else
    let a : HashSet T thash :=
      if a.hash.same rhs.hash then
        { a with bins := rhs.bins, used := rhs.used,
                 set := (List.range rhs.bins).map (fun (i : Nat) => chain_at rhs.set (i : Int)) }
      else
        let a : HashSet T thash := a.clear
        let a : HashSet T thash := (a.insert_all rhs.traverse).2
        { a with hash := rhs.hash }
    { a with mod_count := a.mod_count + 1 }

/-- The comparison `operator <=`; `same_object` says that `rhs` is the object compared
(`this == &rhs`). -/
def op_le [DecidableEq T] (a rhs : HashSet T thash) (same_object : Bool) : Bool :=
  if same_object then true
  else if a.used > rhs.size then false
  else (List.range a.bins).all (fun (i : Nat) => (chain_at a.set (i : Int)).all (fun v =>
    (rhs.find_element v).isSome))

/-- The comparison `operator <`; `same_object` says that `rhs` is the object compared
(`this == &rhs`). -/
def op_lt [DecidableEq T] (a rhs : HashSet T thash) (same_object : Bool) : Bool :=
  if same_object then true
  else if a.used ≥ rhs.size then false
  else (List.range a.bins).all (fun (i : Nat) => (chain_at a.set (i : Int)).all (fun v =>
    (rhs.find_element v).isSome))

/-- The comparison `operator >=`: `return rhs <= *this;`. -/
def op_ge [DecidableEq T] (a rhs : HashSet T thash) (same_object : Bool) : Bool :=
  rhs.op_le a same_object

/-- The comparison `operator >`: `return rhs < *this;`. -/
def op_gt [DecidableEq T] (a rhs : HashSet T thash) (same_object : Bool) : Bool :=
  rhs.op_lt a same_object

/-- The inner loop of `retain_all`, `for (LN* p = set[i]; p->next != nullptr; )`, run for
at most `fuel` rounds from the pointer `p`: an element that `tmp` does not contain is
erased (and `p` stays), otherwise `p` steps to `p->next`; `none` when the loop has not
ended after `fuel` rounds. -/
def retain_chain [DecidableEq T] (tmp : HashSet T thash) :
    Nat → NodePtr → HashSet T thash → Nat → Option (Except IcsError Nat × HashSet T thash)
  | 0, _, _, _ => none
  | fuel + 1, p, s, count =>
    match p with
    | NodePtr.node b pos =>
      if pos = (chain_at s.set (b : Int)).length then some (Except.ok count, s)
      else
        match node_value s.set p with
        | Except.error e => some (Except.error e, s)
        | Except.ok v =>
          if tmp.contains v = false then
            retain_chain tmp fuel
              (if (s.erase v).1 = 0 then p else reseat p (s.erase_pos v).1 (s.erase_pos v).2)
              (s.erase v).2 (count + (s.erase v).1)
          else retain_chain tmp fuel (NodePtr.node b (pos + 1)) s count
    | _ => some (Except.error IcsError.UndefinedBehaviour, s)

/-- The member `retain_all`, over the sequence of elements the iterable yields (an
iterable other than a `HashSet` of this type): `HashSet s(i);` is the Iterable
constructor with the default arguments `1.0` and `undefinedhash`, and its exception leaves
the member. Each inner loop runs for at most `fuel` rounds. -/
def retain_all [DecidableEq T] (s : HashSet T thash) (i : List T) (fuel : Nat) :
    Option (Except IcsError Nat × HashSet T thash) :=
  match (ctor_iterable thash i Threshold.one undefinedhash : Except IcsError (HashSet T thash)) with
  | Except.error e => some (Except.error e, s)
  | Except.ok tmp =>
    (List.range s.bins).foldl
      (fun acc (b : Nat) =>
        match acc with
        | some (Except.ok count, s) => retain_chain tmp fuel (NodePtr.node b 0) s count
        | other => other)
      (some (Except.ok 0, s))

/-- A client's loop `for (it = begin(); it != end(); ++it) it.erase();` run for at most
`fuel` rounds from the iterator `it`: the elements `erase()` returned (after `acc`) or the
exception that ended it, with the iterator and the set afterwards; `none` when the loop
has not ended after `fuel` rounds. -/
def erase_loop [DecidableEq T] (this : Nat) :
    Nat → Iterator → HashSet T thash → List T →
    Option (Except IcsError (List T) × Iterator × HashSet T thash)
  | 0, _, _, _ => none
  | fuel + 1, it, s, acc =>
    match it.op_ne (s.end_ this) s with
    | Except.error e => some (Except.error e, it, s)
    | Except.ok false => some (Except.ok acc, it, s)
    | Except.ok true =>
      match it.erase s with
      | (Except.error e, it, s) => some (Except.error e, it, s)
      | (Except.ok x, it, s) =>
        match it.incr s with
        | Except.error e => some (Except.error e, it, s)
        | Except.ok it => erase_loop this fuel it s (acc ++ [x])

end HashSet

/-- Function pointers that compare equal are the same function: the condition under which
`f == g` on pointers lets `f` stand for `g`. -/
def hashfunc.Faithful {KEY : Type} (f g : hashfunc KEY) : Prop :=
  f.same g = true → f.call = g.call

/-! ## BSTMap -/

/-- A function pointer `bool (*)(const KEY&, const KEY&)`, the type `ltfunc` of `BSTMap`:
`addr` is what `==` and `!=` on pointers compare, `call` is the function reached. -/
structure ltfunc (KEY : Type) where
  addr : Nat
  call : KEY → KEY → Bool

/-- The marker `undefinedlt<T>`: `bool undefinedlt (const T& a, const T& b) {return false;}`. -/
def undefinedlt {KEY : Type} : ltfunc KEY := ⟨0, fun _ _ => false⟩

/-- Pointer equality `f == g` of two comparison functions. -/
def ltfunc.same {KEY : Type} (f g : ltfunc KEY) : Bool := f.addr == g.addr

/-- The initialiser `lt(tlt != undefinedlt ? tlt : clt)` of every constructor. -/
def pick_lt {KEY : Type} (tlt clt : ltfunc KEY) : ltfunc KEY :=
  if tlt.same undefinedlt then clt else tlt

/-- Modelled from the spec: the class `ArrayQueue` of `array_queue.hpp`, which is not among
the sources. The iterator of `BSTMap` copies the tree "into a queue at construction time and
thereafter simply dequeues": a first-in first-out queue, here the list of its elements with
the front first. -/
structure ArrayQueue (α : Type) where
  items : List α
  deriving DecidableEq, Repr

namespace ArrayQueue

variable {α : Type}

/-- Modelled from the spec: `empty()` of `ArrayQueue`. -/
def empty (q : ArrayQueue α) : Bool := q.items.isEmpty

/-- Modelled from the spec: `size()` of `ArrayQueue`. -/
def size (q : ArrayQueue α) : Nat := q.items.length

/-- Modelled from the spec: `enqueue` of `ArrayQueue` adds the element at the rear. -/
def enqueue (q : ArrayQueue α) (element : α) : ArrayQueue α := ⟨q.items ++ [element]⟩

/-- Modelled from the spec: `peek()` of `ArrayQueue` is the front element, `EmptyError` on
an empty queue. -/
def peek (q : ArrayQueue α) : Except IcsError α :=
  match q.items with
  | [] => Except.error IcsError.EmptyError
  | x :: _ => Except.ok x

/-- Modelled from the spec: `dequeue()` of `ArrayQueue` removes and returns the front
element, `EmptyError` on an empty queue. -/
def dequeue (q : ArrayQueue α) : Except IcsError α × ArrayQueue α :=
  match q.items with
  | [] => (Except.error IcsError.EmptyError, q)
  | x :: rest => (Except.ok x, ⟨rest⟩)

end ArrayQueue

/-- A tree of the class `TN`: the pointer `nullptr`, or a node with its `value`, `left` and
`right`. -/
inductive TN (KEY T : Type) where
  | null : TN KEY T
  | mk (value : KEY × T) (left right : TN KEY T) : TN KEY T
  deriving DecidableEq, Repr

/-- The data members of `BSTMap<KEY,T,tlt>`. -/
structure BSTMap (KEY T : Type) (tlt : ltfunc KEY) where
  lt : ltfunc KEY
  map : TN KEY T
  used : Nat
  mod_count : Nat

namespace BSTMap

variable {KEY T : Type} {tlt : ltfunc KEY}

/-- The helper `find_key(root, key)`: the node found, as its payload; `none` is `nullptr`. -/
def find_key [DecidableEq KEY] (lt : ltfunc KEY) : TN KEY T → KEY → Option (KEY × T)
  | TN.null, _ => none
  | TN.mk value left right, key =>
    if key = value.1 then some value
    else if lt.call key value.1 then find_key lt left key
    else find_key lt right key

/-- The helper `has_value(root, value)`. -/
def has_value_in [DecidableEq T] : TN KEY T → T → Bool
  | TN.null, _ => false
  | TN.mk v left right, value =>
    if value = v.2 then true else has_value_in left value || has_value_in right value

/-- The helper `copy(root)`. -/
def copy : TN KEY T → TN KEY T
  | TN.null => TN.null
  | TN.mk value left right => TN.mk value (copy left) (copy right)

/-- The helper `copy_to_queue(root, q)`: the node, then its left subtree, then its right
subtree. -/
def copy_to_queue : TN KEY T → ArrayQueue (KEY × T) → ArrayQueue (KEY × T)
  | TN.null, q => q
  | TN.mk value left right, q => copy_to_queue right (copy_to_queue left (q.enqueue value))

/-- The helper `insert(root, key, value)`: the value returned, the tree `root` refers to
afterwards, and how often `used++` was run. -/
def insert [DecidableEq KEY] (lt : ltfunc KEY) : TN KEY T → KEY → T → T × TN KEY T × Nat
  | TN.null, key, value => (value, TN.mk (key, value) TN.null TN.null, 1)
  | TN.mk v left right, key, value =>
    if key = v.1 then (v.2, TN.mk (v.1, value) left right, 0)
    else if lt.call key v.1 then
      ((insert lt left key value).1, TN.mk v (insert lt left key value).2.1 right,
       (insert lt left key value).2.2)
    else
      ((insert lt right key value).1, TN.mk v left (insert lt right key value).2.1,
       (insert lt right key value).2.2)

/-- The helper `find_addempty(root, key)`: the value referred to, the tree `root` refers to
afterwards, and how often `used++` was run. -/
def find_addempty [Inhabited T] (lt : ltfunc KEY) : TN KEY T → KEY → T × TN KEY T × Nat
  | TN.null, key => (default, TN.mk (key, default) TN.null TN.null, 1)
  | TN.mk v left right, key =>
    if lt.call key v.1 then
      ((find_addempty lt left key).1, TN.mk v (find_addempty lt left key).2.1 right,
       (find_addempty lt left key).2.2)
    else if lt.call v.1 key then
      ((find_addempty lt right key).1, TN.mk v left (find_addempty lt right key).2.1,
       (find_addempty lt right key).2.2)
    else (v.2, TN.mk v left right, 0)

/-- The helper `remove_closest(root)`: the entry of the rightmost node of the tree and the
tree `root` refers to afterwards; `root->right` of `nullptr` is not defined. -/
def remove_closest : TN KEY T → Except IcsError ((KEY × T) × TN KEY T)
  | TN.null => Except.error IcsError.UndefinedBehaviour
  | TN.mk value left TN.null => Except.ok (value, left)
  | TN.mk value left (TN.mk v2 l2 r2) =>
    match remove_closest (TN.mk v2 l2 r2) with
    | Except.ok (e, right) => Except.ok (e, TN.mk value left right)
    | Except.error e => Except.error e

/-- The helper `remove(root, key)`: the value returned or the exception, and the tree
`root` refers to afterwards. -/
def remove [DecidableEq KEY] (lt : ltfunc KEY) : TN KEY T → KEY → Except IcsError T × TN KEY T
  | TN.null, _ => (Except.error IcsError.KeyError, TN.null)
  | TN.mk v left right, key =>
    if key = v.1 then
      match left with
      | TN.null => (Except.ok v.2, right)
      | TN.mk _ _ _ =>
        match right with
        | TN.null => (Except.ok v.2, left)
        | TN.mk _ _ _ =>
          match remove_closest left with
          | Except.ok (e, l2) => (Except.ok v.2, TN.mk e l2 right)
          | Except.error e => (Except.error e, TN.mk v left right)
    else if lt.call key v.1 then ((remove lt left key).1, TN.mk v (remove lt left key).2 right)
    else ((remove lt right key).1, TN.mk v left (remove lt right key).2)

def empty (m : BSTMap KEY T tlt) : Bool := m.used == 0

def size (m : BSTMap KEY T tlt) : Nat := m.used

def has_key [DecidableEq KEY] (m : BSTMap KEY T tlt) (key : KEY) : Bool :=
  (find_key m.lt m.map key).isSome

def has_value [DecidableEq T] (m : BSTMap KEY T tlt) (value : T) : Bool :=
  has_value_in m.map value

/-- The member `put`: `++mod_count; return insert(map,key,value);`. -/
def put [DecidableEq KEY] (m : BSTMap KEY T tlt) (key : KEY) (value : T) : T × BSTMap KEY T tlt :=
  let m : BSTMap KEY T tlt := { m with mod_count := m.mod_count + 1 }
  ((insert m.lt m.map key value).1,
   { m with map := (insert m.lt m.map key value).2.1,
            used := m.used + (insert m.lt m.map key value).2.2 })

/-- The member `erase`: `remove` throws before `--used` and `++mod_count` are reached. -/
def erase [DecidableEq KEY] (m : BSTMap KEY T tlt) (key : KEY) :
    Except IcsError T × BSTMap KEY T tlt :=
  match (remove m.lt m.map key).1 with
  | Except.error e => (Except.error e, { m with map := (remove m.lt m.map key).2 })
  | Except.ok removed =>
    (Except.ok removed,
     { m with map := (remove m.lt m.map key).2, used := m.used - 1,
              mod_count := m.mod_count + 1 })

def clear (m : BSTMap KEY T tlt) : BSTMap KEY T tlt :=
  { m with map := TN.null, mod_count := m.mod_count + 1, used := 0 }

/-- The member `put_all`, over the sequence of entries the for-each loop yields. -/
def put_all [DecidableEq KEY] (m : BSTMap KEY T tlt) (i : List (KEY × T)) :
    Nat × BSTMap KEY T tlt :=
  (i.length, i.foldl (fun m ele => (m.put ele.1 ele.2).2) m)

/-- The non-const `operator []`: `return find_addempty(map, key);`, the value referred to
and the map afterwards. -/
def index [Inhabited T] (m : BSTMap KEY T tlt) (key : KEY) : T × BSTMap KEY T tlt :=
  ((find_addempty m.lt m.map key).1,
   { m with map := (find_addempty m.lt m.map key).2.1,
            used := m.used + (find_addempty m.lt m.map key).2.2 })

/-- The const `operator []`. -/
def index_const [DecidableEq KEY] (m : BSTMap KEY T tlt) (key : KEY) : Except IcsError T :=
  match find_key m.lt m.map key with
  | none => Except.error IcsError.KeyError
  | some found => Except.ok found.2

/-- A newly constructed map with the comparison `lt`. -/
def fresh (tlt : ltfunc KEY) (lt : ltfunc KEY) : BSTMap KEY T tlt :=
  { lt := lt, map := TN.null, used := 0, mod_count := 0 }

/-- The constructor `BSTMap(clt)`. -/
def ctor_default (tlt : ltfunc KEY) (clt : ltfunc KEY) : Except IcsError (BSTMap KEY T tlt) :=
  let lt := pick_lt tlt clt
  if lt.same undefinedlt then Except.error IcsError.TemplateFunctionError
  else if !tlt.same undefinedlt && !clt.same undefinedlt && !tlt.same clt then
    Except.error IcsError.TemplateFunctionError
  else Except.ok (fresh tlt lt)

/-- The data members of `BSTMap::Iterator`; `ref_map` is the address of the map. -/
structure Iterator (KEY T : Type) where
  it : ArrayQueue (KEY × T)
  ref_map : Nat
  expected_mod_count : Nat
  can_erase : Bool
  deriving DecidableEq, Repr

/-- The constructor `Iterator(iterate_over, from_begin)`; `m` is the map at `iterate_over`. -/
def Iterator.ctor (iterate_over : Nat) (m : BSTMap KEY T tlt) (from_begin : Bool) :
    Iterator KEY T :=
  { ref_map := iterate_over, expected_mod_count := m.mod_count, can_erase := true,
    it := if from_begin then copy_to_queue m.map ⟨[]⟩ else ⟨[]⟩ }

/-- The member `begin()` of the map at address `this`. -/
def begin (m : BSTMap KEY T tlt) (this : Nat) : Iterator KEY T := Iterator.ctor this m true

/-- The member `end()` of the map at address `this`. -/
def end_ (m : BSTMap KEY T tlt) (this : Nat) : Iterator KEY T := Iterator.ctor this m false

/-- The member `Iterator::erase`: its result, the iterator and the map afterwards. -/
def Iterator.erase [DecidableEq KEY] (it : Iterator KEY T) (m : BSTMap KEY T tlt) :
    Except IcsError (KEY × T) × Iterator KEY T × BSTMap KEY T tlt :=
  if it.expected_mod_count ≠ m.mod_count then
    (Except.error IcsError.ConcurrentModificationError, it, m)
  else if it.can_erase = false then (Except.error IcsError.CannotEraseError, it, m)
  else if it.it.empty then (Except.error IcsError.CannotEraseError, it, m)
  else
    let it : Iterator KEY T := { it with can_erase := false }
    match it.it.dequeue with
    | (Except.error e, _) => (Except.error e, it, m)
    | (Except.ok to_erase, q) =>
      let it : Iterator KEY T := { it with it := q }
      match (m.erase to_erase.1).1 with
      | Except.error e => (Except.error e, it, (m.erase to_erase.1).2)
      | Except.ok _ =>
        (Except.ok to_erase,
         { it with expected_mod_count := (m.erase to_erase.1).2.mod_count },
         (m.erase to_erase.1).2)

/-- The prefix `operator ++`: the iterator afterwards, or the exception. -/
def Iterator.incr (it : Iterator KEY T) (m : BSTMap KEY T tlt) :
    Except IcsError (Iterator KEY T) :=
  if it.expected_mod_count ≠ m.mod_count then
    Except.error IcsError.ConcurrentModificationError
  else if it.it.empty then Except.ok it
  else if it.can_erase then Except.ok { it with it := it.it.dequeue.2 }
  else Except.ok { it with can_erase := true }

/-- The postfix `operator ++ (int)`: the iterator returned and the iterator afterwards, or
the exception. -/
def Iterator.post_incr (it : Iterator KEY T) (m : BSTMap KEY T tlt) :
    Except IcsError (Iterator KEY T × Iterator KEY T) :=
  if it.expected_mod_count ≠ m.mod_count then
    Except.error IcsError.ConcurrentModificationError
  else if it.it.empty then Except.ok (it, it)
  else if it.can_erase then Except.ok (it, { it with it := it.it.dequeue.2 })
  else Except.ok (it, { it with can_erase := true })

/-- The comparison `operator ==` of two iterators. -/
def Iterator.op_eq (it rhs : Iterator KEY T) (m : BSTMap KEY T tlt) : Except IcsError Bool :=
  if it.expected_mod_count ≠ m.mod_count then
    Except.error IcsError.ConcurrentModificationError
  else if it.ref_map ≠ rhs.ref_map then Except.error IcsError.ComparingDifferentIteratorsError
  else Except.ok (it.it.size == rhs.it.size)

/-- The comparison `operator !=` of two iterators. -/
def Iterator.op_ne (it rhs : Iterator KEY T) (m : BSTMap KEY T tlt) : Except IcsError Bool :=
  if it.expected_mod_count ≠ m.mod_count then
    Except.error IcsError.ConcurrentModificationError
  else if it.ref_map ≠ rhs.ref_map then Except.error IcsError.ComparingDifferentIteratorsError
  else Except.ok (it.it.size != rhs.it.size)

/-- The dereference `operator *`: the entry referred to. -/
def Iterator.deref (it : Iterator KEY T) (m : BSTMap KEY T tlt) : Except IcsError (KEY × T) :=
  if it.expected_mod_count ≠ m.mod_count then
    Except.error IcsError.ConcurrentModificationError
  else if it.can_erase = false ∨ it.it.empty = true then
    Except.error IcsError.IteratorPositionIllegal
  else it.it.peek

/-- The member access `operator ->`: the entry pointed to. -/
def Iterator.arrow (it : Iterator KEY T) (m : BSTMap KEY T tlt) : Except IcsError (KEY × T) :=
  if it.expected_mod_count ≠ m.mod_count then
    Except.error IcsError.ConcurrentModificationError
  else if it.can_erase = false ∨ it.it.empty = true then
    Except.error IcsError.IteratorPositionIllegal
  else it.it.peek

/-- A client's loop `for (it = begin(); it != end(); ++it) visit(*it);` run for at most
`fuel` rounds from the iterator `it`: the entries visited (after `acc`) or the exception
that ended it, with the iterator afterwards; `none` when the loop has not ended after
`fuel` rounds. -/
def visit_loop (this : Nat) (m : BSTMap KEY T tlt) :
    Nat → Iterator KEY T → List (KEY × T) →
    Option (Except IcsError (List (KEY × T)) × Iterator KEY T)
  | 0, _, _ => none
  | fuel + 1, it, acc =>
    match it.op_ne (m.end_ this) m with
    | Except.error e => some (Except.error e, it)
    | Except.ok false => some (Except.ok acc, it)
    | Except.ok true =>
      match it.deref m with
      | Except.error e => some (Except.error e, it)
      | Except.ok x =>
        match it.incr m with
        | Except.error e => some (Except.error e, it)
        | Except.ok it2 => visit_loop this m fuel it2 (acc ++ [x])

/-- The sequence of `put` calls a client makes with the entries of `kvs`, in order. -/
def puts [DecidableEq KEY] (m : BSTMap KEY T tlt) (kvs : List (KEY × T)) : BSTMap KEY T tlt :=
  kvs.foldl (fun m e => (m.put e.1 e.2).2) m

end BSTMap

/-- The entries of a tree from left to right: the left subtree, the node, the right subtree. -/
def TN.inorder {KEY T : Type} : TN KEY T → List (KEY × T)
  | TN.null => []
  | TN.mk value left right => left.inorder ++ value :: right.inorder

/-- The entries of a tree in pre-order: the node, its left subtree, its right subtree. -/
def TN.preorder {KEY T : Type} : TN KEY T → List (KEY × T)
  | TN.null => []
  | TN.mk value left right => value :: (left.preorder ++ right.preorder)

/-- The shape of a tree: the tree of its keys. -/
def TN.shape {KEY T : Type} : TN KEY T → TN KEY Unit
  | TN.null => TN.null
  | TN.mk value left right => TN.mk (value.1, ()) left.shape right.shape

/-- The tree `t2` is the tree `t` with one `nullptr` replaced by a leaf holding `e`. -/
def TN.AddsLeaf {KEY T : Type} (e : KEY × T) : TN KEY T → TN KEY T → Prop
  | TN.null, t2 => t2 = TN.mk e TN.null TN.null
  | TN.mk _ _ _, TN.null => False
  | TN.mk v l r, TN.mk v2 l2 r2 =>
    v2 = v ∧ ((TN.AddsLeaf e l l2 ∧ r2 = r) ∨ (l2 = l ∧ TN.AddsLeaf e r r2))

/-- A strict total order on the keys: irreflexive, transitive, and any two different keys
are ordered one way. -/
structure ltfunc.StrictTotal {KEY : Type} (lt : ltfunc KEY) : Prop where
  irrefl : ∀ a, lt.call a a = false
  trans : ∀ a b c, lt.call a b = true → lt.call b c = true → lt.call a c = true
  total : ∀ a b, a ≠ b → lt.call a b = true ∨ lt.call b a = true

/-- Representation invariant of a `BSTMap`: the keys increase strictly from left to right
(the binary-search-tree ordering) and `used` caches the number of nodes. -/
def BSTMap.WF {KEY T : Type} {tlt : ltfunc KEY} (m : BSTMap KEY T tlt) : Prop :=
  (m.map.inorder.Pairwise (fun a b => m.lt.call a.1 b.1 = true)) ∧ m.used = m.map.inorder.length

/-! ## LinkedQueue -/

/-- The data members of `LinkedQueue<T>`: `front` is the linked list, as the values of its
nodes from the front on (`nullptr` is the empty list; `rear` is its last node). -/
structure LinkedQueue (T : Type) where
  front : List T
  used : Nat
  mod_count : Nat
  deriving DecidableEq, Repr

namespace LinkedQueue

variable {T : Type}

/-- The constructor `LinkedQueue()`. -/
def ctor_default : LinkedQueue T := { front := [], used := 0, mod_count := 0 }

/-- The query `empty`: `return front == nullptr;`. -/
def empty (q : LinkedQueue T) : Bool := q.front.isEmpty

def size (q : LinkedQueue T) : Nat := q.used

def peek (q : LinkedQueue T) : Except IcsError T :=
  match q.front with
  | [] => Except.error IcsError.EmptyError
  | value :: _ => Except.ok value

/-- The member `enqueue`: a new node after `rear`, or as the only node. -/
def enqueue (q : LinkedQueue T) (element : T) : Nat × LinkedQueue T :=
  (1, { q with front := q.front ++ [element], used := q.used + 1,
               mod_count := q.mod_count + 1 })

/-- The member `dequeue`: its result, and the queue afterwards. -/
def dequeue (q : LinkedQueue T) : Except IcsError T × LinkedQueue T :=
  match q.front with
  | [] => (Except.error IcsError.EmptyError, q)
  | to_return :: next =>
    (Except.ok to_return,
     { q with front := next, used := q.used - 1, mod_count := q.mod_count + 1 })

def clear (q : LinkedQueue T) : LinkedQueue T :=
  { q with front := [], used := 0, mod_count := q.mod_count + 1 }

/-- The sequence of `enqueue` calls a client makes with the elements of `l`, in order. -/
def enqueues (q : LinkedQueue T) (l : List T) : LinkedQueue T :=
  l.foldl (fun q x => (q.enqueue x).2) q

/-- Representation invariant of a `LinkedQueue`: `used` caches the number of nodes. -/
def WF (q : LinkedQueue T) : Prop := q.used = q.front.length

end LinkedQueue

/-! ## Priority queues -/

/-- A function pointer `bool (*)(const T&, const T&)`, the type `gtfunc` of the priority
queues: `addr` is what `==` and `!=` on pointers compare, `call` is the function reached;
`call a b` says that `a` has higher priority than `b`. -/
structure gtfunc (T : Type) where
  addr : Nat
  call : T → T → Bool

/-- The marker `undefinedgt<T>`: `bool undefinedgt (const T& a, const T& b) {return false;}`. -/
def undefinedgt {T : Type} : gtfunc T := ⟨0, fun _ _ => false⟩

/-- Pointer equality `f == g` of two priority functions. -/
def gtfunc.same {T : Type} (f g : gtfunc T) : Bool := f.addr == g.addr

/-- The initialiser `gt(tgt != undefinedgt ? tgt : cgt)` of every constructor. -/
def pick_gt {T : Type} (tgt cgt : gtfunc T) : gtfunc T :=
  if tgt.same undefinedgt then cgt else tgt

/-- The test `tgt != undefinedgt && cgt != undefinedgt && tgt != cgt` of every constructor. -/
def gt_both_different {T : Type} (tgt cgt : gtfunc T) : Bool :=
  !tgt.same undefinedgt && !cgt.same undefinedgt && !tgt.same cgt

/-- A strict weak order: no two elements have higher priority than each other, and
"not higher than" is transitive. -/
structure gtfunc.StrictWeak {T : Type} (gt : gtfunc T) : Prop where
  asymm : ∀ a b, gt.call a b = true → gt.call b a = false
  negtrans : ∀ a b c, gt.call a b = false → gt.call b c = false → gt.call a c = false

/-- The data members of `LinkedPriorityQueue<T,tgt>`: `front` is the list after the header
node, as the values of its nodes, highest priority first. -/
structure LinkedPriorityQueue (T : Type) (tgt : gtfunc T) where
  gt : gtfunc T
  front : List T
  used : Nat
  mod_count : Nat

namespace LinkedPriorityQueue

variable {T : Type} {tgt : gtfunc T}

/-- A newly constructed queue with the priority function `gt`. -/
def fresh (tgt : gtfunc T) (gt : gtfunc T) : LinkedPriorityQueue T tgt :=
  { gt := gt, front := [], used := 0, mod_count := 0 }

/-- The constructor `LinkedPriorityQueue(cgt)`. -/
def ctor_default (tgt : gtfunc T) (cgt : gtfunc T) :
    Except IcsError (LinkedPriorityQueue T tgt) :=
  let gt := pick_gt tgt cgt
  if gt.same undefinedgt then Except.error IcsError.TemplateFunctionError
  else if gt_both_different tgt cgt then Except.error IcsError.TemplateFunctionError
  else Except.ok (fresh tgt gt)

def empty (q : LinkedPriorityQueue T tgt) : Bool := q.used == 0

def size (q : LinkedPriorityQueue T tgt) : Nat := q.used

/-- The query `peek`: `front->next->value`, which is not defined when there is no node. -/
def peek (q : LinkedPriorityQueue T tgt) : Except IcsError T :=
  if q.empty then Except.error IcsError.EmptyError
  else
    match q.front with
    | [] => Except.error IcsError.UndefinedBehaviour
    | value :: _ => Except.ok value

/-- The loop of `enqueue`: the list with `element` linked in before the first node `p`
with `gt(element, p->value)`, or `none` when the loop ends without such a node. -/
def insert_before : (T → T → Bool) → T → List T → Option (List T)
  | _, _, [] => none
  | gt, element, p :: rest =>
    if gt element p then some (element :: p :: rest)
    else
      match insert_before gt element rest with
      | some l => some (p :: l)
      | none => none

/-- The member `enqueue`: its result or the outcome of `prev->next` on `nullptr`, and the
queue afterwards. -/
def enqueue (q : LinkedPriorityQueue T tgt) (element : T) :
    Except IcsError Nat × LinkedPriorityQueue T tgt :=
  match insert_before q.gt.call element q.front with
  | some l =>
    (Except.ok 1, { q with front := l, used := q.used + 1, mod_count := q.mod_count + 1 })
  | none =>
    if q.used = 0 then
      (Except.ok 1, { q with front := element :: q.front, used := q.used + 1,
                             mod_count := q.mod_count + 1 })
    else
      match q.front with
      | [] => (Except.error IcsError.UndefinedBehaviour, q)
      | _ :: _ =>
        (Except.ok 1, { q with front := q.front ++ [element], used := q.used + 1,
                               mod_count := q.mod_count + 1 })

/-- The member `dequeue`: its result, and the queue afterwards. -/
def dequeue (q : LinkedPriorityQueue T tgt) : Except IcsError T × LinkedPriorityQueue T tgt :=
  if q.empty then (Except.error IcsError.EmptyError, q)
  else
    let q : LinkedPriorityQueue T tgt :=
      { q with mod_count := q.mod_count + 1, used := q.used - 1 }
    match q.front with
    | [] => (Except.error IcsError.UndefinedBehaviour, q)
    | to_return :: next => (Except.ok to_return, { q with front := next })

/-- The member `clear`: `delete_list` runs `--used` for every node it deletes. -/
def clear (q : LinkedPriorityQueue T tgt) : LinkedPriorityQueue T tgt :=
  { q with front := [], used := q.used - q.front.length, mod_count := q.mod_count + 1 }

/-- The sequence of `enqueue` calls a client makes with the elements of `l`, in order. -/
def enqueues (q : LinkedPriorityQueue T tgt) (l : List T) : LinkedPriorityQueue T tgt :=
  l.foldl (fun q x => (q.enqueue x).2) q

/-- Representation invariant of a `LinkedPriorityQueue`: `used` caches the number of nodes
after the header. -/
def WF (q : LinkedPriorityQueue T tgt) : Prop := q.used = q.front.length

end LinkedPriorityQueue

/-- The statement `std::swap(pq[i], pq[j])`. -/
def swap_at {T : Type} [Inhabited T] (pq : List T) (i j : Nat) : List T :=
  (pq.set i (pq.getD j default)).set j (pq.getD i default)

/-- The data members of `HeapPriorityQueue<T,tgt>`: `pq` is the array of `length` cells.
Indexing outside the array is undefined in the source; the model reads `T()` there and
writes nothing. -/
structure HeapPriorityQueue (T : Type) (tgt : gtfunc T) where
  gt : gtfunc T
  pq : List T
  length : Nat
  used : Nat
  mod_count : Nat

namespace HeapPriorityQueue

variable {T : Type} {tgt : gtfunc T}

def left_child (i : Nat) : Nat := 2 * i + 1

def right_child (i : Nat) : Nat := 2 * i + 2

def parent (i : Nat) : Nat := (i - 1) / 2

def is_root (i : Nat) : Bool := i == 0

/-- The helper `in_heap`: `i >= 0 and i <= used-1`, for an index that is not negative. -/
def in_heap (used : Nat) (i : Nat) : Bool := decide (i < used)

/-- The loop of `percolate_up` from index `j`, for at most `fuel` rounds; `parent(j) < j`
for every `j` that is not the root, so `j + 1` rounds are enough. -/
def percolate_up_loop [Inhabited T] (gt : T → T → Bool) : Nat → Nat → List T → List T
  | 0, _, pq => pq
  | fuel + 1, j, pq =>
    if is_root j then pq
    else if gt (pq.getD j default) (pq.getD (parent j) default) then
      percolate_up_loop gt fuel (parent j) (swap_at pq j (parent j))
    else pq

/-- The helper `percolate_up(i)` on the array `pq` of which `used` cells are in the heap. -/
def percolate_up [Inhabited T] (gt : T → T → Bool) (used : Nat) (i : Nat) (pq : List T) :
    List T :=
  if !in_heap used i then pq else percolate_up_loop gt (i + 1) i pq

/-- The loop `for(int j=i;j<used;++j)` of `percolate_down` from index `j`, for at most
`fuel` rounds; `j` grows in every round, so `used` rounds are enough. -/
def percolate_down_loop [Inhabited T] (gt : T → T → Bool) (used : Nat) :
    Nat → Nat → List T → List T
  | 0, _, pq => pq
  | fuel + 1, j, pq =>
    if ¬ j < used then pq
    else if !in_heap used (left_child j) then pq
    else if !in_heap used (right_child j) then
      if !gt (pq.getD j default) (pq.getD (left_child j) default) then
        percolate_down_loop gt used fuel (left_child j) (swap_at pq j (left_child j))
      else percolate_down_loop gt used fuel (j + 1) pq
    else if !gt (pq.getD j default) (pq.getD (left_child j) default) ||
            !gt (pq.getD j default) (pq.getD (right_child j) default) then
      if gt (pq.getD (left_child j) default) (pq.getD (right_child j) default) then
        percolate_down_loop gt used fuel (left_child j) (swap_at pq j (left_child j))
      else
        percolate_down_loop gt used fuel (right_child j) (swap_at pq j (right_child j))
    else pq

/-- The helper `percolate_down(i)` on the array `pq` of which `used` cells are in the heap. -/
def percolate_down [Inhabited T] (gt : T → T → Bool) (used : Nat) (i : Nat) (pq : List T) :
    List T :=
  if !in_heap used i then pq else percolate_down_loop gt used used i pq

/-- The helper `heapify`: `for (int i = used-1; i >= 0; --i) percolate_down(i);`. -/
def heapify [Inhabited T] (gt : T → T → Bool) (used : Nat) (pq : List T) : List T :=
  (List.range used).reverse.foldl (fun pq (i : Nat) => percolate_down gt used i pq) pq

/-- The helper `ensure_length`: a new array of `max(new_length, 2*length)` cells that
holds the first `used` cells of the old one. -/
def ensure_length [Inhabited T] (q : HeapPriorityQueue T tgt) (new_length : Nat) :
    HeapPriorityQueue T tgt :=
  if q.length ≥ new_length then q
  else
    { q with length := max new_length (2 * q.length),
             pq := q.pq.take q.used ++
                   List.replicate (max new_length (2 * q.length) - q.used) default }

/-- A newly constructed queue with the priority function `gt` and an array of `length`
cells. -/
def fresh [Inhabited T] (tgt : gtfunc T) (gt : gtfunc T) (length : Nat) :
    HeapPriorityQueue T tgt :=
  { gt := gt, pq := List.replicate length default, length := length, used := 0,
    mod_count := 0 }

/-- The constructor `HeapPriorityQueue(cgt)`. -/
def ctor_default [Inhabited T] (tgt : gtfunc T) (cgt : gtfunc T) :
    Except IcsError (HeapPriorityQueue T tgt) :=
  let gt := pick_gt tgt cgt
  if gt.same undefinedgt then Except.error IcsError.TemplateFunctionError
  else if gt_both_different tgt cgt then Except.error IcsError.TemplateFunctionError
  else Except.ok (fresh tgt gt 0)

/-- The constructor `HeapPriorityQueue(const HeapPriorityQueue& to_copy, cgt)`. -/
def ctor_copy [Inhabited T] (tgt : gtfunc T) (to_copy : HeapPriorityQueue T tgt)
    (cgt : gtfunc T) : Except IcsError (HeapPriorityQueue T tgt) :=
  let gt := if (pick_gt tgt cgt).same undefinedgt then to_copy.gt else pick_gt tgt cgt
  if gt_both_different tgt cgt then Except.error IcsError.TemplateFunctionError
  else
    let pq := to_copy.pq.take to_copy.used ++
              List.replicate (to_copy.length - to_copy.used) default
    Except.ok
      { gt := gt, length := to_copy.length, used := to_copy.used, mod_count := 0,
        pq := if !gt.same to_copy.gt then heapify gt.call to_copy.used pq else pq }

def empty (q : HeapPriorityQueue T tgt) : Bool := q.used == 0

def size (q : HeapPriorityQueue T tgt) : Nat := q.used

/-- The query `peek`: `pq[0]`, which is outside an array of no cells. -/
def peek (q : HeapPriorityQueue T tgt) : Except IcsError T :=
  if q.empty then Except.error IcsError.EmptyError
  else
    match q.pq with
    | [] => Except.error IcsError.UndefinedBehaviour
    | value :: _ => Except.ok value

/-- The member `enqueue`: its result, and the queue afterwards. -/
def enqueue [Inhabited T] (q : HeapPriorityQueue T tgt) (element : T) :
    Nat × HeapPriorityQueue T tgt :=
  let q : HeapPriorityQueue T tgt := q.ensure_length (q.used + 1)
  let q : HeapPriorityQueue T tgt := { q with pq := q.pq.set q.used element, used := q.used + 1 }
  (1, { q with pq := percolate_up q.gt.call q.used (q.used - 1) q.pq,
               mod_count := q.mod_count + 1 })

/-- The member `dequeue`: its result, and the queue afterwards. -/
def dequeue [Inhabited T] (q : HeapPriorityQueue T tgt) :
    Except IcsError T × HeapPriorityQueue T tgt :=
  if q.empty then (Except.error IcsError.EmptyError, q)
  else
    match q.pq with
    | [] => (Except.error IcsError.UndefinedBehaviour, q)
    | to_return :: _ =>
      let q : HeapPriorityQueue T tgt := { q with used := q.used - 1 }
      let q : HeapPriorityQueue T tgt := { q with pq := q.pq.set 0 (q.pq.getD q.used default) }
      (Except.ok to_return,
       { q with pq := percolate_down q.gt.call q.used 0 q.pq, mod_count := q.mod_count + 1 })

def clear (q : HeapPriorityQueue T tgt) : HeapPriorityQueue T tgt :=
  { q with used := 0, mod_count := q.mod_count + 1 }

/-- The sequence of `enqueue` calls a client makes with the elements of `l`, in order. -/
def enqueues [Inhabited T] (q : HeapPriorityQueue T tgt) (l : List T) :
    HeapPriorityQueue T tgt :=
  l.foldl (fun q x => (q.enqueue x).2) q

/-- A client's loop `while (!q.empty()) out.push_back(q.dequeue());` run for at most `fuel`
rounds: the elements returned (after `acc`) or the exception that ended it, with the queue
afterwards; `none` when the loop has not ended after `fuel` rounds. -/
def drain [Inhabited T] :
    Nat → HeapPriorityQueue T tgt → List T →
    Option (Except IcsError (List T) × HeapPriorityQueue T tgt)
  | 0, _, _ => none
  | fuel + 1, q, acc =>
    if q.empty then some (Except.ok acc, q)
    else
      match q.dequeue with
      | (Except.error e, q2) => some (Except.error e, q2)
      | (Except.ok x, q2) => drain fuel q2 (acc ++ [x])

/-- The heap ordering of the first `used` cells of an array: no element has higher
priority than its parent. -/
def heap_order [Inhabited T] (gt : T → T → Bool) (pq : List T) (used : Nat) : Prop :=
  ∀ i, 0 < i → i < used → gt (pq.getD i default) (pq.getD (parent i) default) = false

/-- The first `used` cells of an array, in index order. -/
def content [Inhabited T] (pq : List T) (used : Nat) : List T :=
  (List.range used).map (fun (i : Nat) => pq.getD i default)

/-- The elements in the queue, in the order of the array. -/
def elements [Inhabited T] (q : HeapPriorityQueue T tgt) : List T := content q.pq q.used

/-- Representation invariant of a `HeapPriorityQueue`: the array has `length` cells, `used`
of them are in the heap, and no element in the heap has higher priority than its parent. -/
def WF [Inhabited T] (q : HeapPriorityQueue T tgt) : Prop :=
  q.pq.length = q.length ∧ q.used ≤ q.length ∧ heap_order q.gt.call q.pq q.used

/-- The data members of `HeapPriorityQueue::Iterator`: `it` is the copy of the queue that
the iterator dequeues from, `ref_pq` the address of the queue. -/
structure Iterator (T : Type) (tgt : gtfunc T) where
  it : HeapPriorityQueue T tgt
  ref_pq : Nat
  expected_mod_count : Nat
  can_erase : Bool

/-- The member `begin()` of the queue at address `this`: the constructor
`Iterator(iterate_over, bool)` with its initialiser `it(*iterate_over)`, the copy
constructor with the default `cgt`. -/
def begin [Inhabited T] (q : HeapPriorityQueue T tgt) (this : Nat) :
    Except IcsError (Iterator T tgt) :=
  match ctor_copy tgt q undefinedgt with
  | Except.error e => Except.error e
  | Except.ok c =>
    Except.ok { it := c, ref_pq := this, expected_mod_count := q.mod_count, can_erase := true }

/-- The prefix `operator ++`: the iterator afterwards, or the exception. -/
def Iterator.incr [Inhabited T] (it : Iterator T tgt) (q : HeapPriorityQueue T tgt) :
    Except IcsError (Iterator T tgt) :=
  if it.expected_mod_count ≠ q.mod_count then
    Except.error IcsError.ConcurrentModificationError
  else if it.it.used = 0 then Except.ok it
  else if it.can_erase then Except.ok { it with it := it.it.dequeue.2 }
  else Except.ok { it with can_erase := true }

/-- The dereference `operator *`: the element referred to. -/
def Iterator.deref (it : Iterator T tgt) (q : HeapPriorityQueue T tgt) : Except IcsError T :=
  if it.expected_mod_count ≠ q.mod_count then
    Except.error IcsError.ConcurrentModificationError
  else if it.can_erase = false ∨ it.it.empty = true then
    Except.error IcsError.IteratorPositionIllegal
  else it.it.peek

/-- A client's loop `for (int i = 0; i < n; ++i, ++it) visit(*it);` from the iterator `it`:
the elements visited (after `acc`) or the exception that ended it, with the iterator
afterwards. -/
def visit_count [Inhabited T] (q : HeapPriorityQueue T tgt) :
    Nat → Iterator T tgt → List T → Except IcsError (List T) × Iterator T tgt
  | 0, it, acc => (Except.ok acc, it)
  | n + 1, it, acc =>
    match it.deref q with
    | Except.error e => (Except.error e, it)
    | Except.ok x =>
      match it.incr q with
      | Except.error e => (Except.error e, it)
      | Except.ok it2 => visit_count q n it2 (acc ++ [x])

end HeapPriorityQueue

/-! ## Dijkstra -/

/-- The constant `std::numeric_limits<int>::max()`. -/
def INT_MAX : Int := 2147483647

/-- The sum of two `int`s, as 32-bit two's complement arithmetic gives it. -/
def add32 (a b : Int) : Int := (a + b + 2147483648) % 4294967296 - 2147483648

/-- The class `Info` of `dijkstra.hpp`; the member `from` is written `from_`. -/
structure Info where
  node : String
  cost : Int
  from_ : String
  deriving DecidableEq, Repr

/-- The constructor `Info()`, with the default member initialisers. -/
def Info.ctor_default : Info := { node := "?", cost := INT_MAX, from_ := "?" }

/-- The constructor `Info(std::string a_node)`. -/
def Info.ctor (a_node : String) : Info := { Info.ctor_default with node := a_node }

instance instInhabitedInfo : Inhabited Info := ⟨Info.ctor_default⟩

/-- The function `gt_info`: `a.cost < b.cost`, the lower cost has the higher priority. -/
def gt_info : gtfunc Info := ⟨1, fun a b => decide (a.cost < b.cost)⟩

/-- Modelled from the spec: the class `ArrayMap<KEY,T>` (`array_map.hpp` is not under
src/), a map with the member functions that the specification gives every map. `map` holds
the entries in the order in which their keys were first stored. -/
structure ArrayMap (KEY T : Type) where
  map : List (KEY × T)

namespace ArrayMap

variable {KEY T : Type}

/-- Modelled from the spec: the value stored under `key` in a sequence of entries, if
there is one. -/
def find [DecidableEq KEY] : List (KEY × T) → KEY → Option T
  | [], _ => none
  | (k, v) :: rest, key => if k = key then some v else find rest key

/-- Modelled from the spec: the entries after `put(key, value)`: the value is replaced
where the key is stored, or the entry is added at the end. -/
def put_entry [DecidableEq KEY] : List (KEY × T) → KEY → T → List (KEY × T)
  | [], key, value => [(key, value)]
  | (k, v) :: rest, key, value =>
    if k = key then (k, value) :: rest else (k, v) :: put_entry rest key value

/-- Modelled from the spec: the entries after the entry of `key` is removed. -/
def erase_entry [DecidableEq KEY] : List (KEY × T) → KEY → List (KEY × T)
  | [], _ => []
  | (k, v) :: rest, key => if k = key then rest else (k, v) :: erase_entry rest key

/-- Modelled from the spec: the default constructor, an empty map. -/
def ctor_default : ArrayMap KEY T := ⟨[]⟩

/-- Modelled from the spec: the query `empty`. -/
def empty (m : ArrayMap KEY T) : Bool := m.map.isEmpty

/-- Modelled from the spec: the query `has_key`. -/
def has_key [DecidableEq KEY] (m : ArrayMap KEY T) (key : KEY) : Bool :=
  (find m.map key).isSome

/-- Modelled from the spec: the member `put`, the map afterwards. -/
def put [DecidableEq KEY] (m : ArrayMap KEY T) (key : KEY) (value : T) : ArrayMap KEY T :=
  ⟨put_entry m.map key value⟩

/-- Modelled from the spec: the member `erase`, the value erased or `KeyError` when the
key is not stored, and the map afterwards. -/
def erase [DecidableEq KEY] (m : ArrayMap KEY T) (key : KEY) :
    Except IcsError T × ArrayMap KEY T :=
  match find m.map key with
  | none => (Except.error IcsError.KeyError, m)
  | some v => (Except.ok v, ⟨erase_entry m.map key⟩)

/-- Modelled from the spec: the member `operator[]` of a map that is not `const`, the value
referred to and the map afterwards; a key that is not stored is first stored with `T()`. -/
def index [DecidableEq KEY] [Inhabited T] (m : ArrayMap KEY T) (key : KEY) :
    T × ArrayMap KEY T :=
  match find m.map key with
  | some v => (v, m)
  | none => (default, ⟨m.map ++ [(key, default)]⟩)

/-- Modelled from the spec: a statement `m[key].member = value`, which writes through the
reference that `operator[]` returns; `f` is the change made to the value. -/
def assign [DecidableEq KEY] [Inhabited T] (m : ArrayMap KEY T) (key : KEY) (f : T → T) :
    ArrayMap KEY T :=
  ⟨put_entry (m.index key).2.map key (f (m.index key).1)⟩

end ArrayMap

/-- Modelled from the spec: the type `DistGraph`, which is `HashGraph<int>`
(`hash_graph.hpp` is not under src/), as the three queries `extended_dijkstra` makes:
the names of `all_nodes()` in the order of iteration, `out_nodes(node)` in the order of
iteration, and `edge_value(origin, destination)`. -/
structure DistGraph where
  all_nodes : List String
  out_nodes : String → List String
  edge_value : String → String → Int

abbrev CostPQ : Type := HeapPriorityQueue Info gt_info

abbrev CostMap : Type := ArrayMap String Info

/-- The body of the loop `for(const auto& desti : destinations)` of `extended_dijkstra`,
on `info_map` and `info_pq`. -/
def relax (g : DistGraph) (answer_map : CostMap) (min_node : String) (min_cost : Int)
    (st : CostMap × CostPQ) (desti : String) : CostMap × CostPQ :=
  if !answer_map.has_key desti then
    let edge_value := g.edge_value min_node desti
    let temp_min_cost := add32 edge_value min_cost
    let r := st.1.index desti
    if temp_min_cost < r.1.cost then
      let info_map := r.2.assign desti (fun i => { i with cost := temp_min_cost })
      let info_map := info_map.assign desti (fun i => { i with from_ := min_node })
      let r2 := info_map.index desti
      (r2.2, (st.2.enqueue r2.1).2)
    else (r.2, st.2)
  else st

/-- The loop `while(answer_map.has_key(mini_cost_info.node)) mini_cost_info=info_pq.dequeue();`
for at most `fuel` rounds: the value of `mini_cost_info` at its end, or the exception of
`dequeue`, with the queue afterwards. -/
def skip_stale (answer_map : CostMap) :
    Nat → CostPQ → Info → Option (Except IcsError Info × CostPQ)
  | 0, _, _ => none
  | fuel + 1, info_pq, mini_cost_info =>
    if answer_map.has_key mini_cost_info.node then
      match info_pq.dequeue with
      | (Except.error e, info_pq) => some (Except.error e, info_pq)
      | (Except.ok x, info_pq) => skip_stale answer_map fuel info_pq x
    else some (Except.ok mini_cost_info, info_pq)

/-- The loop `for(;!info_map.empty();)` of `extended_dijkstra` for at most `fuel` rounds:
the `answer_map` at its end, or the exception that ended it; the inner `while` loop
dequeues in every round, so `used + 1` rounds are allowed to it. -/
def dijkstra_loop (g : DistGraph) :
    Nat → CostMap → CostMap → CostPQ → Option (Except IcsError CostMap)
  | 0, _, _, _ => none
  | fuel + 1, info_map, answer_map, info_pq =>
    if info_map.empty then some (Except.ok answer_map)
    else
      match info_pq.dequeue with
      | (Except.error e, _) => some (Except.error e)
      | (Except.ok mini_cost_info, info_pq) =>
        if mini_cost_info.cost = INT_MAX then some (Except.ok answer_map)
        else
          match skip_stale answer_map (info_pq.used + 1) info_pq mini_cost_info with
          | none => none
          | some (Except.error e, _) => some (Except.error e)
          | some (Except.ok mini_cost_info, info_pq) =>
            let min_node := mini_cost_info.node
            let min_cost := mini_cost_info.cost
            match info_map.erase min_node with
            | (Except.error e, _) => some (Except.error e)
            | (Except.ok _, info_map) =>
              let answer_map := answer_map.put min_node mini_cost_info
              let st := (g.out_nodes min_node).foldl (relax g answer_map min_node min_cost)
                (info_map, info_pq)
              dijkstra_loop g fuel st.1 answer_map st.2

/-- The function `extended_dijkstra(g, start_node)`, with at most `fuel` rounds of its main
loop: the map returned, or the exception raised. -/
def extended_dijkstra (fuel : Nat) (g : DistGraph) (start_node : String) :
    Option (Except IcsError CostMap) :=
  let info_map : CostMap :=
    g.all_nodes.foldl (fun m node_name => m.put node_name (Info.ctor node_name))
      ArrayMap.ctor_default
  let info_map : CostMap := info_map.assign start_node (fun i => { i with cost := 0 })
  match HeapPriorityQueue.ctor_default gt_info undefinedgt with
  | Except.error e => some (Except.error e)
  | Except.ok info_pq =>
    let info_pq : CostPQ := info_map.map.foldl (fun pq info => (pq.enqueue info.2).2) info_pq
    dijkstra_loop g fuel info_map ArrayMap.ctor_default info_pq

/-- The reversed node sequences `p` of the walks of `g` from `s`: `Walk g s v p w` when `p`
lists, last node first, the nodes of a walk from `s` to `v` along edges of `g` whose edge
values add up to `w`. -/
inductive Walk (g : DistGraph) (s : String) : String → List String → Int → Prop where
  | start : Walk g s s [s] 0
  | step {x : String} {p : List String} {w : Int} (y : String) :
      Walk g s x p w → y ∈ g.out_nodes x → Walk g s y (y :: p) (w + g.edge_value x y)

/-- A graph as the graph class keeps it: the destination of every edge is a node, and no
edge value is negative. -/
def DistGraph.WF (g : DistGraph) : Prop :=
  ∀ u ∈ g.all_nodes, ∀ v ∈ g.out_nodes u, v ∈ g.all_nodes ∧ 0 ≤ g.edge_value u v

/-- The value stored under `key` in the map `m`, if there is one. -/
def ArrayMap.lookup {KEY T : Type} [DecidableEq KEY] (m : ArrayMap KEY T) (key : KEY) :
    Option T :=
  ArrayMap.find m.map key

/-- What holds of `info_map`, `answer_map` and `info_pq` at every test of the main loop of
`extended_dijkstra`, whatever the costs are: every node of the graph is a key of exactly
one of the two maps, every key of `info_map` is a node that has an entry in the queue, and
the queue is a heap ordered by `gt_info`. -/
structure DijkstraStruct (g : DistGraph) (info_map answer_map : CostMap) (info_pq : CostPQ) :
    Prop where
  nodup : (info_map.map.map Prod.fst).Nodup
  cover : ∀ v ∈ g.all_nodes, info_map.lookup v ≠ none ∨ answer_map.lookup v ≠ none
  info_node : ∀ v i, info_map.lookup v = some i →
    i.node = v ∧ v ∈ g.all_nodes ∧ answer_map.lookup v = none
  entry : ∀ v, info_map.lookup v ≠ none → ∃ e ∈ info_pq.elements, e.node = v
  pq_wf : info_pq.WF
  pq_gt : info_pq.gt = gt_info
  pq_node : ∀ e ∈ info_pq.elements, e.node ∈ g.all_nodes

/-- What holds at every test of the main loop of `extended_dijkstra` for the start node `s`
while no cost `INT_MAX` has been stored in `answer_map`: a node in `answer_map` has its
minimum cost, reached by a walk without repeated nodes through nodes of `answer_map`; the
edges that leave such a node have been relaxed; the `Info` of every node of `info_map` is
in the queue; and every queue entry of a node outside `answer_map` has the cost `INT_MAX`
or the cost of a walk without repeated nodes that reaches it through nodes of
`answer_map`. -/
structure DijkstraPhase1 (g : DistGraph) (s : String) (info_map answer_map : CostMap)
    (info_pq : CostPQ) : Prop where
  final : ∀ v i, answer_map.lookup v = some i →
    (∃ p, Walk g s v p i.cost ∧ p.Nodup ∧ ∀ z ∈ p, answer_map.lookup z ≠ none) ∧
    ∀ p w, Walk g s v p w → i.cost ≤ w
  relaxed : ∀ x ix y iy, answer_map.lookup x = some ix → y ∈ g.out_nodes x →
    info_map.lookup y = some iy → iy.cost ≤ ix.cost + g.edge_value x y
  queued : ∀ y i, info_map.lookup y = some i → i ∈ info_pq.elements
  start : ∀ i, info_map.lookup s = some i → i.cost = 0
  tentative : ∀ e ∈ info_pq.elements, answer_map.lookup e.node = none →
    e.cost = INT_MAX ∨
    ∃ p, Walk g s e.node p e.cost ∧ p.Nodup ∧ ∀ z ∈ p.tail, answer_map.lookup z ≠ none

/-- What holds at every test of the main loop of `extended_dijkstra` once every node that
can be reached from `s` is in `answer_map`. -/
structure DijkstraPhase2 (g : DistGraph) (s : String) (answer_map : CostMap) : Prop where
  all : ∀ v p w, Walk g s v p w → answer_map.lookup v ≠ none
  final : ∀ v i, answer_map.lookup v = some i → (∃ p w, Walk g s v p w) →
    (∃ p, Walk g s v p i.cost) ∧ ∀ p w, Walk g s v p w → i.cost ≤ w


/-- What holds during the loop over the destinations of the node `u` that was just put in
`answer_map`, while no cost `INT_MAX` has been stored in `answer_map`; `done` are the
destinations the loop has handled. -/
structure RelaxInv (g : DistGraph) (s u : String) (done : List String)
    (info_map answer_map : CostMap) (info_pq : CostPQ) : Prop where
  relaxed : ∀ x ix y iy, answer_map.lookup x = some ix → y ∈ g.out_nodes x →
    (x = u → y ∈ done) → info_map.lookup y = some iy → iy.cost ≤ ix.cost + g.edge_value x y
  queued : ∀ y i, info_map.lookup y = some i → i ∈ info_pq.elements
  start : ∀ i, info_map.lookup s = some i → i.cost = 0
  tentative : ∀ e ∈ info_pq.elements, answer_map.lookup e.node = none →
    e.cost = INT_MAX ∨
    ∃ p, Walk g s e.node p e.cost ∧ p.Nodup ∧ ∀ z ∈ p.tail, answer_map.lookup z ≠ none

/-! ## Further members: iterator `end` and `erase` of the heap, assignment of `BSTMap`, the ballot -/

namespace HeapPriorityQueue

variable {T : Type} {tgt : gtfunc T}

/-- The member `end()` of the queue at address `this`: the constructor
`Iterator(iterate_over)`, which has no initialiser for the member `it`, so that `it` is made
by the default constructor with the default `cgt`. -/
def end_ [Inhabited T] (q : HeapPriorityQueue T tgt) (this : Nat) :
    Except IcsError (Iterator T tgt) :=
  match ctor_default tgt undefinedgt with
  | Except.error e => Except.error e
  | Except.ok c =>
    Except.ok { it := c, ref_pq := this, expected_mod_count := q.mod_count, can_erase := true }

/-- The loop `for(int i=0;i<ref_pq->used;++i) if(to_erase==ref_pq->pq[i]) index=i;` of
`Iterator::erase`, from `index=0`. -/
def erase_index [DecidableEq T] [Inhabited T] (pq : List T) (used : Nat) (to_erase : T) : Nat :=
  (List.range used).foldl
    (fun index (i : Nat) => if to_erase = pq.getD i default then i else index) 0

/-- The member `erase` of the iterator: its result, the iterator and the queue afterwards.
The loop `for(int i=ref_pq->used-2;i>index;--i) ref_pq->percolate_up(i);` runs over the
indices from `used-2` down to `index+1`. -/
def Iterator.erase [DecidableEq T] [Inhabited T] (it : Iterator T tgt)
    (q : HeapPriorityQueue T tgt) :
    Except IcsError T × Iterator T tgt × HeapPriorityQueue T tgt :=
  if it.expected_mod_count ≠ q.mod_count then
    (Except.error IcsError.ConcurrentModificationError, it, q)
  else if !it.can_erase then (Except.error IcsError.CannotEraseError, it, q)
  else if it.it.empty then (Except.error IcsError.CannotEraseError, it, q)
  else
    match it.it.dequeue with
    | (Except.error e, it2) => (Except.error e, { it with can_erase := false, it := it2 }, q)
    | (Except.ok to_erase, it2) =>
      let index := erase_index q.pq q.used to_erase
      let pq := q.pq.set index (q.pq.getD (q.used - 1) default)
      let pq := ((List.range (q.used - 1)).reverse.filter (fun (i : Nat) => index < i)).foldl
        (fun pq (i : Nat) => percolate_up q.gt.call q.used i pq) pq
      (Except.ok to_erase,
       { it with can_erase := false, it := it2, expected_mod_count := q.mod_count + 1 },
       { q with pq := pq, used := q.used - 1, mod_count := q.mod_count + 1 })

end HeapPriorityQueue

namespace BSTMap

variable {KEY T : Type} {tlt : ltfunc KEY}

/-- The helper `equals(root, other)`: whether every entry of the tree `root` is in
`other` with the same value. -/
def equals [DecidableEq KEY] [DecidableEq T] (other : BSTMap KEY T tlt) : TN KEY T → Bool
  | TN.null => true
  | TN.mk value left right =>
    match find_key other.lt other.map value.1 with
    | none => false
    | some found => decide (found.2 = value.2) && equals other left && equals other right

/-- The member `operator ==`; `same_object` is the test `this == &rhs`. -/
def op_eq [DecidableEq KEY] [DecidableEq T] (a rhs : BSTMap KEY T tlt) (same_object : Bool) :
    Bool :=
  if same_object then true
  else if a.used != rhs.size then false
  else equals rhs a.map

/-- The member `operator =`; `same_object` is the test `this == &rhs`. On equal comparison
functions the statement `copy(rhs.map);` builds a copy of the tree of `rhs` and drops it:
nothing is assigned to `map`. Otherwise the entries of `rhs` are put in the order in which
its iterator yields them. -/
def assign [DecidableEq KEY] (a rhs : BSTMap KEY T tlt) (same_object : Bool) :
    BSTMap KEY T tlt :=
  if same_object then a
  else
    let a : BSTMap KEY T tlt := a.clear
    let a : BSTMap KEY T tlt :=
      if a.lt.same rhs.lt then
        let _dropped := copy rhs.map
        { a with used := rhs.used }
      else
        ({ a with lt := rhs.lt } : BSTMap KEY T tlt).puts rhs.map.preorder
    { a with mod_count := a.mod_count + 1 }

end BSTMap

/-- Modelled from the spec: the class `ArraySet<T>` (`array_set.hpp` is not under src/), a
set with the member functions that the specification gives every set. `set` holds the
elements in the order in which they were inserted. -/
structure ArraySet (T : Type) where
  set : List T

namespace ArraySet

variable {T : Type}

/-- Modelled from the spec: the default constructor, an empty set. -/
def ctor_default : ArraySet T := ⟨[]⟩

/-- Modelled from the spec: the query `contains`. -/
def contains [DecidableEq T] (s : ArraySet T) (element : T) : Bool := decide (element ∈ s.set)

/-- Modelled from the spec: the member `insert`, the number of elements added and the set
afterwards. -/
def insert [DecidableEq T] (s : ArraySet T) (element : T) : Nat × ArraySet T :=
  if s.contains element then (0, s) else (1, ⟨s.set ++ [element]⟩)

end ArraySet

/-- The inner loop of `evaluate_ballot` over the candidates `kv.second` of one voter, from
most to least preferred: `if(candidates.contains(element)){candidateTally[element]++; break;}`. -/
def tally_vote (candidates : ArraySet String) :
    List String → ArrayMap String Int → ArrayMap String Int
  | [], candidateTally => candidateTally
  | element :: rest, candidateTally =>
    if candidates.contains element then candidateTally.assign element (fun n => n + 1)
    else tally_vote candidates rest candidateTally

/-- The function `evaluate_ballot(preferences, candidates)` of `runoffvoting.cpp`. -/
def evaluate_ballot (preferences : ArrayMap String (ArrayQueue String))
    (candidates : ArraySet String) : ArrayMap String Int :=
  preferences.map.foldl (fun candidateTally kv => tally_vote candidates kv.2.items candidateTally)
    ArrayMap.ctor_default

/-- The states of a `HashMap` that can be reached: made by a constructor that succeeds,
then changed by `put`, the non-const `operator []`, `erase` and `clear`. The hash that a
constructor picks never returns `INT_MIN`, and function pointers that compare equal are
the same function. -/
inductive HashMap.Reachable {KEY T : Type} [DecidableEq KEY] [Inhabited T]
    {thash : hashfunc KEY} : HashMap KEY T thash → Prop where
  | by_default (t : Threshold) (chash : hashfunc KEY) (m : HashMap KEY T thash) :
      (pick_hash thash chash).NoAbsOverflow →
      HashMap.ctor_default thash t chash = Except.ok m → HashMap.Reachable m
  | by_bins (n : Int) (t : Threshold) (chash : hashfunc KEY) (m : HashMap KEY T thash) :
      (pick_hash thash chash).NoAbsOverflow →
      HashMap.ctor_bins thash n t chash = Except.ok m → HashMap.Reachable m
  | by_il (il : List (KEY × T)) (t : Threshold) (chash : hashfunc KEY)
      (m : HashMap KEY T thash) :
      (pick_hash thash chash).NoAbsOverflow →
      HashMap.ctor_il thash il t chash = Except.ok m → HashMap.Reachable m
  | by_iterable (i : List (KEY × T)) (t : Threshold) (chash : hashfunc KEY)
      (m : HashMap KEY T thash) :
      (pick_hash thash chash).NoAbsOverflow →
      HashMap.ctor_iterable thash i t chash = Except.ok m → HashMap.Reachable m
  | by_copy (src : HashMap KEY T thash) (t : Threshold) (chash : hashfunc KEY)
      (m : HashMap KEY T thash) :
      HashMap.Reachable src → (pick_hash thash chash).NoAbsOverflow →
      thash.Faithful src.hash → chash.Faithful src.hash →
      HashMap.ctor_copy thash src t chash = Except.ok m → HashMap.Reachable m
  | by_put (m : HashMap KEY T thash) (k : KEY) (v : T) :
      HashMap.Reachable m → HashMap.Reachable (m.put k v).2
  | by_index (m : HashMap KEY T thash) (k : KEY) :
      HashMap.Reachable m → HashMap.Reachable (m.index k).2
  | by_erase (m : HashMap KEY T thash) (k : KEY) :
      HashMap.Reachable m → HashMap.Reachable (m.erase k).2
  | by_clear (m : HashMap KEY T thash) :
      HashMap.Reachable m → HashMap.Reachable m.clear

/-- The states of a `HashSet` that can be reached: made by a constructor that succeeds,
then changed by `insert`, `erase` and `clear`. The hash that a constructor picks never
returns `INT_MIN`, and function pointers that compare equal are the same function. -/
inductive HashSet.Reachable {T : Type} [DecidableEq T] {thash : hashfunc T} :
    HashSet T thash → Prop where
  | by_default (t : Threshold) (chash : hashfunc T) (s : HashSet T thash) :
      (pick_hash thash chash).NoAbsOverflow →
      HashSet.ctor_default thash t chash = Except.ok s → HashSet.Reachable s
  | by_bins (n : Int) (t : Threshold) (chash : hashfunc T) (s : HashSet T thash) :
      (pick_hash thash chash).NoAbsOverflow →
      HashSet.ctor_bins thash n t chash = Except.ok s → HashSet.Reachable s
  | by_il (il : List T) (t : Threshold) (chash : hashfunc T) (s : HashSet T thash) :
      (pick_hash thash chash).NoAbsOverflow →
      HashSet.ctor_il thash il t chash = Except.ok s → HashSet.Reachable s
  | by_iterable (i : List T) (t : Threshold) (chash : hashfunc T) (s : HashSet T thash) :
      (pick_hash thash chash).NoAbsOverflow →
      HashSet.ctor_iterable thash i t chash = Except.ok s → HashSet.Reachable s
  | by_copy (src : HashSet T thash) (t : Threshold) (chash : hashfunc T)
      (s : HashSet T thash) :
      HashSet.Reachable src → (pick_hash thash chash).NoAbsOverflow →
      thash.Faithful src.hash → chash.Faithful src.hash →
      HashSet.ctor_copy thash src t chash = Except.ok s → HashSet.Reachable s
  | by_insert (s : HashSet T thash) (v : T) :
      HashSet.Reachable s → HashSet.Reachable (s.insert v).2
  | by_erase (s : HashSet T thash) (v : T) :
      HashSet.Reachable s → HashSet.Reachable (s.erase v).2
  | by_clear (s : HashSet T thash) :
      HashSet.Reachable s → HashSet.Reachable s.clear

/-- Function pointers that compare equal are the same function, for priority functions. -/
def gtfunc.Faithful {T : Type} (f g : gtfunc T) : Prop :=
  f.same g = true → f.call = g.call

namespace HeapPriorityQueue

variable {T : Type} {tgt : gtfunc T}

/-- The constructor `HeapPriorityQueue(int initial_length, cgt)`. -/
def ctor_length [Inhabited T] (tgt : gtfunc T) (initial_length : Int) (cgt : gtfunc T) :
    Except IcsError (HeapPriorityQueue T tgt) :=
  let gt := pick_gt tgt cgt
  if gt.same undefinedgt then Except.error IcsError.TemplateFunctionError
  else if gt_both_different tgt cgt then Except.error IcsError.TemplateFunctionError
  else Except.ok (fresh tgt gt (if initial_length < 0 then 0 else initial_length.toNat))

/-- The constructor `HeapPriorityQueue(const std::initializer_list<T>& il, cgt)`: the
array of `il.size()` cells is filled in the order of the list, then `heapify()`. -/
def ctor_il [Inhabited T] (tgt : gtfunc T) (il : List T) (cgt : gtfunc T) :
    Except IcsError (HeapPriorityQueue T tgt) :=
  let gt := pick_gt tgt cgt
  if gt.same undefinedgt then Except.error IcsError.TemplateFunctionError
  else if gt_both_different tgt cgt then Except.error IcsError.TemplateFunctionError
  else
    Except.ok
      { gt := gt, length := il.length, used := il.length, mod_count := 0,
        pq := heapify gt.call il.length il }

/-- The constructor `HeapPriorityQueue(const Iterable& i, cgt)`, over the sequence of the
`i.size()` elements the iterable yields. -/
def ctor_iterable [Inhabited T] (tgt : gtfunc T) (i : List T) (cgt : gtfunc T) :
    Except IcsError (HeapPriorityQueue T tgt) :=
  let gt := pick_gt tgt cgt
  if gt.same undefinedgt then Except.error IcsError.TemplateFunctionError
  else if gt_both_different tgt cgt then Except.error IcsError.TemplateFunctionError
  else
    Except.ok
      { gt := gt, length := i.length, used := i.length, mod_count := 0,
        pq := heapify gt.call i.length i }

/-- The states of a `HeapPriorityQueue` that can be reached: made by a constructor that
succeeds, then changed by `enqueue`, `dequeue` and `clear`. The priority function that a
constructor picks is a strict weak order, and function pointers that compare equal are the
same function. -/
inductive Reachable [Inhabited T] : HeapPriorityQueue T tgt → Prop where
  | by_default (cgt : gtfunc T) (q : HeapPriorityQueue T tgt) :
      (pick_gt tgt cgt).StrictWeak →
      HeapPriorityQueue.ctor_default tgt cgt = Except.ok q → Reachable q
  | by_length (n : Int) (cgt : gtfunc T) (q : HeapPriorityQueue T tgt) :
      (pick_gt tgt cgt).StrictWeak →
      HeapPriorityQueue.ctor_length tgt n cgt = Except.ok q → Reachable q
  | by_il (il : List T) (cgt : gtfunc T) (q : HeapPriorityQueue T tgt) :
      (pick_gt tgt cgt).StrictWeak →
      HeapPriorityQueue.ctor_il tgt il cgt = Except.ok q → Reachable q
  | by_iterable (i : List T) (cgt : gtfunc T) (q : HeapPriorityQueue T tgt) :
      (pick_gt tgt cgt).StrictWeak →
      HeapPriorityQueue.ctor_iterable tgt i cgt = Except.ok q → Reachable q
  | by_copy (src : HeapPriorityQueue T tgt) (cgt : gtfunc T) (q : HeapPriorityQueue T tgt) :
      Reachable src → (pick_gt tgt cgt).StrictWeak →
      tgt.Faithful src.gt → cgt.Faithful src.gt →
      HeapPriorityQueue.ctor_copy tgt src cgt = Except.ok q → Reachable q
  | by_enqueue (q : HeapPriorityQueue T tgt) (x : T) : Reachable q → Reachable (q.enqueue x).2
  | by_dequeue (q : HeapPriorityQueue T tgt) : Reachable q → Reachable q.dequeue.2
  | by_clear (q : HeapPriorityQueue T tgt) : Reachable q → Reachable q.clear

end HeapPriorityQueue

/-- A strict total order of priorities: irreflexive, transitive, and any two different
elements are ordered one way. -/
structure gtfunc.StrictTotal {T : Type} (gt : gtfunc T) : Prop where
  irrefl : ∀ a, gt.call a a = false
  trans : ∀ a b c, gt.call a b = true → gt.call b c = true → gt.call a c = true
  total : ∀ a b, a ≠ b → gt.call a b = true ∨ gt.call b a = true

/-- A call that a client makes on a priority queue. -/
inductive PQCall (T : Type) where
  | enqueue (element : T) : PQCall T
  | dequeue : PQCall T

/-- The call `c` on a `HeapPriorityQueue`: what it returns (the count of `enqueue` or the
element of `dequeue`) or the exception it raises, and the queue afterwards. -/
def HeapPriorityQueue.call {T : Type} [Inhabited T] {tgt : gtfunc T}
    (q : HeapPriorityQueue T tgt) : PQCall T → Except IcsError (Nat ⊕ T) × HeapPriorityQueue T tgt
  | PQCall.enqueue element => (Except.ok (Sum.inl (q.enqueue element).1), (q.enqueue element).2)
  | PQCall.dequeue => (q.dequeue.1.map Sum.inr, q.dequeue.2)

/-- The calls `cs` made in order on a `HeapPriorityQueue`: for each call what the client
sees of it, and `size()` after it. -/
def HeapPriorityQueue.calls {T : Type} [Inhabited T] {tgt : gtfunc T} :
    List (PQCall T) → HeapPriorityQueue T tgt → List (Except IcsError (Nat ⊕ T) × Nat)
  | [], _ => []
  | c :: rest, q => ((q.call c).1, (q.call c).2.size) :: calls rest (q.call c).2

/-- The call `c` on a `LinkedPriorityQueue`: what it returns or the exception it raises,
and the queue afterwards. -/
def LinkedPriorityQueue.call {T : Type} {tgt : gtfunc T}
    (q : LinkedPriorityQueue T tgt) :
    PQCall T → Except IcsError (Nat ⊕ T) × LinkedPriorityQueue T tgt
  | PQCall.enqueue element => ((q.enqueue element).1.map Sum.inl, (q.enqueue element).2)
  | PQCall.dequeue => (q.dequeue.1.map Sum.inr, q.dequeue.2)

/-- The calls `cs` made in order on a `LinkedPriorityQueue`: for each call what the client
sees of it, and `size()` after it. -/
def LinkedPriorityQueue.calls {T : Type} {tgt : gtfunc T} :
    List (PQCall T) → LinkedPriorityQueue T tgt → List (Except IcsError (Nat ⊕ T) × Nat)
  | [], _ => []
  | c :: rest, q => ((q.call c).1, (q.call c).2.size) :: calls rest (q.call c).2

/-- What is still to visit from a cursor: nothing at `(-1, nullptr)`; at node `p` of chain
`b`, the rest of that chain and then the later chains. -/
def CursorAt {α : Type} (tbl : List (List α)) (bins : Nat) (c : Cursor) (rest : List α) : Prop :=
  (c = ⟨-1, NodePtr.null⟩ ∧ rest = []) ∨
  ∃ b p : Nat, c = ⟨(b : Int), NodePtr.node b p⟩ ∧ b < bins ∧
    p < (chain_at tbl (b : Int)).length ∧
    rest = (chain_at tbl (b : Int)).drop p ++ (tbl.drop (b + 1)).flatten

namespace HashMap

variable {KEY T : Type} {thash : hashfunc KEY}

/-- A client's loop `for (it = begin(); it != end(); ++it) visit(*it);` run for at most
`fuel` rounds from the iterator `it`: the entries `*it` gave (after `acc`) or the exception
that ended it, with the iterator afterwards; `none` when the loop has not ended after
`fuel` rounds. -/
def read_loop (this : Nat) :
    Nat → Iterator → HashMap KEY T thash → List (KEY × T) →
    Option (Except IcsError (List (KEY × T)) × Iterator)
  | 0, _, _, _ => none
  | fuel + 1, it, m, acc =>
    match it.op_ne (m.end_ this) m with
    | Except.error e => some (Except.error e, it)
    | Except.ok false => some (Except.ok acc, it)
    | Except.ok true =>
      match it.deref m with
      | Except.error e => some (Except.error e, it)
      | Except.ok x =>
        match it.incr m with
        | Except.error e => some (Except.error e, it)
        | Except.ok it => read_loop this fuel it m (acc ++ [x])

end HashMap

namespace HashSet

variable {T : Type} {thash : hashfunc T}

/-- A client's loop `for (it = begin(); it != end(); ++it) visit(*it);` run for at most
`fuel` rounds from the iterator `it`: the elements `*it` gave (after `acc`) or the
exception that ended it, with the iterator afterwards; `none` when the loop has not ended
after `fuel` rounds. -/
def read_loop (this : Nat) :
    Nat → Iterator → HashSet T thash → List T →
    Option (Except IcsError (List T) × Iterator)
  | 0, _, _, _ => none
  | fuel + 1, it, s, acc =>
    match it.op_ne (s.end_ this) s with
    | Except.error e => some (Except.error e, it)
    | Except.ok false => some (Except.ok acc, it)
    | Except.ok true =>
      match it.deref s with
      | Except.error e => some (Except.error e, it)
      | Except.ok x =>
        match it.incr s with
        | Except.error e => some (Except.error e, it)
        | Except.ok it => read_loop this fuel it s (acc ++ [x])

end HashSet

/-- Modelled from the spec: the default constructor of `ArrayQueue`, an empty queue. -/
def ArrayQueue.ctor_default {α : Type} : ArrayQueue α := ⟨[]⟩

/-- Modelled from the spec: the const `operator[]` of `ArrayMap`, the value stored under
`key`, `KeyError` when the key is not stored. -/
def ArrayMap.index_const {KEY T : Type} [DecidableEq KEY] (m : ArrayMap KEY T) (key : KEY) :
    Except IcsError T :=
  match ArrayMap.find m.map key with
  | none => Except.error IcsError.KeyError
  | some v => Except.ok v

/-- The inner loop of `reachable` over the elements of `graph[first]`:
`reached_set.contains(element) ? : explore_queue.enqueue(element);`, which enqueues the
element when the set does not contain it. The queue afterwards. -/
def explore_successors (reached_set : ArraySet String) :
    List String → ArrayQueue String → ArrayQueue String
  | [], explore_queue => explore_queue
  | element :: rest, explore_queue =>
    explore_successors reached_set rest
      (if reached_set.contains element then explore_queue else explore_queue.enqueue element)

/-- The loop `while(!explore_queue.empty())` of `reachable`, run for at most `fuel` rounds:
the set returned or the exception raised; `none` when the loop has not ended after `fuel`
rounds. -/
def reachable_loop (graph : ArrayMap String (ArraySet String)) :
    Nat → ArraySet String → ArrayQueue String → Option (Except IcsError (ArraySet String))
  | 0, _, _ => none
  | fuel + 1, reached_set, explore_queue =>
    if explore_queue.empty then some (Except.ok reached_set)
    else
      match explore_queue.dequeue with
      | (Except.error e, _) => some (Except.error e)
      | (Except.ok first, explore_queue) =>
        let reached_set : ArraySet String := (reached_set.insert first).2
        if graph.has_key first then
          match graph.index_const first with
          | Except.error e => some (Except.error e)
          | Except.ok successors =>
            reachable_loop graph fuel reached_set
              (explore_successors reached_set successors.set explore_queue)
        else reachable_loop graph fuel reached_set explore_queue

/-- The function `reachable(graph, start)` of `reachable.cpp`, with at most `fuel` rounds of
its loop. -/
def reachable (graph : ArrayMap String (ArraySet String)) (start : String) (fuel : Nat) :
    Option (Except IcsError (ArraySet String)) :=
  reachable_loop graph fuel ArraySet.ctor_default
    ((ArrayQueue.ctor_default : ArrayQueue String).enqueue start)

/-- An edge of the graph: `y` is an element of the set stored under the key `x`. -/
def GraphEdge (graph : ArrayMap String (ArraySet String)) (x y : String) : Prop :=
  ∃ s : ArraySet String, ArrayMap.find graph.map x = some s ∧ y ∈ s.set

/-- The node `x` can be reached from `start` by following zero or more edges. -/
def CanReach (graph : ArrayMap String (ArraySet String)) (start x : String) : Prop :=
  Relation.ReflTransGen (GraphEdge graph) start x

/-- What holds of `reached_set` and `explore_queue` at every test of the loop of
`reachable`: both hold only nodes that can be reached, the start node is in one of them,
and every successor of a node of the set is in one of them. -/
structure ReachInv (graph : ArrayMap String (ArraySet String)) (start : String)
    (reached_set : ArraySet String) (explore_queue : ArrayQueue String) : Prop where
  set_sound : ∀ x ∈ reached_set.set, CanReach graph start x
  queue_sound : ∀ x ∈ explore_queue.items, CanReach graph start x
  start_in : start ∈ reached_set.set ∨ start ∈ explore_queue.items
  closed : ∀ x ∈ reached_set.set, ∀ y, GraphEdge graph x y →
    y ∈ reached_set.set ∨ y ∈ explore_queue.items
  nodup : reached_set.set.Nodup

/-- The nodes of the graph that can occur in the set and the queue: the start node and
every successor stored in the graph. -/
def graph_nodes (graph : ArrayMap String (ArraySet String)) (start : String) : List String :=
  start :: graph.map.flatMap (fun kv => kv.2.set)

/-! ## Example inputs -/

/-- An example hash function on naturals, at address `1`: the number itself. -/
def natHash : hashfunc Nat := ⟨1, fun n => (n : Int)⟩

/-- A second example hash function on naturals, at address `2`: the remainder by three. -/
def natHash2 : hashfunc Nat := ⟨2, fun n => ((n % 3 : Nat) : Int)⟩

/-- An example hash function on strings, at address `1`: the code of the first character. -/
def strHash : hashfunc String :=
  ⟨1, fun s => match s.data with | [] => 0 | c :: _ => (c.toNat : Int)⟩

/-- A third example hash function on naturals, at address `3`: the successor. -/
def natHash3 : hashfunc Nat := ⟨3, fun n => (n : Int) + 1⟩

/-- An example hash function on naturals, at address `4`: every key in bin `0`. -/
def zeroHash : hashfunc Nat := ⟨4, fun _ => 0⟩

/-- An example hash function on `int` keys, at address `5`: the key itself. -/
def intHash : hashfunc Int := ⟨5, fun n => n⟩

/-- An example comparison on naturals, at address `1`: the order `<`. -/
def natLt : ltfunc Nat := ⟨1, fun a b => decide (a < b)⟩

/-- An example priority function on naturals, at address `1`: the greater number has the
higher priority. -/
def natGt : gtfunc Nat := ⟨1, fun a b => decide (a > b)⟩

/-- An example graph: the nodes `a` and `b`, and no edge. -/
def graphNoEdge : DistGraph :=
  { all_nodes := ["a", "b"], out_nodes := fun _ => [], edge_value := fun _ _ => 0 }

/-- An example graph with a cycle: the edges `a -> b` of value 1, `a -> c` of value 5,
`b -> c` of value 2, `c -> a` of value 4 and `d -> a` of value 7; `d` cannot be reached
from `a`. -/
def graphFour : DistGraph :=
  { all_nodes := ["a", "b", "c", "d"],
    out_nodes := fun n =>
      if n = "a" then ["b", "c"] else if n = "b" then ["c"] else ["a"],
    edge_value := fun o d =>
      if o = "a" then (if d = "b" then 1 else 5)
      else if o = "b" then 2 else if o = "c" then 4 else 7 }

/-- An example graph in which a stale queue entry arises: the edges `s -> v` of value 10,
`s -> w` of value 1, `w -> v` of value 6, `u -> x` and `x -> u` of value 5; `u` and `x`
cannot be reached from `s`. -/
def graphStale : DistGraph :=
  { all_nodes := ["s", "v", "w", "u", "x"],
    out_nodes := fun n =>
      if n = "s" then ["v", "w"] else if n = "w" then ["v"] else if n = "u" then ["x"]
      else if n = "x" then ["u"] else [],
    edge_value := fun o d =>
      if o = "s" then (if d = "v" then 10 else 1)
      else if o = "w" then 6 else 5 }

/-! ## Lemmas on bin arrays -/

theorem compress_nonneg {h : Int} (hh : h ≠ INT_MIN) (bins : Nat) : 0 ≤ compress h bins := by
  unfold compress abs32
  rw [if_neg hh]
  exact Int.tmod_nonneg _ (Int.ofNat_nonneg _)

theorem compress_lt {h : Int} (bins : Nat) (hb : 0 < bins) : compress h bins < (bins : Int) := by
  unfold compress
  exact Int.tmod_lt_of_pos _ (by exact_mod_cast hb)

theorem compress_toNat_lt {h : Int} (hh : h ≠ INT_MIN) {bins : Nat} (hb : 0 < bins) :
    (compress h bins).toNat < bins := by
  have h1 := compress_nonneg hh bins
  have h2 := compress_lt (h := h) bins hb
  omega

theorem chain_at_of_lt {α : Type} (tbl : List (List α)) (i : Nat) (h : i < tbl.length) :
    chain_at tbl (i : Int) = tbl[i] := by
  simp [chain_at, h]

theorem chain_at_eq_nil_of_neg {α : Type} (tbl : List (List α)) {i : Int} (h : i < 0) :
    chain_at tbl i = [] := by
  simp [chain_at, not_le.mpr h]

theorem chain_at_eq_nil_of_ge {α : Type} (tbl : List (List α)) {i : Int} (h : tbl.length ≤ i.toNat) :
    chain_at tbl i = [] := by
  unfold chain_at
  split
  · simp [List.getD_eq_getElem?_getD, List.getElem?_eq_none h]
  · rfl

theorem chain_at_toNat {α : Type} (tbl : List (List α)) {i : Int} (h : 0 ≤ i) :
    chain_at tbl i = chain_at tbl ((i.toNat : Nat) : Int) := by
  rw [Int.toNat_of_nonneg h]

theorem length_set_chain {α : Type} (tbl : List (List α)) (i : Int) (c : List α) :
    (set_chain tbl i c).length = tbl.length := by
  unfold set_chain; split <;> simp

theorem chain_at_set_chain_same {α : Type} (tbl : List (List α)) {i : Int} (c : List α)
    (h0 : 0 ≤ i) (h1 : i.toNat < tbl.length) : chain_at (set_chain tbl i c) i = c := by
  simp [chain_at, set_chain, h0, h1]

theorem chain_at_set_chain_ne {α : Type} (tbl : List (List α)) {i j : Int} (c : List α)
    (hij : i ≠ j) : chain_at (set_chain tbl i c) j = chain_at tbl j := by
  unfold chain_at set_chain
  by_cases hi : 0 ≤ i <;> by_cases hj : 0 ≤ j <;> simp [hi, hj]
  have : i.toNat ≠ j.toNat := by omega
  simp [List.getElem?_set_ne this]

theorem flatten_set_chain {α : Type} (tbl : List (List α)) {i : Int}
    (h0 : 0 ≤ i) (h1 : i.toNat < tbl.length) :
    ∃ pre post, tbl.flatten = pre ++ chain_at tbl i ++ post ∧
      ∀ c, (set_chain tbl i c).flatten = pre ++ c ++ post := by
  refine ⟨(tbl.take i.toNat).flatten, (tbl.drop (i.toNat + 1)).flatten, ?_, ?_⟩
  · have hc : chain_at tbl i = tbl[i.toNat] := by simp [chain_at, h0, h1]
    rw [hc]
    have hsplit : tbl = tbl.take i.toNat ++ tbl[i.toNat] :: tbl.drop (i.toNat + 1) := by
      rw [← List.drop_eq_getElem_cons h1, List.take_append_drop]
    calc tbl.flatten = (tbl.take i.toNat ++ tbl[i.toNat] :: tbl.drop (i.toNat + 1)).flatten :=
          congrArg List.flatten hsplit
      _ = _ := by rw [List.flatten_append, List.flatten_cons, List.append_assoc]
  · intro c
    simp [set_chain, h0, List.set_eq_take_append_cons_drop, h1]

theorem mem_flatten_iff_chain_at {α : Type} (tbl : List (List α)) (e : α) :
    e ∈ tbl.flatten ↔ ∃ i : Nat, i < tbl.length ∧ e ∈ chain_at tbl (i : Int) := by
  rw [List.mem_flatten]
  constructor
  · rintro ⟨l, hl, he⟩
    obtain ⟨i, hi, rfl⟩ := List.getElem_of_mem hl
    exact ⟨i, hi, by rw [chain_at_of_lt _ _ hi]; exact he⟩
  · rintro ⟨i, hi, he⟩
    rw [chain_at_of_lt _ _ hi] at he
    exact ⟨_, List.getElem_mem hi, he⟩

theorem range_map_chain_at {α : Type} (tbl : List (List α)) :
    (List.range tbl.length).map (fun (i : Nat) => chain_at tbl (i : Int)) = tbl := by
  apply List.ext_getElem
  · simp
  · intro i h1 h2
    simp at h1
    simp [chain_at_of_lt _ _ h2]

/-- Linking one node in front of its home chain, the body of the relinking loop. -/
theorem link_props {α : Type} (idx : α → Int) (nt : List (List α)) (cur : α)
    (h0 : 0 ≤ idx cur) (h1 : (idx cur).toNat < nt.length)
    (home : ∀ (i : Nat) (e : α), e ∈ chain_at nt (i : Int) → idx e = (i : Int)) :
    (set_chain nt (idx cur) (cur :: chain_at nt (idx cur))).length = nt.length ∧
    (set_chain nt (idx cur) (cur :: chain_at nt (idx cur))).flatten.Perm (cur :: nt.flatten) ∧
    (∀ (i : Nat) (e : α),
      e ∈ chain_at (set_chain nt (idx cur) (cur :: chain_at nt (idx cur))) (i : Int) →
      idx e = (i : Int)) := by
  refine ⟨length_set_chain _ _ _, ?_, ?_⟩
  · obtain ⟨pre, post, hold, hnew⟩ := flatten_set_chain nt h0 h1
    rw [hnew, hold]
    simp only [List.append_assoc, List.cons_append]
    exact List.perm_middle
  · intro i e he
    by_cases hi : idx cur = (i : Int)
    · rw [← hi, chain_at_set_chain_same _ _ h0 h1] at he
      rcases List.mem_cons.mp he with rfl | he
      · exact hi
      · rw [hi] at he
        exact home i e he
    · rw [chain_at_set_chain_ne _ _ hi] at he
      exact home i e he

theorem foldl_link_props {α : Type} (idx : α → Int) (N : Nat)
    (hidx : ∀ e, 0 ≤ idx e ∧ (idx e).toNat < N) (chain : List α) :
    ∀ (nt : List (List α)), nt.length = N →
      (∀ (i : Nat) (e : α), e ∈ chain_at nt (i : Int) → idx e = (i : Int)) →
      (chain.foldl (fun nt current => set_chain nt (idx current) (current :: chain_at nt (idx current))) nt).length = N ∧
      (chain.foldl (fun nt current => set_chain nt (idx current) (current :: chain_at nt (idx current))) nt).flatten.Perm
        (chain ++ nt.flatten) ∧
      (∀ (i : Nat) (e : α),
        e ∈ chain_at (chain.foldl (fun nt current => set_chain nt (idx current) (current :: chain_at nt (idx current))) nt) (i : Int) →
        idx e = (i : Int)) := by
  induction chain with
  | nil => intro nt hlen home; exact ⟨hlen, List.Perm.refl _, home⟩
  | cons cur rest ih =>
    intro nt hlen home
    have hc := hidx cur
    obtain ⟨l1, p1, home1⟩ := link_props idx nt cur hc.1 (hlen ▸ hc.2) home
    obtain ⟨l2, p2, home2⟩ := ih _ (l1.trans hlen) home1
    refine ⟨l2, ?_, home2⟩
    simp only [List.foldl_cons]
    refine p2.trans ?_
    refine (List.Perm.append_left rest p1).trans ?_
    simp only [List.cons_append]
    exact List.perm_middle

theorem foldl_chains_props {α : Type} (idx : α → Int) (N : Nat)
    (hidx : ∀ e, 0 ≤ idx e ∧ (idx e).toNat < N) (old : List (List α)) :
    ∀ (nt : List (List α)), nt.length = N →
      (∀ (i : Nat) (e : α), e ∈ chain_at nt (i : Int) → idx e = (i : Int)) →
      (old.foldl (fun nt chain => chain.foldl
          (fun nt current => set_chain nt (idx current) (current :: chain_at nt (idx current))) nt) nt).length = N ∧
      (old.foldl (fun nt chain => chain.foldl
          (fun nt current => set_chain nt (idx current) (current :: chain_at nt (idx current))) nt) nt).flatten.Perm
        (old.flatten ++ nt.flatten) ∧
      (∀ (i : Nat) (e : α),
        e ∈ chain_at (old.foldl (fun nt chain => chain.foldl
          (fun nt current => set_chain nt (idx current) (current :: chain_at nt (idx current))) nt) nt) (i : Int) →
        idx e = (i : Int)) := by
  induction old with
  | nil => intro nt hlen home; exact ⟨hlen, by simp, home⟩
  | cons chain rest ih =>
    intro nt hlen home
    obtain ⟨l1, p1, home1⟩ := foldl_link_props idx N hidx chain nt hlen home
    obtain ⟨l2, p2, home2⟩ := ih _ l1 home1
    refine ⟨l2, ?_, home2⟩
    simp only [List.foldl_cons, List.flatten_cons]
    refine p2.trans ?_
    refine (List.Perm.append_left _ p1).trans ?_
    simp only [← List.append_assoc]
    exact List.Perm.append_right _ List.perm_append_comm

theorem relink_eq_foldl {α : Type} (idx : α → Int) (old : List (List α)) (nt : List (List α)) :
    relink idx old old.length nt =
      old.foldl (fun nt chain => chain.foldl
        (fun nt current => set_chain nt (idx current) (current :: chain_at nt (idx current))) nt) nt := by
  unfold relink
  conv_rhs => rw [← range_map_chain_at old]
  rw [List.foldl_map]

theorem chain_at_replicate_nil {α : Type} (n : Nat) (i : Int) :
    chain_at (List.replicate n ([] : List α)) i = [] := by
  unfold chain_at
  split
  · by_cases h : i.toNat < n
    · simp [h]
    · simp [List.getElem?_eq_none (l := List.replicate n ([] : List α)) (by simpa using h)]
  · rfl

theorem flatten_replicate_nil_chain {α : Type} (n : Nat) :
    (List.replicate n ([] : List α)).flatten = [] := by
  induction n with
  | zero => rfl
  | succ n ih => simp [List.replicate_succ, ih]

/-- The relinking loop moves every node of the old table into the chain of its new index. -/
theorem relink_props {α : Type} (idx : α → Int) (old : List (List α)) (N : Nat)
    (hidx : ∀ e, 0 ≤ idx e ∧ (idx e).toNat < N) :
    (relink idx old old.length (List.replicate N [])).length = N ∧
    (relink idx old old.length (List.replicate N [])).flatten.Perm old.flatten ∧
    (∀ (i : Nat) (e : α), e ∈ chain_at (relink idx old old.length (List.replicate N [])) (i : Int) →
      idx e = (i : Int)) := by
  rw [relink_eq_foldl]
  obtain ⟨l, p, home⟩ := foldl_chains_props idx N hidx old (List.replicate N []) (by simp)
    (by intro i e he; rw [chain_at_replicate_nil] at he; cases he)
  refine ⟨l, ?_, home⟩
  simpa [flatten_replicate_nil_chain] using p

theorem perm_cons_middle {α : Type} (pre l1 l2 post : List α) (e : α) :
    (pre ++ (l1 ++ e :: l2) ++ post).Perm (e :: (pre ++ (l1 ++ l2) ++ post)) := by
  simp only [List.append_assoc, List.cons_append]
  rw [← List.append_assoc pre l1, ← List.append_assoc pre l1]
  exact List.perm_middle

theorem chain_assign_of_find {KEY T : Type} [DecidableEq KEY] (key : KEY) (value : T)
    (chain : List (KEY × T)) (e : KEY × T)
    (h : chain.find? (fun p => decide (p.1 = key)) = some e) :
    e.1 = key ∧ ∃ l1 l2, chain = l1 ++ e :: l2 ∧ chain_assign key value chain = l1 ++ (key, value) :: l2 := by
  induction chain with
  | nil => simp at h
  | cons a rest ih =>
    by_cases ha : a.1 = key
    · simp [List.find?_cons, ha] at h
      subst h
      exact ⟨ha, [], rest, rfl, by simp [chain_assign, ha]⟩
    · simp [List.find?_cons, ha] at h
      obtain ⟨hk, l1, l2, h1, h2⟩ := ih h
      exact ⟨hk, a :: l1, l2, by simp [h1], by simp [chain_assign, ha, h2]⟩

theorem eraseP_of_find {α : Type} (p : α → Bool) (chain : List α) (e : α)
    (h : chain.find? p = some e) :
    p e = true ∧ ∃ l1 l2, chain = l1 ++ e :: l2 ∧ chain.eraseP p = l1 ++ l2 := by
  induction chain with
  | nil => simp at h
  | cons a rest ih =>
    by_cases ha : p a = true
    · simp [List.find?_cons, ha] at h
      subst h
      exact ⟨ha, [], rest, rfl, by simp [List.eraseP_cons, ha]⟩
    · simp [List.find?_cons, ha] at h
      obtain ⟨hk, l1, l2, h1, h2⟩ := ih h
      exact ⟨hk, a :: l1, l2, by simp [h1], by simp [List.eraseP_cons, ha, h2]⟩

theorem chain_at_subset_flatten {α : Type} (tbl : List (List α)) (i : Int) :
    ∀ e ∈ chain_at tbl i, e ∈ tbl.flatten := by
  intro e he
  by_cases h0 : 0 ≤ i
  · by_cases h1 : i.toNat < tbl.length
    · rw [chain_at_toNat _ h0] at he
      exact (mem_flatten_iff_chain_at tbl e).2 ⟨_, h1, he⟩
    · rw [chain_at_eq_nil_of_ge _ (not_lt.mp h1)] at he; cases he
  · rw [chain_at_eq_nil_of_neg _ (not_le.mp h0)] at he; cases he

/-- A non-empty chain sits at an index inside the array. -/
theorem index_in_range_of_mem {α : Type} (tbl : List (List α)) (i : Int) (e : α)
    (he : e ∈ chain_at tbl i) : 0 ≤ i ∧ i.toNat < tbl.length := by
  by_cases h0 : 0 ≤ i
  · by_cases h1 : i.toNat < tbl.length
    · exact ⟨h0, h1⟩
    · rw [chain_at_eq_nil_of_ge _ (not_lt.mp h1)] at he; cases he
  · rw [chain_at_eq_nil_of_neg _ (not_le.mp h0)] at he; cases he

theorem BinsInv.mem_home {α K : Type} {key : α → K} {c : K → Int} {tbl : List (List α)} {bins : Nat}
    (inv : BinsInv key c tbl bins) {e : α} (he : e ∈ tbl.flatten) :
    e ∈ chain_at tbl (c (key e)) := by
  obtain ⟨i, _, hi⟩ := (mem_flatten_iff_chain_at tbl e).1 he
  rw [inv.home i e hi]; exact hi

theorem BinsInv.find_some_iff {α K : Type} [DecidableEq K] {key : α → K} {c : K → Int}
    {tbl : List (List α)} {bins : Nat} (inv : BinsInv key c tbl bins) (k : K) (e : α) :
    (chain_at tbl (c k)).find? (fun x => decide (key x = k)) = some e ↔
      e ∈ tbl.flatten ∧ key e = k := by
  constructor
  · intro h
    have h1 := List.mem_of_find?_eq_some h
    have h2 := List.find?_some h
    exact ⟨chain_at_subset_flatten _ _ _ h1, by simpa using h2⟩
  · rintro ⟨he, hk⟩
    have hmem : e ∈ chain_at tbl (c k) := hk ▸ inv.mem_home he
    cases hf : (chain_at tbl (c k)).find? (fun x => decide (key x = k)) with
    | none =>
      rw [List.find?_eq_none] at hf
      exact absurd (by simpa using hk) (hf e hmem)
    | some e2 =>
      have h1 := chain_at_subset_flatten _ _ _ (List.mem_of_find?_eq_some hf)
      have h2 : key e2 = k := by simpa using List.find?_some hf
      rw [List.inj_on_of_nodup_map inv.nodup h1 he (h2.trans hk.symm)]

theorem BinsInv.find_none_iff {α K : Type} [DecidableEq K] {key : α → K} {c : K → Int}
    {tbl : List (List α)} {bins : Nat} (inv : BinsInv key c tbl bins) (k : K) :
    (chain_at tbl (c k)).find? (fun x => decide (key x = k)) = none ↔
      ∀ e ∈ tbl.flatten, key e ≠ k := by
  constructor
  · intro h e he hk
    rw [(inv.find_some_iff k e).2 ⟨he, hk⟩] at h
    cases h
  · intro h
    cases hf : (chain_at tbl (c k)).find? (fun x => decide (key x = k)) with
    | none => rfl
    | some e => exact absurd ((inv.find_some_iff k e).1 hf).2 (h e ((inv.find_some_iff k e).1 hf).1)

/-- Linking a new entry in front of its home chain keeps the invariant. -/
theorem BinsInv.push {α K : Type} {key : α → K} {c : K → Int} {tbl : List (List α)} {bins : Nat}
    (inv : BinsInv key c tbl bins) (x : α) (h0 : 0 ≤ c (key x)) (h1 : (c (key x)).toNat < bins)
    (hnew : ∀ e ∈ tbl.flatten, key e ≠ key x) :
    BinsInv key c (set_chain tbl (c (key x)) (x :: chain_at tbl (c (key x)))) bins ∧
    (set_chain tbl (c (key x)) (x :: chain_at tbl (c (key x)))).flatten.Perm (x :: tbl.flatten) := by
  obtain ⟨l, p, home⟩ := link_props (fun e => c (key e)) tbl x h0 (inv.len ▸ h1) inv.home
  refine ⟨⟨l.trans inv.len, inv.pos, home, ?_⟩, p⟩
  rw [(p.map key).nodup_iff, List.map_cons, List.nodup_cons]
  refine ⟨?_, inv.nodup⟩
  intro hmem
  obtain ⟨e, he, hk⟩ := List.mem_map.1 hmem
  exact hnew e he hk

/-- Unlinking the first node with key `k` from its home chain keeps the invariant. -/
theorem BinsInv.erase {α K : Type} [DecidableEq K] {key : α → K} {c : K → Int}
    {tbl : List (List α)} {bins : Nat} (inv : BinsInv key c tbl bins) (k : K) (e : α)
    (hf : (chain_at tbl (c k)).find? (fun x => decide (key x = k)) = some e) :
    BinsInv key c (set_chain tbl (c k)
      ((chain_at tbl (c k)).eraseP (fun x => decide (key x = k)))) bins ∧
    tbl.flatten.Perm (e :: (set_chain tbl (c k)
      ((chain_at tbl (c k)).eraseP (fun x => decide (key x = k)))).flatten) := by
  obtain ⟨_, l1, l2, hch, her⟩ := eraseP_of_find _ _ _ hf
  have hmem : e ∈ chain_at tbl (c k) := List.mem_of_find?_eq_some hf
  obtain ⟨h0, h1⟩ := index_in_range_of_mem _ _ _ hmem
  obtain ⟨pre, post, hold, hnew⟩ := flatten_set_chain tbl h0 h1
  have hperm : tbl.flatten.Perm (e :: (set_chain tbl (c k)
      ((chain_at tbl (c k)).eraseP (fun x => decide (key x = k)))).flatten) := by
    rw [hnew, hold, her, hch]
    exact perm_cons_middle pre l1 l2 post e
  refine ⟨⟨(length_set_chain _ _ _).trans inv.len, inv.pos, ?_, ?_⟩, hperm⟩
  · intro i x hx
    by_cases hi : c k = (i : Int)
    · rw [← hi, chain_at_set_chain_same _ _ h0 h1] at hx
      exact inv.home i x (hi ▸ (List.mem_of_mem_eraseP hx))
    · rw [chain_at_set_chain_ne _ _ hi] at hx
      exact inv.home i x hx
  · have := (hperm.map key).nodup_iff.1 inv.nodup
    rw [List.map_cons, List.nodup_cons] at this
    exact this.2

/-- Overwriting the value of the first node with key `k` keeps the invariant. -/
theorem BinsInv.assign {KEY T : Type} [DecidableEq KEY] {c : KEY → Int}
    {tbl : List (List (KEY × T))} {bins : Nat} (inv : BinsInv Prod.fst c tbl bins)
    (k : KEY) (v : T) (e : KEY × T)
    (hf : (chain_at tbl (c k)).find? (fun x => decide (x.1 = k)) = some e) :
    BinsInv Prod.fst c (set_chain tbl (c k) (chain_assign k v (chain_at tbl (c k)))) bins ∧
    ∃ R, tbl.flatten.Perm (e :: R) ∧
      (set_chain tbl (c k) (chain_assign k v (chain_at tbl (c k)))).flatten.Perm ((k, v) :: R) := by
  obtain ⟨hk, l1, l2, hch, has⟩ := chain_assign_of_find k v _ _ hf
  have hmem : e ∈ chain_at tbl (c k) := List.mem_of_find?_eq_some hf
  obtain ⟨h0, h1⟩ := index_in_range_of_mem _ _ _ hmem
  obtain ⟨pre, post, hold, hnew⟩ := flatten_set_chain tbl h0 h1
  have hp1 : tbl.flatten.Perm (e :: (pre ++ (l1 ++ l2) ++ post)) := by
    rw [hold, hch]
    exact perm_cons_middle pre l1 l2 post e
  have hp2 : (set_chain tbl (c k) (chain_assign k v (chain_at tbl (c k)))).flatten.Perm
      ((k, v) :: (pre ++ (l1 ++ l2) ++ post)) := by
    rw [hnew, has]
    exact perm_cons_middle pre l1 l2 post (k, v)
  refine ⟨⟨(length_set_chain _ _ _).trans inv.len, inv.pos, ?_, ?_⟩, _, hp1, hp2⟩
  · intro i x hx
    by_cases hi : c k = (i : Int)
    · rw [← hi, chain_at_set_chain_same _ _ h0 h1, has] at hx
      have hx2 : x = (k, v) ∨ x ∈ chain_at tbl (c k) := by
        rw [hch]
        simp only [List.mem_append, List.mem_cons] at hx ⊢
        tauto
      rcases hx2 with rfl | hx2
      · exact hi
      · exact inv.home i x (hi ▸ hx2)
    · rw [chain_at_set_chain_ne _ _ hi] at hx
      exact inv.home i x hx
  · have h3 := (hp1.map Prod.fst).nodup_iff.1 inv.nodup
    rw [(hp2.map Prod.fst).nodup_iff]
    simpa [hk] using h3

/-- Doubling rehash: relinking a well-formed array into `bins2` empty chains under the
new index function keeps the invariant and the stored entries. -/
theorem BinsInv.rehash {α K : Type} {key : α → K} {c d : K → Int} {tbl : List (List α)}
    {bins bins2 : Nat} (inv : BinsInv key c tbl bins) (hpos : 0 < bins2)
    (hidx : ∀ k, 0 ≤ d k ∧ (d k).toNat < bins2) :
    BinsInv key d (relink (fun e => d (key e)) tbl bins (List.replicate bins2 [])) bins2 ∧
    (relink (fun e => d (key e)) tbl bins (List.replicate bins2 [])).flatten.Perm tbl.flatten := by
  have hb : bins = tbl.length := inv.len.symm
  subst hb
  obtain ⟨l, p, home⟩ := relink_props (fun e => d (key e)) tbl bins2 (fun e => hidx (key e))
  exact ⟨⟨l, hpos, home, (p.map key).nodup_iff.2 inv.nodup⟩, p⟩

/-! ## Lemmas on HashMap -/

namespace HashMap

variable {KEY T : Type} {thash : hashfunc KEY}

theorem hash_compress_range (m : HashMap KEY T thash) (hh : m.hash.NoAbsOverflow)
    (hb : 0 < m.bins) (k : KEY) :
    0 ≤ m.hash_compress k ∧ (m.hash_compress k).toNat < m.bins :=
  ⟨compress_nonneg (hh k) _, compress_toNat_lt (hh k) hb⟩

theorem ensure_of_exceeds (m : HashMap KEY T thash) (new_used : Nat)
    (hx : load_factor_exceeds new_used m.bins m.load_threshold = true) :
    m.ensure_load_threshold new_used =
      { m with bins := m.bins * 2,
               map := relink (fun e => compress (m.hash.call e.1) (m.bins * 2)) m.map m.bins
                        (List.replicate (m.bins * 2) []) } := by
  have hdiv : m.bins * 2 / 2 = m.bins := Nat.mul_div_cancel _ (by decide)
  simp only [ensure_load_threshold, hx, if_true, hdiv]
  rfl

theorem ensure_of_not_exceeds (m : HashMap KEY T thash) (new_used : Nat)
    (hx : load_factor_exceeds new_used m.bins m.load_threshold = false) :
    m.ensure_load_threshold new_used = m := by
  simp [ensure_load_threshold, hx]

theorem ensure_load_threshold_spec (m : HashMap KEY T thash) (new_used : Nat)
    (inv : BinsInv Prod.fst (fun k => m.hash_compress k) m.map m.bins)
    (hh : m.hash.NoAbsOverflow) :
    BinsInv Prod.fst (fun k => (m.ensure_load_threshold new_used).hash_compress k)
      (m.ensure_load_threshold new_used).map (m.ensure_load_threshold new_used).bins ∧
    (m.ensure_load_threshold new_used).map.flatten.Perm m.map.flatten ∧
    (m.ensure_load_threshold new_used).hash = m.hash ∧
    (m.ensure_load_threshold new_used).used = m.used ∧
    (m.ensure_load_threshold new_used).mod_count = m.mod_count ∧
    (m.ensure_load_threshold new_used).load_threshold = m.load_threshold ∧
    (m.ensure_load_threshold new_used).bins =
      (if load_factor_exceeds new_used m.bins m.load_threshold then m.bins * 2 else m.bins) := by
  cases hx : load_factor_exceeds new_used m.bins m.load_threshold with
  | true =>
    rw [ensure_of_exceeds m new_used hx]
    have hpos : 0 < m.bins * 2 := Nat.mul_pos inv.pos (by decide)
    obtain ⟨i2, p2⟩ := inv.rehash (d := fun k => compress (m.hash.call k) (m.bins * 2)) hpos
      (fun k => ⟨compress_nonneg (hh k) _, compress_toNat_lt (hh k) hpos⟩)
    exact ⟨i2, p2, rfl, rfl, rfl, rfl, rfl⟩
  | false =>
    rw [ensure_of_not_exceeds m new_used hx]
    exact ⟨inv, List.Perm.refl _, rfl, rfl, rfl, rfl, by simp⟩

theorem WF.find_key_some_iff [DecidableEq KEY] {m : HashMap KEY T thash} (hwf : m.WF)
    (k : KEY) (e : KEY × T) : m.find_key k = some e ↔ e ∈ m.map.flatten ∧ e.1 = k :=
  hwf.1.find_some_iff k e

theorem WF.find_key_none_iff [DecidableEq KEY] {m : HashMap KEY T thash} (hwf : m.WF)
    (k : KEY) : m.find_key k = none ↔ ∀ e ∈ m.map.flatten, e.1 ≠ k :=
  hwf.1.find_none_iff k

theorem put_of_some [DecidableEq KEY] (m : HashMap KEY T thash) (k : KEY) (v : T) (e : KEY × T)
    (hf : m.find_key k = some e) :
    m.put k v = (e.2, { m with
      mod_count := m.mod_count + 1,
      map := set_chain m.map (m.hash_compress k) (chain_assign k v (chain_at m.map (m.hash_compress k))) }) := by
  have hf2 : find_key ({ m with mod_count := m.mod_count + 1 } : HashMap KEY T thash) k = some e := hf
  simp only [put, hf2]
  rfl

theorem put_of_none [DecidableEq KEY] (m : HashMap KEY T thash) (k : KEY) (v : T)
    (hf : m.find_key k = none) :
    m.put k v = (v,
      { (({ m with mod_count := m.mod_count + 1, used := m.used + 1 } : HashMap KEY T thash).ensure_load_threshold (m.used + 1)) with
        map := set_chain
          (({ m with mod_count := m.mod_count + 1, used := m.used + 1 } : HashMap KEY T thash).ensure_load_threshold (m.used + 1)).map
          ((({ m with mod_count := m.mod_count + 1, used := m.used + 1 } : HashMap KEY T thash).ensure_load_threshold (m.used + 1)).hash_compress k)
          ((k, v) :: chain_at
            (({ m with mod_count := m.mod_count + 1, used := m.used + 1 } : HashMap KEY T thash).ensure_load_threshold (m.used + 1)).map
            ((({ m with mod_count := m.mod_count + 1, used := m.used + 1 } : HashMap KEY T thash).ensure_load_threshold (m.used + 1)).hash_compress k)) }) := by
  have hf2 : find_key ({ m with mod_count := m.mod_count + 1 } : HashMap KEY T thash) k = none := hf
  simp only [put, hf2]

/-- What `put` does to a well-formed table. -/
theorem put_spec [DecidableEq KEY] (m : HashMap KEY T thash) (hwf : m.WF)
    (hh : m.hash.NoAbsOverflow) (k : KEY) (v : T) :
    (m.put k v).2.WF ∧ (m.put k v).2.hash = m.hash ∧
    (m.put k v).2.load_threshold = m.load_threshold ∧
    (m.put k v).2.mod_count = m.mod_count + 1 ∧
    ((∃ e, m.find_key k = some e ∧ (m.put k v).1 = e.2 ∧ (m.put k v).2.used = m.used ∧
        (m.put k v).2.bins = m.bins ∧
        ∃ R, m.map.flatten.Perm (e :: R) ∧ (m.put k v).2.map.flatten.Perm ((k, v) :: R)) ∨
     (m.find_key k = none ∧ (m.put k v).1 = v ∧ (m.put k v).2.used = m.used + 1 ∧
        (m.put k v).2.bins =
          (if load_factor_exceeds (m.used + 1) m.bins m.load_threshold then m.bins * 2 else m.bins) ∧
        (m.put k v).2.map.flatten.Perm ((k, v) :: m.map.flatten))) := by
  cases hf : m.find_key k with
  | some e =>
    rw [put_of_some m k v e hf]
    obtain ⟨inv2, R, p1, p2⟩ := hwf.1.assign k v e hf
    refine ⟨⟨inv2, ?_⟩, rfl, rfl, rfl, Or.inl ⟨e, rfl, rfl, rfl, rfl, R, p1, p2⟩⟩
    show m.used = _
    rw [hwf.2, p1.length_eq, p2.length_eq]
    rfl
  | none =>
    rw [put_of_none m k v hf]
    obtain ⟨inv1, p1, h1, h2, h3, h4, h5⟩ := ensure_load_threshold_spec
      ({ m with mod_count := m.mod_count + 1, used := m.used + 1 } : HashMap KEY T thash)
      (m.used + 1) hwf.1 hh
    have hnew : ∀ e ∈ (({ m with mod_count := m.mod_count + 1, used := m.used + 1 } :
        HashMap KEY T thash).ensure_load_threshold (m.used + 1)).map.flatten, e.1 ≠ k := by
      intro e he
      exact (hwf.find_key_none_iff k).1 hf e (p1.subset he)
    have hr := hash_compress_range _ (show hashfunc.NoAbsOverflow _ from h1.symm ▸ hh) inv1.pos k
    obtain ⟨inv2, p2⟩ := inv1.push (k, v) hr.1 hr.2 hnew
    refine ⟨⟨inv2, ?_⟩, h1, h4, h3, Or.inr ⟨rfl, rfl, h2, h5, p2.trans (List.Perm.cons _ p1)⟩⟩
    show (({ m with mod_count := m.mod_count + 1, used := m.used + 1 } :
        HashMap KEY T thash).ensure_load_threshold (m.used + 1)).used = _
    rw [h2, p2.length_eq, List.length_cons, p1.length_eq]
    show m.used + 1 = _
    rw [hwf.2]

end HashMap

namespace HashMap

variable {KEY T : Type} {thash : hashfunc KEY}

theorem erase_of_none [DecidableEq KEY] (m : HashMap KEY T thash) (k : KEY)
    (hf : m.find_key k = none) : m.erase k = (Except.error IcsError.KeyError, m) := by
  simp only [erase, hf]

theorem erase_of_some [DecidableEq KEY] (m : HashMap KEY T thash) (k : KEY) (e : KEY × T)
    (hf : m.find_key k = some e) :
    m.erase k = (Except.ok e.2, { m with
      map := set_chain m.map (m.hash_compress k)
        (List.eraseP (fun p => decide (p.1 = k)) (chain_at m.map (m.hash_compress k))),
      mod_count := m.mod_count + 1,
      used := m.used - 1 }) := by
  simp only [erase, hf]

/-- What `erase` does to a well-formed table that holds the key. -/
theorem erase_spec [DecidableEq KEY] (m : HashMap KEY T thash) (hwf : m.WF) (k : KEY)
    (e : KEY × T) (hf : m.find_key k = some e) :
    (m.erase k).1 = Except.ok e.2 ∧ (m.erase k).2.WF ∧ (m.erase k).2.hash = m.hash ∧
    (m.erase k).2.bins = m.bins ∧ (m.erase k).2.load_threshold = m.load_threshold ∧
    (m.erase k).2.mod_count = m.mod_count + 1 ∧ (m.erase k).2.used + 1 = m.used ∧
    m.map.flatten.Perm (e :: (m.erase k).2.map.flatten) := by
  rw [erase_of_some m k e hf]
  obtain ⟨inv2, p⟩ := hwf.1.erase k e hf
  have hlen : m.used = (set_chain m.map (m.hash_compress k)
      (List.eraseP (fun p => decide (p.1 = k)) (chain_at m.map (m.hash_compress k)))).flatten.length + 1 := by
    rw [hwf.2, p.length_eq, List.length_cons]
  refine ⟨rfl, ⟨inv2, ?_⟩, rfl, rfl, rfl, rfl, ?_, p⟩
  · show m.used - 1 = (set_chain m.map (m.hash_compress k)
      (List.eraseP (fun p => decide (p.1 = k)) (chain_at m.map (m.hash_compress k)))).flatten.length
    omega
  · show m.used - 1 + 1 = m.used
    omega

/-- In a well-formed table the answer of `find_key` is fixed by the stored entries. -/
theorem find_key_congr [DecidableEq KEY] {th2 : hashfunc KEY} {m1 : HashMap KEY T thash}
    {m2 : HashMap KEY T th2} (h1 : m1.WF) (h2 : m2.WF) (k : KEY)
    (h : ∀ e : KEY × T, e.1 = k → (e ∈ m1.map.flatten ↔ e ∈ m2.map.flatten)) :
    m1.find_key k = m2.find_key k := by
  apply Option.ext
  intro e
  rw [Option.mem_def, Option.mem_def, h1.find_key_some_iff, h2.find_key_some_iff]
  constructor
  · rintro ⟨a, b⟩; exact ⟨(h e b).1 a, b⟩
  · rintro ⟨a, b⟩; exact ⟨(h e b).2 a, b⟩

theorem put_mem_iff [DecidableEq KEY] (m : HashMap KEY T thash) (hwf : m.WF)
    (hh : m.hash.NoAbsOverflow) (k : KEY) (v : T) (x : KEY × T) :
    x ∈ (m.put k v).2.map.flatten ↔ x = (k, v) ∨ (x ∈ m.map.flatten ∧ x.1 ≠ k) := by
  obtain ⟨_, _, _, _, h⟩ := put_spec m hwf hh k v
  rcases h with ⟨e, hf, _, _, _, R, p1, p2⟩ | ⟨hf, _, _, _, p⟩
  · have hek : e.1 = k := ((hwf.find_key_some_iff k e).1 hf).2
    have hnd : ((e :: R).map Prod.fst).Nodup := (p1.map Prod.fst).nodup_iff.1 hwf.1.nodup
    rw [List.map_cons, List.nodup_cons] at hnd
    rw [p2.mem_iff, List.mem_cons]
    constructor
    · rintro (h | h)
      · exact Or.inl h
      · refine Or.inr ⟨p1.mem_iff.2 (List.mem_cons_of_mem _ h), ?_⟩
        intro hx
        exact hnd.1 (List.mem_map.2 ⟨x, h, hx.trans hek.symm⟩)
    · rintro (h | ⟨h, hx⟩)
      · exact Or.inl h
      · rcases List.mem_cons.1 (p1.mem_iff.1 h) with rfl | h
        · exact absurd hek hx
        · exact Or.inr h
  · rw [p.mem_iff, List.mem_cons]
    constructor
    · rintro (h | h)
      · exact Or.inl h
      · exact Or.inr ⟨h, (hwf.find_key_none_iff k).1 hf x h⟩
    · rintro (h | ⟨h, _⟩)
      · exact Or.inl h
      · exact Or.inr h

theorem put_find_key_self [DecidableEq KEY] (m : HashMap KEY T thash) (hwf : m.WF)
    (hh : m.hash.NoAbsOverflow) (k : KEY) (v : T) :
    (m.put k v).2.find_key k = some (k, v) := by
  rw [(put_spec m hwf hh k v).1.find_key_some_iff]
  exact ⟨(put_mem_iff m hwf hh k v _).2 (Or.inl rfl), rfl⟩

theorem put_find_key_other [DecidableEq KEY] (m : HashMap KEY T thash) (hwf : m.WF)
    (hh : m.hash.NoAbsOverflow) (k : KEY) (v : T) (k2 : KEY) (hne : k2 ≠ k) :
    (m.put k v).2.find_key k2 = m.find_key k2 := by
  apply find_key_congr (put_spec m hwf hh k v).1 hwf
  intro e he
  rw [put_mem_iff m hwf hh k v]
  constructor
  · rintro (h | h)
    · exact absurd (by rw [← he, h]) hne
    · exact h.1
  · intro h
    exact Or.inr ⟨h, by rw [he]; exact hne⟩

theorem erase_mem_iff [DecidableEq KEY] (m : HashMap KEY T thash) (hwf : m.WF) (k : KEY)
    (e : KEY × T) (hf : m.find_key k = some e) (x : KEY × T) :
    x ∈ (m.erase k).2.map.flatten ↔ x ∈ m.map.flatten ∧ x.1 ≠ k := by
  obtain ⟨_, _, _, _, _, _, _, p⟩ := erase_spec m hwf k e hf
  have hek : e.1 = k := ((hwf.find_key_some_iff k e).1 hf).2
  have hnd := (p.map Prod.fst).nodup_iff.1 hwf.1.nodup
  rw [List.map_cons, List.nodup_cons] at hnd
  rw [p.mem_iff, List.mem_cons]
  constructor
  · intro h
    refine ⟨Or.inr h, ?_⟩
    intro hx
    exact hnd.1 (List.mem_map.2 ⟨x, h, hx.trans hek.symm⟩)
  · rintro ⟨h | h, hx⟩
    · exact absurd (h ▸ hek) hx
    · exact h

theorem erase_find_key_self [DecidableEq KEY] (m : HashMap KEY T thash) (hwf : m.WF) (k : KEY)
    (e : KEY × T) (hf : m.find_key k = some e) : (m.erase k).2.find_key k = none := by
  rw [(erase_spec m hwf k e hf).2.1.find_key_none_iff]
  intro x hx
  exact ((erase_mem_iff m hwf k e hf x).1 hx).2

theorem erase_find_key_other [DecidableEq KEY] (m : HashMap KEY T thash) (hwf : m.WF) (k : KEY)
    (e : KEY × T) (hf : m.find_key k = some e) (k2 : KEY) (hne : k2 ≠ k) :
    (m.erase k).2.find_key k2 = m.find_key k2 := by
  apply find_key_congr (erase_spec m hwf k e hf).2.1 hwf
  intro x hx
  rw [erase_mem_iff m hwf k e hf]
  constructor
  · exact fun h => h.1
  · exact fun h => ⟨h, by rw [hx]; exact hne⟩

theorem has_key_iff [DecidableEq KEY] {m : HashMap KEY T thash} (hwf : m.WF) (k : KEY) :
    m.has_key k = true ↔ k ∈ m.map.flatten.map Prod.fst := by
  unfold has_key
  rw [Option.isSome_iff_exists, List.mem_map]
  constructor
  · rintro ⟨e, he⟩
    exact ⟨e, (hwf.find_key_some_iff k e).1 he⟩
  · rintro ⟨e, he⟩
    exact ⟨e, (hwf.find_key_some_iff k e).2 he⟩

theorem has_key_put [DecidableEq KEY] (m : HashMap KEY T thash) (hwf : m.WF)
    (hh : m.hash.NoAbsOverflow) (k : KEY) (v : T) (k2 : KEY) :
    (m.put k v).2.has_key k2 = true ↔ k2 = k ∨ m.has_key k2 = true := by
  by_cases hk : k2 = k
  · subst hk
    simp [has_key, put_find_key_self m hwf hh]
  · simp [has_key, put_find_key_other m hwf hh k v k2 hk, hk]

theorem fresh_WF (hash : hashfunc KEY) (t : Threshold) (bins : Nat) (hb : 0 < bins) :
    (fresh thash hash t bins : HashMap KEY T thash).WF := by
  refine ⟨⟨by simp [fresh], hb, ?_, ?_⟩, ?_⟩
  · intro i e he
    simp only [fresh, chain_at_replicate_nil] at he
    cases he
  · simp [fresh, flatten_replicate_nil_chain]
  · simp [fresh, flatten_replicate_nil_chain]

theorem puts_nil [DecidableEq KEY] (m : HashMap KEY T thash) : m.puts [] = m := rfl

theorem puts_cons [DecidableEq KEY] (m : HashMap KEY T thash) (e : KEY × T) (l : List (KEY × T)) :
    m.puts (e :: l) = (m.put e.1 e.2).2.puts l := rfl

theorem puts_append [DecidableEq KEY] (m : HashMap KEY T thash) (l1 l2 : List (KEY × T)) :
    m.puts (l1 ++ l2) = (m.puts l1).puts l2 := by
  simp [puts, List.foldl_append]

/-- A sequence of `put` calls on a well-formed table: the keys afterwards are the old keys
together with the keys put, and `used` counts them. -/
theorem puts_spec [DecidableEq KEY] (kvs : List (KEY × T)) :
    ∀ (m : HashMap KEY T thash), m.WF → m.hash.NoAbsOverflow →
      (m.puts kvs).WF ∧ (m.puts kvs).hash = m.hash ∧
      (m.puts kvs).load_threshold = m.load_threshold ∧
      (m.puts kvs).mod_count = m.mod_count + kvs.length ∧
      (∀ k, (m.puts kvs).has_key k = true ↔ m.has_key k = true ∨ k ∈ kvs.map Prod.fst) := by
  induction kvs with
  | nil => intro m hwf _; exact ⟨hwf, rfl, rfl, rfl, by simp [puts_nil]⟩
  | cons e rest ih =>
    intro m hwf hh
    obtain ⟨w1, h1, t1, c1, _⟩ := put_spec m hwf hh e.1 e.2
    obtain ⟨w2, h2, t2, c2, k2⟩ := ih (m.put e.1 e.2).2 w1 (h1.symm ▸ hh)
    rw [puts_cons]
    refine ⟨w2, h2.trans h1, t2.trans t1, ?_, ?_⟩
    · rw [c2, c1, List.length_cons]; omega
    · intro k
      rw [k2 k, has_key_put m hwf hh]
      simp only [List.map_cons, List.mem_cons]
      tauto

theorem WF.used_eq_card [DecidableEq KEY] {m : HashMap KEY T thash} (hwf : m.WF) :
    m.used = (m.map.flatten.map Prod.fst).toFinset.card := by
  rw [List.toFinset_card_of_nodup hwf.1.nodup, List.length_map]
  exact hwf.2

theorem WF.used_eq_of_keys [DecidableEq KEY] {m : HashMap KEY T thash} (hwf : m.WF)
    (ks : List KEY) (h : ∀ k, m.has_key k = true ↔ k ∈ ks) : m.used = ks.dedup.length := by
  rw [hwf.used_eq_card, ← List.card_toFinset]
  congr 1
  ext k
  rw [List.mem_toFinset, List.mem_toFinset, ← has_key_iff hwf, h]

end HashMap

/-! ## Lemmas on HashSet -/

namespace HashSet

variable {T : Type} {thash : hashfunc T}

theorem set_hash_compress_range (s : HashSet T thash) (hh : s.hash.NoAbsOverflow)
    (hb : 0 < s.bins) (v : T) :
    0 ≤ s.hash_compress v ∧ (s.hash_compress v).toNat < s.bins :=
  ⟨compress_nonneg (hh v) _, compress_toNat_lt (hh v) hb⟩

theorem set_ensure_of_exceeds (s : HashSet T thash) (new_used : Nat)
    (hx : load_factor_exceeds new_used s.bins s.load_threshold = true) :
    s.ensure_load_threshold new_used =
      { s with bins := s.bins * 2,
               set := relink (fun e => compress (s.hash.call e) (s.bins * 2)) s.set s.bins
                        (List.replicate (s.bins * 2) []) } := by
  have hdiv : s.bins * 2 / 2 = s.bins := Nat.mul_div_cancel _ (by decide)
  simp only [ensure_load_threshold, hx, if_true, hdiv]
  rfl

theorem set_ensure_of_not_exceeds (s : HashSet T thash) (new_used : Nat)
    (hx : load_factor_exceeds new_used s.bins s.load_threshold = false) :
    s.ensure_load_threshold new_used = s := by
  simp [ensure_load_threshold, hx]

theorem set_ensure_load_threshold_spec (s : HashSet T thash) (new_used : Nat)
    (inv : BinsInv id (fun v => s.hash_compress v) s.set s.bins)
    (hh : s.hash.NoAbsOverflow) :
    BinsInv id (fun v => (s.ensure_load_threshold new_used).hash_compress v)
      (s.ensure_load_threshold new_used).set (s.ensure_load_threshold new_used).bins ∧
    (s.ensure_load_threshold new_used).set.flatten.Perm s.set.flatten ∧
    (s.ensure_load_threshold new_used).hash = s.hash ∧
    (s.ensure_load_threshold new_used).used = s.used ∧
    (s.ensure_load_threshold new_used).mod_count = s.mod_count ∧
    (s.ensure_load_threshold new_used).load_threshold = s.load_threshold ∧
    (s.ensure_load_threshold new_used).bins =
      (if load_factor_exceeds new_used s.bins s.load_threshold then s.bins * 2 else s.bins) := by
  cases hx : load_factor_exceeds new_used s.bins s.load_threshold with
  | true =>
    rw [set_ensure_of_exceeds s new_used hx]
    have hpos : 0 < s.bins * 2 := Nat.mul_pos inv.pos (by decide)
    obtain ⟨i2, p2⟩ := inv.rehash (d := fun v => compress (s.hash.call v) (s.bins * 2)) hpos
      (fun v => ⟨compress_nonneg (hh v) _, compress_toNat_lt (hh v) hpos⟩)
    exact ⟨i2, p2, rfl, rfl, rfl, rfl, rfl⟩
  | false =>
    rw [set_ensure_of_not_exceeds s new_used hx]
    exact ⟨inv, List.Perm.refl _, rfl, rfl, rfl, rfl, by simp⟩

theorem WF.find_element_some_iff [DecidableEq T] {s : HashSet T thash} (hwf : s.WF)
    (v e : T) : s.find_element v = some e ↔ e ∈ s.set.flatten ∧ e = v :=
  hwf.1.find_some_iff v e

theorem WF.find_element_none_iff [DecidableEq T] {s : HashSet T thash} (hwf : s.WF)
    (v : T) : s.find_element v = none ↔ v ∉ s.set.flatten := by
  rw [show s.find_element v = none ↔ ∀ e ∈ s.set.flatten, id e ≠ v from hwf.1.find_none_iff v]
  constructor
  · intro h hv; exact h v hv rfl
  · intro h e he hev; exact h (hev ▸ he)

theorem contains_iff [DecidableEq T] {s : HashSet T thash} (hwf : s.WF) (v : T) :
    s.contains v = true ↔ v ∈ s.set.flatten := by
  unfold contains
  cases hf : s.find_element v with
  | none =>
    constructor
    · intro h; cases h
    · intro h; exact absurd h ((hwf.find_element_none_iff v).1 hf)
  | some e =>
    have h2 := (hwf.find_element_some_iff v e).1 hf
    have hv : v ∈ s.set.flatten := h2.2 ▸ h2.1
    exact ⟨fun _ => hv, fun _ => rfl⟩

theorem push_spec (X : HashSet T thash)
    (inv : BinsInv id (fun v => X.hash_compress v) X.set X.bins) (hh : X.hash.NoAbsOverflow)
    (v : T) (hnew : v ∉ X.set.flatten) :
    BinsInv id (fun v => X.hash_compress v)
      (set_chain X.set (X.hash_compress v) (v :: chain_at X.set (X.hash_compress v))) X.bins ∧
    (set_chain X.set (X.hash_compress v) (v :: chain_at X.set (X.hash_compress v))).flatten.Perm
      (v :: X.set.flatten) := by
  have hr := set_hash_compress_range X hh inv.pos v
  have hnew2 : ∀ e ∈ X.set.flatten, id e ≠ id v := by
    intro e he hev
    have hev2 : e = v := hev
    exact hnew (hev2 ▸ he)
  exact inv.push v hr.1 hr.2 hnew2

theorem insert_of_some [DecidableEq T] (s : HashSet T thash) (v e : T)
    (hf : s.find_element v = some e) :
    s.insert v = (0, { s with mod_count := s.mod_count + 1 }) := by
  have hf2 : find_element ({ s with mod_count := s.mod_count + 1 } : HashSet T thash) v = some e := hf
  simp only [insert, hf2]

theorem insert_of_none [DecidableEq T] (s : HashSet T thash) (v : T)
    (hf : s.find_element v = none) :
    s.insert v = (1,
      { (({ s with mod_count := s.mod_count + 1, used := s.used + 1 } : HashSet T thash).ensure_load_threshold (s.used + 1)) with
        set := set_chain
          (({ s with mod_count := s.mod_count + 1, used := s.used + 1 } : HashSet T thash).ensure_load_threshold (s.used + 1)).set
          ((({ s with mod_count := s.mod_count + 1, used := s.used + 1 } : HashSet T thash).ensure_load_threshold (s.used + 1)).hash_compress v)
          (v :: chain_at
            (({ s with mod_count := s.mod_count + 1, used := s.used + 1 } : HashSet T thash).ensure_load_threshold (s.used + 1)).set
            ((({ s with mod_count := s.mod_count + 1, used := s.used + 1 } : HashSet T thash).ensure_load_threshold (s.used + 1)).hash_compress v)) }) := by
  have hf2 : find_element ({ s with mod_count := s.mod_count + 1 } : HashSet T thash) v = none := hf
  simp only [insert, hf2]

/-- What `insert` does to a well-formed set. -/
theorem insert_spec [DecidableEq T] (s : HashSet T thash) (hwf : s.WF)
    (hh : s.hash.NoAbsOverflow) (v : T) :
    (s.insert v).2.WF ∧ (s.insert v).2.hash = s.hash ∧
    (s.insert v).2.load_threshold = s.load_threshold ∧
    (s.insert v).2.mod_count = s.mod_count + 1 ∧
    ((s.contains v = true ∧ (s.insert v).1 = 0 ∧ (s.insert v).2.used = s.used ∧
        (s.insert v).2.bins = s.bins ∧ (s.insert v).2.set = s.set) ∨
     (s.contains v = false ∧ (s.insert v).1 = 1 ∧ (s.insert v).2.used = s.used + 1 ∧
        (s.insert v).2.bins =
          (if load_factor_exceeds (s.used + 1) s.bins s.load_threshold then s.bins * 2 else s.bins) ∧
        (s.insert v).2.set.flatten.Perm (v :: s.set.flatten))) := by
  cases hf : s.find_element v with
  | some e =>
    rw [insert_of_some s v e hf]
    exact ⟨hwf, rfl, rfl, rfl, Or.inl ⟨by simp [contains, hf], rfl, rfl, rfl, rfl⟩⟩
  | none =>
    rw [insert_of_none s v hf]
    obtain ⟨inv1, p1, h1, h2, h3, h4, h5⟩ := set_ensure_load_threshold_spec
      ({ s with mod_count := s.mod_count + 1, used := s.used + 1 } : HashSet T thash)
      (s.used + 1) hwf.1 hh
    have hnew : v ∉ (({ s with mod_count := s.mod_count + 1, used := s.used + 1 } :
        HashSet T thash).ensure_load_threshold (s.used + 1)).set.flatten := by
      intro he
      exact (hwf.find_element_none_iff v).1 hf (p1.subset he)
    obtain ⟨inv2, p2⟩ := push_spec _ inv1 (show hashfunc.NoAbsOverflow _ from h1.symm ▸ hh) v hnew
    refine ⟨⟨inv2, ?_⟩, h1, h4, h3, Or.inr ⟨by simp [contains, hf], rfl, h2, h5,
      p2.trans (List.Perm.cons _ p1)⟩⟩
    show (({ s with mod_count := s.mod_count + 1, used := s.used + 1 } :
        HashSet T thash).ensure_load_threshold (s.used + 1)).used = _
    rw [h2, p2.length_eq, List.length_cons, p1.length_eq]
    show s.used + 1 = _
    rw [hwf.2]

theorem contains_insert [DecidableEq T] (s : HashSet T thash) (hwf : s.WF)
    (hh : s.hash.NoAbsOverflow) (v v2 : T) :
    (s.insert v).2.contains v2 = true ↔ v2 = v ∨ s.contains v2 = true := by
  obtain ⟨w, _, _, _, h⟩ := insert_spec s hwf hh v
  rw [contains_iff w, contains_iff hwf]
  rcases h with ⟨hc, _, _, _, hs⟩ | ⟨_, _, _, _, p⟩
  · rw [hs]
    constructor
    · exact Or.inr
    · rintro (rfl | h)
      · exact (contains_iff hwf _).1 hc
      · exact h
  · rw [p.mem_iff, List.mem_cons]

theorem set_erase_of_none [DecidableEq T] (s : HashSet T thash) (v : T)
    (hf : s.find_element v = none) : s.erase v = (0, s) := by
  simp only [erase, hf]

theorem set_erase_of_some [DecidableEq T] (s : HashSet T thash) (v e : T)
    (hf : s.find_element v = some e) :
    s.erase v = (1, { s with
      set := set_chain s.set (s.hash_compress v)
        (List.eraseP (fun p => decide (p = v)) (chain_at s.set (s.hash_compress v))),
      mod_count := s.mod_count + 1,
      used := s.used - 1 }) := by
  simp only [erase, hf]

/-- What `erase` does to a well-formed set that holds the element. -/
theorem set_erase_spec [DecidableEq T] (s : HashSet T thash) (hwf : s.WF) (v : T)
    (hc : s.contains v = true) :
    (s.erase v).1 = 1 ∧ (s.erase v).2.WF ∧ (s.erase v).2.hash = s.hash ∧
    (s.erase v).2.bins = s.bins ∧ (s.erase v).2.load_threshold = s.load_threshold ∧
    (s.erase v).2.mod_count = s.mod_count + 1 ∧ (s.erase v).2.used + 1 = s.used ∧
    s.set.flatten.Perm (v :: (s.erase v).2.set.flatten) := by
  obtain ⟨e, hf⟩ := Option.isSome_iff_exists.1 hc
  have hev : e = v := ((hwf.find_element_some_iff v e).1 hf).2
  subst hev
  rw [set_erase_of_some s e e hf]
  obtain ⟨inv2, p⟩ := hwf.1.erase e e hf
  have hlen : s.used = (set_chain s.set (s.hash_compress e)
      (List.eraseP (fun p => decide (p = e)) (chain_at s.set (s.hash_compress e)))).flatten.length + 1 := by
    rw [hwf.2, p.length_eq, List.length_cons]
    rfl
  refine ⟨rfl, ⟨inv2, ?_⟩, rfl, rfl, rfl, rfl, ?_, p⟩
  · show s.used - 1 = (set_chain s.set (s.hash_compress e)
      (List.eraseP (fun p => decide (p = e)) (chain_at s.set (s.hash_compress e)))).flatten.length
    omega
  · show s.used - 1 + 1 = s.used
    omega

theorem contains_erase [DecidableEq T] (s : HashSet T thash) (hwf : s.WF) (v : T)
    (hc : s.contains v = true) (v2 : T) :
    (s.erase v).2.contains v2 = true ↔ v2 ≠ v ∧ s.contains v2 = true := by
  obtain ⟨_, w, _, _, _, _, _, p⟩ := set_erase_spec s hwf v hc
  have hnd := (p.map id).nodup_iff.1 hwf.1.nodup
  rw [List.map_cons, List.nodup_cons, List.map_id] at hnd
  rw [contains_iff w, contains_iff hwf, p.mem_iff, List.mem_cons]
  constructor
  · intro h
    refine ⟨?_, Or.inr h⟩
    rintro rfl
    exact hnd.1 h
  · rintro ⟨hne, h | h⟩
    · exact absurd h hne
    · exact h

theorem set_fresh_WF (hash : hashfunc T) (t : Threshold) (bins : Nat) (hb : 0 < bins) :
    (fresh thash hash t bins : HashSet T thash).WF := by
  refine ⟨⟨by simp [fresh], hb, ?_, ?_⟩, ?_⟩
  · intro i e he
    simp only [fresh, chain_at_replicate_nil] at he
    cases he
  · simp [fresh, flatten_replicate_nil_chain]
  · simp [fresh, flatten_replicate_nil_chain]

theorem inserts_nil [DecidableEq T] (s : HashSet T thash) : s.inserts [] = s := rfl

theorem inserts_cons [DecidableEq T] (s : HashSet T thash) (v : T) (l : List T) :
    s.inserts (v :: l) = (s.insert v).2.inserts l := rfl

theorem inserts_append [DecidableEq T] (s : HashSet T thash) (l1 l2 : List T) :
    s.inserts (l1 ++ l2) = (s.inserts l1).inserts l2 := by
  simp [inserts, List.foldl_append]

/-- A sequence of `insert` calls on a well-formed set: the elements afterwards are the old
elements together with the elements inserted. -/
theorem inserts_spec [DecidableEq T] (vs : List T) :
    ∀ (s : HashSet T thash), s.WF → s.hash.NoAbsOverflow →
      (s.inserts vs).WF ∧ (s.inserts vs).hash = s.hash ∧
      (s.inserts vs).load_threshold = s.load_threshold ∧
      (s.inserts vs).mod_count = s.mod_count + vs.length ∧
      (∀ v, (s.inserts vs).contains v = true ↔ s.contains v = true ∨ v ∈ vs) := by
  induction vs with
  | nil => intro s hwf _; exact ⟨hwf, rfl, rfl, rfl, by simp [inserts_nil]⟩
  | cons e rest ih =>
    intro s hwf hh
    obtain ⟨w1, h1, t1, c1, _⟩ := insert_spec s hwf hh e
    obtain ⟨w2, h2, t2, c2, k2⟩ := ih (s.insert e).2 w1 (h1.symm ▸ hh)
    rw [inserts_cons]
    refine ⟨w2, h2.trans h1, t2.trans t1, ?_, ?_⟩
    · rw [c2, c1, List.length_cons]; omega
    · intro k
      rw [k2 k, contains_insert s hwf hh]
      simp only [List.mem_cons]
      tauto

theorem WF.used_eq_of_elems [DecidableEq T] {s : HashSet T thash} (hwf : s.WF)
    (vs : List T) (h : ∀ v, s.contains v = true ↔ v ∈ vs) : s.used = vs.dedup.length := by
  have hnd : s.set.flatten.Nodup := by simpa using hwf.1.nodup
  rw [hwf.2, ← List.toFinset_card_of_nodup hnd, ← List.card_toFinset]
  congr 1
  ext v
  rw [List.mem_toFinset, List.mem_toFinset, ← contains_iff hwf, h]

end HashSet

/-! ## Constructors -/

theorem initial_bins_pos (initial_bins : Int) :
    0 < (if initial_bins < 1 then 1 else initial_bins.toNat) := by
  split
  · decide
  · omega

namespace HashMap

variable {KEY T : Type} {thash : hashfunc KEY}

theorem ctor_default_ok {t : Threshold} {chash : hashfunc KEY} {m0 : HashMap KEY T thash}
    (h : ctor_default thash t chash = Except.ok m0) :
    m0 = fresh thash (pick_hash thash chash) t 1 := by
  unfold ctor_default at h
  simp only [] at h
  split at h
  · cases h
  · split at h
    · cases h
    · injection h with h; exact h.symm

theorem ctor_bins_ok {n : Int} {t : Threshold} {chash : hashfunc KEY} {m0 : HashMap KEY T thash}
    (h : ctor_bins thash n t chash = Except.ok m0) :
    m0 = fresh thash (pick_hash thash chash) t (if n < 1 then 1 else n.toNat) := by
  unfold ctor_bins at h
  simp only [] at h
  split at h
  · cases h
  · split at h
    · cases h
    · injection h with h; exact h.symm

/-- A table made by the default or the `initial_bins` constructor is an empty array of at
least one bin. -/
theorem ctor_empty {n : Int} {t : Threshold} {chash : hashfunc KEY} {m0 : HashMap KEY T thash}
    (h : ctor_default thash t chash = Except.ok m0 ∨ ctor_bins thash n t chash = Except.ok m0) :
    ∃ b, 0 < b ∧ m0 = fresh thash (pick_hash thash chash) t b := by
  rcases h with h | h
  · exact ⟨1, by decide, ctor_default_ok h⟩
  · exact ⟨_, initial_bins_pos n, ctor_bins_ok h⟩

theorem has_key_fresh [DecidableEq KEY] (hash : hashfunc KEY) (t : Threshold) (b : Nat) (k : KEY) :
    (fresh thash hash t b : HashMap KEY T thash).has_key k = false := by
  simp [has_key, find_key, fresh, chain_at_replicate_nil]

end HashMap

namespace HashSet

variable {T : Type} {thash : hashfunc T}

theorem set_ctor_default_ok {t : Threshold} {chash : hashfunc T} {s0 : HashSet T thash}
    (h : ctor_default thash t chash = Except.ok s0) :
    s0 = fresh thash (pick_hash thash chash) t 1 := by
  unfold ctor_default at h
  simp only [] at h
  split at h
  · cases h
  · split at h
    · cases h
    · injection h with h; exact h.symm

theorem set_ctor_bins_ok {n : Int} {t : Threshold} {chash : hashfunc T} {s0 : HashSet T thash}
    (h : ctor_bins thash n t chash = Except.ok s0) :
    s0 = fresh thash (pick_hash thash chash) t (if n < 1 then 1 else n.toNat) := by
  unfold ctor_bins at h
  simp only [] at h
  split at h
  · cases h
  · split at h
    · cases h
    · injection h with h; exact h.symm

theorem set_ctor_empty {n : Int} {t : Threshold} {chash : hashfunc T} {s0 : HashSet T thash}
    (h : ctor_default thash t chash = Except.ok s0 ∨ ctor_bins thash n t chash = Except.ok s0) :
    ∃ b, 0 < b ∧ s0 = fresh thash (pick_hash thash chash) t b := by
  rcases h with h | h
  · exact ⟨1, by decide, set_ctor_default_ok h⟩
  · exact ⟨_, initial_bins_pos n, set_ctor_bins_ok h⟩

theorem contains_fresh [DecidableEq T] (hash : hashfunc T) (t : Threshold) (b : Nat) (v : T) :
    (fresh thash hash t b : HashSet T thash).contains v = false := by
  simp [contains, find_element, fresh, chain_at_replicate_nil]

end HashSet


theorem natHash_noAbsOverflow : natHash.NoAbsOverflow := by
  intro k
  simp only [natHash, INT_MIN]
  omega

theorem natHash2_noAbsOverflow : natHash2.NoAbsOverflow := by
  intro k
  simp only [natHash2, INT_MIN]
  omega

theorem find_chain_assign {KEY T : Type} [DecidableEq KEY] (key : KEY) (value : T)
    (chain : List (KEY × T)) (e : KEY × T)
    (h : chain.find? (fun p => decide (p.1 = key)) = some e) :
    (chain_assign key value chain).find? (fun p => decide (p.1 = key)) = some (e.1, value) := by
  induction chain with
  | nil => simp at h
  | cons a rest ih =>
    by_cases ha : a.1 = key
    · simp [List.find?_cons, ha] at h
      subst h
      simp [chain_assign, ha, List.find?_cons]
    · simp [List.find?_cons, ha] at h
      simp [chain_assign, ha, List.find?_cons, ih h]

namespace HashMap

variable {KEY T : Type} {thash : hashfunc KEY}

theorem index_const_ok_iff [DecidableEq KEY] (m : HashMap KEY T thash) (k : KEY) (v : T) :
    m.index_const k = Except.ok v ↔ ∃ e, m.find_key k = some e ∧ e.2 = v := by
  unfold index_const
  cases hf : m.find_key k with
  | none => simp
  | some e =>
    simp only [Option.some.injEq, exists_eq_left']
    constructor
    · intro h; injection h
    · intro h; rw [h]

theorem find_key_put_present [DecidableEq KEY] (m : HashMap KEY T thash) (k : KEY) (v2 : T)
    (e : KEY × T) (hf : m.find_key k = some e) :
    (m.put k v2).2.find_key k = some (e.1, v2) := by
  rw [put_of_some m k v2 e hf]
  have hmem : e ∈ chain_at m.map (m.hash_compress k) := List.mem_of_find?_eq_some hf
  obtain ⟨h0, h1⟩ := index_in_range_of_mem _ _ _ hmem
  show (chain_at (set_chain m.map (m.hash_compress k) _) (m.hash_compress k)).find? _ = _
  rw [chain_at_set_chain_same _ _ h0 h1]
  exact find_chain_assign k v2 _ e hf

end HashMap

theorem HashMap.index_const_congr {KEY T : Type} [DecidableEq KEY] {thash th2 : hashfunc KEY}
    (m1 : HashMap KEY T thash) (m2 : HashMap KEY T th2) (k : KEY)
    (h : m1.find_key k = m2.find_key k) : m1.index_const k = m2.index_const k := by
  simp only [HashMap.index_const, h]

namespace HashMap

variable {KEY T : Type} {thash : hashfunc KEY}

theorem has_key_erase [DecidableEq KEY] (m : HashMap KEY T thash) (hwf : m.WF) (k : KEY)
    (hk : m.has_key k = true) (k2 : KEY) :
    (m.erase k).2.has_key k2 = true ↔ k2 ≠ k ∧ m.has_key k2 = true := by
  obtain ⟨e, hf⟩ := Option.isSome_iff_exists.1 hk
  by_cases hne : k2 = k
  · subst hne
    simp [has_key, erase_find_key_self m hwf k2 e hf]
  · simp [has_key, erase_find_key_other m hwf k e hf k2 hne, hne]

theorem erases_nil [DecidableEq KEY] (m : HashMap KEY T thash) : m.erases [] = ([], m) := rfl

theorem erases_cons [DecidableEq KEY] (m : HashMap KEY T thash) (k : KEY) (ks : List KEY) :
    m.erases (k :: ks) =
      ((m.erase k).1 :: ((m.erase k).2.erases ks).1, ((m.erase k).2.erases ks).2) := rfl

/-- A sequence of `erase` calls on distinct keys that are all present: every call
succeeds, and exactly the erased keys are gone. -/
theorem erases_spec [DecidableEq KEY] (ks : List KEY) :
    ∀ (m : HashMap KEY T thash), m.WF → ks.Nodup → (∀ k ∈ ks, m.has_key k = true) →
      (∀ r ∈ (m.erases ks).1, ∃ v, r = Except.ok v) ∧ (m.erases ks).2.WF ∧
      (m.erases ks).2.hash = m.hash ∧ (m.erases ks).2.bins = m.bins ∧
      (∀ k, (m.erases ks).2.has_key k = true ↔ m.has_key k = true ∧ k ∉ ks) := by
  induction ks with
  | nil => intro m hwf _ _; exact ⟨by simp [erases_nil], hwf, rfl, rfl, by simp [erases_nil]⟩
  | cons k rest ih =>
    intro m hwf hnd hall
    have hk : m.has_key k = true := hall k (List.mem_cons_self _ _)
    obtain ⟨e, hf⟩ := Option.isSome_iff_exists.1 hk
    obtain ⟨r1, w1, h1, b1, _⟩ := erase_spec m hwf k e hf
    rw [List.nodup_cons] at hnd
    have hall2 : ∀ k2 ∈ rest, (m.erase k).2.has_key k2 = true := by
      intro k2 hk2
      rw [has_key_erase m hwf k hk]
      refine ⟨?_, hall k2 (List.mem_cons_of_mem _ hk2)⟩
      rintro rfl
      exact hnd.1 hk2
    obtain ⟨r2, w2, h2, b2, k2⟩ := ih (m.erase k).2 w1 hnd.2 hall2
    rw [erases_cons]
    refine ⟨?_, w2, h2.trans h1, b2.trans b1, ?_⟩
    · intro r hr
      rcases List.mem_cons.1 hr with rfl | hr
      · exact ⟨_, r1⟩
      · exact r2 r hr
    · intro x
      rw [k2 x, has_key_erase m hwf k hk]
      simp only [List.mem_cons, not_or]
      tauto

theorem WF.chains_nil_of_used_zero {m : HashMap KEY T thash} (hwf : m.WF) (h0 : m.used = 0)
    (i : Int) : chain_at m.map i = [] := by
  have hlen : m.map.flatten.length = 0 := by rw [← hwf.2]; exact h0
  have hnil : m.map.flatten = [] := List.length_eq_zero.1 hlen
  apply List.eq_nil_iff_forall_not_mem.2
  intro e he
  have := chain_at_subset_flatten _ _ e he
  rw [hnil] at this
  cases this

theorem op_eq_of_empty [DecidableEq KEY] [DecidableEq T] (a b : HashMap KEY T thash)
    (ha : a.used = 0) (hb : b.used = 0) (hch : ∀ i : Int, chain_at a.map i = []) :
    a.op_eq b = true := by
  simp [op_eq, size, ha, hb, hch]

end HashMap

namespace HashSet

variable {T : Type} {thash : hashfunc T}

theorem set_erases_nil [DecidableEq T] (s : HashSet T thash) : s.erases [] = ([], s) := rfl

theorem set_erases_cons [DecidableEq T] (s : HashSet T thash) (v : T) (vs : List T) :
    s.erases (v :: vs) =
      ((s.erase v).1 :: ((s.erase v).2.erases vs).1, ((s.erase v).2.erases vs).2) := rfl

/-- A sequence of `erase` calls on distinct elements that are all present: every call
returns `1`, and exactly the erased elements are gone. -/
theorem set_erases_spec [DecidableEq T] (vs : List T) :
    ∀ (s : HashSet T thash), s.WF → vs.Nodup → (∀ v ∈ vs, s.contains v = true) →
      (∀ r ∈ (s.erases vs).1, r = 1) ∧ (s.erases vs).2.WF ∧
      (s.erases vs).2.hash = s.hash ∧ (s.erases vs).2.bins = s.bins ∧
      (∀ v, (s.erases vs).2.contains v = true ↔ s.contains v = true ∧ v ∉ vs) := by
  induction vs with
  | nil =>
    intro s hwf _ _
    exact ⟨by simp [set_erases_nil], hwf, rfl, rfl, by simp [set_erases_nil]⟩
  | cons v rest ih =>
    intro s hwf hnd hall
    have hv : s.contains v = true := hall v (List.mem_cons_self _ _)
    obtain ⟨r1, w1, h1, b1, _⟩ := set_erase_spec s hwf v hv
    rw [List.nodup_cons] at hnd
    have hall2 : ∀ v2 ∈ rest, (s.erase v).2.contains v2 = true := by
      intro v2 hv2
      rw [contains_erase s hwf v hv]
      refine ⟨?_, hall v2 (List.mem_cons_of_mem _ hv2)⟩
      rintro rfl
      exact hnd.1 hv2
    obtain ⟨r2, w2, h2, b2, k2⟩ := ih (s.erase v).2 w1 hnd.2 hall2
    rw [set_erases_cons]
    refine ⟨?_, w2, h2.trans h1, b2.trans b1, ?_⟩
    · intro r hr
      rcases List.mem_cons.1 hr with rfl | hr
      · exact r1
      · exact r2 r hr
    · intro x
      rw [k2 x, contains_erase s hwf v hv]
      simp only [List.mem_cons, not_or]
      tauto

theorem WF.set_chains_nil_of_used_zero {s : HashSet T thash} (hwf : s.WF) (h0 : s.used = 0)
    (i : Int) : chain_at s.set i = [] := by
  have hlen : s.set.flatten.length = 0 := by rw [← hwf.2]; exact h0
  have hnil : s.set.flatten = [] := List.length_eq_zero.1 hlen
  apply List.eq_nil_iff_forall_not_mem.2
  intro e he
  have := chain_at_subset_flatten _ _ e he
  rw [hnil] at this
  cases this

theorem set_op_eq_of_empty [DecidableEq T] (a b : HashSet T thash)
    (ha : a.used = 0) (hb : b.used = 0) (hch : ∀ i : Int, chain_at a.set i = []) :
    a.op_eq b = true := by
  simp [op_eq, size, ha, hb, hch]

end HashSet

theorem load_factor_exceeds_one (n b : Nat) :
    load_factor_exceeds n b Threshold.one = decide (b < n) := by
  simp [load_factor_exceeds, Threshold.one]

/-- The bin count `b` is the least power of two that is at least `n`, or `1` when `n = 0`. -/
theorem least_pow_step (n b : Nat)
    (h : ∃ k, b = 2 ^ k ∧ n ≤ b ∧ (n = 0 → b = 1) ∧ (1 ≤ n → b < 2 * n)) :
    ∃ k, (if load_factor_exceeds (n + 1) b Threshold.one then b * 2 else b) = 2 ^ k ∧
      n + 1 ≤ (if load_factor_exceeds (n + 1) b Threshold.one then b * 2 else b) ∧
      (n + 1 = 0 → (if load_factor_exceeds (n + 1) b Threshold.one then b * 2 else b) = 1) ∧
      (1 ≤ n + 1 → (if load_factor_exceeds (n + 1) b Threshold.one then b * 2 else b) < 2 * (n + 1)) := by
  obtain ⟨k, hk, h1, h2, h3⟩ := h
  rw [load_factor_exceeds_one]
  by_cases hlt : b < n + 1
  · have e : (if decide (b < n + 1) = true then b * 2 else b) = b * 2 :=
      if_pos (decide_eq_true hlt)
    rw [e]
    refine ⟨k + 1, by rw [hk, pow_succ], by omega, fun h => absurd h (Nat.succ_ne_zero n), ?_⟩
    intro _
    omega
  · have e : (if decide (b < n + 1) = true then b * 2 else b) = b :=
      if_neg (by simpa using hlt)
    rw [e]
    refine ⟨k, hk, by omega, fun h => absurd h (Nat.succ_ne_zero n), ?_⟩
    intro _
    by_cases hn : n = 0
    · have := h2 hn; omega
    · have := h3 (by omega); omega

theorem least_pow_final (n b : Nat) (hn : 1 ≤ n)
    (h : ∃ k, b = 2 ^ k ∧ n ≤ b ∧ (n = 0 → b = 1) ∧ (1 ≤ n → b < 2 * n)) :
    ∃ k, b = 2 ^ k ∧ n ≤ 2 ^ k ∧ ∀ j, n ≤ 2 ^ j → 2 ^ k ≤ 2 ^ j := by
  obtain ⟨k, hk, h1, _, h3⟩ := h
  refine ⟨k, hk, hk ▸ h1, ?_⟩
  intro j hj
  have h4 : 2 ^ k < 2 ^ (j + 1) := by
    rw [pow_succ, ← hk]
    have := h3 hn
    omega
  have h5 : k < j + 1 := (Nat.pow_lt_pow_iff_right (by decide)).1 h4
  exact Nat.pow_le_pow_right (by decide) (by omega)

namespace HashSet

variable {T : Type} {thash : hashfunc T}

theorem set_ensure_bins_ge (s : HashSet T thash) (n : Nat) :
    s.bins ≤ (s.ensure_load_threshold n).bins := by
  cases hx : load_factor_exceeds n s.bins s.load_threshold with
  | true => rw [set_ensure_of_exceeds s n hx]; show s.bins ≤ s.bins * 2; omega
  | false => rw [set_ensure_of_not_exceeds s n hx]

theorem insert_bins_ge [DecidableEq T] (s : HashSet T thash) (v : T) :
    s.bins ≤ (s.insert v).2.bins := by
  cases hf : s.find_element v with
  | some e => rw [insert_of_some s v e hf]
  | none =>
    rw [insert_of_none s v hf]
    exact set_ensure_bins_ge
      ({ s with mod_count := s.mod_count + 1, used := s.used + 1 } : HashSet T thash) (s.used + 1)

theorem erase_bins_eq [DecidableEq T] (s : HashSet T thash) (v : T) :
    (s.erase v).2.bins = s.bins := by
  cases hf : s.find_element v with
  | some e => rw [set_erase_of_some s v e hf]
  | none => rw [set_erase_of_none s v hf]

/-- Inserting distinct new elements under the load threshold `1.0`: `used` counts them and
the bin count stays the least power of two that holds them. -/
theorem inserts_bins_one [DecidableEq T] (vs : List T) :
    ∀ (s : HashSet T thash), s.WF → s.hash.NoAbsOverflow → s.load_threshold = Threshold.one →
      vs.Nodup → (∀ v ∈ vs, s.contains v = false) →
      (∃ k, s.bins = 2 ^ k ∧ s.used ≤ s.bins ∧ (s.used = 0 → s.bins = 1) ∧
        (1 ≤ s.used → s.bins < 2 * s.used)) →
      (s.inserts vs).used = s.used + vs.length ∧
      (∃ k, (s.inserts vs).bins = 2 ^ k ∧ s.used + vs.length ≤ (s.inserts vs).bins ∧
        (s.used + vs.length = 0 → (s.inserts vs).bins = 1) ∧
        (1 ≤ s.used + vs.length → (s.inserts vs).bins < 2 * (s.used + vs.length))) := by
  induction vs with
  | nil => intro s _ _ _ _ _ hP; exact ⟨rfl, hP⟩
  | cons v rest ih =>
    intro s hwf hh ht hnd hnew hP
    rw [List.nodup_cons] at hnd
    obtain ⟨w1, h1, t1, _, h⟩ := insert_spec s hwf hh v
    rcases h with ⟨hc, _⟩ | ⟨_, _, u1, b1, _⟩
    · rw [hnew v (List.mem_cons_self _ _)] at hc; cases hc
    · have hnew2 : ∀ x ∈ rest, (s.insert v).2.contains x = false := by
        intro x hx
        cases hc : (s.insert v).2.contains x with
        | false => rfl
        | true =>
          rcases (contains_insert s hwf hh v x).1 hc with rfl | h2
          · exact absurd hx hnd.1
          · rw [hnew x (List.mem_cons_of_mem _ hx)] at h2; cases h2
      have hP2 := least_pow_step s.used s.bins hP
      rw [ht] at b1
      rw [← b1, ← u1] at hP2
      obtain ⟨u2, hP3⟩ := ih (s.insert v).2 w1 (h1.symm ▸ hh) (t1.trans ht) hnd.2 hnew2 hP2
      rw [inserts_cons, List.length_cons]
      have e : s.used + (rest.length + 1) = (s.insert v).2.used + rest.length := by omega
      rw [e]
      exact ⟨u2, hP3⟩

end HashSet

theorem all_chains_eq_all_flatten {α : Type} (tbl : List (List α)) (p : α → Bool) :
    (List.range tbl.length).all (fun (i : Nat) => (chain_at tbl (i : Int)).all p) =
      tbl.flatten.all p := by
  have h1 : (List.range tbl.length).all (fun (i : Nat) => (chain_at tbl (i : Int)).all p) =
      ((List.range tbl.length).map (fun (i : Nat) => chain_at tbl (i : Int))).all
        (fun ch => ch.all p) := by
    generalize List.range tbl.length = l
    induction l with
    | nil => rfl
    | cons x xs ih => simp [ih]
  rw [h1, range_map_chain_at]
  induction tbl with
  | nil => rfl
  | cons ch rest ih => simp [List.all_append, ih]

namespace HashMap

variable {KEY T : Type} {thash : hashfunc KEY}

theorem op_eq_iff [DecidableEq KEY] [DecidableEq T] (a b : HashMap KEY T thash) (ha : a.WF) :
    a.op_eq b = true ↔
      a.used = b.used ∧ ∀ e ∈ a.map.flatten, ∃ q, b.find_key e.1 = some q ∧ q.2 = e.2 := by
  unfold op_eq size
  rw [← ha.1.len, all_chains_eq_all_flatten]
  by_cases hu : a.used = b.used
  · simp only [hu, ne_eq, not_true_eq_false, if_false, List.all_eq_true, true_and]
    constructor
    · intro h e he
      have := h e he
      cases hq : b.find_key e.1 with
      | none => rw [hq] at this; cases this
      | some q => rw [hq] at this; exact ⟨q, rfl, by simpa using this⟩
    · intro h e he
      obtain ⟨q, hq, hv⟩ := h e he
      rw [hq]
      simpa using hv
  · simp [hu]

/-- The body of `operator ==` read on keys: every key of `a` is a key of `rhs` with an
equal value. -/
theorem entries_found_iff [DecidableEq KEY] (a b : HashMap KEY T thash) (ha : a.WF) :
    (∀ e ∈ a.map.flatten, ∃ q, b.find_key e.1 = some q ∧ q.2 = e.2) ↔
      ∀ k, a.has_key k = true →
        b.has_key k = true ∧ b.index_const k = a.index_const k := by
  constructor
  · intro h k hk
    obtain ⟨e, he⟩ := Option.isSome_iff_exists.1 hk
    obtain ⟨hmem, hek⟩ := (ha.find_key_some_iff k e).1 he
    obtain ⟨q, hq, hv⟩ := h e hmem
    rw [hek] at hq
    exact ⟨by simp [has_key, hq], by simp [index_const, hq, he, hv]⟩
  · intro h e he
    have hfa : a.find_key e.1 = some e := (ha.find_key_some_iff e.1 e).2 ⟨he, rfl⟩
    obtain ⟨hb1, hb2⟩ := h e.1 (by simp [has_key, hfa])
    obtain ⟨q, hq⟩ := Option.isSome_iff_exists.1 hb1
    refine ⟨q, hq, ?_⟩
    simp only [index_const, hq, hfa] at hb2
    injection hb2

theorem op_eq_symm [DecidableEq KEY] [DecidableEq T] (a b : HashMap KEY T thash)
    (ha : a.WF) (hb : b.WF) (h : a.op_eq b = true) : b.op_eq a = true := by
  obtain ⟨hu, hall⟩ := (op_eq_iff a b ha).1 h
  rw [op_eq_iff b a hb]
  refine ⟨hu.symm, ?_⟩
  have hsub : a.map.flatten ⊆ b.map.flatten := by
    intro e he
    obtain ⟨q, hq, hv⟩ := hall e he
    obtain ⟨hmem, hk⟩ := (hb.find_key_some_iff e.1 q).1 hq
    have : q = e := Prod.ext hk hv
    exact this ▸ hmem
  have hnd : a.map.flatten.Nodup := List.Nodup.of_map _ ha.1.nodup
  have hlen : b.map.flatten.length ≤ a.map.flatten.length := by
    rw [← ha.2, ← hb.2, hu]
  have hperm := (hnd.subperm hsub).perm_of_length_le hlen
  intro e he
  have hea : e ∈ a.map.flatten := hperm.mem_iff.2 he
  exact ⟨e, (ha.find_key_some_iff e.1 e).2 ⟨hea, rfl⟩, rfl⟩

end HashMap

namespace HashMap

variable {KEY T : Type} {thash : hashfunc KEY}

theorem ensure_hash (m : HashMap KEY T thash) (n : Nat) :
    (m.ensure_load_threshold n).hash = m.hash ∧ (m.ensure_load_threshold n).used = m.used := by
  cases hx : load_factor_exceeds n m.bins m.load_threshold with
  | true => rw [ensure_of_exceeds m n hx]; exact ⟨rfl, rfl⟩
  | false => rw [ensure_of_not_exceeds m n hx]; exact ⟨rfl, rfl⟩

theorem put_hash_used [DecidableEq KEY] (m : HashMap KEY T thash) (k : KEY) (v : T) :
    (m.put k v).2.hash = m.hash ∧ m.used ≤ (m.put k v).2.used ∧
    (m.find_key k = none → (m.put k v).2.used = m.used + 1) := by
  cases hf : m.find_key k with
  | some e =>
    rw [put_of_some m k v e hf]
    exact ⟨rfl, Nat.le_refl _, fun h => by cases h⟩
  | none =>
    rw [put_of_none m k v hf]
    obtain ⟨h1, h2⟩ := ensure_hash
      ({ m with mod_count := m.mod_count + 1, used := m.used + 1 } : HashMap KEY T thash) (m.used + 1)
    refine ⟨h1, ?_, fun _ => h2⟩
    show m.used ≤ (ensure_load_threshold _ _).used
    rw [h2]
    exact Nat.le_succ _

theorem puts_hash_used [DecidableEq KEY] (kvs : List (KEY × T)) :
    ∀ m : HashMap KEY T thash, (m.puts kvs).hash = m.hash ∧ m.used ≤ (m.puts kvs).used := by
  induction kvs with
  | nil => intro m; exact ⟨rfl, Nat.le_refl _⟩
  | cons e rest ih =>
    intro m
    obtain ⟨h1, h2, _⟩ := put_hash_used m e.1 e.2
    obtain ⟨h3, h4⟩ := ih (m.put e.1 e.2).2
    rw [puts_cons]
    exact ⟨h3.trans h1, Nat.le_trans h2 h4⟩

theorem put_all_snd [DecidableEq KEY] (m : HashMap KEY T thash) (i : List (KEY × T)) :
    (m.put_all i).2 = { m.puts i with mod_count := (m.puts i).mod_count + 1 } := rfl

/-- A table built by `put_all` on a new array: its hash is the one given, and it is empty
exactly when no entry was given. -/
theorem fresh_put_all [DecidableEq KEY] (hash : hashfunc KEY) (t : Threshold) (b : Nat)
    (i : List (KEY × T)) :
    ((fresh thash hash t b : HashMap KEY T thash).put_all i).2.hash = hash ∧
    (((fresh thash hash t b : HashMap KEY T thash).put_all i).2.empty = true ↔ i = []) := by
  rw [put_all_snd]
  refine ⟨(puts_hash_used i _).1, ?_⟩
  cases i with
  | nil => simp [empty, puts_nil, fresh]
  | cons e rest =>
    have h1 := (put_hash_used (fresh thash hash t b : HashMap KEY T thash) e.1 e.2).2.2
      (by simpa [has_key] using @has_key_fresh KEY T thash _ hash t b e.1)
    have h2 := (puts_hash_used rest ((fresh thash hash t b : HashMap KEY T thash).put e.1 e.2).2).2
    rw [puts_cons]
    have h3 : (fresh thash hash t b : HashMap KEY T thash).used = 0 := rfl
    simp only [empty, beq_iff_eq, reduceCtorEq, iff_false]
    omega

end HashMap

namespace HashSet

variable {T : Type} {thash : hashfunc T}

theorem set_ensure_hash (s : HashSet T thash) (n : Nat) :
    (s.ensure_load_threshold n).hash = s.hash ∧ (s.ensure_load_threshold n).used = s.used := by
  cases hx : load_factor_exceeds n s.bins s.load_threshold with
  | true => rw [set_ensure_of_exceeds s n hx]; exact ⟨rfl, rfl⟩
  | false => rw [set_ensure_of_not_exceeds s n hx]; exact ⟨rfl, rfl⟩

theorem insert_hash_used [DecidableEq T] (s : HashSet T thash) (v : T) :
    (s.insert v).2.hash = s.hash ∧ s.used ≤ (s.insert v).2.used ∧
    (s.find_element v = none → (s.insert v).2.used = s.used + 1) := by
  cases hf : s.find_element v with
  | some e =>
    rw [insert_of_some s v e hf]
    exact ⟨rfl, Nat.le_refl _, fun h => by cases h⟩
  | none =>
    rw [insert_of_none s v hf]
    obtain ⟨h1, h2⟩ := set_ensure_hash
      ({ s with mod_count := s.mod_count + 1, used := s.used + 1 } : HashSet T thash) (s.used + 1)
    refine ⟨h1, ?_, fun _ => h2⟩
    show s.used ≤ (ensure_load_threshold _ _).used
    rw [h2]
    exact Nat.le_succ _

theorem inserts_hash_used [DecidableEq T] (vs : List T) :
    ∀ s : HashSet T thash, (s.inserts vs).hash = s.hash ∧ s.used ≤ (s.inserts vs).used := by
  induction vs with
  | nil => intro s; exact ⟨rfl, Nat.le_refl _⟩
  | cons e rest ih =>
    intro s
    obtain ⟨h1, h2, _⟩ := insert_hash_used s e
    obtain ⟨h3, h4⟩ := ih (s.insert e).2
    rw [inserts_cons]
    exact ⟨h3.trans h1, Nat.le_trans h2 h4⟩

theorem insert_all_snd [DecidableEq T] (i : List T) :
    ∀ (s : HashSet T thash) (c : Nat),
      (i.foldl (fun acc v => (acc.1 + (acc.2.insert v).1, (acc.2.insert v).2)) (c, s)).2 =
        s.inserts i := by
  induction i with
  | nil => intro s c; rfl
  | cons v rest ih => intro s c; rw [List.foldl_cons, ih, inserts_cons]

/-- A set built by `insert_all` on a new array: its hash is the one given, and it is empty
exactly when no element was given. -/
theorem fresh_insert_all [DecidableEq T] (hash : hashfunc T) (t : Threshold) (b : Nat)
    (i : List T) :
    ((fresh thash hash t b : HashSet T thash).insert_all i).2.hash = hash ∧
    (((fresh thash hash t b : HashSet T thash).insert_all i).2.empty = true ↔ i = []) := by
  rw [show ((fresh thash hash t b : HashSet T thash).insert_all i).2 =
    (fresh thash hash t b : HashSet T thash).inserts i from insert_all_snd i _ 0]
  refine ⟨(inserts_hash_used i _).1, ?_⟩
  cases i with
  | nil => simp [empty, inserts_nil, fresh]
  | cons e rest =>
    have h1 := (insert_hash_used (fresh thash hash t b : HashSet T thash) e).2.2
      (by simpa [contains] using @contains_fresh T thash _ hash t b e)
    have h2 := (inserts_hash_used rest ((fresh thash hash t b : HashSet T thash).insert e).2).2
    rw [inserts_cons]
    have h3 : (fresh thash hash t b : HashSet T thash).used = 0 := rfl
    simp only [empty, beq_iff_eq, reduceCtorEq, iff_false]
    omega

end HashSet

/-- The resolved hash of a successful construction is the one supplied function. -/
theorem pick_hash_supplied {KEY : Type} (thash chash : hashfunc KEY)
    (h : hash_unresolved thash chash = false) :
    (pick_hash thash chash).same undefinedhash = false ∧
    (thash.same undefinedhash = false → pick_hash thash chash = thash) ∧
    (thash.same undefinedhash = true → pick_hash thash chash = chash) ∧
    (thash.same undefinedhash = false → chash.same undefinedhash = false →
      thash.same chash = true) := by
  unfold hash_unresolved at h
  unfold pick_hash
  cases h1 : thash.same undefinedhash <;> cases h2 : chash.same undefinedhash <;>
    cases h3 : thash.same chash <;> simp_all

/-- On a well-formed table the loop of `operator ==` run against the table itself answers
`true`, the answer the source gives at once when `this == &rhs`. -/
theorem HashMap.op_eq_self {KEY T : Type} [DecidableEq KEY] [DecidableEq T]
    {thash : hashfunc KEY} (a : HashMap KEY T thash) (ha : a.WF) : a.op_eq a = true := by
  rw [HashMap.op_eq_iff a a ha]
  exact ⟨rfl, fun e he => ⟨e, (ha.find_key_some_iff e.1 e).2 ⟨he, rfl⟩, rfl⟩⟩

theorem range_flatMap_chain_at {α : Type} (tbl : List (List α)) :
    (List.range tbl.length).flatMap (fun (i : Nat) => chain_at tbl (i : Int)) = tbl.flatten := by
  show ((List.range tbl.length).map (fun (i : Nat) => chain_at tbl (i : Int))).flatten = _
  rw [range_map_chain_at]

namespace HashMap

variable {KEY T : Type} {thash : hashfunc KEY}

theorem WF.traverse_eq {m : HashMap KEY T thash} (hwf : m.WF) : m.traverse = m.map.flatten := by
  unfold traverse
  split
  · rename_i h0
    have hlen : m.map.flatten.length = 0 := by rw [← hwf.2]; exact h0
    exact (List.length_eq_zero.1 hlen).symm
  · rw [← hwf.1.len]
    exact range_flatMap_chain_at m.map

/-- Tables with the same bin array, bin count and hash function answer `find_key` alike. -/
theorem find_key_same_layout [DecidableEq KEY] {th2 : hashfunc KEY} (c : HashMap KEY T thash)
    (m : HashMap KEY T th2) (hmap : c.map = m.map) (hbins : c.bins = m.bins)
    (hcall : c.hash.call = m.hash.call) (k : KEY) : c.find_key k = m.find_key k := by
  simp only [find_key, hash_compress, hmap, hbins, hcall]

theorem WF_same_layout {th2 : hashfunc KEY} (c : HashMap KEY T thash)
    (m : HashMap KEY T th2) (hmap : c.map = m.map) (hbins : c.bins = m.bins)
    (hcall : c.hash.call = m.hash.call) (hused : c.used = m.used) (hm : m.WF) : c.WF := by
  have hfun : (fun k => c.hash_compress k) = (fun k => m.hash_compress k) := by
    funext k
    simp only [hash_compress, hbins, hcall]
  refine ⟨?_, ?_⟩
  · rw [hfun, hmap, hbins]; exact hm.1
  · rw [hused, hmap]; exact hm.2

/-- Two well-formed tables with the same stored entries have the same size and answer
`find_key` alike. -/
theorem content_eq_of_perm [DecidableEq KEY] {th2 : hashfunc KEY} {c : HashMap KEY T thash}
    {m : HashMap KEY T th2} (hc : c.WF) (hm : m.WF) (hp : c.map.flatten.Perm m.map.flatten) :
    c.used = m.used ∧ ∀ k, c.find_key k = m.find_key k := by
  refine ⟨by rw [hc.2, hm.2, hp.length_eq], fun k => ?_⟩
  exact find_key_congr hc hm k (fun e _ => hp.mem_iff)

/-- Putting entries with distinct new keys stores exactly these entries. -/
theorem puts_perm [DecidableEq KEY] (l : List (KEY × T)) :
    ∀ (m : HashMap KEY T thash), m.WF → m.hash.NoAbsOverflow → (l.map Prod.fst).Nodup →
      (∀ e ∈ l, m.has_key e.1 = false) →
      (m.puts l).map.flatten.Perm (l ++ m.map.flatten) := by
  induction l with
  | nil => intro m _ _ _ _; exact List.Perm.refl _
  | cons e rest ih =>
    intro m hwf hh hnd hnew
    rw [List.map_cons, List.nodup_cons] at hnd
    obtain ⟨w1, h1, _, _, h⟩ := put_spec m hwf hh e.1 e.2
    have hf : m.find_key e.1 = none := by
      have := hnew e (List.mem_cons_self _ _)
      simpa [has_key] using this
    rcases h with ⟨x, hx, _⟩ | ⟨_, _, _, _, p⟩
    · rw [hf] at hx; cases hx
    · have hnew2 : ∀ x ∈ rest, (m.put e.1 e.2).2.has_key x.1 = false := by
        intro x hx
        cases hc : (m.put e.1 e.2).2.has_key x.1 with
        | false => rfl
        | true =>
          rcases (has_key_put m hwf hh e.1 e.2 x.1).1 hc with h2 | h2
          · exact absurd (List.mem_map.2 ⟨x, hx, h2⟩) hnd.1
          · rw [hnew x (List.mem_cons_of_mem _ hx)] at h2; cases h2
      have p2 := ih (m.put e.1 e.2).2 w1 (h1.symm ▸ hh) hnd.2 hnew2
      rw [puts_cons]
      refine p2.trans ?_
      refine (List.Perm.append_left rest p).trans ?_
      simp only [List.cons_append]
      exact List.perm_middle

end HashMap

namespace HashSet

variable {T : Type} {thash : hashfunc T}

theorem WF.set_traverse_eq {s : HashSet T thash} (hwf : s.WF) : s.traverse = s.set.flatten := by
  unfold traverse
  split
  · rename_i h0
    have hlen : s.set.flatten.length = 0 := by rw [← hwf.2]; exact h0
    exact (List.length_eq_zero.1 hlen).symm
  · rw [← hwf.1.len]
    exact range_flatMap_chain_at s.set

theorem find_element_same_layout [DecidableEq T] {th2 : hashfunc T} (c : HashSet T thash)
    (s : HashSet T th2) (hset : c.set = s.set) (hbins : c.bins = s.bins)
    (hcall : c.hash.call = s.hash.call) (v : T) : c.find_element v = s.find_element v := by
  simp only [find_element, hash_compress, hset, hbins, hcall]

theorem set_WF_same_layout {th2 : hashfunc T} (c : HashSet T thash)
    (s : HashSet T th2) (hset : c.set = s.set) (hbins : c.bins = s.bins)
    (hcall : c.hash.call = s.hash.call) (hused : c.used = s.used) (hs : s.WF) : c.WF := by
  have hfun : (fun v => c.hash_compress v) = (fun v => s.hash_compress v) := by
    funext v
    simp only [hash_compress, hbins, hcall]
  refine ⟨?_, ?_⟩
  · rw [hfun, hset, hbins]; exact hs.1
  · rw [hused, hset]; exact hs.2

theorem contains_eq_of_mem_iff [DecidableEq T] {th2 : hashfunc T} {c : HashSet T thash}
    {s : HashSet T th2} (hc : c.WF) (hs : s.WF)
    (h : ∀ v, v ∈ c.set.flatten ↔ v ∈ s.set.flatten) (v : T) :
    c.contains v = s.contains v := by
  cases h1 : c.contains v with
  | true => exact ((contains_iff hs v).2 ((h v).1 ((contains_iff hc v).1 h1))).symm
  | false =>
    cases h2 : s.contains v with
    | false => rfl
    | true => rw [(contains_iff hc v).2 ((h v).2 ((contains_iff hs v).1 h2))] at h1; cases h1

theorem set_content_eq_of_perm [DecidableEq T] {th2 : hashfunc T} {c : HashSet T thash}
    {s : HashSet T th2} (hc : c.WF) (hs : s.WF) (hp : c.set.flatten.Perm s.set.flatten) :
    c.used = s.used ∧ ∀ v, c.contains v = s.contains v :=
  ⟨by rw [hc.2, hs.2, hp.length_eq], contains_eq_of_mem_iff hc hs (fun _ => hp.mem_iff)⟩

/-- Inserting distinct new elements stores exactly these elements. -/
theorem inserts_perm [DecidableEq T] (l : List T) :
    ∀ (s : HashSet T thash), s.WF → s.hash.NoAbsOverflow → l.Nodup →
      (∀ v ∈ l, s.contains v = false) →
      (s.inserts l).set.flatten.Perm (l ++ s.set.flatten) := by
  induction l with
  | nil => intro s _ _ _ _; exact List.Perm.refl _
  | cons e rest ih =>
    intro s hwf hh hnd hnew
    rw [List.nodup_cons] at hnd
    obtain ⟨w1, h1, _, _, h⟩ := insert_spec s hwf hh e
    rcases h with ⟨hc, _⟩ | ⟨_, _, _, _, p⟩
    · rw [hnew e (List.mem_cons_self _ _)] at hc; cases hc
    · have hnew2 : ∀ x ∈ rest, (s.insert e).2.contains x = false := by
        intro x hx
        cases hc : (s.insert e).2.contains x with
        | false => rfl
        | true =>
          rcases (contains_insert s hwf hh e x).1 hc with h2 | h2
          · exact absurd (h2 ▸ hx) hnd.1
          · rw [hnew x (List.mem_cons_of_mem _ hx)] at h2; cases h2
      have p2 := ih (s.insert e).2 w1 (h1.symm ▸ hh) hnd.2 hnew2
      rw [inserts_cons]
      refine p2.trans ?_
      refine (List.Perm.append_left rest p).trans ?_
      simp only [List.cons_append]
      exact List.perm_middle

theorem insert_all_eq_inserts [DecidableEq T] (s : HashSet T thash) (i : List T) :
    (s.insert_all i).2 = s.inserts i := insert_all_snd i s 0

end HashSet

theorem hashfunc.same_self {KEY : Type} (h : hashfunc KEY) : h.same h = true := by
  simp [hashfunc.same]

/-- The resolved hash of a copy constructor is the source's hash or the one picked from
`thash` and `chash`. -/
theorem resolved_hash_cases {KEY : Type} (thash chash src : hashfunc KEY)
    (hp1 : thash.Faithful src) (hp2 : chash.Faithful src) :
    ((if (pick_hash thash chash).same undefinedhash = true then src
        else pick_hash thash chash).same src = true →
      (if (pick_hash thash chash).same undefinedhash = true then src
        else pick_hash thash chash).call = src.call) ∧
    ((if (pick_hash thash chash).same undefinedhash = true then src
        else pick_hash thash chash).same src = false →
      (if (pick_hash thash chash).same undefinedhash = true then src
        else pick_hash thash chash) = pick_hash thash chash) := by
  by_cases hu : (pick_hash thash chash).same undefinedhash = true
  · rw [if_pos hu]
    exact ⟨fun _ => rfl, fun h => by rw [hashfunc.same_self] at h; cases h⟩
  · rw [if_neg hu]
    refine ⟨fun hsame => ?_, fun _ => rfl⟩
    unfold pick_hash at hsame ⊢
    by_cases ht : thash.same undefinedhash = true
    · rw [if_pos ht] at hsame ⊢; exact hp2 hsame
    · rw [if_neg ht] at hsame ⊢; exact hp1 hsame

/-- The two paths of the copy constructor, for a resolved hash `h`. -/
theorem HashMap.copy_paths_content {KEY T : Type} [DecidableEq KEY] {thash : hashfunc KEY}
    (h : hashfunc KEY) (t : Threshold) (m c : HashMap KEY T thash) (hm : m.WF)
    (hcall : h.same m.hash = true → h.call = m.hash.call)
    (hno : h.same m.hash = false → h.NoAbsOverflow)
    (hc : (if h.same m.hash = true then
        (Except.ok { hash := h, load_threshold := t, bins := m.bins, used := m.used,
                     mod_count := 0,
                     map := (List.range m.bins).map (fun (i : Nat) => chain_at m.map (i : Int)) } :
          Except IcsError (HashMap KEY T thash))
      else Except.ok ((HashMap.fresh thash h t 1).put_all m.traverse).2) = Except.ok c) :
    c.WF ∧ c.used = m.used ∧ ∀ k, c.find_key k = m.find_key k := by
  by_cases hsame : h.same m.hash = true
  · rw [if_pos hsame] at hc
    injection hc with hc
    have hmap : c.map = m.map := by
      rw [← hc, ← hm.1.len]; exact range_map_chain_at m.map
    have hbins : c.bins = m.bins := by rw [← hc]
    have hused : c.used = m.used := by rw [← hc]
    have hcc : c.hash.call = m.hash.call := by rw [← hc]; exact hcall hsame
    exact ⟨HashMap.WF_same_layout c m hmap hbins hcc hused hm, hused,
      fun k => HashMap.find_key_same_layout c m hmap hbins hcc k⟩
  · rw [if_neg hsame] at hc
    injection hc with hc
    subst hc
    have hno2 : h.NoAbsOverflow := hno (by simpa using hsame)
    rw [HashMap.put_all_snd]
    have hfw : (HashMap.fresh thash h t 1 : HashMap KEY T thash).WF :=
      HashMap.fresh_WF h t 1 (by decide)
    have hnd : (m.traverse.map Prod.fst).Nodup := by rw [hm.traverse_eq]; exact hm.1.nodup
    obtain ⟨w, _⟩ := HashMap.puts_spec m.traverse _ hfw hno2
    have p := HashMap.puts_perm m.traverse _ hfw hno2 hnd
      (fun e _ => HashMap.has_key_fresh _ _ _ e.1)
    have hflat : (HashMap.fresh thash h t 1 : HashMap KEY T thash).map.flatten = [] :=
      flatten_replicate_nil_chain 1
    have p := p.trans (List.Perm.of_eq (by rw [hflat, List.append_nil, hm.traverse_eq]))
    have hw2 : ({ (HashMap.fresh thash h t 1 : HashMap KEY T thash).puts m.traverse with
        mod_count := ((HashMap.fresh thash h t 1 : HashMap KEY T thash).puts
          m.traverse).mod_count + 1 } : HashMap KEY T thash).WF := w
    obtain ⟨hu, hf⟩ := HashMap.content_eq_of_perm hw2 hm p
    exact ⟨hw2, hu, hf⟩

/-- Copy construction keeps the invariant, the size and the answers of `find_key`. -/
theorem HashMap.ctor_copy_content {KEY T : Type} [DecidableEq KEY] {thash : hashfunc KEY}
    (chash : hashfunc KEY) (t : Threshold) (m c : HashMap KEY T thash) (hm : m.WF)
    (hc : HashMap.ctor_copy thash m t chash = Except.ok c)
    (hno : (pick_hash thash chash).NoAbsOverflow)
    (hp1 : thash.Faithful m.hash) (hp2 : chash.Faithful m.hash) :
    c.WF ∧ c.used = m.used ∧ ∀ k, c.find_key k = m.find_key k := by
  obtain ⟨r1, r2⟩ := resolved_hash_cases thash chash m.hash hp1 hp2
  cases hb : both_different thash chash with
  | true => simp [HashMap.ctor_copy, hb] at hc
  | false =>
    simp only [HashMap.ctor_copy, hb, Bool.false_eq_true, if_false] at hc
    exact HashMap.copy_paths_content _ t m c hm r1 (fun h => (r2 h).symm ▸ hno) hc

/-- The two paths of the copy constructor of a set, for a resolved hash `h`. -/
theorem HashSet.set_copy_paths_content {T : Type} [DecidableEq T] {thash : hashfunc T}
    (h : hashfunc T) (t : Threshold) (s c : HashSet T thash) (hs : s.WF)
    (hcall : h.same s.hash = true → h.call = s.hash.call)
    (hno : h.same s.hash = false → h.NoAbsOverflow)
    (hc : (if h.same s.hash = true then
        (Except.ok { hash := h, load_threshold := t, bins := s.bins, used := s.used,
                     mod_count := 0,
                     set := (List.range s.bins).map (fun (i : Nat) => chain_at s.set (i : Int)) } :
          Except IcsError (HashSet T thash))
      else Except.ok ((HashSet.fresh thash h t 1).insert_all s.traverse).2) = Except.ok c) :
    c.WF ∧ c.used = s.used ∧ ∀ v, c.contains v = s.contains v := by
  by_cases hsame : h.same s.hash = true
  · rw [if_pos hsame] at hc
    injection hc with hc
    have hset : c.set = s.set := by
      rw [← hc, ← hs.1.len]; exact range_map_chain_at s.set
    have hbins : c.bins = s.bins := by rw [← hc]
    have hused : c.used = s.used := by rw [← hc]
    have hcc : c.hash.call = s.hash.call := by rw [← hc]; exact hcall hsame
    refine ⟨HashSet.set_WF_same_layout c s hset hbins hcc hused hs, hused, fun v => ?_⟩
    simp only [HashSet.contains, HashSet.find_element_same_layout c s hset hbins hcc v]
  · rw [if_neg hsame] at hc
    injection hc with hc
    subst hc
    have hno2 : h.NoAbsOverflow := hno (by simpa using hsame)
    rw [HashSet.insert_all_eq_inserts]
    have hfw : (HashSet.fresh thash h t 1 : HashSet T thash).WF :=
      HashSet.set_fresh_WF h t 1 (by decide)
    have hnd : s.traverse.Nodup := by
      rw [hs.set_traverse_eq]; simpa using hs.1.nodup
    obtain ⟨w, _⟩ := HashSet.inserts_spec s.traverse _ hfw hno2
    have p := HashSet.inserts_perm s.traverse _ hfw hno2 hnd
      (fun v _ => HashSet.contains_fresh _ _ _ v)
    have hflat : (HashSet.fresh thash h t 1 : HashSet T thash).set.flatten = [] :=
      flatten_replicate_nil_chain 1
    have p := p.trans (List.Perm.of_eq (by rw [hflat, List.append_nil, hs.set_traverse_eq]))
    obtain ⟨hu, hf⟩ := HashSet.set_content_eq_of_perm w hs p
    exact ⟨w, hu, hf⟩

/-- Copy construction of a set keeps the invariant, the size and the answers of `contains`. -/
theorem HashSet.set_ctor_copy_content {T : Type} [DecidableEq T] {thash : hashfunc T}
    (chash : hashfunc T) (t : Threshold) (s c : HashSet T thash) (hs : s.WF)
    (hc : HashSet.ctor_copy thash s t chash = Except.ok c)
    (hno : (pick_hash thash chash).NoAbsOverflow)
    (hp1 : thash.Faithful s.hash) (hp2 : chash.Faithful s.hash) :
    c.WF ∧ c.used = s.used ∧ ∀ v, c.contains v = s.contains v := by
  obtain ⟨r1, r2⟩ := resolved_hash_cases thash chash s.hash hp1 hp2
  cases hb : both_different thash chash with
  | true => simp [HashSet.ctor_copy, hb] at hc
  | false =>
    simp only [HashSet.ctor_copy, hb, Bool.false_eq_true, if_false] at hc
    exact HashSet.set_copy_paths_content _ t s c hs r1 (fun h => (r2 h).symm ▸ hno) hc

namespace HashMap

variable {KEY T : Type} {thash : hashfunc KEY}

theorem index_of_some [DecidableEq KEY] [Inhabited T] (m : HashMap KEY T thash) (k : KEY)
    (e : KEY × T) (hf : m.find_key k = some e) : m.index k = (e.2, m) := by
  simp only [index, hf]

/-- On an absent key the non-const `operator []` leaves the table that `put(key, T())` leaves. -/
theorem index_of_none [DecidableEq KEY] [Inhabited T] (m : HashMap KEY T thash) (k : KEY)
    (hf : m.find_key k = none) : m.index k = (default, (m.put k default).2) := by
  rw [put_of_none m k default hf]
  simp only [index, hf]
  cases hx : load_factor_exceeds (m.used + 1) m.bins m.load_threshold with
  | true =>
    rw [ensure_of_exceeds ({ m with used := m.used + 1 } : HashMap KEY T thash) (m.used + 1) hx,
      ensure_of_exceeds ({ m with mod_count := m.mod_count + 1, used := m.used + 1 } :
        HashMap KEY T thash) (m.used + 1) hx]
    rfl
  | false =>
    rw [ensure_of_not_exceeds ({ m with used := m.used + 1 } : HashMap KEY T thash) (m.used + 1) hx,
      ensure_of_not_exceeds ({ m with mod_count := m.mod_count + 1, used := m.used + 1 } :
        HashMap KEY T thash) (m.used + 1) hx]
    rfl

theorem find_key_none_of_has_key_false [DecidableEq KEY] (m : HashMap KEY T thash) (k : KEY)
    (h : m.has_key k = false) : m.find_key k = none := by
  simpa [has_key] using h

end HashMap

theorem foldl_set_chain_nil {α : Type} (k : Nat) :
    ∀ (tbl : List (List α)), k ≤ tbl.length →
      (List.range k).foldl (fun tbl (i : Nat) => set_chain tbl (i : Int) []) tbl =
        List.replicate k [] ++ tbl.drop k := by
  induction k with
  | zero => intro tbl _; simp
  | succ k ih =>
    intro tbl hk
    rw [List.range_succ, List.foldl_append, ih tbl (Nat.le_of_succ_le hk)]
    simp only [List.foldl_cons, List.foldl_nil, set_chain, Int.toNat_ofNat]
    rw [if_pos (Int.ofNat_nonneg k)]
    have hlen : (List.replicate k ([] : List α)).length = k := List.length_replicate _ _
    rw [List.set_append_right _ _ (by rw [hlen]), hlen, Nat.sub_self]
    have hd : tbl.drop k = tbl[k] :: tbl.drop (k + 1) :=
      List.drop_eq_getElem_cons (by omega)
    rw [hd, List.set_cons_zero, List.replicate_succ', List.append_assoc]
    rfl

theorem HashMap.clear_map {KEY T : Type} {thash : hashfunc KEY} (m : HashMap KEY T thash)
    (hlen : m.map.length = m.bins) : m.clear.map = List.replicate m.bins [] := by
  show (List.range m.bins).foldl (fun tbl (i : Nat) => set_chain tbl (i : Int) []) m.map = _
  rw [foldl_set_chain_nil m.bins m.map (by omega), ← hlen]
  simp

namespace HashSet

variable {T : Type} {thash : hashfunc T}

theorem used_le_of_subset [DecidableEq T] {th2 : hashfunc T} {a : HashSet T thash}
    {b : HashSet T th2} (ha : a.WF) (hb : b.WF)
    (h : ∀ v, a.contains v = true → b.contains v = true) : a.used ≤ b.used := by
  have hnd : a.set.flatten.Nodup := by simpa using ha.1.nodup
  have hsub : a.set.flatten ⊆ b.set.flatten :=
    fun v hv => (contains_iff hb v).1 (h v ((contains_iff ha v).2 hv))
  rw [ha.2, hb.2]
  exact (hnd.subperm hsub).length_le

theorem loop_all_iff [DecidableEq T] (a b : HashSet T thash) (ha : a.WF) :
    (List.range a.bins).all (fun (i : Nat) => (chain_at a.set (i : Int)).all (fun v =>
      (b.find_element v).isSome)) = true ↔ ∀ v, a.contains v = true → b.contains v = true := by
  rw [← ha.1.len, all_chains_eq_all_flatten, List.all_eq_true]
  constructor
  · intro h v hv
    exact h v ((contains_iff ha v).1 hv)
  · intro h v hv
    exact h v ((contains_iff ha v).2 hv)

/-- For two distinct well-formed sets `a <= b` is containment. -/
theorem op_le_iff [DecidableEq T] (a b : HashSet T thash) (ha : a.WF) (hb : b.WF) :
    a.op_le b false = true ↔ ∀ v, a.contains v = true → b.contains v = true := by
  unfold op_le size
  simp only [Bool.false_eq_true, if_false]
  by_cases hgt : a.used > b.used
  · simp only [hgt, if_true, Bool.false_eq_true, false_iff]
    intro h
    exact absurd (used_le_of_subset ha hb h) (by omega)
  · simp only [hgt, if_false]
    exact loop_all_iff a b ha

/-- For two distinct well-formed sets `a < b` is containment with a smaller size. -/
theorem op_lt_iff [DecidableEq T] (a b : HashSet T thash) (ha : a.WF) :
    a.op_lt b false = true ↔
      (∀ v, a.contains v = true → b.contains v = true) ∧ a.size < b.size := by
  unfold op_lt size
  simp only [Bool.false_eq_true, if_false]
  by_cases hge : a.used ≥ b.used
  · simp only [hge, if_true, Bool.false_eq_true, false_iff]
    intro h
    omega
  · simp only [hge, if_false]
    rw [loop_all_iff a b ha]
    constructor
    · intro h; exact ⟨h, by omega⟩
    · intro h; exact h.1

end HashSet

namespace HashMap

variable {KEY T : Type} {thash : hashfunc KEY}

theorem ensure_mod_count (m : HashMap KEY T thash) (n : Nat) :
    (m.ensure_load_threshold n).mod_count = m.mod_count := by
  cases hx : load_factor_exceeds n m.bins m.load_threshold with
  | true => rw [ensure_of_exceeds m n hx]
  | false => rw [ensure_of_not_exceeds m n hx]

/-- Every `put` call adds one to `mod_count`. -/
theorem put_mod_count [DecidableEq KEY] (m : HashMap KEY T thash) (k : KEY) (v : T) :
    (m.put k v).2.mod_count = m.mod_count + 1 := by
  cases hf : m.find_key k with
  | some e => rw [put_of_some m k v e hf]
  | none =>
    rw [put_of_none m k v hf]
    exact ensure_mod_count
      ({ m with mod_count := m.mod_count + 1, used := m.used + 1 } : HashMap KEY T thash) _

theorem puts_mod_count [DecidableEq KEY] (l : List (KEY × T)) :
    ∀ m : HashMap KEY T thash, (m.puts l).mod_count = m.mod_count + l.length := by
  induction l with
  | nil => intro m; rfl
  | cons e rest ih =>
    intro m
    rw [puts_cons, ih, put_mod_count, List.length_cons]
    omega

theorem index_mod_count [DecidableEq KEY] [Inhabited T] (m : HashMap KEY T thash) (k : KEY)
    (hk : m.has_key k = false) : (m.index k).2.mod_count = m.mod_count + 1 := by
  rw [index_of_none m k (find_key_none_of_has_key_false m k hk)]
  exact put_mod_count m k default

theorem erase_mod_count [DecidableEq KEY] (m : HashMap KEY T thash) (k : KEY)
    (hk : m.has_key k = true) : (m.erase k).2.mod_count = m.mod_count + 1 := by
  obtain ⟨e, hf⟩ := Option.isSome_iff_exists.1 hk
  rw [erase_of_some m k e hf]

theorem assign_mod_count [DecidableEq KEY] (a rhs : HashMap KEY T thash) :
    a.mod_count < (a.assign rhs false).mod_count := by
  unfold assign
  simp only [Bool.false_eq_true, if_false]
  split
  · exact Nat.lt_succ_self _
  · show a.mod_count < (a.clear.put_all rhs.traverse).2.mod_count + 1
    rw [put_all_snd]
    show a.mod_count < (a.clear.puts rhs.traverse).mod_count + 1 + 1
    rw [puts_mod_count]
    show a.mod_count < a.mod_count + 1 + rhs.traverse.length + 1 + 1
    omega

/-- Every operation of a stale iterator raises `ConcurrentModificationError` and changes
nothing. -/
theorem Iterator.stale_ops [DecidableEq KEY] (it : Iterator) (m : HashMap KEY T thash)
    (h : it.expected_mod_count ≠ m.mod_count) :
    it.incr m = Except.error IcsError.ConcurrentModificationError ∧
    it.post_incr m = Except.error IcsError.ConcurrentModificationError ∧
    it.deref m = Except.error IcsError.ConcurrentModificationError ∧
    it.arrow m = Except.error IcsError.ConcurrentModificationError ∧
    it.erase m = (Except.error IcsError.ConcurrentModificationError, it, m) := by
  simp [Iterator.incr, Iterator.post_incr, Iterator.deref, Iterator.arrow, Iterator.erase, h]

end HashMap

namespace HashSet

variable {T : Type} {thash : hashfunc T}

theorem set_ensure_mod_count (s : HashSet T thash) (n : Nat) :
    (s.ensure_load_threshold n).mod_count = s.mod_count := by
  cases hx : load_factor_exceeds n s.bins s.load_threshold with
  | true => rw [set_ensure_of_exceeds s n hx]
  | false => rw [set_ensure_of_not_exceeds s n hx]

/-- Every `insert` call adds one to `mod_count`. -/
theorem insert_mod_count [DecidableEq T] (s : HashSet T thash) (v : T) :
    (s.insert v).2.mod_count = s.mod_count + 1 := by
  cases hf : s.find_element v with
  | some e => rw [insert_of_some s v e hf]
  | none =>
    rw [insert_of_none s v hf]
    exact set_ensure_mod_count
      ({ s with mod_count := s.mod_count + 1, used := s.used + 1 } : HashSet T thash) _

theorem inserts_mod_count [DecidableEq T] (l : List T) :
    ∀ s : HashSet T thash, (s.inserts l).mod_count = s.mod_count + l.length := by
  induction l with
  | nil => intro s; rfl
  | cons e rest ih =>
    intro s
    rw [inserts_cons, ih, insert_mod_count, List.length_cons]
    omega

theorem set_erase_mod_count [DecidableEq T] (s : HashSet T thash) (v : T)
    (hv : s.contains v = true) : (s.erase v).2.mod_count = s.mod_count + 1 := by
  obtain ⟨e, hf⟩ := Option.isSome_iff_exists.1 hv
  rw [set_erase_of_some s v e hf]

theorem set_assign_mod_count [DecidableEq T] (a rhs : HashSet T thash) :
    a.mod_count < (a.assign rhs false).mod_count := by
  unfold assign
  simp only [Bool.false_eq_true, if_false]
  split
  · exact Nat.lt_succ_self _
  · show a.mod_count < (a.clear.insert_all rhs.traverse).2.mod_count + 1
    rw [insert_all_eq_inserts, inserts_mod_count]
    show a.mod_count < a.mod_count + 1 + rhs.traverse.length + 1
    omega

/-- Every operation of a stale set iterator raises `ConcurrentModificationError` and
changes nothing. -/
theorem Iterator.set_stale_ops [DecidableEq T] (it : Iterator) (s : HashSet T thash)
    (h : it.expected_mod_count ≠ s.mod_count) :
    it.incr s = Except.error IcsError.ConcurrentModificationError ∧
    it.post_incr s = Except.error IcsError.ConcurrentModificationError ∧
    it.deref s = Except.error IcsError.ConcurrentModificationError ∧
    it.arrow s = Except.error IcsError.ConcurrentModificationError ∧
    it.erase s = (Except.error IcsError.ConcurrentModificationError, it, s) := by
  simp [Iterator.incr, Iterator.post_incr, Iterator.deref, Iterator.arrow, Iterator.erase, h]

end HashSet

theorem node_value_error {α : Type} (tbl : List (List α)) (p : NodePtr) (e : IcsError)
    (h : node_value tbl p = Except.error e) : e = IcsError.UndefinedBehaviour := by
  unfold node_value at h
  split at h
  · split at h
    · cases h
    · injection h with h; exact h.symm
  · injection h with h; exact h.symm

theorem advance_cursor_error {α : Type} (tbl : List (List α)) (bins : Nat) (c : Cursor)
    (e : IcsError) (h : advance_cursor tbl bins c = Except.error e) :
    e = IcsError.UndefinedBehaviour := by
  unfold advance_cursor at h
  split at h
  · split at h
    · split at h
      · split at h
        · split at h <;> cases h
        · cases h
      · injection h with h; exact h.symm
    · injection h with h; exact h.symm
  · cases h

/-- On a cursor with `first == -1` or `second == nullptr`, `advance_cursors` does nothing. -/
theorem advance_cursor_exhausted {α : Type} (tbl : List (List α)) (bins : Nat) (c : Cursor)
    (h : c.first = -1 ∨ c.second = NodePtr.null) : advance_cursor tbl bins c = Except.ok c := by
  unfold advance_cursor
  rw [if_neg]
  intro hc
  rcases h with h | h
  · exact hc.1 h
  · exact hc.2 h

namespace HashMap

variable {KEY T : Type} {thash : hashfunc KEY}

theorem erase_error [DecidableEq KEY] (m : HashMap KEY T thash) (k : KEY) (e : IcsError)
    (h : (m.erase k).1 = Except.error e) : e = IcsError.KeyError := by
  cases hf : m.find_key k with
  | none => rw [erase_of_none m k hf] at h; injection h with h; exact h.symm
  | some x => rw [erase_of_some m k x hf] at h; cases h

theorem Iterator.advance_cursors_error (it : Iterator) (m : HashMap KEY T thash) (e : IcsError)
    (h : it.advance_cursors m = Except.error e) : e = IcsError.UndefinedBehaviour := by
  unfold Iterator.advance_cursors at h
  split at h
  · cases h
  · rename_i e2 he
    injection h with h
    subst h
    exact advance_cursor_error _ _ _ _ he

/-- The errors of `Iterator::erase` on a non-stale iterator that may erase and is not
exhausted. -/
theorem Iterator.erase_enabled [DecidableEq KEY] (it : Iterator) (m : HashMap KEY T thash)
    (h : it.expected_mod_count = m.mod_count) (h1 : it.can_erase = true)
    (h2 : it.current.first ≠ -1) (h3 : it.current.second ≠ NodePtr.null) :
    (it.erase m).1 ≠ Except.error IcsError.CannotEraseError := by
  intro he
  unfold Iterator.erase at he
  simp only [h, ne_eq, not_true_eq_false, if_false, h1, h2, h3, or_self, Bool.true_eq_false] at he
  split at he
  · rename_i e hv
    have := node_value_error _ _ _ hv
    subst this
    cases he
  · split at he
    · rename_i e hv
      have : e = IcsError.UndefinedBehaviour := by
        split at hv
        · exact Iterator.advance_cursors_error _ _ _ hv
        · cases hv
      subst this
      cases he
    · split at he
      · rename_i e hv
        have := erase_error _ _ _ hv
        subst this
        cases he
      · cases he

/-- When `Iterator::erase` raises `CannotEraseError` on a non-stale iterator. -/
theorem Iterator.erase_cannot_iff [DecidableEq KEY] (it : Iterator) (m : HashMap KEY T thash)
    (h : it.expected_mod_count = m.mod_count) :
    (it.erase m).1 = Except.error IcsError.CannotEraseError ↔
      (it.can_erase = false ∨ it.current.first = -1 ∨ it.current.second = NodePtr.null) := by
  constructor
  · intro he
    by_contra hn
    simp only [not_or] at hn
    exact Iterator.erase_enabled it m h (by simpa using hn.1) hn.2.1 hn.2.2 he
  · intro hc
    unfold Iterator.erase
    simp only [h, ne_eq, not_true_eq_false, if_false]
    rcases hc with hc | hc
    · simp [hc]
    · by_cases h1 : it.can_erase = false
      · simp [h1]
      · simp [h1, hc]

/-- When `*` and `->` raise `IteratorPositionIllegal` on a non-stale iterator. -/
theorem Iterator.deref_illegal_iff (it : Iterator) (m : HashMap KEY T thash)
    (h : it.expected_mod_count = m.mod_count) :
    (it.deref m = Except.error IcsError.IteratorPositionIllegal ↔
      (it.can_erase = false ∨ it.current.first = -1 ∨ it.current.second = NodePtr.null)) ∧
    (it.arrow m = Except.error IcsError.IteratorPositionIllegal ↔
      (it.can_erase = false ∨ it.current.first = -1 ∨ it.current.second = NodePtr.null)) := by
  unfold Iterator.deref Iterator.arrow
  simp only [h, ne_eq, not_true_eq_false, if_false]
  by_cases hc : it.can_erase = false ∨ it.current.first = -1 ∨ it.current.second = NodePtr.null
  · simp only [hc, if_true, iff_true, and_self]
  · simp only [hc, if_false, iff_false]
    have : node_value m.map it.current.second ≠
        Except.error IcsError.IteratorPositionIllegal := by
      intro hv
      have := node_value_error _ _ _ hv
      cases this
    exact ⟨this, this⟩

/-- After a successful `Iterator::erase` the iterator is not stale and may not erase. -/
theorem Iterator.erase_ok [DecidableEq KEY] (it it2 : Iterator) (m m2 : HashMap KEY T thash)
    (x : KEY × T) (h : it.erase m = (Except.ok x, it2, m2)) :
    it2.can_erase = false ∧ it2.expected_mod_count = m2.mod_count ∧
    it2.ref_map = it.ref_map := by
  unfold Iterator.erase at h
  split at h
  · cases h
  · split at h
    · cases h
    · split at h
      · cases h
      · dsimp only at h
        split at h
        · cases h
        · split at h
          · cases h
          · rename_i it3 hadv
            have h3 : it3.can_erase = false ∧ it3.ref_map = it.ref_map := by
              split at hadv
              · unfold Iterator.advance_cursors at hadv
                split at hadv
                · injection hadv with hadv; subst hadv; exact ⟨rfl, rfl⟩
                · cases hadv
              · injection hadv with hadv; subst hadv; exact ⟨rfl, rfl⟩
            split at h
            · cases h
            · injection h with _ h
              injection h with h h2
              subst h h2
              exact ⟨h3.1, rfl, h3.2⟩

/-- The operator `++` on a non-stale iterator just after `erase()`: the cursor stays and
`can_erase` is set again; on the cursor `(-1, nullptr)` it does nothing. -/
theorem Iterator.incr_flags (it : Iterator) (m : HashMap KEY T thash)
    (h : it.expected_mod_count = m.mod_count) :
    (it.can_erase = false →
      ¬ (it.current.first = -1 ∧ it.current.second = NodePtr.null) →
      it.incr m = Except.ok { it with can_erase := true } ∧
      it.post_incr m = Except.ok (it, { it with can_erase := true })) ∧
    (it.current.first = -1 ∨ it.current.second = NodePtr.null →
      ∃ it2, it.incr m = Except.ok it2 ∧ it2.current = it.current) ∧
    (it.current.first = -1 ∧ it.current.second = NodePtr.null →
      it.incr m = Except.ok it ∧ it.post_incr m = Except.ok (it, it)) := by
  unfold Iterator.incr Iterator.post_incr
  simp only [h, ne_eq, not_true_eq_false, if_false]
  refine ⟨?_, ?_, ?_⟩
  · intro h1 h2
    simp [h1, h2]
  · intro hx
    by_cases h2 : it.current.first = -1 ∧ it.current.second = NodePtr.null
    · exact ⟨it, by simp [h2], rfl⟩
    · by_cases h1 : it.can_erase = true
      · refine ⟨it, ?_, rfl⟩
        simp only [h2, if_false, h1, if_true]
        unfold Iterator.advance_cursors
        rw [advance_cursor_exhausted _ _ _ hx]
      · exact ⟨{ it with can_erase := true }, by simp [h2, h1, h], rfl⟩
  · intro h2
    simp [h2]

end HashMap

namespace HashSet

variable {T : Type} {thash : hashfunc T}

theorem Iterator.set_advance_cursors_error (it : Iterator) (s : HashSet T thash) (e : IcsError)
    (h : it.advance_cursors s = Except.error e) : e = IcsError.UndefinedBehaviour := by
  unfold Iterator.advance_cursors at h
  split at h
  · cases h
  · rename_i e2 he
    injection h with h
    subst h
    exact advance_cursor_error _ _ _ _ he

/-- The errors of `Iterator::erase` on a non-stale set iterator that may erase and is not
exhausted. -/
theorem Iterator.set_erase_enabled [DecidableEq T] (it : Iterator) (s : HashSet T thash)
    (h : it.expected_mod_count = s.mod_count) (h1 : it.can_erase = true)
    (h2 : it.current.first ≠ -1) (h3 : it.current.second ≠ NodePtr.null) :
    (it.erase s).1 ≠ Except.error IcsError.CannotEraseError := by
  intro he
  unfold Iterator.erase at he
  simp only [h, ne_eq, not_true_eq_false, if_false, h1, h2, h3, or_self, Bool.true_eq_false] at he
  split at he
  · rename_i e hv
    have := node_value_error _ _ _ hv
    subst this
    cases he
  · split at he
    · rename_i e hv
      have := Iterator.set_advance_cursors_error _ _ _ hv
      subst this
      cases he
    · cases he

/-- When `Iterator::erase` raises `CannotEraseError` on a non-stale set iterator. -/
theorem Iterator.set_erase_cannot_iff [DecidableEq T] (it : Iterator) (s : HashSet T thash)
    (h : it.expected_mod_count = s.mod_count) :
    (it.erase s).1 = Except.error IcsError.CannotEraseError ↔
      (it.can_erase = false ∨ it.current.first = -1 ∨ it.current.second = NodePtr.null) := by
  constructor
  · intro he
    by_contra hn
    simp only [not_or] at hn
    exact Iterator.set_erase_enabled it s h (by simpa using hn.1) hn.2.1 hn.2.2 he
  · intro hc
    unfold Iterator.erase
    simp only [h, ne_eq, not_true_eq_false, if_false]
    rcases hc with hc | hc
    · simp [hc]
    · by_cases h1 : it.can_erase = false
      · simp [h1]
      · simp [h1, hc]

/-- When `*` and `->` raise `IteratorPositionIllegal` on a non-stale set iterator. -/
theorem Iterator.set_deref_illegal_iff (it : Iterator) (s : HashSet T thash)
    (h : it.expected_mod_count = s.mod_count) :
    (it.deref s = Except.error IcsError.IteratorPositionIllegal ↔
      (it.can_erase = false ∨ it.current.first = -1 ∨ it.current.second = NodePtr.null)) ∧
    (it.arrow s = Except.error IcsError.IteratorPositionIllegal ↔
      (it.can_erase = false ∨ it.current.first = -1 ∨ it.current.second = NodePtr.null)) := by
  unfold Iterator.deref Iterator.arrow
  simp only [h, ne_eq, not_true_eq_false, if_false]
  by_cases hc : it.can_erase = false ∨ it.current.first = -1 ∨ it.current.second = NodePtr.null
  · simp only [hc, if_true, iff_true, and_self]
  · simp only [hc, if_false, iff_false]
    have : node_value s.set it.current.second ≠
        Except.error IcsError.IteratorPositionIllegal := by
      intro hv
      have := node_value_error _ _ _ hv
      cases this
    exact ⟨this, this⟩

/-- After a successful `Iterator::erase` the set iterator is not stale and may not erase. -/
theorem Iterator.set_erase_ok [DecidableEq T] (it it2 : Iterator) (s s2 : HashSet T thash)
    (x : T) (h : it.erase s = (Except.ok x, it2, s2)) :
    it2.can_erase = false ∧ it2.expected_mod_count = s2.mod_count ∧
    it2.ref_set = it.ref_set := by
  unfold Iterator.erase at h
  split at h
  · cases h
  · split at h
    · cases h
    · split at h
      · cases h
      · dsimp only at h
        split at h
        · cases h
        · split at h
          · cases h
          · rename_i it3 hadv
            have h3 : it3.can_erase = false ∧ it3.ref_set = it.ref_set := by
              unfold Iterator.advance_cursors at hadv
              split at hadv
              · injection hadv with hadv; subst hadv; exact ⟨rfl, rfl⟩
              · cases hadv
            injection h with _ h
            injection h with h h2
            subst h h2
            exact ⟨h3.1, rfl, h3.2⟩

/-- The operator `++` on a non-stale set iterator just after `erase()`: the cursor stays and
`can_erase` is set again; on the cursor `(-1, nullptr)` it does nothing. -/
theorem Iterator.set_incr_flags (it : Iterator) (s : HashSet T thash)
    (h : it.expected_mod_count = s.mod_count) :
    (it.can_erase = false →
      ¬ (it.current.first = -1 ∧ it.current.second = NodePtr.null) →
      it.incr s = Except.ok { it with can_erase := true } ∧
      it.post_incr s = Except.ok (it, { it with can_erase := true })) ∧
    (it.current.first = -1 ∨ it.current.second = NodePtr.null →
      ∃ it2, it.incr s = Except.ok it2 ∧ it2.current = it.current) ∧
    (it.current.first = -1 ∧ it.current.second = NodePtr.null →
      it.incr s = Except.ok it ∧ it.post_incr s = Except.ok (it, it)) := by
  unfold Iterator.incr Iterator.post_incr
  simp only [h, ne_eq, not_true_eq_false, if_false]
  refine ⟨?_, ?_, ?_⟩
  · intro h1 h2
    simp [h1, h2]
  · intro hx
    by_cases h2 : it.current.first = -1 ∧ it.current.second = NodePtr.null
    · exact ⟨it, by simp [h2], rfl⟩
    · by_cases h1 : it.can_erase = true
      · refine ⟨it, ?_, rfl⟩
        simp only [h2, if_false, h1, if_true]
        unfold Iterator.advance_cursors
        rw [advance_cursor_exhausted _ _ _ hx]
      · exact ⟨{ it with can_erase := true }, by simp [h2, h1, h], rfl⟩
  · intro h2
    simp [h2]

end HashSet

end ics
namespace ics

namespace HashMap

variable {KEY T : Type} {thash : hashfunc KEY}

end HashMap

end ics
namespace ics

namespace HashMap

variable {KEY T : Type} {thash : hashfunc KEY}

end HashMap

namespace HashMap

variable {KEY T : Type} {thash : hashfunc KEY}

end HashMap

namespace HashSet

variable {T : Type} {thash : hashfunc T}

end HashSet

namespace BSTMap

variable {KEY T : Type} {tlt : ltfunc KEY}

/-- The binary-search-tree ordering of a tree: the keys increase strictly from left to right. -/
theorem bst_sorted_mk_iff (lt : ltfunc KEY) (hlt : lt.StrictTotal) (v : KEY × T) (l r : TN KEY T) :
    (TN.mk v l r).inorder.Pairwise (fun a b => lt.call a.1 b.1 = true) ↔
      l.inorder.Pairwise (fun a b => lt.call a.1 b.1 = true) ∧
      r.inorder.Pairwise (fun a b => lt.call a.1 b.1 = true) ∧
      (∀ a ∈ l.inorder, lt.call a.1 v.1 = true) ∧ (∀ b ∈ r.inorder, lt.call v.1 b.1 = true) := by
  simp only [TN.inorder, List.pairwise_append, List.pairwise_cons, List.mem_cons]
  constructor
  · rintro ⟨h1, ⟨h2, h3⟩, h4⟩
    exact ⟨h1, h3, fun a ha => h4 a ha v (Or.inl rfl), h2⟩
  · rintro ⟨h1, h2, h3, h4⟩
    refine ⟨h1, ⟨h4, h2⟩, ?_⟩
    intro a ha b hb
    rcases hb with rfl | hb
    · exact h3 a ha
    · exact hlt.trans _ _ _ (h3 a ha) (h4 b hb)

/-- On a tree with the binary-search-tree ordering `find_key` finds exactly the entries of
the tree. -/
theorem bst_find_key_some_iff [DecidableEq KEY] (lt : ltfunc KEY) (hlt : lt.StrictTotal) :
    ∀ (t : TN KEY T), t.inorder.Pairwise (fun a b => lt.call a.1 b.1 = true) →
      ∀ (k : KEY) (e : KEY × T), find_key lt t k = some e ↔ e ∈ t.inorder ∧ e.1 = k := by
  intro t
  induction t with
  | null => intro _ k e; simp [find_key, TN.inorder]
  | mk v l r ihl ihr =>
    intro hs k e
    obtain ⟨hl, hr, hlv, hvr⟩ := (bst_sorted_mk_iff lt hlt v l r).1 hs
    have hmem : e ∈ (TN.mk v l r).inorder ↔ e ∈ l.inorder ∨ e = v ∨ e ∈ r.inorder := by
      simp [TN.inorder]
    rw [find_key, hmem]
    by_cases hk : k = v.1
    · rw [if_pos hk]
      constructor
      · intro h; injection h with h; subst h; exact ⟨Or.inr (Or.inl rfl), hk.symm⟩
      · rintro ⟨h | h | h, he⟩
        · have := hlv e h
          rw [he, hk, hlt.irrefl] at this; cases this
        · rw [h]
        · have := hvr e h
          rw [he, hk, hlt.irrefl] at this; cases this
    · rw [if_neg hk]
      by_cases hlk : lt.call k v.1 = true
      · rw [if_pos hlk, ihl hl k e]
        constructor
        · rintro ⟨h, he⟩; exact ⟨Or.inl h, he⟩
        · rintro ⟨h | h | h, he⟩
          · exact ⟨h, he⟩
          · subst h; exact absurd he.symm hk
          · have h1 := hvr e h
            rw [he] at h1
            have := hlt.trans _ _ _ hlk h1
            rw [hlt.irrefl] at this; cases this
      · rw [if_neg hlk, ihr hr k e]
        have hvk : lt.call v.1 k = true := by
          rcases hlt.total k v.1 hk with h | h
          · exact absurd h hlk
          · exact h
        constructor
        · rintro ⟨h, he⟩; exact ⟨Or.inr (Or.inr h), he⟩
        · rintro ⟨h | h | h, he⟩
          · have h1 := hlv e h
            rw [he] at h1
            have := hlt.trans _ _ _ hvk h1
            rw [hlt.irrefl] at this; cases this
          · subst h; exact absurd he.symm hk
          · exact ⟨h, he⟩

theorem bst_find_key_none_iff [DecidableEq KEY] (lt : ltfunc KEY) (hlt : lt.StrictTotal)
    (t : TN KEY T) (hs : t.inorder.Pairwise (fun a b => lt.call a.1 b.1 = true)) (k : KEY) :
    find_key lt t k = none ↔ ∀ e ∈ t.inorder, e.1 ≠ k := by
  constructor
  · intro h e he hk
    rw [(bst_find_key_some_iff lt hlt t hs k e).2 ⟨he, hk⟩] at h
    cases h
  · intro h
    cases hf : find_key lt t k with
    | none => rfl
    | some e =>
      obtain ⟨he, hk⟩ := (bst_find_key_some_iff lt hlt t hs k e).1 hf
      exact absurd hk (h e he)

/-- The value `insert` returns and how often it runs `used++`: the old value and not at
all when `find_key` finds the key, the new value and once otherwise. -/
theorem bst_insert_result [DecidableEq KEY] (lt : ltfunc KEY) :
    ∀ (t : TN KEY T) (k : KEY) (v : T),
      (insert lt t k v).1 = (match find_key lt t k with | some e => e.2 | none => v) ∧
      (insert lt t k v).2.2 = (match find_key lt t k with | some _ => 0 | none => 1) := by
  intro t
  induction t with
  | null => intro k v; exact ⟨rfl, rfl⟩
  | mk w l r ihl ihr =>
    intro k v
    rw [insert, find_key]
    by_cases hk : k = w.1
    · rw [if_pos hk, if_pos hk]; exact ⟨rfl, rfl⟩
    · rw [if_neg hk, if_neg hk]
      by_cases hlk : lt.call k w.1 = true
      · rw [if_pos hlk, if_pos hlk]; exact ihl k v
      · rw [if_neg hlk, if_neg hlk]; exact ihr k v

/-- After `insert` of `key -> value`, `find_key` finds `key` with `value`. -/
theorem bst_insert_find_self [DecidableEq KEY] (lt : ltfunc KEY) :
    ∀ (t : TN KEY T) (k : KEY) (v : T), find_key lt (insert lt t k v).2.1 k = some (k, v) := by
  intro t
  induction t with
  | null => intro k v; simp [insert, find_key]
  | mk w l r ihl ihr =>
    intro k v
    rw [insert]
    by_cases hk : k = w.1
    · rw [if_pos hk]
      show find_key lt (TN.mk (w.1, v) l r) k = _
      rw [find_key, if_pos hk, hk]
    · rw [if_neg hk]
      by_cases hlk : lt.call k w.1 = true
      · rw [if_pos hlk]
        show find_key lt (TN.mk w _ r) k = _
        rw [find_key, if_neg hk, if_pos hlk]; exact ihl k v
      · rw [if_neg hlk]
        show find_key lt (TN.mk w l _) k = _
        rw [find_key, if_neg hk, if_neg hlk]; exact ihr k v

/-- The frame of `insert`: every other key is found, or not found, as before. -/
theorem bst_insert_find_other [DecidableEq KEY] (lt : ltfunc KEY) :
    ∀ (t : TN KEY T) (k : KEY) (v : T) (k2 : KEY), k2 ≠ k →
      find_key lt (insert lt t k v).2.1 k2 = find_key lt t k2 := by
  intro t
  induction t with
  | null =>
    intro k v k2 h
    simp [insert, find_key, h]
  | mk w l r ihl ihr =>
    intro k v k2 h
    rw [insert]
    by_cases hk : k = w.1
    · rw [if_pos hk]
      show find_key lt (TN.mk (w.1, v) l r) k2 = _
      have h2 : k2 ≠ w.1 := hk ▸ h
      rw [find_key, find_key, if_neg h2, if_neg h2]
    · rw [if_neg hk]
      by_cases hlk : lt.call k w.1 = true
      · rw [if_pos hlk]
        show find_key lt (TN.mk w _ r) k2 = _
        rw [find_key, find_key, ihl k v k2 h]
      · rw [if_neg hlk]
        show find_key lt (TN.mk w l _) k2 = _
        rw [find_key, find_key, ihr k v k2 h]

/-- On a key that `find_key` finds, `insert` keeps the shape and the keys. -/
theorem bst_insert_present [DecidableEq KEY] (lt : ltfunc KEY) :
    ∀ (t : TN KEY T) (k : KEY) (v : T) (e : KEY × T), find_key lt t k = some e →
      (insert lt t k v).2.1.shape = t.shape ∧
      (insert lt t k v).2.1.inorder.map Prod.fst = t.inorder.map Prod.fst := by
  intro t
  induction t with
  | null => intro k v e h; simp [find_key] at h
  | mk w l r ihl ihr =>
    intro k v e h
    rw [find_key] at h
    rw [insert]
    by_cases hk : k = w.1
    · rw [if_pos hk]
      exact ⟨rfl, by simp [TN.inorder]⟩
    · rw [if_neg hk] at h ⊢
      by_cases hlk : lt.call k w.1 = true
      · rw [if_pos hlk] at h ⊢
        obtain ⟨h1, h2⟩ := ihl k v e h
        refine ⟨?_, ?_⟩
        · show TN.mk (w.1, ()) _ r.shape = TN.mk (w.1, ()) l.shape r.shape
          rw [h1]
        · show (TN.inorder (TN.mk w _ r)).map Prod.fst = _
          simp only [TN.inorder, List.map_append, List.map_cons, h2]
      · rw [if_neg hlk] at h ⊢
        obtain ⟨h1, h2⟩ := ihr k v e h
        refine ⟨?_, ?_⟩
        · show TN.mk (w.1, ()) l.shape _ = TN.mk (w.1, ()) l.shape r.shape
          rw [h1]
        · show (TN.inorder (TN.mk w l _)).map Prod.fst = _
          simp only [TN.inorder, List.map_append, List.map_cons, h2]

/-- On a key that `find_key` does not find, `insert` adds one leaf. -/
theorem bst_insert_absent [DecidableEq KEY] (lt : ltfunc KEY) :
    ∀ (t : TN KEY T) (k : KEY) (v : T), find_key lt t k = none →
      TN.AddsLeaf (k, v) t (insert lt t k v).2.1 := by
  intro t
  induction t with
  | null => intro k v _; simp [insert, TN.AddsLeaf]
  | mk w l r ihl ihr =>
    intro k v h
    rw [find_key] at h
    rw [insert]
    by_cases hk : k = w.1
    · rw [if_pos hk] at h; cases h
    · rw [if_neg hk] at h ⊢
      by_cases hlk : lt.call k w.1 = true
      · rw [if_pos hlk] at h ⊢
        exact ⟨rfl, Or.inl ⟨ihl k v h, rfl⟩⟩
      · rw [if_neg hlk] at h ⊢
        exact ⟨rfl, Or.inr ⟨rfl, ihr k v h⟩⟩

/-- The number of nodes after `insert` grows by the number of times `used++` was run. -/
theorem bst_insert_length [DecidableEq KEY] (lt : ltfunc KEY) :
    ∀ (t : TN KEY T) (k : KEY) (v : T),
      (insert lt t k v).2.1.inorder.length = t.inorder.length + (insert lt t k v).2.2 := by
  intro t
  induction t with
  | null => intro k v; rfl
  | mk w l r ihl ihr =>
    intro k v
    rw [insert]
    by_cases hk : k = w.1
    · rw [if_pos hk]; simp [TN.inorder]
    · rw [if_neg hk]
      by_cases hlk : lt.call k w.1 = true
      · rw [if_pos hlk]
        show (TN.inorder (TN.mk w _ r)).length = _
        simp only [TN.inorder, List.length_append, List.length_cons, ihl k v]
        omega
      · rw [if_neg hlk]
        show (TN.inorder (TN.mk w l _)).length = _
        simp only [TN.inorder, List.length_append, List.length_cons, ihr k v]
        omega

/-- Every entry of the tree after `insert` is the entry put or has the key of an old one. -/
theorem bst_insert_mem [DecidableEq KEY] (lt : ltfunc KEY) :
    ∀ (t : TN KEY T) (k : KEY) (v : T) (x : KEY × T), x ∈ (insert lt t k v).2.1.inorder →
      x.1 = k ∨ x ∈ t.inorder := by
  intro t
  induction t with
  | null =>
    intro k v x h
    simp [insert, TN.inorder] at h
    exact Or.inl (by rw [h])
  | mk w l r ihl ihr =>
    intro k v x h
    rw [insert] at h
    by_cases hk : k = w.1
    · rw [if_pos hk] at h
      simp only [TN.inorder, List.mem_append, List.mem_cons] at h ⊢
      rcases h with h | h | h
      · exact Or.inr (Or.inl h)
      · exact Or.inl (by rw [h, hk])
      · exact Or.inr (Or.inr (Or.inr h))
    · rw [if_neg hk] at h
      by_cases hlk : lt.call k w.1 = true
      · rw [if_pos hlk] at h
        simp only [TN.inorder, List.mem_append, List.mem_cons] at h ⊢
        rcases h with h | h | h
        · rcases ihl k v x h with h2 | h2
          · exact Or.inl h2
          · exact Or.inr (Or.inl h2)
        · exact Or.inr (Or.inr (Or.inl h))
        · exact Or.inr (Or.inr (Or.inr h))
      · rw [if_neg hlk] at h
        simp only [TN.inorder, List.mem_append, List.mem_cons] at h ⊢
        rcases h with h | h | h
        · exact Or.inr (Or.inl h)
        · exact Or.inr (Or.inr (Or.inl h))
        · rcases ihr k v x h with h2 | h2
          · exact Or.inl h2
          · exact Or.inr (Or.inr (Or.inr h2))

/-- The helper `insert` keeps the binary-search-tree ordering. -/
theorem bst_insert_sorted [DecidableEq KEY] (lt : ltfunc KEY) (hlt : lt.StrictTotal) :
    ∀ (t : TN KEY T) (k : KEY) (v : T),
      t.inorder.Pairwise (fun a b => lt.call a.1 b.1 = true) →
      (insert lt t k v).2.1.inorder.Pairwise (fun a b => lt.call a.1 b.1 = true) := by
  intro t
  induction t with
  | null => intro k v _; simp [insert, TN.inorder]
  | mk w l r ihl ihr =>
    intro k v hs
    obtain ⟨hl, hr, hlw, hwr⟩ := (bst_sorted_mk_iff lt hlt w l r).1 hs
    rw [insert]
    by_cases hk : k = w.1
    · rw [if_pos hk]
      exact (bst_sorted_mk_iff lt hlt (w.1, v) l r).2 ⟨hl, hr, hlw, hwr⟩
    · rw [if_neg hk]
      by_cases hlk : lt.call k w.1 = true
      · rw [if_pos hlk]
        refine (bst_sorted_mk_iff lt hlt w _ r).2 ⟨ihl k v hl, hr, ?_, hwr⟩
        intro a ha
        rcases bst_insert_mem lt l k v a ha with h | h
        · rw [h]; exact hlk
        · exact hlw a h
      · rw [if_neg hlk]
        have hwk : lt.call w.1 k = true := by
          rcases hlt.total k w.1 hk with h | h
          · exact absurd h hlk
          · exact h
        refine (bst_sorted_mk_iff lt hlt w l _).2 ⟨hl, ihr k v hr, hlw, ?_⟩
        intro b hb
        rcases bst_insert_mem lt r k v b hb with h | h
        · rw [h]; exact hwk
        · exact hwr b h

theorem WF.bst_find_some_iff [DecidableEq KEY] {m : BSTMap KEY T tlt} (hwf : m.WF)
    (hlt : m.lt.StrictTotal) (k : KEY) (e : KEY × T) :
    find_key m.lt m.map k = some e ↔ e ∈ m.map.inorder ∧ e.1 = k :=
  BSTMap.bst_find_key_some_iff m.lt hlt m.map hwf.1 k e

theorem WF.bst_has_key_iff [DecidableEq KEY] {m : BSTMap KEY T tlt} (hwf : m.WF)
    (hlt : m.lt.StrictTotal) (k : KEY) :
    m.has_key k = true ↔ k ∈ m.map.inorder.map Prod.fst := by
  unfold has_key
  rw [Option.isSome_iff_exists, List.mem_map]
  constructor
  · rintro ⟨e, he⟩
    exact ⟨e, (hwf.bst_find_some_iff hlt k e).1 he⟩
  · rintro ⟨e, he⟩
    exact ⟨e, (hwf.bst_find_some_iff hlt k e).2 he⟩

theorem WF.bst_keys_nodup {m : BSTMap KEY T tlt} (hwf : m.WF) (hlt : m.lt.StrictTotal) :
    (m.map.inorder.map Prod.fst).Nodup := by
  rw [List.Nodup, List.pairwise_map]
  refine hwf.1.imp ?_
  intro a b h hab
  rw [hab, hlt.irrefl] at h
  cases h

theorem WF.bst_used_eq_of_keys [DecidableEq KEY] {m : BSTMap KEY T tlt} (hwf : m.WF)
    (hlt : m.lt.StrictTotal) (ks : List KEY) (h : ∀ k, m.has_key k = true ↔ k ∈ ks) :
    m.used = ks.dedup.length := by
  rw [hwf.2, ← List.length_map m.map.inorder Prod.fst,
    ← List.toFinset_card_of_nodup (hwf.bst_keys_nodup hlt), ← List.card_toFinset]
  congr 1
  ext k
  rw [List.mem_toFinset, List.mem_toFinset, ← hwf.bst_has_key_iff hlt, h]

/-- What `put` does to a well-formed map under a strict total order. -/
theorem bst_put_spec [DecidableEq KEY] (m : BSTMap KEY T tlt) (hwf : m.WF)
    (hlt : m.lt.StrictTotal) (k : KEY) (v : T) :
    (m.put k v).2.WF ∧ (m.put k v).2.lt = m.lt ∧
    (m.put k v).2.mod_count = m.mod_count + 1 ∧
    find_key m.lt (m.put k v).2.map k = some (k, v) ∧
    (∀ k2, k2 ≠ k → find_key m.lt (m.put k v).2.map k2 = find_key m.lt m.map k2) ∧
    (∀ e, find_key m.lt m.map k = some e →
      (m.put k v).1 = e.2 ∧ (m.put k v).2.used = m.used ∧
      (m.put k v).2.map.shape = m.map.shape) ∧
    (find_key m.lt m.map k = none →
      (m.put k v).1 = v ∧ (m.put k v).2.used = m.used + 1 ∧
      TN.AddsLeaf (k, v) m.map (m.put k v).2.map) := by
  obtain ⟨hr, hd⟩ := bst_insert_result m.lt m.map k v
  refine ⟨⟨bst_insert_sorted m.lt hlt m.map k v hwf.1, ?_⟩, rfl, rfl,
    bst_insert_find_self m.lt m.map k v, bst_insert_find_other m.lt m.map k v, ?_, ?_⟩
  · show m.used + (insert m.lt m.map k v).2.2 = (insert m.lt m.map k v).2.1.inorder.length
    rw [bst_insert_length, hwf.2]
  · intro e he
    rw [he] at hr hd
    refine ⟨hr, ?_, (bst_insert_present m.lt m.map k v e he).1⟩
    show m.used + (insert m.lt m.map k v).2.2 = m.used
    rw [hd]; rfl
  · intro hn
    rw [hn] at hr hd
    refine ⟨hr, ?_, bst_insert_absent m.lt m.map k v hn⟩
    show m.used + (insert m.lt m.map k v).2.2 = m.used + 1
    rw [hd]

theorem bst_has_key_put [DecidableEq KEY] (m : BSTMap KEY T tlt) (k : KEY) (v : T) (k2 : KEY) :
    (m.put k v).2.has_key k2 = true ↔ k2 = k ∨ m.has_key k2 = true := by
  unfold has_key
  show (find_key m.lt (insert m.lt m.map k v).2.1 k2).isSome = true ↔ _
  by_cases h : k2 = k
  · subst h
    rw [bst_insert_find_self]
    simp
  · rw [bst_insert_find_other m.lt m.map k v k2 h]
    simp [h]

theorem bst_puts_nil [DecidableEq KEY] (m : BSTMap KEY T tlt) : m.puts [] = m := rfl

theorem bst_puts_cons [DecidableEq KEY] (m : BSTMap KEY T tlt) (e : KEY × T)
    (rest : List (KEY × T)) : m.puts (e :: rest) = ((m.put e.1 e.2).2).puts rest := rfl

/-- What a sequence of `put` calls does to a well-formed map under a strict total order. -/
theorem bst_puts_spec [DecidableEq KEY] (kvs : List (KEY × T)) :
    ∀ (m : BSTMap KEY T tlt), m.WF → m.lt.StrictTotal →
      (m.puts kvs).WF ∧ (m.puts kvs).lt = m.lt ∧
      (m.puts kvs).mod_count = m.mod_count + kvs.length ∧
      (∀ k, (m.puts kvs).has_key k = true ↔ m.has_key k = true ∨ k ∈ kvs.map Prod.fst) := by
  induction kvs with
  | nil => intro m hwf _; exact ⟨hwf, rfl, rfl, by simp [bst_puts_nil]⟩
  | cons e rest ih =>
    intro m hwf hlt
    obtain ⟨w1, l1, c1, _⟩ := bst_put_spec m hwf hlt e.1 e.2
    obtain ⟨w2, l2, c2, k2⟩ := ih (m.put e.1 e.2).2 w1 (l1.symm ▸ hlt)
    rw [bst_puts_cons]
    refine ⟨w2, l2.trans l1, ?_, ?_⟩
    · rw [c2, c1, List.length_cons]; omega
    · intro k
      rw [k2 k, bst_has_key_put]
      simp only [List.map_cons, List.mem_cons]
      tauto

theorem bst_fresh_WF (lt : ltfunc KEY) : (fresh tlt lt : BSTMap KEY T tlt).WF :=
  ⟨List.Pairwise.nil, rfl⟩

theorem bst_has_key_fresh [DecidableEq KEY] (lt : ltfunc KEY) (k : KEY) :
    (fresh tlt lt : BSTMap KEY T tlt).has_key k = false := rfl

theorem bst_ctor_default_ok {clt : ltfunc KEY} {m0 : BSTMap KEY T tlt}
    (h : ctor_default tlt clt = Except.ok m0) :
    m0 = fresh tlt (pick_lt tlt clt) := by
  unfold ctor_default at h
  simp only [] at h
  split at h
  · cases h
  · split at h
    · cases h
    · injection h with h; exact h.symm

end BSTMap

theorem natLt_strictTotal : natLt.StrictTotal := by
  refine ⟨fun a => by simp [natLt], fun a b c h1 h2 => ?_, fun a b h => ?_⟩
  · simp only [natLt, decide_eq_true_eq] at h1 h2 ⊢; omega
  · simp only [natLt, decide_eq_true_eq]; omega

namespace BSTMap

variable {KEY T : Type} {tlt : ltfunc KEY}

/-- On a node `remove_closest` returns the last entry of the tree from left to right and
leaves the tree of the entries before it. -/
theorem remove_closest_spec :
    ∀ (t : TN KEY T), t ≠ TN.null →
      ∃ (e : KEY × T) (t2 : TN KEY T), remove_closest t = Except.ok (e, t2) ∧
        t.inorder = t2.inorder ++ [e] := by
  intro t
  induction t with
  | null => intro h; exact absurd rfl h
  | mk v l r _ ihr =>
    intro _
    cases r with
    | null => exact ⟨v, l, rfl, by simp [TN.inorder]⟩
    | mk v2 l2 r2 =>
      obtain ⟨e, t2, h1, h2⟩ := ihr (by intro h; cases h)
      refine ⟨e, TN.mk v l t2, ?_, ?_⟩
      · rw [remove_closest, h1]
      · show l.inorder ++ v :: (TN.mk v2 l2 r2).inorder = (l.inorder ++ v :: t2.inorder) ++ [e]
        rw [h2]
        simp

theorem remove_mk_ne [DecidableEq KEY] (lt : ltfunc KEY) (w : KEY × T) (l r : TN KEY T)
    (k : KEY) (hk : k ≠ w.1) :
    remove lt (TN.mk w l r) k =
      if lt.call k w.1 then ((remove lt l k).1, TN.mk w (remove lt l k).2 r)
      else ((remove lt r k).1, TN.mk w l (remove lt r k).2) := by
  cases l <;> simp only [remove, if_neg hk]

/-- On a key that `find_key` does not find, `remove` raises `KeyError` and leaves the tree. -/
theorem remove_absent [DecidableEq KEY] (lt : ltfunc KEY) :
    ∀ (t : TN KEY T) (k : KEY), find_key lt t k = none →
      remove lt t k = (Except.error IcsError.KeyError, t) := by
  intro t
  induction t with
  | null => intro k _; rfl
  | mk w l r ihl ihr =>
    intro k h
    rw [find_key] at h
    by_cases hk : k = w.1
    · rw [if_pos hk] at h; cases h
    · rw [if_neg hk] at h
      rw [remove_mk_ne lt w l r k hk]
      by_cases hlk : lt.call k w.1 = true
      · rw [if_pos hlk] at h ⊢
        rw [ihl k h]
      · rw [if_neg hlk] at h ⊢
        rw [ihr k h]

/-- On a key that `find_key` finds, `remove` returns its value and leaves a tree whose
entries from left to right are those of the old tree without the entry found. -/
theorem remove_present [DecidableEq KEY] (lt : ltfunc KEY) :
    ∀ (t : TN KEY T) (k : KEY) (e : KEY × T), find_key lt t k = some e →
      (remove lt t k).1 = Except.ok e.2 ∧ e.1 = k ∧
      ∃ l1 l2, t.inorder = l1 ++ e :: l2 ∧ (remove lt t k).2.inorder = l1 ++ l2 := by
  intro t
  induction t with
  | null => intro k e h; simp [find_key] at h
  | mk w l r ihl ihr =>
    intro k e h
    rw [find_key] at h
    by_cases hk : k = w.1
    · rw [if_pos hk] at h
      injection h with h
      subst h
      subst hk
      cases l with
      | null =>
        refine ⟨by simp only [remove, if_true], rfl, [], r.inorder, rfl, ?_⟩
        simp only [remove, if_true]
        rfl
      | mk v1 l1 r1 =>
        cases r with
        | null =>
          refine ⟨by simp only [remove, if_true], rfl, (TN.mk v1 l1 r1).inorder, [], rfl, ?_⟩
          simp only [remove, if_true]
          simp
        | mk v2 l2 r2 =>
          obtain ⟨c, t2, h1, h2⟩ := remove_closest_spec (TN.mk v1 l1 r1) (by intro h; cases h)
          refine ⟨by simp only [remove, if_true, h1], rfl,
            (TN.mk v1 l1 r1).inorder, (TN.mk v2 l2 r2).inorder, rfl, ?_⟩
          simp only [remove, if_true, h1]
          show t2.inorder ++ c :: (TN.mk v2 l2 r2).inorder = _
          rw [h2]
          simp
    · rw [if_neg hk] at h
      rw [remove_mk_ne lt w l r k hk]
      by_cases hlk : lt.call k w.1 = true
      · rw [if_pos hlk] at h ⊢
        obtain ⟨h1, h2, a, b, h3, h4⟩ := ihl k e h
        refine ⟨h1, h2, a, b ++ w :: r.inorder, ?_, ?_⟩
        · show l.inorder ++ w :: r.inorder = _
          rw [h3]; simp
        · show (remove lt l k).2.inorder ++ w :: r.inorder = _
          rw [h4]; simp
      · rw [if_neg hlk] at h ⊢
        obtain ⟨h1, h2, a, b, h3, h4⟩ := ihr k e h
        refine ⟨h1, h2, l.inorder ++ w :: a, b, ?_, ?_⟩
        · show l.inorder ++ w :: r.inorder = _
          rw [h3]; simp
        · show l.inorder ++ w :: (remove lt r k).2.inorder = _
          rw [h4]; simp

/-- What `erase` does to a well-formed map that holds the key, under a strict total order. -/
theorem bst_erase_spec [DecidableEq KEY] (m : BSTMap KEY T tlt) (hwf : m.WF)
    (hlt : m.lt.StrictTotal) (k : KEY) (e : KEY × T) (hf : find_key m.lt m.map k = some e) :
    (m.erase k).1 = Except.ok e.2 ∧ (m.erase k).2.WF ∧ (m.erase k).2.lt = m.lt ∧
    (m.erase k).2.used + 1 = m.used ∧ (m.erase k).2.mod_count = m.mod_count + 1 ∧
    (m.erase k).2.map.inorder = m.map.inorder.filter (fun x => decide (x.1 ≠ k)) ∧
    (m.erase k).2.map.inorder.map Prod.fst = (m.map.inorder.map Prod.fst).erase k := by
  obtain ⟨h1, hek, l1, l2, h3, h4⟩ := remove_present m.lt m.map k e hf
  have her : m.erase k = (Except.ok e.2,
      { m with map := (remove m.lt m.map k).2, used := m.used - 1,
               mod_count := m.mod_count + 1 }) := by
    unfold erase
    rw [h1]
  have hs := hwf.1
  rw [h3] at hs
  have hnd := hwf.bst_keys_nodup hlt
  rw [h3, List.map_append, List.map_cons, hek] at hnd
  have hk1 : k ∉ l1.map Prod.fst := fun hin =>
    (List.nodup_append.1 hnd).2.2 hin (List.mem_cons_self _ _)
  have hk2 : k ∉ l2.map Prod.fst := (List.nodup_cons.1 (List.nodup_append.1 hnd).2.1).1
  have hlen : m.used = l1.length + l2.length + 1 := by
    rw [hwf.2, h3]; simp; omega
  rw [her]
  refine ⟨rfl, ⟨?_, ?_⟩, rfl, ?_, rfl, ?_, ?_⟩
  · show (remove m.lt m.map k).2.inorder.Pairwise _
    rw [h4]
    exact hs.sublist (List.Sublist.append_left (List.sublist_cons_self e l2) l1)
  · show m.used - 1 = (remove m.lt m.map k).2.inorder.length
    rw [h4, hlen]; simp
  · show m.used - 1 + 1 = m.used
    omega
  · show (remove m.lt m.map k).2.inorder = _
    rw [h4, h3, List.filter_append, List.filter_cons]
    have f1 : l1.filter (fun x => decide (x.1 ≠ k)) = l1 := by
      rw [List.filter_eq_self]
      intro a ha
      simp only [ne_eq, decide_eq_true_eq]
      intro hak
      exact hk1 (List.mem_map.2 ⟨a, ha, hak⟩)
    have f2 : l2.filter (fun x => decide (x.1 ≠ k)) = l2 := by
      rw [List.filter_eq_self]
      intro a ha
      simp only [ne_eq, decide_eq_true_eq]
      intro hak
      exact hk2 (List.mem_map.2 ⟨a, ha, hak⟩)
    rw [f1, f2]
    simp [hek]
  · show (remove m.lt m.map k).2.inorder.map Prod.fst = _
    rw [h4, h3, List.map_append, List.map_append, List.map_cons, hek,
      List.erase_append_right _ hk1, List.erase_cons_head]

theorem bst_erase_absent [DecidableEq KEY] (m : BSTMap KEY T tlt) (k : KEY)
    (hf : find_key m.lt m.map k = none) :
    m.erase k = (Except.error IcsError.KeyError, m) := by
  unfold erase
  rw [remove_absent m.lt m.map k hf]

end BSTMap

namespace BSTMap

variable {KEY T : Type} {tlt : ltfunc KEY}

/-- The helper `copy_to_queue` adds the entries of the tree in pre-order at the rear. -/
theorem copy_to_queue_items :
    ∀ (t : TN KEY T) (q : ArrayQueue (KEY × T)),
      (copy_to_queue t q).items = q.items ++ t.preorder := by
  intro t
  induction t with
  | null => intro q; simp [copy_to_queue, TN.preorder]
  | mk v l r ihl ihr =>
    intro q
    rw [copy_to_queue, ihr, ihl]
    simp [ArrayQueue.enqueue, TN.preorder]

/-- The pre-order sequence of a tree is a rearrangement of its entries from left to right. -/
theorem preorder_perm_inorder : ∀ (t : TN KEY T), t.preorder.Perm t.inorder := by
  intro t
  induction t with
  | null => exact List.Perm.refl _
  | mk v l r ihl ihr =>
    show (v :: (l.preorder ++ r.preorder)).Perm (l.inorder ++ v :: r.inorder)
    exact ((ihl.append ihr).cons v).trans List.perm_middle.symm

/-- The visiting loop from a non-stale iterator that may erase, with more rounds allowed
than its queue has entries: it ends without an exception and has visited the entries of
the queue, front first. -/
theorem visit_loop_spec (this : Nat) (m : BSTMap KEY T tlt) :
    ∀ (items : List (KEY × T)) (fuel : Nat) (it : Iterator KEY T) (acc : List (KEY × T)),
      it.it.items = items → it.expected_mod_count = m.mod_count → it.ref_map = this →
      it.can_erase = true → items.length < fuel →
      ∃ it2 : Iterator KEY T,
        visit_loop this m fuel it acc = some (Except.ok (acc ++ items), it2) ∧
        it2.it.items = [] := by
  intro items
  induction items with
  | nil =>
    intro fuel it acc hi hexp href _ hf
    cases fuel with
    | zero => simp at hf
    | succ f =>
      have hne : it.op_ne (m.end_ this) m = Except.ok false := by
        unfold Iterator.op_ne
        rw [if_neg (by simp [hexp]), if_neg (by simp [href, end_, Iterator.ctor])]
        simp [ArrayQueue.size, hi, end_, Iterator.ctor]
      refine ⟨it, ?_, hi⟩
      simp only [visit_loop, hne, List.append_nil]
  | cons x rest ih =>
    intro fuel it acc hi hexp href hce hf
    cases fuel with
    | zero => simp at hf
    | succ f =>
      have hne : it.op_ne (m.end_ this) m = Except.ok true := by
        unfold Iterator.op_ne
        rw [if_neg (by simp [hexp]), if_neg (by simp [href, end_, Iterator.ctor])]
        simp [ArrayQueue.size, hi, end_, Iterator.ctor]
      have hemp : it.it.empty = false := by simp [ArrayQueue.empty, hi]
      have hd : it.deref m = Except.ok x := by
        unfold Iterator.deref
        rw [if_neg (by simp [hexp]), if_neg (by simp [hce, hemp])]
        simp [ArrayQueue.peek, hi]
      have hinc : it.incr m = Except.ok { it with it := ⟨rest⟩ } := by
        unfold Iterator.incr
        rw [if_neg (by simp [hexp]), if_neg (by simp [hemp]), if_pos hce]
        simp [ArrayQueue.dequeue, hi]
      obtain ⟨it2, h2, h3⟩ := ih f { it with it := ⟨rest⟩ } (acc ++ [x]) rfl hexp href hce
        (by simp at hf; omega)
      refine ⟨it2, ?_, h3⟩
      simp only [visit_loop, hne, hd, hinc]
      rw [h2]
      simp

end BSTMap

theorem swap_at_length {T : Type} [Inhabited T] (pq : List T) (i j : Nat) :
    (swap_at pq i j).length = pq.length := by
  simp [swap_at]

/-- The cells of an array after `std::swap(pq[i], pq[j])`. -/
theorem swap_at_getD {T : Type} [Inhabited T] (pq : List T) (i j k : Nat)
    (hi : i < pq.length) (hj : j < pq.length) :
    (swap_at pq i j).getD k default =
      if k = j then pq.getD i default
      else if k = i then pq.getD j default else pq.getD k default := by
  unfold swap_at
  simp only [List.getD_eq_getElem?_getD, List.getElem?_set]
  by_cases hkj : k = j
  · subst hkj
    simp [hj]
  · by_cases hki : k = i
    · subst hki
      have hjk : ¬ j = k := fun h => hkj h.symm
      simp [hkj, hjk, hi]
    · have hjk : ¬ j = k := fun h => hkj h.symm
      have hik : ¬ i = k := fun h => hki h.symm
      simp [hkj, hki, hjk, hik]

namespace HeapPriorityQueue

variable {T : Type} {tgt : gtfunc T}

theorem content_congr [Inhabited T] (pq1 pq2 : List T) (used : Nat)
    (h : ∀ i, i < used → pq1.getD i default = pq2.getD i default) :
    content pq1 used = content pq2 used := by
  unfold content
  apply List.map_congr_left
  intro i hi
  exact h i (List.mem_range.1 hi)

theorem content_succ [Inhabited T] (pq : List T) (n : Nat) :
    content pq (n + 1) = content pq n ++ [pq.getD n default] := by
  simp [content, List.range_succ]

theorem content_zero [Inhabited T] (pq : List T) : content pq 0 = [] := rfl

theorem length_content [Inhabited T] (pq : List T) (n : Nat) : (content pq n).length = n := by
  simp [content]

theorem mem_content [Inhabited T] (pq : List T) (used : Nat) (x : T) :
    x ∈ content pq used ↔ ∃ i, i < used ∧ pq.getD i default = x := by
  simp [content]

/-- Exchanging two cells of the heap rearranges its elements. -/
theorem content_swap_perm [Inhabited T] (pq : List T) (used i j : Nat)
    (hi : i < used) (hj : j < used) (hu : used ≤ pq.length) :
    (content (swap_at pq i j) used).Perm (content pq used) := by
  have h1 : content (swap_at pq i j) used =
      ((List.range used).map (fun (k : Nat) => if k = j then i else if k = i then j else k)).map
        (fun (k : Nat) => pq.getD k default) := by
    unfold content
    rw [List.map_map]
    apply List.map_congr_left
    intro k _
    rw [swap_at_getD pq i j k (by omega) (by omega)]
    simp only [Function.comp]
    split
    · rfl
    · split <;> rfl
  rw [h1]
  apply List.Perm.map
  have hinj : Function.Injective (fun (k : Nat) => if k = j then i else if k = i then j else k) := by
    intro a b hab
    simp only at hab
    split at hab <;> split at hab <;> (try split at hab) <;> (try split at hab) <;> omega
  rw [List.perm_ext_iff_of_nodup ((List.nodup_range used).map hinj) (List.nodup_range used)]
  intro a
  simp only [List.mem_map, List.mem_range]
  constructor
  · rintro ⟨k, hk, rfl⟩
    split
    · exact hi
    · split
      · exact hj
      · exact hk
  · intro ha
    by_cases haj : a = j
    · exact ⟨i, hi, by subst haj; by_cases hij : i = a <;> simp [hij]⟩
    · by_cases hai : a = i
      · exact ⟨j, hj, by subst hai; simp⟩
      · exact ⟨a, ha, by simp [haj, hai]⟩

end HeapPriorityQueue

end ics
namespace ics

namespace HeapPriorityQueue

variable {T : Type} {tgt : gtfunc T}

theorem parent_lt {i : Nat} (h : 0 < i) : parent i < i := by
  unfold parent; omega

/-- The loop of `percolate_up` from index `j` repairs a heap whose only fault is at `j`:
every other element is not higher than its parent, and the children of `j` are not higher
than the parent of `j`. -/
theorem percolate_up_loop_spec [Inhabited T] (gt : gtfunc T) (hgt : gt.StrictWeak) (used : Nat) :
    ∀ (fuel j : Nat) (pq : List T), j < fuel → j < used → used ≤ pq.length →
      (∀ i, 0 < i → i < used → i ≠ j →
        gt.call (pq.getD i default) (pq.getD (parent i) default) = false) →
      (0 < j → ∀ c, 0 < c → c < used → parent c = j →
        gt.call (pq.getD c default) (pq.getD (parent j) default) = false) →
      heap_order gt.call (percolate_up_loop gt.call fuel j pq) used ∧
      (percolate_up_loop gt.call fuel j pq).length = pq.length ∧
      (content (percolate_up_loop gt.call fuel j pq) used).Perm (content pq used) ∧
      ∀ k, used ≤ k → (percolate_up_loop gt.call fuel j pq).getD k default = pq.getD k default := by
  intro fuel
  induction fuel with
  | zero => intro j pq hj; omega
  | succ f ih =>
    intro j pq hjf hju hlen h1 h2
    rw [percolate_up_loop]
    by_cases hroot : j = 0
    · rw [if_pos (by simp [is_root, hroot])]
      refine ⟨?_, rfl, List.Perm.refl _, fun _ _ => rfl⟩
      intro i hi hiu
      exact h1 i hi hiu (by omega)
    · rw [if_neg (by simp [is_root, hroot])]
      have hj0 : 0 < j := Nat.pos_of_ne_zero hroot
      have hp := parent_lt hj0
      by_cases hgtj : gt.call (pq.getD j default) (pq.getD (parent j) default) = true
      · rw [if_pos hgtj]
        have hg : ∀ k, (swap_at pq j (parent j)).getD k default =
            if k = parent j then pq.getD j default
            else if k = j then pq.getD (parent j) default else pq.getD k default :=
          fun k => swap_at_getD pq j (parent j) k (by omega) (by omega)
        have hasym := hgt.asymm _ _ hgtj
        obtain ⟨r1, r2, r3, r4⟩ := ih (parent j) (swap_at pq j (parent j)) (by omega) (by omega)
          (by rw [swap_at_length]; exact hlen)
          (by
            intro i hi hiu hip
            rw [hg i, hg (parent i), if_neg hip]
            have hpi := parent_lt hi
            by_cases hij : i = j
            · subst hij
              rw [if_pos rfl, if_pos rfl]
              exact hasym
            · rw [if_neg hij]
              by_cases hq : parent i = parent j
              · rw [if_pos hq]
                refine hgt.negtrans _ _ _ ?_ hasym
                have := h1 i hi hiu hij
                rw [hq] at this
                exact this
              · rw [if_neg hq]
                by_cases hqj : parent i = j
                · rw [if_pos hqj]
                  exact h2 hj0 i hi hiu hqj
                · rw [if_neg hqj]
                  exact h1 i hi hiu hij)
          (by
            intro hp0 c hc hcu hcp
            have hpp := parent_lt hp0
            have hcl := parent_lt hc
            have e1 : c ≠ parent j := by omega
            have e2 : parent (parent j) ≠ parent j := by omega
            have e3 : parent (parent j) ≠ j := by omega
            rw [hg c, hg (parent (parent j)), if_neg e1, if_neg e2, if_neg e3]
            have hpj := h1 (parent j) hp0 (by omega) (by omega)
            by_cases hcj : c = j
            · rw [if_pos hcj]
              exact hpj
            · rw [if_neg hcj]
              refine hgt.negtrans _ _ _ ?_ hpj
              have := h1 c hc hcu hcj
              rw [hcp] at this
              exact this)
        refine ⟨r1, by rw [r2, swap_at_length],
          r3.trans (content_swap_perm pq used j (parent j) hju (by omega) hlen), ?_⟩
        intro k hk
        rw [r4 k hk, hg k, if_neg (by omega), if_neg (by omega)]
      · rw [if_neg hgtj]
        refine ⟨?_, rfl, List.Perm.refl _, fun _ _ => rfl⟩
        intro i hi hiu
        by_cases hij : i = j
        · subst hij
          simpa using hgtj
        · exact h1 i hi hiu hij

end HeapPriorityQueue

end ics
namespace ics

namespace HeapPriorityQueue

variable {T : Type} {tgt : gtfunc T}

theorem parent_eq_iff {c j : Nat} (hc : 0 < c) :
    parent c = j ↔ c = left_child j ∨ c = right_child j := by
  unfold parent left_child right_child; omega

/-- With no left child in the heap the loop of `percolate_down` changes nothing. -/
theorem percolate_down_loop_no_left [Inhabited T] (gt : T → T → Bool) (used : Nat)
    (fuel j : Nat) (pq : List T) (h : used ≤ left_child j) :
    percolate_down_loop gt used fuel j pq = pq := by
  cases fuel with
  | zero => rfl
  | succ f =>
    rw [percolate_down_loop]
    split
    · rfl
    · rw [if_pos (by simp [in_heap]; omega)]

/-- One exchange of `percolate_down`: when the element at `j` is exchanged with a child `c`
that no other child of `j` is higher than, the only fault of the heap moves from `j` to
`c`. -/
theorem percolate_down_step [Inhabited T] (gt : gtfunc T) (used j c : Nat) (pq : List T)
    (hlen : used ≤ pq.length) (hc0 : 0 < c) (hcu : c < used) (hcj : parent c = j)
    (k1 : gt.call (pq.getD j default) (pq.getD c default) = false)
    (k2 : ∀ s, 0 < s → s < used → parent s = j → s ≠ c →
      gt.call (pq.getD s default) (pq.getD c default) = false)
    (h1 : ∀ i, 0 < i → i < used → parent i ≠ j →
      gt.call (pq.getD i default) (pq.getD (parent i) default) = false)
    (h2 : 0 < j → ∀ s, 0 < s → s < used → parent s = j →
      gt.call (pq.getD s default) (pq.getD (parent j) default) = false) :
    (∀ i, 0 < i → i < used → parent i ≠ c →
      gt.call ((swap_at pq j c).getD i default)
        ((swap_at pq j c).getD (parent i) default) = false) ∧
    (0 < c → ∀ s, 0 < s → s < used → parent s = c →
      gt.call ((swap_at pq j c).getD s default)
        ((swap_at pq j c).getD (parent c) default) = false) := by
  have hjc : j < c := hcj ▸ parent_lt hc0
  have hg : ∀ k, (swap_at pq j c).getD k default =
      if k = c then pq.getD j default
      else if k = j then pq.getD c default else pq.getD k default :=
    fun k => swap_at_getD pq j c k (by omega) (by omega)
  constructor
  · intro i hi hiu hpi
    have hpl := parent_lt hi
    rw [hg i, hg (parent i), if_neg hpi]
    by_cases hic : i = c
    · subst hic
      rw [if_pos rfl, if_pos hcj]
      exact k1
    · rw [if_neg hic]
      by_cases hij : i = j
      · subst hij
        rw [if_pos rfl, if_neg (by omega)]
        exact h2 hi c hc0 hcu hcj
      · rw [if_neg hij]
        by_cases hq : parent i = j
        · rw [if_pos hq]
          exact k2 i hi hiu hq hic
        · rw [if_neg hq]
          exact h1 i hi hiu hq
  · intro _ s hs hsu hsc
    have hsl := parent_lt hs
    have e1 : s ≠ c := by omega
    have e2 : s ≠ j := by omega
    have e3 : parent c ≠ c := by omega
    rw [hg s, hg (parent c), if_neg e1, if_neg e2, if_neg e3, if_pos hcj]
    have := h1 s hs hsu (by omega)
    rw [hsc] at this
    exact this

/-- The loop of `percolate_down` from index `j` repairs a heap whose only fault is at `j`:
every element whose parent is not `j` is not higher than its parent, and the children of
`j` are not higher than the parent of `j`. -/
theorem percolate_down_loop_spec [Inhabited T] (gt : gtfunc T) (hgt : gt.StrictWeak)
    (used : Nat) :
    ∀ (fuel j : Nat) (pq : List T), used ≤ j + fuel → used ≤ pq.length →
      (∀ i, 0 < i → i < used → parent i ≠ j →
        gt.call (pq.getD i default) (pq.getD (parent i) default) = false) →
      (0 < j → ∀ s, 0 < s → s < used → parent s = j →
        gt.call (pq.getD s default) (pq.getD (parent j) default) = false) →
      heap_order gt.call (percolate_down_loop gt.call used fuel j pq) used ∧
      (percolate_down_loop gt.call used fuel j pq).length = pq.length ∧
      (content (percolate_down_loop gt.call used fuel j pq) used).Perm (content pq used) ∧
      ∀ k, used ≤ k →
        (percolate_down_loop gt.call used fuel j pq).getD k default = pq.getD k default := by
  intro fuel
  induction fuel with
  | zero =>
    intro j pq hf _ h1 _
    refine ⟨?_, rfl, List.Perm.refl _, fun _ _ => rfl⟩
    intro i hi hiu
    exact h1 i hi hiu (by have := parent_lt hi; omega)
  | succ f ih =>
    intro j pq hf hlen h1 h2
    -- the heap is in order as soon as the children of `j` are not higher than `j`
    have hdone : (∀ s, 0 < s → s < used → parent s = j →
        gt.call (pq.getD s default) (pq.getD j default) = false) →
        heap_order gt.call pq used := by
      intro hch i hi hiu
      by_cases hq : parent i = j
      · have := hch i hi hiu hq
        rw [hq]; exact this
      · exact h1 i hi hiu hq
    -- an exchange with the child `c`, then the loop from `c`
    have hswap : ∀ c, 0 < c → c < used → parent c = j →
        gt.call (pq.getD j default) (pq.getD c default) = false →
        (∀ s, 0 < s → s < used → parent s = j → s ≠ c →
          gt.call (pq.getD s default) (pq.getD c default) = false) →
        heap_order gt.call (percolate_down_loop gt.call used f c (swap_at pq j c)) used ∧
        (percolate_down_loop gt.call used f c (swap_at pq j c)).length = pq.length ∧
        (content (percolate_down_loop gt.call used f c (swap_at pq j c)) used).Perm
          (content pq used) ∧
        ∀ k, used ≤ k →
          (percolate_down_loop gt.call used f c (swap_at pq j c)).getD k default =
            pq.getD k default := by
      intro c hc0 hcu hcj k1 k2
      have hjc : j < c := hcj ▸ parent_lt hc0
      obtain ⟨p1, p2⟩ := percolate_down_step gt used j c pq hlen hc0 hcu hcj k1 k2 h1 h2
      obtain ⟨r1, r2, r3, r4⟩ := ih c (swap_at pq j c) (by omega)
        (by rw [swap_at_length]; exact hlen) p1 p2
      refine ⟨r1, by rw [r2, swap_at_length],
        r3.trans (content_swap_perm pq used j c (by omega) hcu hlen), ?_⟩
      intro k hk
      rw [r4 k hk, swap_at_getD pq j c k (by omega) (by omega), if_neg (by omega),
        if_neg (by omega)]
    rw [percolate_down_loop]
    by_cases hju : j < used
    · rw [if_neg (by simpa using hju)]
      by_cases hl : left_child j < used
      · rw [if_neg (by simp [in_heap, hl])]
        have hl0 : 0 < left_child j := by unfold left_child; omega
        have hlp : parent (left_child j) = j := (parent_eq_iff hl0).2 (Or.inl rfl)
        by_cases hr : right_child j < used
        · rw [if_neg (by simp [in_heap, hr])]
          have hr0 : 0 < right_child j := by unfold right_child; omega
          have hrp : parent (right_child j) = j := (parent_eq_iff hr0).2 (Or.inr rfl)
          have hlr : left_child j ≠ right_child j := by unfold left_child right_child; omega
          cases hjl : gt.call (pq.getD j default) (pq.getD (left_child j) default) with
          | false =>
            rw [if_pos (by simp)]
            cases hglr : gt.call (pq.getD (left_child j) default)
                (pq.getD (right_child j) default) with
            | true =>
              rw [if_pos rfl]
              refine hswap (left_child j) hl0 hl hlp hjl ?_
              intro s hs hsu hsj hsl
              rcases (parent_eq_iff hs).1 hsj with h | h
              · exact absurd h hsl
              · rw [h]; exact hgt.asymm _ _ hglr
            | false =>
              rw [if_neg (by simp)]
              refine hswap (right_child j) hr0 hr hrp (hgt.negtrans _ _ _ hjl hglr) ?_
              intro s hs hsu hsj hsr
              rcases (parent_eq_iff hs).1 hsj with h | h
              · rw [h]; exact hglr
              · exact absurd h hsr
          | true =>
            cases hjr : gt.call (pq.getD j default) (pq.getD (right_child j) default) with
            | false =>
              rw [if_pos (by simp)]
              cases hglr : gt.call (pq.getD (left_child j) default)
                  (pq.getD (right_child j) default) with
              | true =>
                rw [if_pos rfl]
                refine hswap (left_child j) hl0 hl hlp
                  (hgt.negtrans _ _ _ hjr (hgt.asymm _ _ hglr)) ?_
                intro s hs hsu hsj hsl
                rcases (parent_eq_iff hs).1 hsj with h | h
                · exact absurd h hsl
                · rw [h]; exact hgt.asymm _ _ hglr
              | false =>
                rw [if_neg (by simp)]
                refine hswap (right_child j) hr0 hr hrp hjr ?_
                intro s hs hsu hsj hsr
                rcases (parent_eq_iff hs).1 hsj with h | h
                · rw [h]; exact hglr
                · exact absurd h hsr
            | true =>
              rw [if_neg (by simp)]
              refine ⟨hdone ?_, rfl, List.Perm.refl _, fun _ _ => rfl⟩
              intro s hs hsu hsj
              rcases (parent_eq_iff hs).1 hsj with h | h
              · rw [h]; exact hgt.asymm _ _ hjl
              · rw [h]; exact hgt.asymm _ _ hjr
        · rw [if_pos (by simp [in_heap, hr])]
          cases hjl : gt.call (pq.getD j default) (pq.getD (left_child j) default) with
          | false =>
            rw [if_pos (by simp)]
            refine hswap (left_child j) hl0 hl hlp hjl ?_
            intro s hs hsu hsj hsl
            rcases (parent_eq_iff hs).1 hsj with h | h
            · exact absurd h hsl
            · omega
          | true =>
            rw [if_neg (by simp)]
            rw [percolate_down_loop_no_left gt.call used f (j + 1) pq
              (by unfold left_child right_child at *; omega)]
            refine ⟨hdone ?_, rfl, List.Perm.refl _, fun _ _ => rfl⟩
            intro s hs hsu hsj
            rcases (parent_eq_iff hs).1 hsj with h | h
            · rw [h]; exact hgt.asymm _ _ hjl
            · omega
      · rw [if_pos (by simp [in_heap, hl])]
        refine ⟨hdone ?_, rfl, List.Perm.refl _, fun _ _ => rfl⟩
        intro s hs hsu hsj
        rcases (parent_eq_iff hs).1 hsj with h | h
        · omega
        · unfold left_child right_child at *; omega
    · rw [if_pos (by simpa using hju)]
      refine ⟨hdone ?_, rfl, List.Perm.refl _, fun _ _ => rfl⟩
      intro s hs hsu hsj
      have := parent_lt hs
      omega

end HeapPriorityQueue

end ics
namespace ics

theorem getD_set_self {T : Type} [Inhabited T] (l : List T) (i : Nat) (x : T)
    (h : i < l.length) : (l.set i x).getD i default = x := by
  simp [List.getD_eq_getElem?_getD, List.getElem?_set, h]

theorem getD_set_ne {T : Type} [Inhabited T] (l : List T) (i k : Nat) (x : T) (h : k ≠ i) :
    (l.set i x).getD k default = l.getD k default := by
  simp [List.getD_eq_getElem?_getD, List.getElem?_set, Ne.symm h]

namespace HeapPriorityQueue

variable {T : Type} {tgt : gtfunc T}

/-- In a heap no element is higher than the root. -/
theorem root_max [Inhabited T] (gt : gtfunc T) (hgt : gt.StrictWeak) (pq : List T) (used : Nat)
    (h : heap_order gt.call pq used) :
    ∀ i, i < used → gt.call (pq.getD i default) (pq.getD 0 default) = false := by
  intro i
  induction i using Nat.strong_induction_on with
  | _ i ih =>
    intro hi
    by_cases h0 : i = 0
    · subst h0
      cases hc : gt.call (pq.getD 0 default) (pq.getD 0 default) with
      | false => rfl
      | true => exact (hgt.asymm _ _ hc).symm.trans hc |>.symm ▸ rfl
    · have hp := parent_lt (Nat.pos_of_ne_zero h0)
      exact hgt.negtrans _ _ _ (h i (Nat.pos_of_ne_zero h0) hi) (ih (parent i) hp (by omega))

theorem ensure_length_spec [Inhabited T] (q : HeapPriorityQueue T tgt) (n : Nat)
    (h1 : q.pq.length = q.length) (h2 : q.used ≤ q.length) :
    (q.ensure_length n).pq.length = (q.ensure_length n).length ∧
    n ≤ (q.ensure_length n).length ∧ (q.ensure_length n).used = q.used ∧
    (q.ensure_length n).gt = q.gt ∧ (q.ensure_length n).mod_count = q.mod_count ∧
    ∀ i, i < q.used → (q.ensure_length n).pq.getD i default = q.pq.getD i default := by
  unfold ensure_length
  by_cases h : q.length ≥ n
  · rw [if_pos h]
    exact ⟨h1, h, rfl, rfl, rfl, fun _ _ => rfl⟩
  · rw [if_neg h]
    refine ⟨?_, Nat.le_max_left _ _, rfl, rfl, rfl, ?_⟩
    · show (q.pq.take q.used ++ List.replicate (max n (2 * q.length) - q.used) default).length
        = max n (2 * q.length)
      rw [List.length_append, List.length_take, List.length_replicate, h1]
      have := Nat.le_max_left n (2 * q.length)
      omega
    · intro i hi
      show (q.pq.take q.used ++ List.replicate (max n (2 * q.length) - q.used) default).getD i
        default = _
      rw [List.getD_append _ _ _ _ (by rw [List.length_take, h1]; omega)]
      simp [List.getD_eq_getElem?_getD, List.getElem?_take, hi]

/-- What `enqueue` does to a well-formed queue whose `gt` is a strict weak order. -/
theorem heap_enqueue_spec [Inhabited T] (q : HeapPriorityQueue T tgt) (hwf : q.WF)
    (hgt : q.gt.StrictWeak) (x : T) :
    (q.enqueue x).1 = 1 ∧ (q.enqueue x).2.WF ∧ (q.enqueue x).2.gt = q.gt ∧
    (q.enqueue x).2.used = q.used + 1 ∧ (q.enqueue x).2.mod_count = q.mod_count + 1 ∧
    (q.enqueue x).2.elements.Perm (x :: q.elements) := by
  obtain ⟨w1, w2, w3⟩ := hwf
  obtain ⟨e1, e2, e3, e4, e5, e6⟩ := ensure_length_spec q (q.used + 1) w1 w2
  have hlen2 : ((q.ensure_length (q.used + 1)).pq.set q.used x).length
      = (q.ensure_length (q.used + 1)).length := by
    rw [List.length_set, e1]
  have hget : ∀ i, i ≠ q.used →
      ((q.ensure_length (q.used + 1)).pq.set q.used x).getD i default =
        (q.ensure_length (q.used + 1)).pq.getD i default := by
    intro i hi
    exact getD_set_ne _ _ _ _ hi
  have hgetu : ((q.ensure_length (q.used + 1)).pq.set q.used x).getD q.used default = x :=
    getD_set_self _ _ _ (by omega)
  have hsp := percolate_up_loop_spec q.gt hgt (q.used + 1) (q.used + 1) q.used
    ((q.ensure_length (q.used + 1)).pq.set q.used x) (by omega) (by omega)
    (by rw [hlen2]; exact e2)
    (by
      intro i hi hiu hne
      have hp := parent_lt hi
      rw [hget i hne, hget (parent i) (by omega), e6 i (by omega), e6 (parent i) (by omega)]
      exact w3 i hi (by omega))
    (by
      intro _ c hc hcu hcp
      rcases (parent_eq_iff hc).1 hcp with h | h <;>
        (simp only [left_child, right_child] at h; omega))
  obtain ⟨r1, r2, r3, _⟩ := hsp
  have hen : (q.enqueue x).2 =
      { q.ensure_length (q.used + 1) with
        pq := percolate_up_loop q.gt.call (q.used + 1) q.used
                ((q.ensure_length (q.used + 1)).pq.set q.used x),
        used := q.used + 1,
        mod_count := q.mod_count + 1 } := by
    simp [enqueue, percolate_up, in_heap, e3, e4, e5]
  rw [hen]
  refine ⟨rfl, ⟨by show _ = (q.ensure_length (q.used + 1)).length; rw [r2, hlen2], e2, ?_⟩,
    e4, rfl, rfl, ?_⟩
  · show heap_order (q.ensure_length (q.used + 1)).gt.call _ (q.used + 1)
    rw [e4]; exact r1
  · show (content _ (q.used + 1)).Perm (x :: content q.pq q.used)
    refine r3.trans ?_
    rw [content_succ, hgetu]
    rw [content_congr _ q.pq q.used (fun i hi => by rw [hget i (by omega), e6 i hi])]
    exact List.perm_append_singleton x _

/-- What `dequeue` does to a well-formed queue that is not empty and whose `gt` is a
strict weak order: it returns the root, which no element of the queue is higher than. -/
theorem heap_dequeue_spec [Inhabited T] (q : HeapPriorityQueue T tgt) (hwf : q.WF)
    (hgt : q.gt.StrictWeak) (hu : q.used ≠ 0) :
    q.dequeue.1 = Except.ok (q.pq.getD 0 default) ∧ q.dequeue.2.WF ∧
    q.dequeue.2.gt = q.gt ∧ q.dequeue.2.used + 1 = q.used ∧
    q.dequeue.2.mod_count = q.mod_count + 1 ∧
    q.elements.Perm (q.pq.getD 0 default :: q.dequeue.2.elements) ∧
    ∀ y ∈ q.elements, q.gt.call y (q.pq.getD 0 default) = false := by
  obtain ⟨w1, w2, w3⟩ := hwf
  have hne : q.empty = false := by simpa [empty] using hu
  cases hpq : q.pq with
  | nil => rw [hpq] at w1; simp at w1; omega
  | cons x rest =>
    have hx : q.pq.getD 0 default = x := by rw [hpq]; rfl
    have hlen1 : (q.pq.set 0 (q.pq.getD (q.used - 1) default)).length = q.length := by
      rw [List.length_set, w1]
    have hget : ∀ i, i ≠ 0 →
        (q.pq.set 0 (q.pq.getD (q.used - 1) default)).getD i default = q.pq.getD i default := by
      intro i hi
      exact getD_set_ne _ _ _ _ hi
    have hget0 : (q.pq.set 0 (q.pq.getD (q.used - 1) default)).getD 0 default =
        q.pq.getD (q.used - 1) default :=
      getD_set_self _ _ _ (by omega)
    have hdq : q.dequeue = (Except.ok x,
        { q with
          pq := percolate_down q.gt.call (q.used - 1) 0
                  (q.pq.set 0 (q.pq.getD (q.used - 1) default)),
          used := q.used - 1,
          mod_count := q.mod_count + 1 }) := by
      simp only [dequeue, hne, hpq]
      rfl
    have hsp : heap_order q.gt.call (percolate_down q.gt.call (q.used - 1) 0
          (q.pq.set 0 (q.pq.getD (q.used - 1) default))) (q.used - 1) ∧
        (percolate_down q.gt.call (q.used - 1) 0
          (q.pq.set 0 (q.pq.getD (q.used - 1) default))).length = q.length ∧
        (content (percolate_down q.gt.call (q.used - 1) 0
          (q.pq.set 0 (q.pq.getD (q.used - 1) default))) (q.used - 1)).Perm
          (content (q.pq.set 0 (q.pq.getD (q.used - 1) default)) (q.used - 1)) := by
      unfold percolate_down
      by_cases h0 : 0 < q.used - 1
      · rw [if_neg (by simp [in_heap, h0])]
        obtain ⟨r1, r2, r3, _⟩ := percolate_down_loop_spec q.gt hgt (q.used - 1) (q.used - 1) 0
          (q.pq.set 0 (q.pq.getD (q.used - 1) default)) (by omega) (by rw [hlen1]; omega)
          (by
            intro i hi hiu hp
            rw [hget i (by omega), hget (parent i) hp]
            exact w3 i hi (by omega))
          (by intro h; omega)
        exact ⟨r1, r2.trans hlen1, r3⟩
      · rw [if_pos (by simp [in_heap]; omega)]
        refine ⟨?_, hlen1, List.Perm.refl _⟩
        intro i hi hiu
        omega
    obtain ⟨s1, s2, s3⟩ := hsp
    have hx2 : (x :: rest).getD 0 default = x := rfl
    rw [hdq, hx2]
    refine ⟨rfl, ⟨s2, by show q.used - 1 ≤ q.length; omega, s1⟩, rfl,
      by show q.used - 1 + 1 = q.used; omega, rfl, ?_, ?_⟩
    · show (content q.pq q.used).Perm (x :: content _ (q.used - 1))
      refine List.Perm.trans ?_ ((s3.symm).cons x)
      have hsw := content_swap_perm q.pq q.used 0 (q.used - 1) (by omega) (by omega)
        (by omega)
      have hsucc0 : ∀ n, q.used = n + 1 → content (swap_at q.pq 0 n) q.used =
          content (swap_at q.pq 0 n) n ++ [x] := by
        intro n hn
        rw [hn, content_succ, swap_at_getD q.pq 0 n n (by omega) (by omega), if_pos rfl, hx]
      have hsucc := hsucc0 (q.used - 1) (by omega)
      have hcg : content (swap_at q.pq 0 (q.used - 1)) (q.used - 1) =
          content (q.pq.set 0 (q.pq.getD (q.used - 1) default)) (q.used - 1) := by
        apply content_congr
        intro i hi
        rw [swap_at_getD q.pq 0 (q.used - 1) i (by omega) (by omega), if_neg (by omega)]
        by_cases hi0 : i = 0
        · subst hi0
          rw [if_pos rfl, hget0]
        · rw [if_neg hi0, hget i hi0]
      rw [hsucc, hcg] at hsw
      exact hsw.symm.trans (List.perm_append_singleton x _)
    · intro y hy
      obtain ⟨i, hi, rfl⟩ := (mem_content q.pq q.used y).1 hy
      rw [← hx]
      exact root_max q.gt hgt q.pq q.used w3 i hi

end HeapPriorityQueue

end ics
namespace ics

namespace HeapPriorityQueue

variable {T : Type} {tgt : gtfunc T}

theorem heap_fresh_WF [Inhabited T] (gt : gtfunc T) (n : Nat) :
    (fresh tgt gt n : HeapPriorityQueue T tgt).WF :=
  ⟨by simp [fresh], Nat.zero_le _, fun i _ hi => absurd hi (Nat.not_lt_zero i)⟩

theorem heap_ctor_default_ok [Inhabited T] {cgt : gtfunc T} {q0 : HeapPriorityQueue T tgt}
    (h : ctor_default tgt cgt = Except.ok q0) : q0 = fresh tgt (pick_gt tgt cgt) 0 := by
  unfold ctor_default at h
  simp only [] at h
  split at h
  · cases h
  · split at h
    · cases h
    · injection h with h; exact h.symm

theorem heap_enqueues_cons [Inhabited T] (q : HeapPriorityQueue T tgt) (x : T) (l : List T) :
    q.enqueues (x :: l) = (q.enqueue x).2.enqueues l := rfl

/-- What a sequence of `enqueue` calls does to a well-formed queue. -/
theorem heap_enqueues_spec [Inhabited T] (l : List T) :
    ∀ (q : HeapPriorityQueue T tgt), q.WF → q.gt.StrictWeak →
      (q.enqueues l).WF ∧ (q.enqueues l).gt = q.gt ∧
      (q.enqueues l).used = q.used + l.length ∧
      (q.enqueues l).mod_count = q.mod_count + l.length ∧
      (q.enqueues l).elements.Perm (q.elements ++ l) := by
  induction l with
  | nil => intro q hwf _; exact ⟨hwf, rfl, rfl, rfl, by simp [enqueues]⟩
  | cons x rest ih =>
    intro q hwf hgt
    obtain ⟨_, w1, g1, u1, c1, p1⟩ := heap_enqueue_spec q hwf hgt x
    obtain ⟨w2, g2, u2, c2, p2⟩ := ih (q.enqueue x).2 w1 (g1.symm ▸ hgt)
    rw [heap_enqueues_cons]
    refine ⟨w2, g2.trans g1, ?_, ?_, ?_⟩
    · rw [u2, u1, List.length_cons]; omega
    · rw [c2, c1, List.length_cons]; omega
    · exact p2.trans ((p1.append_right rest).trans List.perm_middle.symm)

/-- Repeated `dequeue` on a well-formed queue with `n` elements, with more than `n` rounds
allowed: it ends without an exception with the queue empty, and returns the elements of
the queue so that none is higher than one returned before it. -/
theorem heap_drain_spec [Inhabited T] :
    ∀ (n : Nat) (q : HeapPriorityQueue T tgt) (acc : List T) (fuel : Nat),
      q.WF → q.gt.StrictWeak → q.used = n → n < fuel →
      ∃ (out : List T) (q2 : HeapPriorityQueue T tgt),
        drain fuel q acc = some (Except.ok (acc ++ out), q2) ∧ out.Perm q.elements ∧
        out.Pairwise (fun a b => q.gt.call b a = false) ∧ q2.used = 0 ∧ q2.WF ∧
        q2.gt = q.gt ∧ q2.mod_count = q.mod_count + n := by
  intro n
  induction n with
  | zero =>
    intro q acc fuel hwf _ hu hf
    cases fuel with
    | zero => omega
    | succ f =>
      refine ⟨[], q, ?_, ?_, List.Pairwise.nil, hu, hwf, rfl, rfl⟩
      · rw [drain, if_pos (by simp [empty, hu]), List.append_nil]
      · simp [elements, hu, content]
  | succ n ih =>
    intro q acc fuel hwf hgt hu hf
    cases fuel with
    | zero => omega
    | succ f =>
      obtain ⟨d1, d2, d3, d4, d5, d6, d7⟩ := heap_dequeue_spec q hwf hgt (by omega)
      obtain ⟨out, q2, h1, h2, h3, h4, h5, h6, h7⟩ :=
        ih q.dequeue.2 (acc ++ [q.pq.getD 0 default]) f d2 (d3.symm ▸ hgt) (by omega) (by omega)
      refine ⟨q.pq.getD 0 default :: out, q2, ?_, (h2.cons _).trans d6.symm, ?_, h4, h5,
        h6.trans d3, ?_⟩
      · rw [drain, if_neg (by simp [empty]; omega)]
        have hd : q.dequeue = (Except.ok (q.pq.getD 0 default), q.dequeue.2) :=
          Prod.ext d1 rfl
        rw [hd]
        simp only []
        rw [h1]
        simp
      · rw [List.pairwise_cons]
        refine ⟨?_, ?_⟩
        · intro y hy
          exact d7 y (d6.symm.subset (List.mem_cons_of_mem _ (h2.subset hy)))
        · rw [d3] at h3; exact h3
      · rw [h7, d5]; omega

end HeapPriorityQueue

theorem natGt_strictWeak : natGt.StrictWeak := by
  refine ⟨fun a b h => ?_, fun a b c h1 h2 => ?_⟩
  · simp only [natGt, decide_eq_true_eq, decide_eq_false_iff_not] at h ⊢; omega
  · simp only [natGt, decide_eq_false_iff_not] at h1 h2 ⊢; omega

namespace HeapPriorityQueue

variable {T : Type} {tgt : gtfunc T}

theorem percolate_down_loop_length [Inhabited T] (gt : T → T → Bool) (used : Nat) :
    ∀ (fuel j : Nat) (pq : List T),
      (percolate_down_loop gt used fuel j pq).length = pq.length := by
  intro fuel
  induction fuel with
  | zero => intro j pq; rfl
  | succ f ih =>
    intro j pq
    rw [percolate_down_loop]
    split_ifs <;> simp [ih, swap_at_length]

theorem swap_at_agree [Inhabited T] (pq pq2 : List T) (used i j : Nat)
    (hi : i < used) (hj : j < used) (h1 : used ≤ pq.length) (h2 : used ≤ pq2.length)
    (h : ∀ k, k < used → pq.getD k default = pq2.getD k default) :
    ∀ k, k < used → (swap_at pq i j).getD k default = (swap_at pq2 i j).getD k default := by
  intro k hk
  rw [swap_at_getD pq i j k (by omega) (by omega),
    swap_at_getD pq2 i j k (by omega) (by omega), h i hi, h j hj, h k hk]

/-- The cells of the heap after `percolate_down` depend only on the cells of the heap
before it. -/
theorem percolate_down_loop_congr [Inhabited T] (gt : T → T → Bool) (used : Nat) :
    ∀ (fuel j : Nat) (pq pq2 : List T), used ≤ pq.length → used ≤ pq2.length →
      (∀ k, k < used → pq.getD k default = pq2.getD k default) →
      ∀ k, k < used →
        (percolate_down_loop gt used fuel j pq).getD k default =
          (percolate_down_loop gt used fuel j pq2).getD k default := by
  intro fuel
  induction fuel with
  | zero => intro j pq pq2 _ _ h; exact h
  | succ f ih =>
    intro j pq pq2 h1 h2 h
    by_cases hj : j < used
    · by_cases hl : left_child j < used
      · have il : in_heap used (left_child j) = true := by simp [in_heap, hl]
        have e1 := h j hj
        have e2 := h _ hl
        by_cases hr : right_child j < used
        · have ir : in_heap used (right_child j) = true := by simp [in_heap, hr]
          have e3 := h _ hr
          simp only [percolate_down_loop, hj, il, ir, not_true_eq_false, if_false,
            Bool.not_true, Bool.false_eq_true, ← e1, ← e2, ← e3]
          split_ifs
          · exact ih _ _ _ (by rw [swap_at_length]; exact h1)
              (by rw [swap_at_length]; exact h2) (swap_at_agree pq pq2 used _ _ hj hl h1 h2 h)
          · exact ih _ _ _ (by rw [swap_at_length]; exact h1)
              (by rw [swap_at_length]; exact h2) (swap_at_agree pq pq2 used _ _ hj hr h1 h2 h)
          · exact h
        · have ir : in_heap used (right_child j) = false := by simp [in_heap, hr]
          simp only [percolate_down_loop, hj, il, ir, not_true_eq_false, if_false,
            Bool.not_true, Bool.not_false, if_true, Bool.false_eq_true, ← e1, ← e2]
          split_ifs
          · exact ih _ _ _ (by rw [swap_at_length]; exact h1)
              (by rw [swap_at_length]; exact h2) (swap_at_agree pq pq2 used _ _ hj hl h1 h2 h)
          · exact ih _ _ _ h1 h2 h
      · have il : in_heap used (left_child j) = false := by simp [in_heap, hl]
        simp only [percolate_down_loop, hj, il, not_true_eq_false, if_false,
          Bool.not_false, if_true]
        exact h
    · simp only [percolate_down_loop, hj, not_false_eq_true, if_true]
      exact h

/-- The member `dequeue` on a queue that is not empty. -/
theorem heap_dequeue_eq [Inhabited T] (q : HeapPriorityQueue T tgt) (hu : q.used ≠ 0)
    (hlen : q.used ≤ q.pq.length) :
    q.dequeue = (Except.ok (q.pq.getD 0 default),
      { q with used := q.used - 1,
               pq := percolate_down q.gt.call (q.used - 1) 0
                 (q.pq.set 0 (q.pq.getD (q.used - 1) default)),
               mod_count := q.mod_count + 1 }) := by
  have hne : q.empty = false := by simpa [empty] using hu
  cases hpq : q.pq with
  | nil => rw [hpq] at hlen; simp at hlen; omega
  | cons x rest =>
    unfold dequeue
    rw [hne]
    simp only [hpq]
    rfl

theorem percolate_down_length [Inhabited T] (gt : T → T → Bool) (used i : Nat) (pq : List T) :
    (percolate_down gt used i pq).length = pq.length := by
  unfold percolate_down
  split
  · rfl
  · exact percolate_down_loop_length gt used _ _ _

theorem percolate_down_congr [Inhabited T] (gt : T → T → Bool) (used i : Nat)
    (pq pq2 : List T) (h1 : used ≤ pq.length) (h2 : used ≤ pq2.length)
    (h : ∀ k, k < used → pq.getD k default = pq2.getD k default) :
    ∀ k, k < used →
      (percolate_down gt used i pq).getD k default =
        (percolate_down gt used i pq2).getD k default := by
  unfold percolate_down
  split
  · exact h
  · exact percolate_down_loop_congr gt used _ _ _ _ h1 h2 h

/-- What `dequeue` returns and the heap it leaves depend only on the priority function and
on the cells of the heap. -/
theorem heap_dequeue_congr [Inhabited T] (q p : HeapPriorityQueue T tgt)
    (hg : q.gt.call = p.gt.call) (hu : q.used = p.used) (hn : q.used ≠ 0)
    (h1 : q.used ≤ q.pq.length) (h2 : p.used ≤ p.pq.length)
    (h : ∀ k, k < q.used → q.pq.getD k default = p.pq.getD k default) :
    q.dequeue.1 = Except.ok (q.pq.getD 0 default) ∧
    p.dequeue.1 = Except.ok (q.pq.getD 0 default) ∧
    q.dequeue.2.gt.call = p.dequeue.2.gt.call ∧
    q.dequeue.2.used = q.used - 1 ∧ p.dequeue.2.used = q.used - 1 ∧
    q.dequeue.2.used ≤ q.dequeue.2.pq.length ∧ p.dequeue.2.used ≤ p.dequeue.2.pq.length ∧
    ∀ k, k < q.used - 1 →
      q.dequeue.2.pq.getD k default = p.dequeue.2.pq.getD k default := by
  rw [heap_dequeue_eq q hn h1, heap_dequeue_eq p (hu ▸ hn) h2]
  dsimp only
  refine ⟨rfl, by rw [h 0 (by omega)], hg, rfl, by rw [hu], ?_, ?_, ?_⟩
  · rw [percolate_down_length, List.length_set]; omega
  · rw [percolate_down_length, List.length_set]; omega
  · rw [← hu, ← hg, ← h (q.used - 1) (by omega)]
    apply percolate_down_congr
    · rw [List.length_set]; omega
    · rw [List.length_set]; omega
    · intro k hk
      by_cases hk0 : k = 0
      · subst hk0
        rw [getD_set_self _ _ _ (by omega), getD_set_self _ _ _ (by omega)]
      · rw [getD_set_ne _ _ _ _ hk0, getD_set_ne _ _ _ _ hk0]
        exact h k (by omega)

end HeapPriorityQueue

end ics
namespace ics

namespace HeapPriorityQueue

variable {T : Type} {tgt : gtfunc T}

/-- The iterator that `begin()` returns when the queue uses `tgt` whenever `tgt` is
specified: it holds a copy of the heap with the same priority function, made without
`heapify`. -/
theorem heap_begin_spec [Inhabited T] (q : HeapPriorityQueue T tgt) (this : Nat)
    (hlen : q.used ≤ q.pq.length) (hq : tgt.same undefinedgt = false → q.gt = tgt) :
    ∃ c : HeapPriorityQueue T tgt,
      q.begin this = Except.ok
        { it := c, ref_pq := this, expected_mod_count := q.mod_count, can_erase := true } ∧
      c.gt = q.gt ∧ c.used = q.used ∧ c.used ≤ c.pq.length ∧
      ∀ k, k < q.used → c.pq.getD k default = q.pq.getD k default := by
  have hb : gt_both_different tgt (undefinedgt : gtfunc T) = false := by
    simp [gt_both_different, gtfunc.same]
  have hg : (if (pick_gt tgt (undefinedgt : gtfunc T)).same undefinedgt then q.gt
      else pick_gt tgt undefinedgt) = q.gt := by
    cases ht : tgt.same undefinedgt with
    | true =>
      have : pick_gt tgt (undefinedgt : gtfunc T) = undefinedgt := by simp [pick_gt, ht]
      rw [this, if_pos (by simp [gtfunc.same])]
    | false =>
      have : pick_gt tgt (undefinedgt : gtfunc T) = tgt := by simp [pick_gt, ht]
      rw [this, if_neg (by simp [ht]), hq ht]
  have hs : q.gt.same q.gt = true := by simp [gtfunc.same]
  refine ⟨{ gt := q.gt, length := q.length, used := q.used, mod_count := 0,
            pq := q.pq.take q.used ++ List.replicate (q.length - q.used) default },
    ?_, rfl, rfl, ?_, ?_⟩
  · unfold begin ctor_copy
    simp only [hb, hg, hs, Bool.not_true, Bool.false_eq_true, if_false]
  · simp [List.length_take, Nat.min_eq_left hlen]
  · intro k hk
    simp only [List.getD_eq_getElem?_getD]
    rw [List.getElem?_append_left (by simp [List.length_take]; omega), List.getElem?_take_of_lt hk]

/-- The loop `for (int i = 0; i < n; ++i, ++it) visit(*it);` over an iterator whose heap
has `n` elements visits what repeated `dequeue` returns on a queue with the same priority
function and the same cells, and leaves the iterator exhausted. -/
theorem heap_visit_count_drain [Inhabited T] (q : HeapPriorityQueue T tgt) :
    ∀ (n : Nat) (it : Iterator T tgt) (p : HeapPriorityQueue T tgt) (acc : List T)
      (fuel : Nat),
      it.can_erase = true → it.expected_mod_count = q.mod_count →
      it.it.used = n → p.used = n → it.it.used ≤ it.it.pq.length → p.used ≤ p.pq.length →
      it.it.gt.call = p.gt.call →
      (∀ k, k < n → it.it.pq.getD k default = p.pq.getD k default) → n < fuel →
      ∃ (out : List T) (it2 : Iterator T tgt) (p2 : HeapPriorityQueue T tgt),
        visit_count q n it acc = (Except.ok (acc ++ out), it2) ∧
        drain fuel p acc = some (Except.ok (acc ++ out), p2) ∧
        out.length = n ∧ it2.it.used = 0 ∧ it2.can_erase = true ∧
        it2.expected_mod_count = q.mod_count ∧ it2.ref_pq = it.ref_pq := by
  intro n
  induction n with
  | zero =>
    intro it p acc fuel hc he hu hpu _ _ _ _ hf
    cases fuel with
    | zero => omega
    | succ f =>
      refine ⟨[], it, p, ?_, ?_, rfl, hu, hc, he, rfl⟩
      · rw [visit_count, List.append_nil]
      · rw [drain, if_pos (by simp [empty, hpu]), List.append_nil]
  | succ n ih =>
    intro it p acc fuel hc he hu hpu hl1 hl2 hg h hf
    cases fuel with
    | zero => omega
    | succ f =>
      obtain ⟨d1, d2, d3, d4, d5, d6, d7, d8⟩ :=
        heap_dequeue_congr it.it p hg (hu.trans hpu.symm) (by omega) hl1 hl2 (by rw [hu]; exact h)
      have hne : it.it.empty = false := by simp [empty, hu]
      have hpk : it.it.peek = Except.ok (it.it.pq.getD 0 default) := by
        unfold peek
        rw [hne]
        cases hpq : it.it.pq with
        | nil => rw [hpq] at hl1; simp at hl1; omega
        | cons x rest => rfl
      have hde : it.deref q = Except.ok (it.it.pq.getD 0 default) := by
        unfold Iterator.deref
        rw [if_neg (by simp [he]), if_neg (by simp [hc, hne]), hpk]
      have hin : it.incr q = Except.ok { it with it := it.it.dequeue.2 } := by
        unfold Iterator.incr
        rw [if_neg (by simp [he]), if_neg (by omega), if_pos hc]
      obtain ⟨out, it2, p2, r1, r2, r3, r4, r5, r6, r7⟩ :=
        ih { it with it := it.it.dequeue.2 } p.dequeue.2 (acc ++ [it.it.pq.getD 0 default]) f
          hc he (by rw [d4, hu]; rfl) (by rw [d5, hu]; rfl) d6 d7 d3
          (by rw [hu] at d8; exact d8) (by omega)
      refine ⟨it.it.pq.getD 0 default :: out, it2, p2, ?_, ?_, by simp [r3], r4, r5, r6, r7⟩
      · rw [visit_count, hde]
        simp only [hin]
        rw [r1]
        simp
      · rw [drain, if_neg (by simp [empty, hpu])]
        have hd : p.dequeue = (Except.ok (it.it.pq.getD 0 default), p.dequeue.2) :=
          Prod.ext d2 rfl
        rw [hd]
        simp only []
        rw [r2]
        simp

end HeapPriorityQueue

namespace ArrayMap

variable {KEY T : Type} [DecidableEq KEY]

theorem am_find_none_iff (l : List (KEY × T)) (k : KEY) :
    find l k = none ↔ k ∉ l.map Prod.fst := by
  induction l with
  | nil => simp [find]
  | cons a rest ih =>
    obtain ⟨k1, v1⟩ := a
    by_cases h : k1 = k
    · simp [find, h]
    · simp only [find, if_neg h, ih, List.map_cons, List.mem_cons, not_or]
      exact ⟨fun h2 => ⟨fun e => h e.symm, h2⟩, fun h2 => h2.2⟩

theorem am_find_mem (l : List (KEY × T)) (k : KEY) (v : T) (h : find l k = some v) :
    (k, v) ∈ l := by
  induction l with
  | nil => simp [find] at h
  | cons a rest ih =>
    obtain ⟨k1, v1⟩ := a
    by_cases h1 : k1 = k
    · simp only [find, if_pos h1, Option.some.injEq] at h
      subst h1; subst h
      exact List.mem_cons_self _ _
    · simp only [find, if_neg h1] at h
      exact List.mem_cons_of_mem _ (ih h)

theorem am_mem_find (l : List (KEY × T)) (k : KEY) (v : T) (h : (k, v) ∈ l) :
    find l k ≠ none := by
  rw [Ne, am_find_none_iff, not_not]
  exact List.mem_map_of_mem Prod.fst h

theorem am_find_put_entry (l : List (KEY × T)) (k : KEY) (v : T) (k2 : KEY) :
    find (put_entry l k v) k2 = if k = k2 then some v else find l k2 := by
  induction l with
  | nil => simp [put_entry, find]
  | cons a rest ih =>
    obtain ⟨k1, v1⟩ := a
    by_cases h1 : k1 = k
    · subst h1
      by_cases h2 : k1 = k2
      · simp [put_entry, find, h2]
      · simp [put_entry, find, h2]
    · by_cases h2 : k1 = k2
      · subst h2
        simp [put_entry, find, h1, Ne.symm h1]
      · simp only [put_entry, if_neg h1, find, if_neg h2, ih]

theorem am_keys_put_entry (l : List (KEY × T)) (k : KEY) (v : T) :
    (put_entry l k v).map Prod.fst =
      if k ∈ l.map Prod.fst then l.map Prod.fst else l.map Prod.fst ++ [k] := by
  induction l with
  | nil => simp [put_entry]
  | cons a rest ih =>
    obtain ⟨k1, v1⟩ := a
    by_cases h1 : k1 = k
    · subst h1
      simp [put_entry]
    · have h3 : ¬ k = k1 := fun e => h1 e.symm
      simp only [put_entry, if_neg h1, List.map_cons, ih, List.mem_cons, h3, false_or]
      split <;> simp

theorem am_nodup_put_entry (l : List (KEY × T)) (k : KEY) (v : T)
    (h : (l.map Prod.fst).Nodup) : ((put_entry l k v).map Prod.fst).Nodup := by
  rw [am_keys_put_entry]
  split
  · exact h
  · rename_i hk
    rw [List.nodup_append]
    refine ⟨h, List.nodup_singleton _, ?_⟩
    intro a ha hb
    rw [List.mem_singleton] at hb
    subst hb
    exact hk ha

theorem am_length_put_entry (l : List (KEY × T)) (k : KEY) (v : T) :
    (put_entry l k v).length ≤ l.length + 1 := by
  have h := congrArg List.length (am_keys_put_entry l k v)
  rw [List.length_map] at h
  rw [h]
  split <;> simp

theorem am_length_put_entry_of_find (l : List (KEY × T)) (k : KEY) (v : T)
    (hk : find l k ≠ none) : (put_entry l k v).length = l.length := by
  have h := congrArg List.length (am_keys_put_entry l k v)
  rw [List.length_map] at h
  rw [h, if_pos (by rw [Ne, am_find_none_iff, not_not] at hk; exact hk), List.length_map]

theorem am_find_erase_entry (l : List (KEY × T)) (k k2 : KEY)
    (h : (l.map Prod.fst).Nodup) :
    find (erase_entry l k) k2 = if k = k2 then none else find l k2 := by
  induction l with
  | nil => simp [erase_entry, find]
  | cons a rest ih =>
    obtain ⟨k1, v1⟩ := a
    rw [List.map_cons, List.nodup_cons] at h
    by_cases h1 : k1 = k
    · subst h1
      by_cases h2 : k1 = k2
      · subst h2
        simp only [erase_entry, if_true]
        rw [am_find_none_iff]
        exact h.1
      · simp [erase_entry, find, h2]
    · by_cases h2 : k1 = k2
      · subst h2
        simp [erase_entry, find, h1, Ne.symm h1]
      · simp only [erase_entry, if_neg h1, find, if_neg h2, ih h.2]

theorem am_nodup_erase_entry (l : List (KEY × T)) (k : KEY)
    (h : (l.map Prod.fst).Nodup) : ((erase_entry l k).map Prod.fst).Nodup := by
  induction l with
  | nil => simp [erase_entry]
  | cons a rest ih =>
    obtain ⟨k1, v1⟩ := a
    rw [List.map_cons, List.nodup_cons] at h
    by_cases h1 : k1 = k
    · simp only [erase_entry, if_pos h1]
      exact h.2
    · simp only [erase_entry, if_neg h1, List.map_cons, List.nodup_cons]
      refine ⟨fun hm => h.1 ?_, ih h.2⟩
      have hf : find (erase_entry rest k) k1 ≠ none := by
        rw [Ne, am_find_none_iff, not_not]; exact hm
      rw [am_find_erase_entry rest k k1 h.2, if_neg (fun e => h1 e.symm)] at hf
      rw [Ne, am_find_none_iff, not_not] at hf
      exact hf

theorem am_length_erase_entry (l : List (KEY × T)) (k : KEY) (hk : find l k ≠ none) :
    (erase_entry l k).length + 1 = l.length := by
  induction l with
  | nil => simp [find] at hk
  | cons a rest ih =>
    obtain ⟨k1, v1⟩ := a
    by_cases h1 : k1 = k
    · simp [erase_entry, h1]
    · simp only [find, if_neg h1] at hk
      simp only [erase_entry, if_neg h1, List.length_cons, ih hk]

end ArrayMap

theorem gt_info_strictWeak : gt_info.StrictWeak := by
  refine ⟨fun a b h => ?_, fun a b c h1 h2 => ?_⟩
  · simp only [gt_info, decide_eq_true_eq, decide_eq_false_iff_not] at h ⊢; omega
  · simp only [gt_info, decide_eq_false_iff_not] at h1 h2 ⊢; omega

theorem gt_info_false_iff (a b : Info) : gt_info.call a b = false ↔ b.cost ≤ a.cost := by
  simp [gt_info]

theorem add32_eq (a b : Int) (h0 : 0 ≤ a + b) (h1 : a + b < INT_MAX) : add32 a b = a + b := by
  unfold add32
  unfold INT_MAX at h1
  omega

theorem walk_head {g : DistGraph} {s v : String} {p : List String} {w : Int}
    (h : Walk g s v p w) : ∃ t, p = v :: t := by
  cases h with
  | start => exact ⟨[], rfl⟩
  | step y _ _ => exact ⟨_, rfl⟩

theorem walk_props {g : DistGraph} {s : String} (hg : g.WF) (hs : s ∈ g.all_nodes)
    {v : String} {p : List String} {w : Int} (h : Walk g s v p w) :
    v ∈ g.all_nodes ∧ 0 ≤ w ∧ ∀ z ∈ p, z ∈ g.all_nodes := by
  induction h with
  | start => exact ⟨hs, le_refl _, fun z hz => by rw [List.mem_singleton] at hz; rw [hz]; exact hs⟩
  | step y _ hy ih =>
    obtain ⟨i1, i2, i3⟩ := ih
    have := hg _ i1 _ hy
    refine ⟨this.1, by omega, fun z hz => ?_⟩
    rcases List.mem_cons.1 hz with e | e
    · rw [e]; exact this.1
    · exact i3 z e

/-- While no cost `INT_MAX` has been stored, every walk from `s` ends in `answer_map` or
passes a node of `info_map` whose cost is below `INT_MAX` and no more than the weight of the
walk. -/
theorem phase1_lower {g : DistGraph} {s : String} {info_map answer_map : CostMap}
    {info_pq : CostPQ} (hg : g.WF) (hs : s ∈ g.all_nodes)
    (hsum : ∀ v p w, Walk g s v p w → p.Nodup → w < INT_MAX)
    (hS : DijkstraStruct g info_map answer_map info_pq)
    (hP : DijkstraPhase1 g s info_map answer_map info_pq)
    {v : String} {p : List String} {w : Int} (h : Walk g s v p w) :
    answer_map.lookup v ≠ none ∨
    ∃ y iy, info_map.lookup y = some iy ∧ iy.cost ≤ w ∧ iy.cost < INT_MAX := by
  induction h with
  | start =>
    rcases hS.cover s hs with h1 | h1
    · right
      obtain ⟨i, hi⟩ := Option.ne_none_iff_exists'.1 h1
      exact ⟨s, i, hi, by rw [hP.start i hi], by rw [hP.start i hi]; decide⟩
    · exact Or.inl h1
  | step y hw hy ih =>
    rename_i x p w
    obtain ⟨hx, hw0, _⟩ := walk_props hg hs hw
    have hgy := hg _ hx _ hy
    rcases hS.cover y hgy.1 with h1 | h1
    · right
      rcases ih with h2 | ⟨z, iz, h3, h4, h5⟩
      · obtain ⟨i, hi⟩ := Option.ne_none_iff_exists'.1 h1
        obtain ⟨ix, hix⟩ := Option.ne_none_iff_exists'.1 h2
        have hr := hP.relaxed x ix y i hix hy hi
        obtain ⟨⟨px, hpx, hnd, hall⟩, hlow⟩ := hP.final x ix hix
        have hyn : y ∉ px := fun hm => hall y hm (hS.info_node y i hi).2.2
        have hlt := hsum y (y :: px) _ (Walk.step y hpx hy) (List.nodup_cons.2 ⟨hyn, hnd⟩)
        have := hlow _ _ hw
        exact ⟨y, i, hi, by omega, by omega⟩
      · exact ⟨z, iz, h3, by omega, h5⟩
    · exact Or.inl h1

theorem am_has_key_iff {KEY T : Type} [DecidableEq KEY] (m : ArrayMap KEY T) (k : KEY) :
    m.has_key k = true ↔ m.lookup k ≠ none := by
  unfold ArrayMap.has_key ArrayMap.lookup
  rw [Option.isSome_iff_ne_none]

theorem am_has_key_false_iff {KEY T : Type} [DecidableEq KEY] (m : ArrayMap KEY T) (k : KEY) :
    m.has_key k = false ↔ m.lookup k = none := by
  unfold ArrayMap.has_key ArrayMap.lookup
  cases ArrayMap.find m.map k <;> simp

theorem heap_used_eq_length {T : Type} [Inhabited T] {tgt : gtfunc T}
    (q : HeapPriorityQueue T tgt) : q.elements.length = q.used := by
  unfold HeapPriorityQueue.elements
  exact HeapPriorityQueue.length_content _ _

/-- The loop that discards the queue entries of nodes already in `answer_map`: when the
queue, with the entry in hand, has an entry of a node outside `answer_map`, the loop ends
with such an entry in hand and raises no exception; the entries discarded are entries of
nodes in `answer_map`; and when the entry in hand had the lowest cost, so has the one in
hand at the end. -/
theorem skip_stale_spec (answer_map : CostMap) :
    ∀ (fuel : Nat) (pq : CostPQ) (e0 : Info), pq.WF → pq.gt = gt_info → pq.used < fuel →
      (∃ e ∈ e0 :: pq.elements, answer_map.lookup e.node = none) →
      (∀ y ∈ pq.elements, e0.cost ≤ y.cost) →
      ∃ (e1 : Info) (pq1 : CostPQ),
        skip_stale answer_map fuel pq e0 = some (Except.ok e1, pq1) ∧ pq1.WF ∧
        pq1.gt = gt_info ∧ answer_map.lookup e1.node = none ∧ e1 ∈ e0 :: pq.elements ∧
        (∀ y ∈ pq1.elements, y ∈ pq.elements) ∧
        (∀ y ∈ e0 :: pq.elements, answer_map.lookup y.node = none →
          y = e1 ∨ y ∈ pq1.elements) ∧
        (∀ y ∈ pq1.elements, e1.cost ≤ y.cost) := by
  intro fuel
  induction fuel with
  | zero => intro pq e0 _ _ hf; omega
  | succ f ih =>
    intro pq e0 hwf hgt hf hex hmin
    rw [skip_stale]
    by_cases hk : answer_map.has_key e0.node = true
    · rw [if_pos hk]
      have hk2 := (am_has_key_iff _ _).1 hk
      obtain ⟨e, he, hen⟩ := hex
      have hepq : e ∈ pq.elements := by
        rcases List.mem_cons.1 he with h | h
        · rw [h] at hen; exact absurd hen hk2
        · exact h
      have hu : pq.used ≠ 0 := by
        rw [← heap_used_eq_length]
        exact fun h0 => by rw [List.length_eq_zero] at h0; rw [h0] at hepq; simp at hepq
      obtain ⟨d1, d2, d3, d4, _, d6, d7⟩ :=
        HeapPriorityQueue.heap_dequeue_spec pq hwf (by rw [hgt]; exact gt_info_strictWeak) hu
      have hmem : ∀ y, y ∈ pq.elements ↔ y ∈ pq.pq.getD 0 default :: pq.dequeue.2.elements :=
        fun y => d6.mem_iff
      obtain ⟨e1, pq1, r1, r2, r3, r4, r5, r6, r7, r8⟩ :=
        ih pq.dequeue.2 (pq.pq.getD 0 default) d2 (d3.trans hgt) (by omega)
          ⟨e, (hmem e).1 hepq, hen⟩
          (fun y hy => by
            have := d7 y ((hmem y).2 (List.mem_cons_of_mem _ hy))
            rw [hgt] at this
            exact (gt_info_false_iff _ _).1 this)
      have hd : pq.dequeue = (Except.ok (pq.pq.getD 0 default), pq.dequeue.2) :=
        Prod.ext d1 rfl
      refine ⟨e1, pq1, ?_, r2, r3, r4, List.mem_cons_of_mem _ ((hmem e1).2 r5), ?_, ?_, r8⟩
      · rw [hd]; exact r1
      · intro y hy
        exact (hmem y).2 (List.mem_cons_of_mem _ (r6 y hy))
      · intro y hy hyn
        rcases List.mem_cons.1 hy with h | h
        · rw [h] at hyn; exact absurd hyn hk2
        · exact r7 y ((hmem y).1 h) hyn
    · rw [if_neg hk]
      have hk2 : answer_map.lookup e0.node = none :=
        (am_has_key_false_iff _ _).1 (by simpa using hk)
      exact ⟨e0, pq, rfl, hwf, hgt, hk2, List.mem_cons_self _ _, fun y hy => hy,
        fun y hy _ => List.mem_cons.1 hy, hmin⟩

section
variable {KEY T : Type} [DecidableEq KEY]

theorem am_lookup_put (m : ArrayMap KEY T) (k : KEY) (v : T) (k2 : KEY) :
    (m.put k v).lookup k2 = if k = k2 then some v else m.lookup k2 :=
  ArrayMap.am_find_put_entry m.map k v k2

theorem am_index_of_lookup [Inhabited T] (m : ArrayMap KEY T) (k : KEY) (v : T)
    (h : m.lookup k = some v) : m.index k = (v, m) := by
  unfold ArrayMap.lookup at h
  unfold ArrayMap.index
  rw [h]

theorem am_assign_of_lookup [Inhabited T] (m : ArrayMap KEY T) (k : KEY) (v : T) (f : T → T)
    (h : m.lookup k = some v) : m.assign k f = m.put k (f v) := by
  unfold ArrayMap.assign
  rw [am_index_of_lookup m k v h]
  rfl

theorem am_put_nodup (m : ArrayMap KEY T) (k : KEY) (v : T)
    (h : (m.map.map Prod.fst).Nodup) : ((m.put k v).map.map Prod.fst).Nodup :=
  ArrayMap.am_nodup_put_entry m.map k v h

theorem am_put_length_of_lookup (m : ArrayMap KEY T) (k : KEY) (v : T)
    (h : m.lookup k ≠ none) : (m.put k v).map.length = m.map.length :=
  ArrayMap.am_length_put_entry_of_find m.map k v h

end

/-- One round of the loop over the destinations, for a destination that is a key of
`info_map`: nothing changes when the destination is in `answer_map` or the new cost is not
lower; otherwise the new cost and origin are stored in `info_map` and the changed `Info` is
enqueued. -/
theorem relax_spec (g : DistGraph) (answer_map : CostMap) (u : String) (c : Int)
    (st : CostMap × CostPQ) (desti : String) (i : Info)
    (hi : st.1.lookup desti = some i) :
    (relax g answer_map u c st desti = st ∧
      (answer_map.lookup desti ≠ none ∨ i.cost ≤ add32 (g.edge_value u desti) c)) ∨
    (answer_map.lookup desti = none ∧ add32 (g.edge_value u desti) c < i.cost ∧
      relax g answer_map u c st desti =
        ((st.1.put desti { i with cost := add32 (g.edge_value u desti) c }).put desti
            { i with cost := add32 (g.edge_value u desti) c, from_ := u },
         (st.2.enqueue { i with cost := add32 (g.edge_value u desti) c, from_ := u }).2)) := by
  unfold relax
  by_cases hk : answer_map.has_key desti = true
  · left
    simp only [hk, Bool.not_true, Bool.false_eq_true, if_false, true_and]
    exact Or.inl ((am_has_key_iff _ _).1 hk)
  · have hk2 : answer_map.has_key desti = false := by simpa using hk
    have hk3 := (am_has_key_false_iff _ _).1 hk2
    simp only [hk2, Bool.not_false, if_true]
    rw [am_index_of_lookup st.1 desti i hi]
    by_cases ht : add32 (g.edge_value u desti) c < i.cost
    · right
      refine ⟨hk3, ht, ?_⟩
      simp only [if_pos ht]
      have h1 := am_assign_of_lookup st.1 desti i
        (fun i => { i with cost := add32 (g.edge_value u desti) c }) hi
      have h2 : (st.1.put desti { i with cost := add32 (g.edge_value u desti) c }).lookup desti
          = some { i with cost := add32 (g.edge_value u desti) c } := by
        rw [am_lookup_put, if_pos rfl]
      have h3 := am_assign_of_lookup _ desti _ (fun i => { i with from_ := u }) h2
      have h4 : ((st.1.put desti { i with cost := add32 (g.edge_value u desti) c }).put desti
          { i with cost := add32 (g.edge_value u desti) c, from_ := u }).lookup desti
          = some { i with cost := add32 (g.edge_value u desti) c, from_ := u } := by
        rw [am_lookup_put, if_pos rfl]
      rw [h1, h3, am_index_of_lookup _ desti _ h4]
    · left
      rw [if_neg ht]
      exact ⟨rfl, Or.inr (by omega)⟩

theorem relax_in_answer (g : DistGraph) (answer_map : CostMap) (u : String) (c : Int)
    (st : CostMap × CostPQ) (desti : String) (h : answer_map.lookup desti ≠ none) :
    relax g answer_map u c st desti = st := by
  unfold relax
  rw [(am_has_key_iff _ _).2 h]
  rfl

/-- The map and queue after one round of the loop over the destinations in which a lower
cost was stored. -/
theorem relax_changed (st : CostMap × CostPQ) (desti : String) (i i1 i2 : Info)
    (hS : st.2.WF) (hgt : st.2.gt = gt_info) (hi : st.1.lookup desti = some i)
    (hn : (st.1.map.map Prod.fst).Nodup) :
    (∀ k, ((st.1.put desti i1).put desti i2).lookup k =
      if desti = k then some i2 else st.1.lookup k) ∧
    (((st.1.put desti i1).put desti i2).map.map Prod.fst).Nodup ∧
    ((st.1.put desti i1).put desti i2).map.length = st.1.map.length ∧
    (st.2.enqueue i2).2.WF ∧ (st.2.enqueue i2).2.gt = gt_info ∧
    ∀ e, e ∈ (st.2.enqueue i2).2.elements ↔ e = i2 ∨ e ∈ st.2.elements := by
  obtain ⟨_, e2, e3, _, _, e6⟩ :=
    HeapPriorityQueue.heap_enqueue_spec st.2 hS (by rw [hgt]; exact gt_info_strictWeak) i2
  refine ⟨fun k => ?_, am_put_nodup _ _ _ (am_put_nodup _ _ _ hn), ?_, e2, e3.trans hgt,
    fun e => ?_⟩
  · rw [am_lookup_put, am_lookup_put]
    split <;> rfl
  · rw [am_put_length_of_lookup _ _ _ (by rw [am_lookup_put, if_pos rfl]; simp),
      am_put_length_of_lookup _ _ _ (by rw [hi]; simp)]
  · rw [e6.mem_iff, List.mem_cons]

/-- One round of the loop over the destinations keeps the structural invariant and the
number of entries of `info_map`. -/
theorem relax_struct (g : DistGraph) (answer_map : CostMap) (u : String) (c : Int)
    (st : CostMap × CostPQ) (desti : String)
    (hS : DijkstraStruct g st.1 answer_map st.2) (hd : desti ∈ g.all_nodes) :
    DijkstraStruct g (relax g answer_map u c st desti).1 answer_map
      (relax g answer_map u c st desti).2 ∧
    (relax g answer_map u c st desti).1.map.length = st.1.map.length := by
  by_cases ha : answer_map.lookup desti = none
  · have hl : st.1.lookup desti ≠ none := by
      rcases hS.cover desti hd with h | h
      · exact h
      · exact absurd ha h
    obtain ⟨i, hi⟩ := Option.ne_none_iff_exists'.1 hl
    rcases relax_spec g answer_map u c st desti i hi with ⟨h, _⟩ | ⟨_, _, h⟩
    · rw [h]; exact ⟨hS, rfl⟩
    · rw [h]
      obtain ⟨r1, r2, r3, r4, r5, r6⟩ := relax_changed st desti i
        { i with cost := add32 (g.edge_value u desti) c }
        { i with cost := add32 (g.edge_value u desti) c, from_ := u }
        hS.pq_wf hS.pq_gt hi hS.nodup
      have hin := hS.info_node desti i hi
      refine ⟨⟨r2, ?_, ?_, ?_, r4, r5, ?_⟩, r3⟩
      · intro v hv
        rcases hS.cover v hv with h1 | h1
        · left
          dsimp only
          rw [r1]
          split
          · simp
          · exact h1
        · exact Or.inr h1
      · intro v j hj
        dsimp only at hj
        rw [r1] at hj
        split at hj
        · rename_i e
          subst e
          injection hj with hj
          subst hj
          exact hin
        · exact hS.info_node v j hj
      · intro v hv
        dsimp only at hv ⊢
        rw [r1] at hv
        by_cases e : desti = v
        · exact ⟨_, (r6 _).2 (Or.inl rfl), by rw [← e]; exact hin.1⟩
        · rw [if_neg e] at hv
          obtain ⟨e1, he1, he2⟩ := hS.entry v hv
          exact ⟨e1, (r6 _).2 (Or.inr he1), he2⟩
      · intro e he
        dsimp only at he
        rcases (r6 e).1 he with h1 | h1
        · rw [h1]
          dsimp only
          rw [hin.1]
          exact hd
        · exact hS.pq_node e h1
  · rw [relax_in_answer g answer_map u c st desti ha]
    exact ⟨hS, rfl⟩

/-- The loop over the destinations keeps the structural invariant and the number of
entries of `info_map`. -/
theorem relax_fold_struct (g : DistGraph) (answer_map : CostMap) (u : String) (c : Int) :
    ∀ (l : List String) (st : CostMap × CostPQ),
      DijkstraStruct g st.1 answer_map st.2 → (∀ d ∈ l, d ∈ g.all_nodes) →
      DijkstraStruct g (l.foldl (relax g answer_map u c) st).1 answer_map
        (l.foldl (relax g answer_map u c) st).2 ∧
      (l.foldl (relax g answer_map u c) st).1.map.length = st.1.map.length := by
  intro l
  induction l with
  | nil => intro st hS _; exact ⟨hS, rfl⟩
  | cons d rest ih =>
    intro st hS hl
    obtain ⟨h1, h2⟩ := relax_struct g answer_map u c st d hS (hl d (List.mem_cons_self _ _))
    obtain ⟨h3, h4⟩ := ih _ h1 (fun x hx => hl x (List.mem_cons_of_mem _ hx))
    rw [List.foldl_cons]
    exact ⟨h3, h4.trans h2⟩

/-- One round of the loop over the destinations of `u` keeps what holds during that loop,
with the destination added to the ones handled. -/
theorem relax_phase1 {g : DistGraph} {s : String} (hg : g.WF) (hs : s ∈ g.all_nodes)
    (hsum : ∀ v p w, Walk g s v p w → p.Nodup → w < INT_MAX)
    (answer_map : CostMap) (u : String) (iu : Info) (hu : answer_map.lookup u = some iu)
    (hfin : ∃ p, Walk g s u p iu.cost ∧ p.Nodup ∧ ∀ z ∈ p, answer_map.lookup z ≠ none)
    (st : CostMap × CostPQ) (done : List String) (desti : String)
    (hd : desti ∈ g.out_nodes u)
    (hS : DijkstraStruct g st.1 answer_map st.2)
    (hR : RelaxInv g s u done st.1 answer_map st.2) :
    RelaxInv g s u (desti :: done) (relax g answer_map u iu.cost st desti).1 answer_map
      (relax g answer_map u iu.cost st desti).2 := by
  obtain ⟨p, hp, hnd, hall⟩ := hfin
  have hun := (walk_props hg hs hp).1
  have hdn := (hg u hun desti hd).1
  have keep : RelaxInv g s u (desti :: done) st.1 answer_map st.2 →
      relax g answer_map u iu.cost st desti = st →
      RelaxInv g s u (desti :: done) (relax g answer_map u iu.cost st desti).1 answer_map
        (relax g answer_map u iu.cost st desti).2 := fun h e => by rw [e]; exact h
  by_cases ha : answer_map.lookup desti = none
  · have hl : st.1.lookup desti ≠ none := by
      rcases hS.cover desti hdn with h | h
      · exact h
      · exact absurd ha h
    obtain ⟨i, hi⟩ := Option.ne_none_iff_exists'.1 hl
    have hin := hS.info_node desti i hi
    have hw := Walk.step desti hp hd
    have hlt := hsum desti (desti :: p) _ hw
      (List.nodup_cons.2 ⟨fun hm => hall desti hm ha, hnd⟩)
    have h0 := (walk_props hg hs hw).2.1
    have hadd : add32 (g.edge_value u desti) iu.cost = iu.cost + g.edge_value u desti := by
      rw [add32_eq _ _ (by omega) (by omega)]; omega
    rcases relax_spec g answer_map u iu.cost st desti i hi with ⟨h, h2⟩ | ⟨_, hlow, h⟩
    · refine keep ⟨?_, hR.queued, hR.start, hR.tentative⟩ h
      intro x ix y iy hx hy hxy hiy
      by_cases e : x = u ∧ y = desti
      · obtain ⟨e1, e2⟩ := e
        subst e1; subst e2
        rw [hu] at hx
        injection hx with hx
        subst hx
        rw [hi] at hiy
        injection hiy with hiy
        subst hiy
        rcases h2 with h2 | h2
        · exact absurd ha h2
        · omega
      · refine hR.relaxed x ix y iy hx hy (fun e1 => ?_) hiy
        rcases List.mem_cons.1 (hxy e1) with e2 | e2
        · exact absurd ⟨e1, e2⟩ e
        · exact e2
    · rw [h]
      rw [hadd] at hlow ⊢
      obtain ⟨r1, _, _, _, _, r6⟩ := relax_changed st desti i
        { i with cost := iu.cost + g.edge_value u desti }
        { i with cost := iu.cost + g.edge_value u desti, from_ := u }
        hS.pq_wf hS.pq_gt hi hS.nodup
      refine ⟨?_, ?_, ?_, ?_⟩
      · intro x ix y iy hx hy hxy hiy
        dsimp only at hiy
        rw [r1] at hiy
        by_cases e2 : desti = y
        · subst e2
          rw [if_pos rfl] at hiy
          injection hiy with hiy
          subst hiy
          dsimp only
          by_cases e1 : x = u
          · subst e1
            rw [hu] at hx
            injection hx with hx
            subst hx
            exact le_refl _
          · have := hR.relaxed x ix desti i hx hy (fun e => absurd e e1) hi
            omega
        · rw [if_neg e2] at hiy
          refine hR.relaxed x ix y iy hx hy (fun e1 => ?_) hiy
          rcases List.mem_cons.1 (hxy e1) with e3 | e3
          · exact absurd e3.symm e2
          · exact e3
      · intro y j hj
        dsimp only at hj ⊢
        rw [r1] at hj
        by_cases e2 : desti = y
        · rw [if_pos e2] at hj
          injection hj with hj
          exact (r6 _).2 (Or.inl hj.symm)
        · rw [if_neg e2] at hj
          exact (r6 _).2 (Or.inr (hR.queued y j hj))
      · intro j hj
        dsimp only at hj
        rw [r1] at hj
        by_cases e2 : desti = s
        · subst e2
          have := hR.start i hi
          have hc := (walk_props hg hs hp).2.1
          have he := (hg u hun desti hd).2
          omega
        · rw [if_neg e2] at hj
          exact hR.start j hj
      · intro e he hea
        dsimp only at he
        rcases (r6 e).1 he with h1 | h1
        · right
          subst h1
          dsimp only
          rw [hin.1]
          exact ⟨desti :: p, hw, List.nodup_cons.2 ⟨fun hm => hall desti hm ha, hnd⟩,
            fun z hz => hall z hz⟩
        · exact hR.tentative e h1 hea
  · refine keep ⟨?_, hR.queued, hR.start, hR.tentative⟩
      (relax_in_answer g answer_map u iu.cost st desti ha)
    intro x ix y iy hx hy hxy hiy
    refine hR.relaxed x ix y iy hx hy (fun e1 => ?_) hiy
    rcases List.mem_cons.1 (hxy e1) with e2 | e2
    · rw [e2] at hiy
      exact absurd (hS.info_node desti iy hiy).2.2 ha
    · exact e2

/-- The loop over destinations of `u` keeps what holds during that loop, with all the
destinations it ran over added to the ones handled. -/
theorem relax_fold_phase1 {g : DistGraph} {s : String} (hg : g.WF) (hs : s ∈ g.all_nodes)
    (hsum : ∀ v p w, Walk g s v p w → p.Nodup → w < INT_MAX)
    (answer_map : CostMap) (u : String) (iu : Info) (hu : answer_map.lookup u = some iu)
    (hfin : ∃ p, Walk g s u p iu.cost ∧ p.Nodup ∧ ∀ z ∈ p, answer_map.lookup z ≠ none) :
    ∀ (l : List String) (st : CostMap × CostPQ) (done : List String),
      (∀ d ∈ l, d ∈ g.out_nodes u) →
      DijkstraStruct g st.1 answer_map st.2 → RelaxInv g s u done st.1 answer_map st.2 →
      RelaxInv g s u (l.reverse ++ done) (l.foldl (relax g answer_map u iu.cost) st).1
        answer_map (l.foldl (relax g answer_map u iu.cost) st).2 := by
  intro l
  induction l with
  | nil => intro st done _ _ hR; exact hR
  | cons d rest ih =>
    intro st done hl hS hR
    have hd := hl d (List.mem_cons_self _ _)
    have hfin2 := hfin
    obtain ⟨p, hp, _⟩ := hfin2
    have hdn := (hg u (walk_props hg hs hp).1 d hd).1
    have h1 := relax_phase1 hg hs hsum answer_map u iu hu hfin st done d hd hS hR
    have h2 := (relax_struct g answer_map u iu.cost st d hS hdn).1
    have h3 := ih _ (d :: done) (fun x hx => hl x (List.mem_cons_of_mem _ hx)) h2 h1
    rw [List.foldl_cons, List.reverse_cons, List.append_assoc]
    exact h3

theorem am_lookup_erase {KEY T : Type} [DecidableEq KEY] (m : ArrayMap KEY T) (k : KEY)
    (hn : (m.map.map Prod.fst).Nodup) (hk : m.lookup k ≠ none) :
    ∃ (v : T) (m1 : ArrayMap KEY T), m.erase k = (Except.ok v, m1) ∧
      m1.map.length + 1 = m.map.length ∧ (m1.map.map Prod.fst).Nodup ∧
      ∀ k2, m1.lookup k2 = if k = k2 then none else m.lookup k2 := by
  obtain ⟨v, hv⟩ := Option.ne_none_iff_exists'.1 hk
  refine ⟨v, ⟨ArrayMap.erase_entry m.map k⟩, ?_, ArrayMap.am_length_erase_entry m.map k hk,
    ArrayMap.am_nodup_erase_entry m.map k hn, fun k2 => ArrayMap.am_find_erase_entry m.map k k2 hn⟩
  unfold ArrayMap.erase
  unfold ArrayMap.lookup at hv
  rw [hv]

theorem am_exists_key_of_not_empty {KEY T : Type} [DecidableEq KEY] (m : ArrayMap KEY T)
    (h : m.empty = false) : ∃ k, m.lookup k ≠ none := by
  unfold ArrayMap.empty at h
  cases hm : m.map with
  | nil => rw [hm] at h; simp at h
  | cons a rest =>
    refine ⟨a.1, ArrayMap.am_mem_find m.map a.1 a.2 ?_⟩
    rw [hm]
    exact List.mem_cons_self _ _

theorem am_lookup_of_empty {KEY T : Type} [DecidableEq KEY] (m : ArrayMap KEY T)
    (h : m.empty = true) (k : KEY) : m.lookup k = none := by
  unfold ArrayMap.empty at h
  unfold ArrayMap.lookup
  rw [List.isEmpty_iff] at h
  rw [h]
  rfl

/-- The two dequeueing steps of a round of the main loop, when `info_map` is not empty:
they raise no exception and end with the entry of a node outside `answer_map` in hand, whose
cost is the lowest of such entries; the entries left in the queue were in it before, and
those of nodes outside `answer_map` are all left or in hand. -/
theorem dijkstra_pick {g : DistGraph} {info_map answer_map : CostMap} {info_pq : CostPQ}
    (hS : DijkstraStruct g info_map answer_map info_pq) (he : info_map.empty = false) :
    ∃ (e0 : Info) (pq1 : CostPQ) (e1 : Info) (pq2 : CostPQ),
      info_pq.dequeue = (Except.ok e0, pq1) ∧ e0 ∈ info_pq.elements ∧
      (∀ y ∈ info_pq.elements, e0.cost ≤ y.cost) ∧
      skip_stale answer_map (pq1.used + 1) pq1 e0 = some (Except.ok e1, pq2) ∧
      pq2.WF ∧ pq2.gt = gt_info ∧ answer_map.lookup e1.node = none ∧
      e1 ∈ info_pq.elements ∧ (∀ y ∈ pq2.elements, y ∈ info_pq.elements) ∧
      (∀ y ∈ info_pq.elements, answer_map.lookup y.node = none →
        y = e1 ∨ y ∈ pq2.elements) ∧
      (∀ y ∈ info_pq.elements, answer_map.lookup y.node = none → e1.cost ≤ y.cost) := by
  obtain ⟨k, hk⟩ := am_exists_key_of_not_empty info_map he
  obtain ⟨e, hepq, hek⟩ := hS.entry k hk
  obtain ⟨ik, hik⟩ := Option.ne_none_iff_exists'.1 hk
  have hen : answer_map.lookup e.node = none := by
    rw [hek]; exact (hS.info_node k ik hik).2.2
  have hu : info_pq.used ≠ 0 := by
    rw [← heap_used_eq_length]
    exact fun h0 => by rw [List.length_eq_zero] at h0; rw [h0] at hepq; simp at hepq
  obtain ⟨d1, d2, d3, _, _, d6, d7⟩ :=
    HeapPriorityQueue.heap_dequeue_spec info_pq hS.pq_wf
      (by rw [hS.pq_gt]; exact gt_info_strictWeak) hu
  have hmem : ∀ y, y ∈ info_pq.elements ↔
      y ∈ info_pq.pq.getD 0 default :: info_pq.dequeue.2.elements := fun y => d6.mem_iff
  have hmin : ∀ y ∈ info_pq.elements, (info_pq.pq.getD 0 default).cost ≤ y.cost := by
    intro y hy
    have := d7 y hy
    rw [hS.pq_gt] at this
    exact (gt_info_false_iff _ _).1 this
  obtain ⟨e1, pq2, r1, r2, r3, r4, r5, r6, r7, r8⟩ :=
    skip_stale_spec answer_map (info_pq.dequeue.2.used + 1) info_pq.dequeue.2
      (info_pq.pq.getD 0 default) d2 (d3.trans hS.pq_gt) (by omega)
      ⟨e, (hmem e).1 hepq, hen⟩
      (fun y hy => hmin y ((hmem y).2 (List.mem_cons_of_mem _ hy)))
  refine ⟨_, _, e1, pq2, Prod.ext d1 rfl, (hmem _).2 (List.mem_cons_self _ _), hmin, r1, r2,
    r3, r4, (hmem _).2 r5, fun y hy => (hmem y).2 (List.mem_cons_of_mem _ (r6 y hy)),
    fun y hy hyn => r7 y ((hmem y).1 hy) hyn, ?_⟩
  intro y hy hyn
  rcases r7 y ((hmem y).1 hy) hyn with h | h
  · rw [h]
  · exact r8 y h

/-- The structural invariant after `info_map.erase(min_node)` and
`answer_map.put(min_node, mini_cost_info)`. -/
theorem dijkstra_struct_step {g : DistGraph} {info_map answer_map : CostMap}
    {info_pq : CostPQ} (hS : DijkstraStruct g info_map answer_map info_pq)
    (e1 : Info) (pq2 : CostPQ) (h1 : e1 ∈ info_pq.elements)
    (h2 : answer_map.lookup e1.node = none) (h3 : pq2.WF) (h4 : pq2.gt = gt_info)
    (h5 : ∀ y ∈ pq2.elements, y ∈ info_pq.elements)
    (h6 : ∀ y ∈ info_pq.elements, answer_map.lookup y.node = none →
      y = e1 ∨ y ∈ pq2.elements) :
    ∃ (v : Info) (im1 : CostMap), info_map.erase e1.node = (Except.ok v, im1) ∧
      im1.map.length + 1 = info_map.map.length ∧
      (∀ k, im1.lookup k = if e1.node = k then none else info_map.lookup k) ∧
      DijkstraStruct g im1 (answer_map.put e1.node e1) pq2 := by
  have hn := hS.pq_node e1 h1
  have hl : info_map.lookup e1.node ≠ none := by
    rcases hS.cover _ hn with h | h
    · exact h
    · exact absurd h2 h
  obtain ⟨v, im1, r1, r2, r3, r4⟩ := am_lookup_erase info_map e1.node hS.nodup hl
  refine ⟨v, im1, r1, r2, r4, ⟨r3, ?_, ?_, ?_, h3, h4, fun e he => hS.pq_node e (h5 e he)⟩⟩
  · intro x hx
    rw [r4, am_lookup_put]
    by_cases e : e1.node = x
    · right; rw [if_pos e]; simp
    · rw [if_neg e, if_neg e]; exact hS.cover x hx
  · intro x i hi
    rw [r4] at hi
    by_cases e : e1.node = x
    · rw [if_pos e] at hi; cases hi
    · rw [if_neg e] at hi
      rw [am_lookup_put, if_neg e]
      exact hS.info_node x i hi
  · intro x hx
    rw [r4] at hx
    by_cases e : e1.node = x
    · rw [if_pos e] at hx; exact absurd rfl hx
    · rw [if_neg e] at hx
      obtain ⟨y, hy, hyx⟩ := hS.entry x hx
      obtain ⟨ix, hix⟩ := Option.ne_none_iff_exists'.1 hx
      rcases h6 y hy (by rw [hyx]; exact (hS.info_node x ix hix).2.2) with h | h
      · rw [h] at hyx; exact absurd hyx e
      · exact ⟨y, h, hyx⟩

/-- When the entry of lowest cost among those of nodes outside `answer_map` has the cost
`INT_MAX`, every node that can be reached from `s` is in `answer_map`. -/
theorem phase1_all_reached {g : DistGraph} {s : String} {info_map answer_map : CostMap}
    {info_pq : CostPQ} (hg : g.WF) (hs : s ∈ g.all_nodes)
    (hsum : ∀ v p w, Walk g s v p w → p.Nodup → w < INT_MAX)
    (hS : DijkstraStruct g info_map answer_map info_pq)
    (hP : DijkstraPhase1 g s info_map answer_map info_pq) (e : Info)
    (he : e.cost = INT_MAX)
    (hmin : ∀ y ∈ info_pq.elements, answer_map.lookup y.node = none → e.cost ≤ y.cost) :
    DijkstraPhase2 g s answer_map := by
  refine ⟨fun v p w hw => ?_, fun v i hi _ => ?_⟩
  · rcases phase1_lower hg hs hsum hS hP hw with h | ⟨y, iy, h1, _, h3⟩
    · exact h
    · have hin := hS.info_node y iy h1
      have := hmin iy (hP.queued y iy h1) (by rw [hin.1]; exact hin.2.2)
      omega
  · obtain ⟨⟨p, hp, _⟩, hlow⟩ := hP.final v i hi
    exact ⟨⟨p, hp⟩, hlow⟩

theorem phase2_put {g : DistGraph} {s : String} {answer_map : CostMap}
    (hP : DijkstraPhase2 g s answer_map) (u : String) (e : Info)
    (hu : answer_map.lookup u = none) : DijkstraPhase2 g s (answer_map.put u e) := by
  refine ⟨fun v p w hw => ?_, fun v i hi hr => ?_⟩
  · rw [am_lookup_put]
    split
    · simp
    · exact hP.all v p w hw
  · rw [am_lookup_put] at hi
    by_cases e1 : u = v
    · subst e1
      obtain ⟨p, w, hw⟩ := hr
      exact absurd hu (hP.all u p w hw)
    · rw [if_neg e1] at hi
      exact hP.final v i hi hr

/-- What holds, while no cost `INT_MAX` has been stored, after the node of the entry in
hand is erased from `info_map` and put in `answer_map`, before its destinations are
handled. -/
theorem dijkstra_phase1_step {g : DistGraph} {s : String} {info_map answer_map : CostMap}
    {info_pq : CostPQ} (hg : g.WF) (hs : s ∈ g.all_nodes)
    (hsum : ∀ v p w, Walk g s v p w → p.Nodup → w < INT_MAX)
    (hS : DijkstraStruct g info_map answer_map info_pq)
    (hP : DijkstraPhase1 g s info_map answer_map info_pq)
    (e1 : Info) (pq2 : CostPQ) (im1 : CostMap) (h1 : e1 ∈ info_pq.elements)
    (h2 : answer_map.lookup e1.node = none) (hc : e1.cost ≠ INT_MAX)
    (h5 : ∀ y ∈ pq2.elements, y ∈ info_pq.elements)
    (h6 : ∀ y ∈ info_pq.elements, answer_map.lookup y.node = none →
      y = e1 ∨ y ∈ pq2.elements)
    (hmin : ∀ y ∈ info_pq.elements, answer_map.lookup y.node = none → e1.cost ≤ y.cost)
    (r4 : ∀ k, im1.lookup k = if e1.node = k then none else info_map.lookup k) :
    (∀ v i, (answer_map.put e1.node e1).lookup v = some i →
      (∃ p, Walk g s v p i.cost ∧ p.Nodup ∧
        ∀ z ∈ p, (answer_map.put e1.node e1).lookup z ≠ none) ∧
      ∀ p w, Walk g s v p w → i.cost ≤ w) ∧
    RelaxInv g s e1.node [] im1 (answer_map.put e1.node e1) pq2 := by
  have hmono : ∀ z, answer_map.lookup z ≠ none →
      (answer_map.put e1.node e1).lookup z ≠ none := by
    intro z hz
    rw [am_lookup_put]
    split
    · simp
    · exact hz
  have hback : ∀ z, (answer_map.put e1.node e1).lookup z = none →
      answer_map.lookup z = none := by
    intro z hz
    by_contra h
    exact hmono z h hz
  refine ⟨?_, ⟨?_, ?_, ?_, ?_⟩⟩
  · intro v i hi
    rw [am_lookup_put] at hi
    by_cases e : e1.node = v
    · rw [if_pos e] at hi
      injection hi with hi
      subst hi
      subst e
      refine ⟨?_, ?_⟩
      · rcases hP.tentative e1 h1 h2 with h | ⟨p, hp, hnd, hall⟩
        · exact absurd h hc
        · refine ⟨p, hp, hnd, fun z hz => ?_⟩
          obtain ⟨t, ht⟩ := walk_head hp
          subst ht
          rcases List.mem_cons.1 hz with h | h
          · rw [h, am_lookup_put, if_pos rfl]; simp
          · exact hmono z (hall z h)
      · intro p w hw
        rcases phase1_lower hg hs hsum hS hP hw with h | ⟨y, iy, h7, h8, _⟩
        · exact absurd h2 h
        · have hin := hS.info_node y iy h7
          have := hmin iy (hP.queued y iy h7) (by rw [hin.1]; exact hin.2.2)
          omega
    · rw [if_neg e] at hi
      obtain ⟨⟨p, hp, hnd, hall⟩, hlow⟩ := hP.final v i hi
      exact ⟨⟨p, hp, hnd, fun z hz => hmono z (hall z hz)⟩, hlow⟩
  · intro x ix y iy hx hy hxy hiy
    rw [am_lookup_put] at hx
    by_cases e : e1.node = x
    · have := hxy e.symm
      simp at this
    · rw [if_neg e] at hx
      rw [r4] at hiy
      by_cases e2 : e1.node = y
      · rw [if_pos e2] at hiy; cases hiy
      · rw [if_neg e2] at hiy
        exact hP.relaxed x ix y iy hx hy hiy
  · intro y i hi
    rw [r4] at hi
    by_cases e2 : e1.node = y
    · rw [if_pos e2] at hi; cases hi
    · rw [if_neg e2] at hi
      have hin := hS.info_node y i hi
      rcases h6 i (hP.queued y i hi) (by rw [hin.1]; exact hin.2.2) with h | h
      · rw [h] at hin; exact absurd hin.1 e2
      · exact h
  · intro i hi
    rw [r4] at hi
    by_cases e2 : e1.node = s
    · rw [if_pos e2] at hi; cases hi
    · rw [if_neg e2] at hi
      exact hP.start i hi
  · intro e he hea
    rcases hP.tentative e (h5 e he) (hback _ hea) with h | ⟨p, hp, hnd, hall⟩
    · exact Or.inl h
    · exact Or.inr ⟨p, hp, hnd, fun z hz => hmono z (hall z hz)⟩

/-- The main loop of `extended_dijkstra`, from a state in which the invariant holds and
with more rounds allowed than `info_map` has entries: it ends without an exception, and in
the map it returns every node that can be reached from `s` has its minimum cost. -/
theorem dijkstra_loop_spec {g : DistGraph} {s : String} (hg : g.WF) (hs : s ∈ g.all_nodes)
    (hsum : ∀ v p w, Walk g s v p w → p.Nodup → w < INT_MAX) :
    ∀ (fuel : Nat) (info_map answer_map : CostMap) (info_pq : CostPQ),
      DijkstraStruct g info_map answer_map info_pq →
      (DijkstraPhase1 g s info_map answer_map info_pq ∨ DijkstraPhase2 g s answer_map) →
      info_map.map.length < fuel →
      ∃ m, dijkstra_loop g fuel info_map answer_map info_pq = some (Except.ok m) ∧
        DijkstraPhase2 g s m := by
  intro fuel
  induction fuel with
  | zero => intro _ _ _ _ _ hf; omega
  | succ f ih =>
    intro info_map answer_map info_pq hS hP hf
    rw [dijkstra_loop]
    by_cases he : info_map.empty = true
    · rw [if_pos he]
      refine ⟨answer_map, rfl, ?_⟩
      rcases hP with hP | hP
      · refine ⟨fun v p w hw => ?_, fun v i hi _ => ?_⟩
        · rcases phase1_lower hg hs hsum hS hP hw with h | ⟨y, iy, h1, _, _⟩
          · exact h
          · rw [am_lookup_of_empty info_map he y] at h1; cases h1
        · obtain ⟨⟨p, hp, _⟩, hlow⟩ := hP.final v i hi
          exact ⟨⟨p, hp⟩, hlow⟩
      · exact hP
    · have he2 : info_map.empty = false := by simpa using he
      obtain ⟨e0, pq1, e1, pq2, d1, d2, d3, d4, d5, d6, d7, d8, d9, d10, d11⟩ :=
        dijkstra_pick hS he2
      rw [if_neg he, d1]
      dsimp only
      by_cases hc0 : e0.cost = INT_MAX
      · rw [if_pos hc0]
        refine ⟨answer_map, rfl, ?_⟩
        rcases hP with hP | hP
        · exact phase1_all_reached hg hs hsum hS hP e0 hc0 (fun y hy _ => d3 y hy)
        · exact hP
      · rw [if_neg hc0, d4]
        dsimp only
        obtain ⟨v, im1, r1, r2, r4, r5⟩ := dijkstra_struct_step hS e1 pq2 d8 d7 d5 d6 d9 d10
        rw [r1]
        dsimp only
        have hun := hS.pq_node e1 d8
        have hout : ∀ d ∈ g.out_nodes e1.node, d ∈ g.all_nodes :=
          fun d hd => (hg _ hun d hd).1
        obtain ⟨f1, f2⟩ := relax_fold_struct g (answer_map.put e1.node e1) e1.node e1.cost
          (g.out_nodes e1.node) (im1, pq2) r5 hout
        refine ih _ _ _ f1 ?_ (by rw [f2]; dsimp only; omega)
        have hph2 : DijkstraPhase2 g s answer_map →
            DijkstraPhase1 g s
              ((g.out_nodes e1.node).foldl
                (relax g (answer_map.put e1.node e1) e1.node e1.cost) (im1, pq2)).1
              (answer_map.put e1.node e1)
              ((g.out_nodes e1.node).foldl
                (relax g (answer_map.put e1.node e1) e1.node e1.cost) (im1, pq2)).2 ∨
            DijkstraPhase2 g s (answer_map.put e1.node e1) :=
          fun h => Or.inr (phase2_put h e1.node e1 d7)
        rcases hP with hP | hP
        · by_cases hc1 : e1.cost = INT_MAX
          · exact hph2 (phase1_all_reached hg hs hsum hS hP e1 hc1 d11)
          · left
            obtain ⟨g1, g2⟩ := dijkstra_phase1_step hg hs hsum hS hP e1 pq2 im1 d8 d7 hc1 d9
              d10 d11 r4
            have hu : (answer_map.put e1.node e1).lookup e1.node = some e1 := by
              rw [am_lookup_put, if_pos rfl]
            have g3 := relax_fold_phase1 hg hs hsum (answer_map.put e1.node e1) e1.node e1 hu
              (g1 e1.node e1 hu).1 (g.out_nodes e1.node) (im1, pq2) [] (fun d hd => hd) r5 g2
            refine ⟨g1, fun x ix y iy hx hy hiy => ?_, g3.queued, g3.start, g3.tentative⟩
            refine g3.relaxed x ix y iy hx hy (fun e => ?_) hiy
            rw [List.append_nil, List.mem_reverse, ← e]
            exact hy
        · exact hph2 hP

theorem am_find_of_mem {KEY T : Type} [DecidableEq KEY] (l : List (KEY × T)) (k : KEY) (v : T)
    (hn : (l.map Prod.fst).Nodup) (h : (k, v) ∈ l) : ArrayMap.find l k = some v := by
  induction l with
  | nil => simp at h
  | cons a rest ih =>
    obtain ⟨k1, v1⟩ := a
    rw [List.map_cons, List.nodup_cons] at hn
    rcases List.mem_cons.1 h with e | e
    · injection e with e1 e2
      subst e1; subst e2
      simp [ArrayMap.find]
    · have hk : k1 ≠ k := by
        intro e1
        subst e1
        exact hn.1 (List.mem_map.2 ⟨(k1, v), e, rfl⟩)
      simp only [ArrayMap.find, if_neg hk]
      exact ih hn.2 e

/-- The map `info_map` after the loop over `g.all_nodes()`. -/
theorem dijkstra_init_puts :
    ∀ (l : List String) (m : CostMap), (m.map.map Prod.fst).Nodup →
      ((l.foldl (fun (m : CostMap) node_name => m.put node_name (Info.ctor node_name))
        m).map.map Prod.fst).Nodup ∧
      (∀ k, (l.foldl (fun (m : CostMap) node_name => m.put node_name (Info.ctor node_name))
        m).lookup k = if k ∈ l then some (Info.ctor k) else m.lookup k) ∧
      (l.foldl (fun (m : CostMap) node_name => m.put node_name (Info.ctor node_name))
        m).map.length ≤ m.map.length + l.length := by
  intro l
  induction l with
  | nil => intro m hn; exact ⟨hn, fun k => by simp, by simp⟩
  | cons n rest ih =>
    intro m hn
    obtain ⟨h1, h2, h3⟩ := ih (m.put n (Info.ctor n)) (am_put_nodup m n _ hn)
    rw [List.foldl_cons]
    refine ⟨h1, fun k => ?_, ?_⟩
    · rw [h2, am_lookup_put]
      by_cases e1 : k ∈ rest
      · rw [if_pos e1, if_pos (List.mem_cons_of_mem _ e1)]
      · rw [if_neg e1]
        by_cases e2 : n = k
        · rw [if_pos e2, if_pos (by rw [e2]; exact List.mem_cons_self _ _), e2]
        · rw [if_neg e2, if_neg]
          intro h
          rcases List.mem_cons.1 h with e | e
          · exact e2 e.symm
          · exact e1 e
    · have := ArrayMap.am_length_put_entry m.map n (Info.ctor n)
      have h4 : (m.put n (Info.ctor n)).map.length ≤ m.map.length + 1 := this
      rw [List.length_cons]
      omega

theorem heap_foldl_enqueue_eq (l : List (String × Info)) (q : CostPQ) :
    l.foldl (fun pq info => (pq.enqueue info.2).2) q = q.enqueues (l.map Prod.snd) := by
  unfold HeapPriorityQueue.enqueues
  rw [List.foldl_map]

/-- The invariant holds when the main loop of `extended_dijkstra` is entered. -/
theorem dijkstra_init {g : DistGraph} {s : String} (hs : s ∈ g.all_nodes) :
    ∃ (info_map : CostMap) (info_pq : CostPQ),
      (∀ fuel, extended_dijkstra fuel g s =
        dijkstra_loop g fuel info_map ArrayMap.ctor_default info_pq) ∧
      info_map.map.length ≤ g.all_nodes.length ∧
      DijkstraStruct g info_map ArrayMap.ctor_default info_pq ∧
      DijkstraPhase1 g s info_map ArrayMap.ctor_default info_pq := by
  obtain ⟨h1, h2, h3⟩ := dijkstra_init_puts g.all_nodes ArrayMap.ctor_default
    (by simp [ArrayMap.ctor_default])
  obtain ⟨m0, hm0⟩ : ∃ m0 : CostMap, m0 = g.all_nodes.foldl
      (fun (m : CostMap) node_name => m.put node_name (Info.ctor node_name))
      ArrayMap.ctor_default := ⟨_, rfl⟩
  rw [← hm0] at h1 h2 h3
  obtain ⟨i0, hi0⟩ : ∃ i0 : Info, i0 = { Info.ctor s with cost := 0 } := ⟨_, rfl⟩
  have hne : ∀ k, (ArrayMap.ctor_default : CostMap).lookup k = none := fun k => rfl
  have hls : m0.lookup s = some (Info.ctor s) := by rw [h2, if_pos hs]
  have ha : m0.assign s (fun i => { i with cost := 0 }) = m0.put s i0 := by
    rw [am_assign_of_lookup _ s _ (fun i => { i with cost := 0 }) hls, hi0]
  have hlk : ∀ k, (m0.put s i0).lookup k =
      if s = k then some i0 else if k ∈ g.all_nodes then some (Info.ctor k) else none := by
    intro k
    rw [am_lookup_put, h2, hne]
  have hq0 : (HeapPriorityQueue.fresh gt_info gt_info 0 : CostPQ).WF :=
    HeapPriorityQueue.heap_fresh_WF _ _
  obtain ⟨w1, w2, _, _, w5⟩ := HeapPriorityQueue.heap_enqueues_spec
    ((m0.put s i0).map.map Prod.snd)
    (HeapPriorityQueue.fresh gt_info gt_info 0 : CostPQ) hq0 gt_info_strictWeak
  obtain ⟨q, hq⟩ : ∃ q : CostPQ, q = (HeapPriorityQueue.fresh gt_info gt_info 0 :
      CostPQ).enqueues ((m0.put s i0).map.map Prod.snd) := ⟨_, rfl⟩
  rw [← hq] at w1 w2 w5
  have hnd := am_put_nodup m0 s i0 h1
  have hmem : ∀ e, e ∈ q.elements ↔ ∃ k, (m0.put s i0).lookup k = some e := by
    intro e
    rw [w5.mem_iff]
    have h0 : (HeapPriorityQueue.fresh gt_info gt_info 0 : CostPQ).elements = [] := rfl
    rw [h0, List.nil_append, List.mem_map]
    constructor
    · rintro ⟨⟨k, v⟩, hkv, e1⟩
      dsimp only at e1
      subst e1
      exact ⟨k, am_find_of_mem _ k v hnd hkv⟩
    · rintro ⟨k, hk⟩
      exact ⟨(k, e), ArrayMap.am_find_mem _ k e hk, rfl⟩
  have hkey : ∀ k i, (m0.put s i0).lookup k = some i →
      i.node = k ∧ k ∈ g.all_nodes ∧ (k = s → i.cost = 0) ∧ (k ≠ s → i.cost = INT_MAX) := by
    intro k i hi
    rw [hlk] at hi
    by_cases e : s = k
    · rw [if_pos e] at hi
      injection hi with hi
      subst hi
      subst e
      rw [hi0]
      exact ⟨rfl, hs, fun _ => rfl, fun h => absurd rfl h⟩
    · rw [if_neg e] at hi
      by_cases e2 : k ∈ g.all_nodes
      · rw [if_pos e2] at hi
        injection hi with hi
        subst hi
        exact ⟨rfl, e2, fun h => absurd h.symm e, fun _ => rfl⟩
      · rw [if_neg e2] at hi; cases hi
  refine ⟨m0.put s i0, q, fun fuel => ?_, ?_, ⟨hnd, ?_, ?_, ?_, w1, w2, ?_⟩,
    ⟨?_, ?_, ?_, ?_, ?_⟩⟩
  · unfold extended_dijkstra
    dsimp only
    rw [← hm0, ha]
    have hc : HeapPriorityQueue.ctor_default gt_info (undefinedgt : gtfunc Info) =
        Except.ok (HeapPriorityQueue.fresh gt_info gt_info 0) := rfl
    rw [hc]
    dsimp only
    rw [heap_foldl_enqueue_eq, ← hq]
  · rw [am_put_length_of_lookup _ _ _ (by rw [hls]; simp)]
    have : (ArrayMap.ctor_default : CostMap).map.length = 0 := rfl
    omega
  · intro v hv
    left
    rw [hlk]
    by_cases e : s = v
    · rw [if_pos e]; simp
    · rw [if_neg e, if_pos hv]; simp
  · intro v i hi
    obtain ⟨k1, k2, _, _⟩ := hkey v i hi
    exact ⟨k1, k2, rfl⟩
  · intro v hv
    obtain ⟨i, hi⟩ := Option.ne_none_iff_exists'.1 hv
    exact ⟨i, (hmem i).2 ⟨v, hi⟩, (hkey v i hi).1⟩
  · intro e he
    obtain ⟨k, hk⟩ := (hmem e).1 he
    obtain ⟨k1, k2, _, _⟩ := hkey k e hk
    rw [k1]; exact k2
  · intro v i hi
    rw [hne] at hi; cases hi
  · intro x ix y iy hx
    rw [hne] at hx; cases hx
  · intro y i hi
    exact (hmem i).2 ⟨y, hi⟩
  · intro i hi
    exact (hkey s i hi).2.2.1 rfl
  · intro e he _
    obtain ⟨k, hk⟩ := (hmem e).1 he
    obtain ⟨k1, _, k3, k4⟩ := hkey k e hk
    by_cases e1 : k = s
    · right
      subst e1
      rw [k1, k3 rfl]
      exact ⟨[k], Walk.start, List.nodup_singleton _, fun z hz => by simp at hz⟩
    · exact Or.inl (k4 e1)

theorem walk_weight_le {g : DistGraph} {s : String} (hg : g.WF) (hs : s ∈ g.all_nodes)
    (W : Int) (hW : ∀ u ∈ g.all_nodes, ∀ v ∈ g.out_nodes u, g.edge_value u v ≤ W)
    {v : String} {p : List String} {w : Int} (h : Walk g s v p w) :
    w ≤ ((p.length : Int) - 1) * W := by
  induction h with
  | start => simp
  | step y hw hy ih =>
    rename_i x q w1
    have hx := (walk_props hg hs hw).1
    have := hW _ hx _ hy
    have e : (((y :: q).length : Nat) : Int) - 1 = ((q.length : Nat) : Int) - 1 + 1 := by
      rw [List.length_cons]; push_cast; ring
    rw [e, add_mul, one_mul]
    omega

/-- In a graph whose edge values are at most `W`, with the number of nodes times `W` below
`INT_MAX`, the weight of every walk without repeated nodes is below `INT_MAX`. -/
theorem walk_weight_lt {g : DistGraph} {s : String} (hg : g.WF) (hs : s ∈ g.all_nodes)
    (W : Int) (h0 : 0 ≤ W)
    (hW : ∀ u ∈ g.all_nodes, ∀ v ∈ g.out_nodes u, g.edge_value u v ≤ W)
    (hb : (g.all_nodes.length : Int) * W < INT_MAX) :
    ∀ v p w, Walk g s v p w → p.Nodup → w < INT_MAX := by
  intro v p w hw hnd
  have h1 := walk_weight_le hg hs W hW hw
  have h2 : p.length ≤ g.all_nodes.length :=
    (List.subperm_of_subset hnd (walk_props hg hs hw).2.2).length_le
  have h3 : ((p.length : Int) - 1) * W ≤ (g.all_nodes.length : Int) * W := by
    apply mul_le_mul_of_nonneg_right _ h0
    have : (p.length : Int) ≤ (g.all_nodes.length : Int) := by exact_mod_cast h2
    omega
  omega

namespace HashMap

variable {KEY T : Type} {thash : hashfunc KEY}

theorem clear_WF (m : HashMap KEY T thash) (hwf : m.WF) : m.clear.WF := by
  have hmap := HashMap.clear_map m hwf.1.len
  refine ⟨⟨?_, hwf.1.pos, ?_, ?_⟩, ?_⟩
  · rw [hmap]; simp [clear]
  · intro i e he
    rw [hmap, chain_at_replicate_nil] at he
    cases he
  · rw [hmap]; simp [flatten_replicate_nil_chain]
  · rw [hmap]; simp [flatten_replicate_nil_chain, clear]

theorem index_WF [DecidableEq KEY] [Inhabited T] (m : HashMap KEY T thash) (hwf : m.WF)
    (hh : m.hash.NoAbsOverflow) (k : KEY) : (m.index k).2.WF ∧ (m.index k).2.hash = m.hash := by
  cases hf : m.find_key k with
  | some e => rw [index_of_some m k e hf]; exact ⟨hwf, rfl⟩
  | none =>
    rw [index_of_none m k hf]
    obtain ⟨h1, h2, _⟩ := put_spec m hwf hh k default
    exact ⟨h1, h2⟩

theorem erase_WF [DecidableEq KEY] (m : HashMap KEY T thash) (hwf : m.WF) (k : KEY) :
    (m.erase k).2.WF ∧ (m.erase k).2.hash = m.hash := by
  cases hf : m.find_key k with
  | some e =>
    obtain ⟨_, h1, h2, _⟩ := erase_spec m hwf k e hf
    exact ⟨h1, h2⟩
  | none => rw [erase_of_none m k hf]; exact ⟨hwf, rfl⟩

theorem fresh_put_all_WF [DecidableEq KEY] (hash : hashfunc KEY) (hh : hash.NoAbsOverflow)
    (t : Threshold) (i : List (KEY × T)) :
    ((fresh thash hash t 1 : HashMap KEY T thash).put_all i).2.WF ∧
    ((fresh thash hash t 1 : HashMap KEY T thash).put_all i).2.hash = hash := by
  rw [put_all_snd]
  obtain ⟨h1, h2, _⟩ := puts_spec i (fresh thash hash t 1 : HashMap KEY T thash)
    (fresh_WF hash t 1 (by decide)) hh
  exact ⟨h1, h2⟩

theorem ctor_il_ok [DecidableEq KEY] {il : List (KEY × T)} {t : Threshold}
    {chash : hashfunc KEY} {m0 : HashMap KEY T thash}
    (h : ctor_il thash il t chash = Except.ok m0 ∨ ctor_iterable thash il t chash = Except.ok m0) :
    m0 = ((fresh thash (pick_hash thash chash) t 1).put_all il).2 := by
  rcases h with h | h
  · unfold ctor_il at h
    simp only [] at h
    split at h
    · cases h
    · split at h
      · cases h
      · injection h with h; exact h.symm
  · unfold ctor_iterable at h
    simp only [] at h
    split at h
    · cases h
    · split at h
      · cases h
      · injection h with h; exact h.symm

/-- The hash of a copy is that of the source, as a function, or the one picked from the
arguments. -/
theorem ctor_copy_hash [DecidableEq KEY] (src : HashMap KEY T thash) (t : Threshold)
    (chash : hashfunc KEY) (c : HashMap KEY T thash)
    (hp1 : thash.Faithful src.hash) (hp2 : chash.Faithful src.hash)
    (hc : ctor_copy thash src t chash = Except.ok c) :
    c.hash.call = src.hash.call ∨ c.hash = pick_hash thash chash := by
  obtain ⟨r1, r2⟩ := resolved_hash_cases thash chash src.hash hp1 hp2
  cases hb : both_different thash chash with
  | true => simp [HashMap.ctor_copy, hb] at hc
  | false =>
    simp only [HashMap.ctor_copy, hb, Bool.false_eq_true, if_false] at hc
    by_cases hs : (if (pick_hash thash chash).same undefinedhash = true then src.hash
        else pick_hash thash chash).same src.hash = true
    · rw [if_pos hs] at hc
      injection hc with hc
      left
      rw [← hc]
      exact r1 hs
    · rw [if_neg hs] at hc
      injection hc with hc
      right
      rw [← hc, (fresh_put_all _ _ _ _).1]
      exact r2 (by simpa using hs)

/-- Every state of a `HashMap` that can be reached satisfies the representation invariant,
with a hash that never returns `INT_MIN`. -/
theorem reachable_WF [DecidableEq KEY] [Inhabited T] {m : HashMap KEY T thash}
    (h : m.Reachable) : m.WF ∧ m.hash.NoAbsOverflow := by
  induction h with
  | by_default t chash m hno hc =>
    rw [ctor_default_ok hc]
    exact ⟨fresh_WF _ _ 1 (by decide), hno⟩
  | by_bins n t chash m hno hc =>
    rw [ctor_bins_ok hc]
    refine ⟨fresh_WF _ _ _ ?_, hno⟩
    split <;> omega
  | by_il il t chash m hno hc =>
    rw [ctor_il_ok (Or.inl hc)]
    obtain ⟨h1, h2⟩ := fresh_put_all_WF (pick_hash thash chash) hno t il
    exact ⟨h1, by rw [h2]; exact hno⟩
  | by_iterable i t chash m hno hc =>
    rw [ctor_il_ok (Or.inr hc)]
    obtain ⟨h1, h2⟩ := fresh_put_all_WF (pick_hash thash chash) hno t i
    exact ⟨h1, by rw [h2]; exact hno⟩
  | by_copy src t chash m _ hno hp1 hp2 hc ih =>
    refine ⟨(HashMap.ctor_copy_content chash t src m ih.1 hc hno hp1 hp2).1, ?_⟩
    rcases ctor_copy_hash src t chash m hp1 hp2 hc with e | e
    · intro k; rw [e]; exact ih.2 k
    · rw [e]; exact hno
  | by_put m k v _ ih =>
    obtain ⟨h1, h2, _⟩ := put_spec m ih.1 ih.2 k v
    exact ⟨h1, by rw [h2]; exact ih.2⟩
  | by_index m k _ ih =>
    obtain ⟨h1, h2⟩ := index_WF m ih.1 ih.2 k
    exact ⟨h1, by rw [h2]; exact ih.2⟩
  | by_erase m k _ ih =>
    obtain ⟨h1, h2⟩ := erase_WF m ih.1 k
    exact ⟨h1, by rw [h2]; exact ih.2⟩
  | by_clear m _ ih => exact ⟨clear_WF m ih.1, ih.2⟩

end HashMap

namespace HashSet

variable {T : Type} {thash : hashfunc T}

theorem set_clear_WF (s : HashSet T thash) (hwf : s.WF) : s.clear.WF := by
  refine ⟨⟨by simp [clear], hwf.1.pos, ?_, ?_⟩, ?_⟩
  · intro i e he
    simp only [clear, chain_at_replicate_nil] at he
    cases he
  · simp [clear, flatten_replicate_nil_chain]
  · simp [clear, flatten_replicate_nil_chain]

theorem set_erase_WF [DecidableEq T] (s : HashSet T thash) (hwf : s.WF) (v : T) :
    (s.erase v).2.WF ∧ (s.erase v).2.hash = s.hash := by
  cases hf : s.find_element v with
  | some e =>
    obtain ⟨_, h1, h2, _⟩ := set_erase_spec s hwf v (by simp [contains, hf])
    exact ⟨h1, h2⟩
  | none => rw [set_erase_of_none s v hf]; exact ⟨hwf, rfl⟩

theorem fresh_insert_all_WF [DecidableEq T] (hash : hashfunc T) (hh : hash.NoAbsOverflow)
    (t : Threshold) (i : List T) :
    ((fresh thash hash t 1 : HashSet T thash).insert_all i).2.WF ∧
    ((fresh thash hash t 1 : HashSet T thash).insert_all i).2.hash = hash := by
  rw [insert_all_eq_inserts]
  obtain ⟨h1, h2, _⟩ := inserts_spec i (fresh thash hash t 1 : HashSet T thash)
    (set_fresh_WF hash t 1 (by decide)) hh
  exact ⟨h1, h2⟩

theorem set_ctor_il_ok [DecidableEq T] {il : List T} {t : Threshold}
    {chash : hashfunc T} {s0 : HashSet T thash}
    (h : ctor_il thash il t chash = Except.ok s0 ∨ ctor_iterable thash il t chash = Except.ok s0) :
    s0 = ((fresh thash (pick_hash thash chash) t 1).insert_all il).2 := by
  rcases h with h | h
  · unfold ctor_il at h
    simp only [] at h
    split at h
    · cases h
    · split at h
      · cases h
      · injection h with h; exact h.symm
  · unfold ctor_iterable at h
    simp only [] at h
    split at h
    · cases h
    · split at h
      · cases h
      · injection h with h; exact h.symm

/-- The hash of a copy of a set is that of the source, as a function, or the one picked
from the arguments. -/
theorem set_ctor_copy_hash [DecidableEq T] (src : HashSet T thash) (t : Threshold)
    (chash : hashfunc T) (c : HashSet T thash)
    (hp1 : thash.Faithful src.hash) (hp2 : chash.Faithful src.hash)
    (hc : ctor_copy thash src t chash = Except.ok c) :
    c.hash.call = src.hash.call ∨ c.hash = pick_hash thash chash := by
  obtain ⟨r1, r2⟩ := resolved_hash_cases thash chash src.hash hp1 hp2
  cases hb : both_different thash chash with
  | true => simp [HashSet.ctor_copy, hb] at hc
  | false =>
    simp only [HashSet.ctor_copy, hb, Bool.false_eq_true, if_false] at hc
    by_cases hs : (if (pick_hash thash chash).same undefinedhash = true then src.hash
        else pick_hash thash chash).same src.hash = true
    · rw [if_pos hs] at hc
      injection hc with hc
      left
      rw [← hc]
      exact r1 hs
    · rw [if_neg hs] at hc
      injection hc with hc
      right
      rw [← hc, (fresh_insert_all _ _ _ _).1]
      exact r2 (by simpa using hs)

/-- Every state of a `HashSet` that can be reached satisfies the representation invariant,
with a hash that never returns `INT_MIN`. -/
theorem set_reachable_WF [DecidableEq T] {s : HashSet T thash}
    (h : s.Reachable) : s.WF ∧ s.hash.NoAbsOverflow := by
  induction h with
  | by_default t chash s hno hc =>
    rw [set_ctor_default_ok hc]
    exact ⟨set_fresh_WF _ _ 1 (by decide), hno⟩
  | by_bins n t chash s hno hc =>
    rw [set_ctor_bins_ok hc]
    refine ⟨set_fresh_WF _ _ _ ?_, hno⟩
    split <;> omega
  | by_il il t chash s hno hc =>
    rw [set_ctor_il_ok (Or.inl hc)]
    obtain ⟨h1, h2⟩ := fresh_insert_all_WF (pick_hash thash chash) hno t il
    exact ⟨h1, by rw [h2]; exact hno⟩
  | by_iterable i t chash s hno hc =>
    rw [set_ctor_il_ok (Or.inr hc)]
    obtain ⟨h1, h2⟩ := fresh_insert_all_WF (pick_hash thash chash) hno t i
    exact ⟨h1, by rw [h2]; exact hno⟩
  | by_copy src t chash s _ hno hp1 hp2 hc ih =>
    refine ⟨(HashSet.set_ctor_copy_content chash t src s ih.1 hc hno hp1 hp2).1, ?_⟩
    rcases set_ctor_copy_hash src t chash s hp1 hp2 hc with e | e
    · intro k; rw [e]; exact ih.2 k
    · rw [e]; exact hno
  | by_insert s v _ ih =>
    obtain ⟨h1, h2, _⟩ := insert_spec s ih.1 ih.2 v
    exact ⟨h1, by rw [h2]; exact ih.2⟩
  | by_erase s v _ ih =>
    obtain ⟨h1, h2⟩ := set_erase_WF s ih.1 v
    exact ⟨h1, by rw [h2]; exact ih.2⟩
  | by_clear s _ ih => exact ⟨set_clear_WF s ih.1, ih.2⟩

end HashSet

namespace HeapPriorityQueue

variable {T : Type} {tgt : gtfunc T}

/-- One exchange of `percolate_down` in the part of the array whose parents have index `k`
or more: when the element at `j` is exchanged with a child `c` that no other child of `j`
is higher than, the only fault of that part moves from `j` to `c`. -/
theorem percolate_down_step_from [Inhabited T] (gt : gtfunc T) (used k j c : Nat)
    (pq : List T) (hkj : k ≤ j)
    (hlen : used ≤ pq.length) (hc0 : 0 < c) (hcu : c < used) (hcj : parent c = j)
    (k1 : gt.call (pq.getD j default) (pq.getD c default) = false)
    (k2 : ∀ s, 0 < s → s < used → parent s = j → s ≠ c →
      gt.call (pq.getD s default) (pq.getD c default) = false)
    (h1 : ∀ i, 0 < i → i < used → k ≤ parent i → parent i ≠ j →
      gt.call (pq.getD i default) (pq.getD (parent i) default) = false)
    (h2 : 0 < j → k ≤ parent j → ∀ s, 0 < s → s < used → parent s = j →
      gt.call (pq.getD s default) (pq.getD (parent j) default) = false) :
    (∀ i, 0 < i → i < used → k ≤ parent i → parent i ≠ c →
      gt.call ((swap_at pq j c).getD i default)
        ((swap_at pq j c).getD (parent i) default) = false) ∧
    (0 < c → k ≤ parent c → ∀ s, 0 < s → s < used → parent s = c →
      gt.call ((swap_at pq j c).getD s default)
        ((swap_at pq j c).getD (parent c) default) = false) := by
  have hjc : j < c := hcj ▸ parent_lt hc0
  have hg : ∀ x, (swap_at pq j c).getD x default =
      if x = c then pq.getD j default
      else if x = j then pq.getD c default else pq.getD x default :=
    fun x => swap_at_getD pq j c x (by omega) (by omega)
  constructor
  · intro i hi hiu hki hpi
    have hpl := parent_lt hi
    rw [hg i, hg (parent i), if_neg hpi]
    by_cases hic : i = c
    · subst hic
      rw [if_pos rfl, if_pos hcj]
      exact k1
    · rw [if_neg hic]
      by_cases hij : i = j
      · subst hij
        rw [if_pos rfl, if_neg (by omega)]
        exact h2 hi hki c hc0 hcu hcj
      · rw [if_neg hij]
        by_cases hq : parent i = j
        · rw [if_pos hq]
          exact k2 i hi hiu hq hic
        · rw [if_neg hq]
          exact h1 i hi hiu hki hq
  · intro _ _ s hs hsu hsc
    have hsl := parent_lt hs
    have e1 : s ≠ c := by omega
    have e2 : s ≠ j := by omega
    have e3 : parent c ≠ c := by omega
    rw [hg s, hg (parent c), if_neg e1, if_neg e2, if_neg e3, if_pos hcj]
    have := h1 s hs hsu (by omega) (by omega)
    rw [hsc] at this
    exact this

/-- The loop of `percolate_down` from index `j` repairs the part of the array whose
parents have index `k` or more, when the only fault of that part is at `j`. -/
theorem percolate_down_loop_from [Inhabited T] (gt : gtfunc T) (hgt : gt.StrictWeak)
    (used k : Nat) :
    ∀ (fuel j : Nat) (pq : List T), k ≤ j → used ≤ j + fuel → used ≤ pq.length →
      (∀ i, 0 < i → i < used → k ≤ parent i → parent i ≠ j →
        gt.call (pq.getD i default) (pq.getD (parent i) default) = false) →
      (0 < j → k ≤ parent j → ∀ s, 0 < s → s < used → parent s = j →
        gt.call (pq.getD s default) (pq.getD (parent j) default) = false) →
      (∀ i, 0 < i → i < used → k ≤ parent i →
        gt.call ((percolate_down_loop gt.call used fuel j pq).getD i default)
          ((percolate_down_loop gt.call used fuel j pq).getD (parent i) default) = false) ∧
      (percolate_down_loop gt.call used fuel j pq).length = pq.length ∧
      (content (percolate_down_loop gt.call used fuel j pq) used).Perm (content pq used) := by
  intro fuel
  induction fuel with
  | zero =>
    intro j pq _ hf _ h1 _
    refine ⟨?_, rfl, List.Perm.refl _⟩
    intro i hi hiu hki
    exact h1 i hi hiu hki (by have := parent_lt hi; omega)
  | succ f ih =>
    intro j pq hkj hf hlen h1 h2
    have hdone : (∀ s, 0 < s → s < used → parent s = j →
        gt.call (pq.getD s default) (pq.getD j default) = false) →
        ∀ i, 0 < i → i < used → k ≤ parent i →
          gt.call (pq.getD i default) (pq.getD (parent i) default) = false := by
      intro hch i hi hiu hki
      by_cases hq : parent i = j
      · have := hch i hi hiu hq
        rw [hq]; exact this
      · exact h1 i hi hiu hki hq
    have hswap : ∀ c, 0 < c → c < used → parent c = j →
        gt.call (pq.getD j default) (pq.getD c default) = false →
        (∀ s, 0 < s → s < used → parent s = j → s ≠ c →
          gt.call (pq.getD s default) (pq.getD c default) = false) →
        (∀ i, 0 < i → i < used → k ≤ parent i →
          gt.call ((percolate_down_loop gt.call used f c (swap_at pq j c)).getD i default)
            ((percolate_down_loop gt.call used f c (swap_at pq j c)).getD (parent i)
              default) = false) ∧
        (percolate_down_loop gt.call used f c (swap_at pq j c)).length = pq.length ∧
        (content (percolate_down_loop gt.call used f c (swap_at pq j c)) used).Perm
          (content pq used) := by
      intro c hc0 hcu hcj k1 k2
      have hjc : j < c := hcj ▸ parent_lt hc0
      obtain ⟨p1, p2⟩ := percolate_down_step_from gt used k j c pq hkj hlen hc0 hcu hcj k1 k2
        h1 h2
      obtain ⟨r1, r2, r3⟩ := ih c (swap_at pq j c) (by omega) (by omega)
        (by rw [swap_at_length]; exact hlen) p1 p2
      exact ⟨r1, by rw [r2, swap_at_length],
        r3.trans (content_swap_perm pq used j c (by omega) hcu hlen)⟩
    rw [percolate_down_loop]
    by_cases hju : j < used
    · rw [if_neg (by simpa using hju)]
      by_cases hl : left_child j < used
      · rw [if_neg (by simp [in_heap, hl])]
        have hl0 : 0 < left_child j := by unfold left_child; omega
        have hlp : parent (left_child j) = j := (parent_eq_iff hl0).2 (Or.inl rfl)
        by_cases hr : right_child j < used
        · rw [if_neg (by simp [in_heap, hr])]
          have hr0 : 0 < right_child j := by unfold right_child; omega
          have hrp : parent (right_child j) = j := (parent_eq_iff hr0).2 (Or.inr rfl)
          have hlr : left_child j ≠ right_child j := by unfold left_child right_child; omega
          cases hjl : gt.call (pq.getD j default) (pq.getD (left_child j) default) with
          | false =>
            rw [if_pos (by simp)]
            cases hglr : gt.call (pq.getD (left_child j) default)
                (pq.getD (right_child j) default) with
            | true =>
              rw [if_pos rfl]
              refine hswap (left_child j) hl0 hl hlp hjl ?_
              intro s hs hsu hsj hsl
              rcases (parent_eq_iff hs).1 hsj with h | h
              · exact absurd h hsl
              · rw [h]; exact hgt.asymm _ _ hglr
            | false =>
              rw [if_neg (by simp)]
              refine hswap (right_child j) hr0 hr hrp (hgt.negtrans _ _ _ hjl hglr) ?_
              intro s hs hsu hsj hsr
              rcases (parent_eq_iff hs).1 hsj with h | h
              · rw [h]; exact hglr
              · exact absurd h hsr
          | true =>
            cases hjr : gt.call (pq.getD j default) (pq.getD (right_child j) default) with
            | false =>
              rw [if_pos (by simp)]
              cases hglr : gt.call (pq.getD (left_child j) default)
                  (pq.getD (right_child j) default) with
              | true =>
                rw [if_pos rfl]
                refine hswap (left_child j) hl0 hl hlp
                  (hgt.negtrans _ _ _ hjr (hgt.asymm _ _ hglr)) ?_
                intro s hs hsu hsj hsl
                rcases (parent_eq_iff hs).1 hsj with h | h
                · exact absurd h hsl
                · rw [h]; exact hgt.asymm _ _ hglr
              | false =>
                rw [if_neg (by simp)]
                refine hswap (right_child j) hr0 hr hrp hjr ?_
                intro s hs hsu hsj hsr
                rcases (parent_eq_iff hs).1 hsj with h | h
                · rw [h]; exact hglr
                · exact absurd h hsr
            | true =>
              rw [if_neg (by simp)]
              refine ⟨hdone ?_, rfl, List.Perm.refl _⟩
              intro s hs hsu hsj
              rcases (parent_eq_iff hs).1 hsj with h | h
              · rw [h]; exact hgt.asymm _ _ hjl
              · rw [h]; exact hgt.asymm _ _ hjr
        · rw [if_pos (by simp [in_heap, hr])]
          cases hjl : gt.call (pq.getD j default) (pq.getD (left_child j) default) with
          | false =>
            rw [if_pos (by simp)]
            refine hswap (left_child j) hl0 hl hlp hjl ?_
            intro s hs hsu hsj hsl
            rcases (parent_eq_iff hs).1 hsj with h | h
            · exact absurd h hsl
            · omega
          | true =>
            rw [if_neg (by simp)]
            rw [percolate_down_loop_no_left gt.call used f (j + 1) pq
              (by unfold left_child right_child at *; omega)]
            refine ⟨hdone ?_, rfl, List.Perm.refl _⟩
            intro s hs hsu hsj
            rcases (parent_eq_iff hs).1 hsj with h | h
            · rw [h]; exact hgt.asymm _ _ hjl
            · omega
      · rw [if_pos (by simp [in_heap, hl])]
        refine ⟨hdone ?_, rfl, List.Perm.refl _⟩
        intro s hs hsu hsj
        rcases (parent_eq_iff hs).1 hsj with h | h
        · omega
        · unfold left_child right_child at *; omega
    · rw [if_pos (by simpa using hju)]
      refine ⟨hdone ?_, rfl, List.Perm.refl _⟩
      intro s hs hsu hsj
      have := parent_lt hs
      omega

/-- The loop of `heapify` over the indices `n-1` down to `0`, on an array in which every
element whose parent has index `n` or more is not higher than that parent: the first `used`
cells come out in heap order, rearranged. -/
theorem heapify_from [Inhabited T] (gt : gtfunc T) (hgt : gt.StrictWeak) (used : Nat) :
    ∀ (n : Nat) (pq : List T), n ≤ used → used ≤ pq.length →
      (∀ i, 0 < i → i < used → n ≤ parent i →
        gt.call (pq.getD i default) (pq.getD (parent i) default) = false) →
      heap_order gt.call
        ((List.range n).reverse.foldl (fun pq (i : Nat) => percolate_down gt.call used i pq)
          pq) used ∧
      ((List.range n).reverse.foldl (fun pq (i : Nat) => percolate_down gt.call used i pq)
          pq).length = pq.length ∧
      (content ((List.range n).reverse.foldl
          (fun pq (i : Nat) => percolate_down gt.call used i pq) pq) used).Perm
        (content pq used) := by
  intro n
  induction n with
  | zero =>
    intro pq _ _ h
    exact ⟨fun i hi hiu => h i hi hiu (Nat.zero_le _), rfl, List.Perm.refl _⟩
  | succ n ih =>
    intro pq hn hlen h
    rw [List.range_succ, List.reverse_append, List.reverse_singleton, List.singleton_append,
      List.foldl_cons]
    have hin : (!in_heap used n) = false := by simp [in_heap]; omega
    have hpd : percolate_down gt.call used n pq = percolate_down_loop gt.call used used n pq := by
      unfold percolate_down
      rw [hin]
      rfl
    obtain ⟨r1, r2, r3⟩ := percolate_down_loop_from gt hgt used n used n pq (le_refl _)
      (by omega) hlen
      (fun i hi hiu hki hne => h i hi hiu (by omega))
      (fun hn0 hkp => absurd (parent_lt hn0) (by omega))
    rw [hpd]
    obtain ⟨s1, s2, s3⟩ := ih _ (by omega) (by rw [r2]; exact hlen) r1
    exact ⟨s1, s2.trans r2, s3.trans r3⟩

/-- The helper `heapify` puts the first `used` cells of any array in heap order,
rearranging them. -/
theorem heapify_spec [Inhabited T] (gt : gtfunc T) (hgt : gt.StrictWeak) (used : Nat)
    (pq : List T) (hlen : used ≤ pq.length) :
    heap_order gt.call (heapify gt.call used pq) used ∧
    (heapify gt.call used pq).length = pq.length ∧
    (content (heapify gt.call used pq) used).Perm (content pq used) :=
  heapify_from gt hgt used used pq (le_refl _) hlen
    (fun i hi hiu hp => absurd (parent_lt hi) (by omega))

end HeapPriorityQueue

namespace HeapPriorityQueue

variable {T : Type} {tgt : gtfunc T}

theorem heap_ctor_length_ok [Inhabited T] {n : Int} {cgt : gtfunc T}
    {q0 : HeapPriorityQueue T tgt} (h : ctor_length tgt n cgt = Except.ok q0) :
    q0 = fresh tgt (pick_gt tgt cgt) (if n < 0 then 0 else n.toNat) := by
  unfold ctor_length at h
  simp only [] at h
  split at h
  · cases h
  · split at h
    · cases h
    · injection h with h; exact h.symm

theorem heap_ctor_il_ok [Inhabited T] {il : List T} {cgt : gtfunc T}
    {q0 : HeapPriorityQueue T tgt}
    (h : ctor_il tgt il cgt = Except.ok q0 ∨ ctor_iterable tgt il cgt = Except.ok q0) :
    q0 = { gt := pick_gt tgt cgt, length := il.length, used := il.length, mod_count := 0,
           pq := heapify (pick_gt tgt cgt).call il.length il } := by
  rcases h with h | h
  · unfold ctor_il at h
    simp only [] at h
    split at h
    · cases h
    · split at h
      · cases h
      · injection h with h; exact h.symm
  · unfold ctor_iterable at h
    simp only [] at h
    split at h
    · cases h
    · split at h
      · cases h
      · injection h with h; exact h.symm

theorem heap_clear_WF [Inhabited T] (q : HeapPriorityQueue T tgt) (hwf : q.WF) : q.clear.WF :=
  ⟨hwf.1, Nat.zero_le _, fun i _ hi => absurd hi (Nat.not_lt_zero i)⟩

theorem heap_dequeue_WF [Inhabited T] (q : HeapPriorityQueue T tgt) (hwf : q.WF)
    (hgt : q.gt.StrictWeak) : q.dequeue.2.WF ∧ q.dequeue.2.gt = q.gt := by
  by_cases hu : q.used = 0
  · have he : q.empty = true := by simp [empty, hu]
    unfold dequeue
    rw [if_pos he]
    exact ⟨hwf, rfl⟩
  · obtain ⟨_, h1, h2, _⟩ := heap_dequeue_spec q hwf hgt hu
    exact ⟨h1, h2⟩

/-- The copy constructor makes a heap: under the priority function of the source when the
two compare equal, by `heapify` otherwise. -/
theorem heap_ctor_copy_WF [Inhabited T] (src : HeapPriorityQueue T tgt) (cgt : gtfunc T)
    (q : HeapPriorityQueue T tgt) (hwf : src.WF) (hsrc : src.gt.StrictWeak)
    (hpick : (pick_gt tgt cgt).StrictWeak)
    (hp1 : tgt.Faithful src.gt) (hp2 : cgt.Faithful src.gt)
    (hc : ctor_copy tgt src cgt = Except.ok q) : q.WF ∧ q.gt.StrictWeak := by
  obtain ⟨w1, w2, w3⟩ := hwf
  have hlen : (src.pq.take src.used ++ List.replicate (src.length - src.used) default).length
      = src.length := by
    rw [List.length_append, List.length_take, List.length_replicate, w1]; omega
  have hget : ∀ i, i < src.used →
      (src.pq.take src.used ++ List.replicate (src.length - src.used) default).getD i default
        = src.pq.getD i default := by
    intro i hi
    rw [List.getD_append _ _ _ _ (by rw [List.length_take, w1]; omega)]
    simp [List.getD_eq_getElem?_getD, List.getElem?_take, hi]
  unfold ctor_copy at hc
  simp only [] at hc
  split at hc
  · cases hc
  · -- the priority function of the copy
    obtain ⟨g, hg⟩ : ∃ g, g = (if (pick_gt tgt cgt).same undefinedgt = true then src.gt
        else pick_gt tgt cgt) := ⟨_, rfl⟩
    rw [← hg] at hc
    have hgs : g.StrictWeak := by
      rw [hg]; split
      · exact hsrc
      · exact hpick
    have hcall : g.same src.gt = true → g.call = src.gt.call := by
      rw [hg]
      split
      · intro _; rfl
      · intro hs
        unfold pick_gt at hs ⊢
        split at hs
        · rename_i h1; rw [if_pos h1] ; exact hp2 hs
        · rename_i h1; rw [if_neg h1]; exact hp1 hs
    injection hc with hc
    subst hc
    by_cases hs : g.same src.gt = true
    · refine ⟨⟨?_, w2, ?_⟩, hgs⟩
      · simp only [hs, Bool.not_true, Bool.false_eq_true, if_false]
        exact hlen
      · simp only [hs, Bool.not_true, Bool.false_eq_true, if_false]
        intro i hi hiu
        have hp := parent_lt hi
        rw [hget i hiu, hget (parent i) (by omega), hcall hs]
        exact w3 i hi hiu
    · have hs2 : g.same src.gt = false := by simpa using hs
      obtain ⟨r1, r2, _⟩ := heapify_spec g hgs src.used
        (src.pq.take src.used ++ List.replicate (src.length - src.used) default)
        (by rw [hlen]; exact w2)
      refine ⟨⟨?_, w2, ?_⟩, hgs⟩
      · simp only [hs2, Bool.not_false, if_true]
        rw [r2]; exact hlen
      · simp only [hs2, Bool.not_false, if_true]
        exact r1

/-- Every state of a `HeapPriorityQueue` that can be reached satisfies the representation
invariant, with a priority function that is a strict weak order. -/
theorem heap_reachable_WF [Inhabited T] {q : HeapPriorityQueue T tgt} (h : q.Reachable) :
    q.WF ∧ q.gt.StrictWeak := by
  induction h with
  | by_default cgt q hgt hc =>
    rw [heap_ctor_default_ok hc]
    exact ⟨heap_fresh_WF _ _, hgt⟩
  | by_length n cgt q hgt hc =>
    rw [heap_ctor_length_ok hc]
    exact ⟨heap_fresh_WF _ _, hgt⟩
  | by_il il cgt q hgt hc =>
    rw [heap_ctor_il_ok (Or.inl hc)]
    obtain ⟨r1, r2, _⟩ := heapify_spec (pick_gt tgt cgt) hgt il.length il (le_refl _)
    exact ⟨⟨r2, le_refl _, r1⟩, hgt⟩
  | by_iterable i cgt q hgt hc =>
    rw [heap_ctor_il_ok (Or.inr hc)]
    obtain ⟨r1, r2, _⟩ := heapify_spec (pick_gt tgt cgt) hgt i.length i (le_refl _)
    exact ⟨⟨r2, le_refl _, r1⟩, hgt⟩
  | by_copy src cgt q _ hgt hp1 hp2 hc ih =>
    exact heap_ctor_copy_WF src cgt q ih.1 ih.2 hgt hp1 hp2 hc
  | by_enqueue q x _ ih =>
    obtain ⟨_, h1, h2, _⟩ := heap_enqueue_spec q ih.1 ih.2 x
    exact ⟨h1, by rw [h2]; exact ih.2⟩
  | by_dequeue q _ ih =>
    obtain ⟨h1, h2⟩ := heap_dequeue_WF q ih.1 ih.2
    exact ⟨h1, by rw [h2]; exact ih.2⟩
  | by_clear q _ ih => exact ⟨heap_clear_WF q ih.1, ih.2⟩

end HeapPriorityQueue

theorem gtfunc.StrictTotal.strictWeak {T : Type} {gt : gtfunc T} (h : gt.StrictTotal) :
    gt.StrictWeak := by
  refine ⟨fun a b hab => ?_, fun a b c h1 h2 => ?_⟩
  · cases hba : gt.call b a with
    | false => rfl
    | true => have := h.trans a b a hab hba; rw [h.irrefl a] at this; cases this
  · cases hac : gt.call a c with
    | false => rfl
    | true =>
      by_cases e : a = b
      · subst e; rw [hac] at h2; cases h2
      · rcases h.total a b e with h3 | h3
        · rw [h3] at h1; cases h1
        · have := h.trans b a c h3 hac
          rw [this] at h2; cases h2

theorem natGt_strictTotal : natGt.StrictTotal := by
  refine ⟨fun a => by simp [natGt], fun a b c h1 h2 => ?_, fun a b h => ?_⟩
  · simp only [natGt, decide_eq_true_eq] at h1 h2 ⊢; omega
  · simp only [natGt, decide_eq_true_eq]; omega

namespace LinkedPriorityQueue

variable {T : Type} {tgt : gtfunc T}

/-- The loop of `enqueue` when it links the element in: the list is the old one with the
element added, and stays ordered from highest to lowest priority. -/
theorem lpq_insert_before_some (gt : gtfunc T) (hgt : gt.StrictWeak) (x : T) :
    ∀ (l l2 : List T), insert_before gt.call x l = some l2 →
      l2.Perm (x :: l) ∧
      (l.Pairwise (fun a b => gt.call b a = false) →
        l2.Pairwise (fun a b => gt.call b a = false)) := by
  intro l
  induction l with
  | nil => intro l2 h; simp [insert_before] at h
  | cons p rest ih =>
    intro l2 h
    rw [insert_before] at h
    by_cases hxp : gt.call x p = true
    · rw [if_pos hxp] at h
      injection h with h
      subst h
      refine ⟨List.Perm.refl _, fun hs => ?_⟩
      rw [List.pairwise_cons]
      refine ⟨fun b hb => ?_, hs⟩
      rcases List.mem_cons.1 hb with e | e
      · rw [e]; exact hgt.asymm _ _ hxp
      · exact hgt.negtrans _ _ _ ((List.pairwise_cons.1 hs).1 b e) (hgt.asymm _ _ hxp)
    · rw [if_neg hxp] at h
      cases hr : insert_before gt.call x rest with
      | none => rw [hr] at h; cases h
      | some l3 =>
        rw [hr] at h
        injection h with h
        subst h
        obtain ⟨p1, p2⟩ := ih l3 hr
        refine ⟨(p1.cons p).trans (List.Perm.swap x p rest), fun hs => ?_⟩
        rw [List.pairwise_cons] at hs ⊢
        refine ⟨fun b hb => ?_, p2 hs.2⟩
        rcases List.mem_cons.1 (p1.subset hb) with e | e
        · rw [e]; simpa using hxp
        · exact hs.1 b e

theorem lpq_insert_before_none (gt : T → T → Bool) (x : T) :
    ∀ (l : List T), insert_before gt x l = none → ∀ p ∈ l, gt x p = false := by
  intro l
  induction l with
  | nil => intro _ p hp; simp at hp
  | cons a rest ih =>
    intro h p hp
    rw [insert_before] at h
    by_cases hxa : gt x a = true
    · rw [if_pos hxa] at h; cases h
    · rw [if_neg hxa] at h
      cases hr : insert_before gt x rest with
      | some l3 => rw [hr] at h; cases h
      | none =>
        rcases List.mem_cons.1 hp with e | e
        · rw [e]; simpa using hxa
        · exact ih hr p e

/-- The member `enqueue` of a `LinkedPriorityQueue` whose list is ordered from highest to
lowest priority: it returns `1`, adds the element, and keeps the list ordered. -/
theorem lpq_enqueue_spec (q : LinkedPriorityQueue T tgt) (hwf : q.WF)
    (hgt : q.gt.StrictWeak) (hs : q.front.Pairwise (fun a b => q.gt.call b a = false))
    (x : T) :
    (q.enqueue x).1 = Except.ok 1 ∧ (q.enqueue x).2.WF ∧ (q.enqueue x).2.gt = q.gt ∧
    (q.enqueue x).2.front.Perm (x :: q.front) ∧
    (q.enqueue x).2.front.Pairwise (fun a b => q.gt.call b a = false) := by
  unfold WF at hwf
  unfold enqueue
  cases hi : insert_before q.gt.call x q.front with
  | some l =>
    obtain ⟨p1, p2⟩ := lpq_insert_before_some q.gt hgt x q.front l hi
    refine ⟨rfl, ?_, rfl, p1, p2 hs⟩
    show q.used + 1 = l.length
    rw [p1.length_eq, List.length_cons, hwf]
  | none =>
    have hn := lpq_insert_before_none q.gt.call x q.front hi
    by_cases hu : q.used = 0
    · have hf : q.front = [] := List.length_eq_zero.1 (by omega)
      rw [if_pos hu]
      refine ⟨rfl, ?_, rfl, List.Perm.refl _, ?_⟩
      · show q.used + 1 = (x :: q.front).length
        rw [hf, hu]; rfl
      · show (x :: q.front).Pairwise (fun a b => q.gt.call b a = false)
        rw [hf]; simp
    · rw [if_neg hu]
      cases hf : q.front with
      | nil => rw [hf] at hwf; simp at hwf; omega
      | cons a rest =>
        refine ⟨rfl, ?_, rfl, ?_, ?_⟩
        · show q.used + 1 = (a :: rest ++ [x]).length
          rw [hwf, hf]; simp
        · show (a :: rest ++ [x]).Perm (x :: a :: rest)
          exact List.perm_append_singleton x (a :: rest)
        · show (a :: rest ++ [x]).Pairwise (fun a b => q.gt.call b a = false)
          rw [List.pairwise_append]
          rw [hf] at hs hn
          exact ⟨hs, List.pairwise_singleton _ _, fun a1 h1 b hb => by
            rw [List.mem_singleton] at hb; rw [hb]; exact hn a1 h1⟩

/-- The member `dequeue` of a `LinkedPriorityQueue` that is not empty and whose list is
ordered from highest to lowest priority: it returns the first element, which no element
has higher priority than. -/
theorem lpq_dequeue_spec (q : LinkedPriorityQueue T tgt) (hwf : q.WF)
    (hgt : q.gt.StrictWeak) (hs : q.front.Pairwise (fun a b => q.gt.call b a = false))
    (hu : q.used ≠ 0) :
    ∃ f rest, q.front = f :: rest ∧ q.dequeue.1 = Except.ok f ∧ q.dequeue.2.front = rest ∧
      q.dequeue.2.WF ∧ q.dequeue.2.gt = q.gt ∧
      q.dequeue.2.front.Pairwise (fun a b => q.gt.call b a = false) ∧
      ∀ y ∈ q.front, q.gt.call y f = false := by
  unfold WF at hwf
  have he : q.empty = false := by simp [empty, hu]
  cases hf : q.front with
  | nil => rw [hf] at hwf; simp at hwf; omega
  | cons f rest =>
    rw [hf] at hs
    have hd : q.dequeue = (Except.ok f,
        { q with mod_count := q.mod_count + 1, used := q.used - 1, front := rest }) := by
      unfold dequeue
      rw [he]
      simp only [Bool.false_eq_true, if_false, hf]
    rw [hd]
    refine ⟨f, rest, rfl, rfl, rfl, ?_, rfl, (List.pairwise_cons.1 hs).2, fun y hy => ?_⟩
    · show q.used - 1 = rest.length
      rw [hwf, hf]; simp
    · rcases List.mem_cons.1 hy with e | e
      · rw [e]
        cases hc : q.gt.call f f with
        | false => rfl
        | true => have := hgt.asymm _ _ hc; rw [hc] at this; cases this
      · exact (List.pairwise_cons.1 hs).1 y e

end LinkedPriorityQueue

theorem lpq_ctor_default_ok {T : Type} {tgt cgt : gtfunc T} {q0 : LinkedPriorityQueue T tgt}
    (h : LinkedPriorityQueue.ctor_default tgt cgt = Except.ok q0) :
    q0 = LinkedPriorityQueue.fresh tgt (pick_gt tgt cgt) := by
  unfold LinkedPriorityQueue.ctor_default at h
  simp only [] at h
  split at h
  · cases h
  · split at h
    · cases h
    · injection h with h; exact h.symm

/-- A heap and a linked list that hold the same elements under the same strict total order,
the list ordered from highest to lowest priority, answer every sequence of calls alike. -/
theorem pq_calls_agree {T : Type} [Inhabited T] {tgt tgt2 : gtfunc T} (gt : gtfunc T)
    (hgt : gt.StrictTotal) :
    ∀ (cs : List (PQCall T)) (h : HeapPriorityQueue T tgt) (l : LinkedPriorityQueue T tgt2),
      h.WF → l.WF → h.gt = gt → l.gt = gt → h.elements.Perm l.front →
      l.front.Pairwise (fun a b => gt.call b a = false) →
      h.calls cs = l.calls cs := by
  intro cs
  induction cs with
  | nil => intro h l _ _ _ _ _ _; rfl
  | cons c rest ih =>
    intro h l hwf lwf hg lg hp hs
    have hw := hgt.strictWeak
    have hlen : h.used = l.used := by
      rw [← heap_used_eq_length, hp.length_eq]; exact lwf.symm
    cases c with
    | enqueue x =>
      obtain ⟨e1, e2, e3, e4, _, e6⟩ :=
        HeapPriorityQueue.heap_enqueue_spec h hwf (by rw [hg]; exact hw) x
      obtain ⟨f1, f2, f3, f4, f5⟩ :=
        LinkedPriorityQueue.lpq_enqueue_spec l lwf (by rw [lg]; exact hw)
          (by rw [lg]; exact hs) x
      have hsz : (h.enqueue x).2.size = (l.enqueue x).2.size := by
        show (h.enqueue x).2.used = (l.enqueue x).2.used
        rw [e4, f2, f4.length_eq, List.length_cons, ← lwf, hlen]
      have hres : (h.call (PQCall.enqueue x)).1 = (l.call (PQCall.enqueue x)).1 := by
        show Except.ok (Sum.inl (h.enqueue x).1) = (l.enqueue x).1.map Sum.inl
        rw [e1, f1]; rfl
      show ((h.call (PQCall.enqueue x)).1, (h.enqueue x).2.size) ::
          HeapPriorityQueue.calls rest (h.enqueue x).2 =
        ((l.call (PQCall.enqueue x)).1, (l.enqueue x).2.size) ::
          LinkedPriorityQueue.calls rest (l.enqueue x).2
      rw [hres, hsz, ih (h.enqueue x).2 (l.enqueue x).2 e2 f2 (e3.trans hg) (f3.trans lg)
        (e6.trans ((hp.cons x).trans f4.symm)) (by rw [lg] at f5; exact f5)]
    | dequeue =>
      show ((h.dequeue.1.map Sum.inr, h.dequeue.2.size) ::
          HeapPriorityQueue.calls rest h.dequeue.2) =
        ((l.dequeue.1.map Sum.inr, l.dequeue.2.size) ::
          LinkedPriorityQueue.calls rest l.dequeue.2)
      by_cases hu : h.used = 0
      · have he : h.empty = true := by simp [HeapPriorityQueue.empty, hu]
        have le : l.empty = true := by simp [LinkedPriorityQueue.empty, ← hlen, hu]
        have hd : h.dequeue = (Except.error IcsError.EmptyError, h) := by
          unfold HeapPriorityQueue.dequeue; rw [if_pos he]
        have ld : l.dequeue = (Except.error IcsError.EmptyError, l) := by
          unfold LinkedPriorityQueue.dequeue; rw [if_pos le]
        rw [hd, ld, ih h l hwf lwf hg lg hp hs]
        show _ = ((Except.error IcsError.EmptyError : Except IcsError T).map Sum.inr,
          l.used) :: _
        rw [← hlen]
        rfl
      · obtain ⟨d1, d2, d3, d4, _, d6, d7⟩ :=
          HeapPriorityQueue.heap_dequeue_spec h hwf (by rw [hg]; exact hw) hu
        obtain ⟨f, rest2, g1, g2, g3, g4, g5, g6, g7⟩ :=
          LinkedPriorityQueue.lpq_dequeue_spec l lwf (by rw [lg]; exact hw)
            (by rw [lg]; exact hs) (by omega)
        have hxf : h.pq.getD 0 default = f := by
          by_contra hne
          have hx_in : h.pq.getD 0 default ∈ l.front :=
            hp.subset (d6.symm.subset (List.mem_cons_self _ _))
          have hf_in : f ∈ h.elements := hp.symm.subset (by rw [g1]; exact List.mem_cons_self _ _)
          have a1 := g7 _ hx_in
          have a2 := d7 f hf_in
          rw [lg] at a1
          rw [hg] at a2
          rcases hgt.total _ _ hne with h3 | h3
          · rw [h3] at a1; cases a1
          · rw [h3] at a2; cases a2
        have hp2 : h.dequeue.2.elements.Perm l.dequeue.2.front := by
          rw [g3]
          have := d6.symm.trans hp
          rw [g1, hxf] at this
          exact this.cons_inv
        have hsz : h.dequeue.2.size = l.dequeue.2.size := by
          show h.dequeue.2.used = l.dequeue.2.used
          rw [← heap_used_eq_length, hp2.length_eq]; exact g4.symm
        rw [d1, g2, hxf, hsz, ih h.dequeue.2 l.dequeue.2 d2 g4 (d3.trans hg) (g5.trans lg) hp2
          (by rw [lg] at g6; exact g6)]

theorem chain_at_nat {α : Type} (tbl : List (List α)) (i : Nat) :
    chain_at tbl (i : Int) = tbl.getD i [] := by
  simp [chain_at]

theorem drop_flatten_scan {α : Type} (tbl : List (List α)) :
    ∀ (n s : Nat), s + n = tbl.length →
      match scan_bins tbl s n with
      | some i => s ≤ i ∧ i < tbl.length ∧ chain_at tbl (i : Int) ≠ [] ∧
          (tbl.drop s).flatten = chain_at tbl (i : Int) ++ (tbl.drop (i + 1)).flatten
      | none => (tbl.drop s).flatten = [] := by
  intro n
  induction n with
  | zero =>
    intro s hs
    have : tbl.drop s = [] := List.drop_eq_nil_of_le (by omega)
    simp [scan_bins, this]
  | succ n ih =>
    intro s hs
    have hlt : s < tbl.length := by omega
    have hd : tbl.drop s = chain_at tbl (s : Int) :: tbl.drop (s + 1) := by
      rw [chain_at_nat, List.getD_eq_getElem _ _ hlt]
      exact List.drop_eq_getElem_cons hlt
    rw [scan_bins]
    by_cases hemp : (chain_at tbl (s : Int)).isEmpty = true
    · rw [if_pos hemp]
      have hnil := List.isEmpty_iff.1 hemp
      have := ih (s + 1) (by omega)
      cases hsc : scan_bins tbl (s + 1) n with
      | none =>
        rw [hsc] at this
        dsimp only at this ⊢
        rw [hd, List.flatten_cons, hnil, this]; rfl
      | some i =>
        rw [hsc] at this
        dsimp only at this ⊢
        obtain ⟨h1, h2, h3, h4⟩ := this
        refine ⟨by omega, h2, h3, ?_⟩
        rw [hd, List.flatten_cons, hnil, List.nil_append, h4]
    · rw [if_neg hemp]
      dsimp only
      refine ⟨le_refl _, hlt, fun h => hemp (List.isEmpty_iff.2 h), ?_⟩
      rw [hd, List.flatten_cons]

theorem cursorAt_nil {α : Type} {tbl : List (List α)} {bins : Nat} {c : Cursor}
    (h : CursorAt tbl bins c []) : c = ⟨-1, NodePtr.null⟩ := by
  rcases h with ⟨h, _⟩ | ⟨b, p, _, _, hp, hr⟩
  · exact h
  · exfalso
    have := congrArg List.length hr
    simp only [List.length_nil, List.length_append, List.length_drop] at this
    omega

theorem first_cursor_at {α : Type} (tbl : List (List α)) (bins used : Nat)
    (hlen : tbl.length = bins) (hused : used = tbl.flatten.length) :
    CursorAt tbl bins (first_cursor tbl bins used true) tbl.flatten := by
  unfold first_cursor
  by_cases h0 : used = 0
  · rw [if_pos (Or.inl h0)]
    exact Or.inl ⟨rfl, List.length_eq_zero.1 (by omega)⟩
  · rw [if_neg (by simp [h0])]
    have h := drop_flatten_scan tbl bins 0 (by omega)
    cases hs : scan_bins tbl 0 bins with
    | none =>
      rw [hs] at h
      dsimp only at h
      rw [List.drop_zero] at h
      rw [h] at hused
      exact absurd hused h0
    | some i =>
      rw [hs] at h
      dsimp only at h ⊢
      obtain ⟨_, h2, h3, h4⟩ := h
      rw [List.drop_zero] at h4
      refine Or.inr ⟨i, 0, rfl, by omega, List.length_pos.2 h3, ?_⟩
      rw [List.drop_zero]; exact h4

theorem cursorAt_step {α : Type} (tbl : List (List α)) (bins : Nat) (hlen : tbl.length = bins)
    (c : Cursor) (x : α) (rest : List α) (h : CursorAt tbl bins c (x :: rest)) :
    c.first ≠ -1 ∧ c.second ≠ NodePtr.null ∧ node_value tbl c.second = Except.ok x ∧
    ∃ c2, advance_cursor tbl bins c = Except.ok c2 ∧ CursorAt tbl bins c2 rest := by
  rcases h with ⟨_, h⟩ | ⟨b, p, hc, hb, hp, hr⟩
  · cases h
  · subst hc
    have hget : (chain_at tbl (b : Int)).get? p = some ((chain_at tbl (b : Int)).get ⟨p, hp⟩) :=
      List.get?_eq_get hp
    have hdrop : (chain_at tbl (b : Int)).drop p =
        (chain_at tbl (b : Int)).get ⟨p, hp⟩ :: (chain_at tbl (b : Int)).drop (p + 1) :=
      List.drop_eq_getElem_cons hp
    rw [hdrop, List.cons_append] at hr
    injection hr with hx hrest
    have hne1 : ((b : Int)) ≠ -1 := by omega
    refine ⟨hne1, by simp, ?_, ?_⟩
    · simp only [node_value, hget, hx]
    · unfold advance_cursor
      rw [if_pos ⟨hne1, by simp⟩]
      dsimp only
      rw [if_pos hp]
      by_cases hlast : p + 1 = (chain_at tbl (b : Int)).length
      · rw [if_pos hlast]
        have htn : ((b : Int) + 1).toNat = b + 1 := by omega
        rw [htn]
        have hd : (chain_at tbl (b : Int)).drop (p + 1) = [] :=
          List.drop_eq_nil_of_le (by omega)
        rw [hd, List.nil_append] at hrest
        have h := drop_flatten_scan tbl (bins - (b + 1)) (b + 1) (by omega)
        cases hs : scan_bins tbl (b + 1) (bins - (b + 1)) with
        | none =>
          rw [hs] at h
          dsimp only at h ⊢
          exact ⟨_, rfl, Or.inl ⟨rfl, by rw [hrest, h]⟩⟩
        | some i =>
          rw [hs] at h
          dsimp only at h ⊢
          obtain ⟨_, h2, h3, h4⟩ := h
          refine ⟨_, rfl, Or.inr ⟨i, 0, rfl, by omega, List.length_pos.2 h3, ?_⟩⟩
          rw [List.drop_zero, hrest, h4]
      · rw [if_neg hlast]
        exact ⟨_, rfl, Or.inr ⟨b, p + 1, rfl, hb, by omega, hrest⟩⟩

namespace HashMap

variable {KEY T : Type} {thash : hashfunc KEY}

theorem read_loop_spec (this : Nat) (m : HashMap KEY T thash) (hlen : m.map.length = m.bins) :
    ∀ (rest : List (KEY × T)) (it : Iterator) (acc : List (KEY × T)) (fuel : Nat),
      CursorAt m.map m.bins it.current rest →
      it.expected_mod_count = m.mod_count → it.ref_map = this → it.can_erase = true →
      rest.length < fuel →
      ∃ it2 : Iterator, read_loop this fuel it m acc = some (Except.ok (acc ++ rest), it2) ∧
        it2.current = ⟨-1, NodePtr.null⟩ := by
  intro rest
  induction rest with
  | nil =>
    intro it acc fuel hcur hexp href _ hf
    cases fuel with
    | zero => simp at hf
    | succ f =>
      have hc := cursorAt_nil hcur
      have hne : it.op_ne (m.end_ this) m = Except.ok false := by
        unfold Iterator.op_ne
        rw [if_neg (by simp [hexp]), if_neg (by simp [href, end_, Iterator.ctor]), hc]
        simp [end_, Iterator.ctor, first_cursor]
      refine ⟨it, ?_, hc⟩
      rw [read_loop, hne, List.append_nil]
  | cons x rest ih =>
    intro it acc fuel hcur hexp href hce hf
    cases fuel with
    | zero => simp at hf
    | succ f =>
      obtain ⟨h1, h2, h3, c2, h4, h5⟩ := cursorAt_step m.map m.bins hlen it.current x rest hcur
      have hne : it.op_ne (m.end_ this) m = Except.ok true := by
        unfold Iterator.op_ne
        rw [if_neg (by simp [hexp]), if_neg (by simp [href, end_, Iterator.ctor])]
        simp [end_, Iterator.ctor, first_cursor, h2]
      have hde : it.deref m = Except.ok x := by
        unfold Iterator.deref
        rw [if_neg (by simp [hexp]), if_neg (by simp [hce, h1, h2]), h3]
      have hin : it.incr m = Except.ok { it with current := c2 } := by
        unfold Iterator.incr
        rw [if_neg (by simp [hexp]), if_neg (fun h => h1 h.1), if_pos hce]
        unfold Iterator.advance_cursors
        rw [h4]
      obtain ⟨it2, h6, h7⟩ := ih { it with current := c2 } (acc ++ [x]) f h5 hexp href hce
        (by simp at hf; omega)
      refine ⟨it2, ?_, h7⟩
      rw [read_loop, hne]
      dsimp only
      rw [hde]
      dsimp only
      rw [hin]
      dsimp only
      rw [h6, List.append_assoc]; rfl

/-- On a well-formed map the loop from `begin()` ends at the cursor of `end()` and has
dereferenced the chains in bin order. -/
theorem WF.read_loop_begin {m : HashMap KEY T thash} (hwf : m.WF) (this fuel : Nat)
    (hf : m.used < fuel) :
    ∃ it2 : Iterator, read_loop this fuel (m.begin this) m [] =
        some (Except.ok m.map.flatten, it2) ∧ it2.current = (m.end_ this).current := by
  obtain ⟨it2, h1, h2⟩ := read_loop_spec this m hwf.1.len m.map.flatten (m.begin this) [] fuel
    (first_cursor_at m.map m.bins m.used hwf.1.len hwf.2) rfl rfl rfl (by rw [← hwf.2]; exact hf)
  exact ⟨it2, by rw [h1, List.nil_append], by rw [h2]; simp [end_, Iterator.ctor, first_cursor]⟩

end HashMap

namespace HashSet

variable {T : Type} {thash : hashfunc T}

theorem set_read_loop_spec (this : Nat) (s : HashSet T thash) (hlen : s.set.length = s.bins) :
    ∀ (rest : List T) (it : Iterator) (acc : List T) (fuel : Nat),
      CursorAt s.set s.bins it.current rest →
      it.expected_mod_count = s.mod_count → it.ref_set = this → it.can_erase = true →
      rest.length < fuel →
      ∃ it2 : Iterator, read_loop this fuel it s acc = some (Except.ok (acc ++ rest), it2) ∧
        it2.current = ⟨-1, NodePtr.null⟩ := by
  intro rest
  induction rest with
  | nil =>
    intro it acc fuel hcur hexp href _ hf
    cases fuel with
    | zero => simp at hf
    | succ f =>
      have hc := cursorAt_nil hcur
      have hne : it.op_ne (s.end_ this) s = Except.ok false := by
        unfold Iterator.op_ne
        rw [if_neg (by simp [hexp]), if_neg (by simp [href, end_, Iterator.ctor]), hc]
        simp [end_, Iterator.ctor, first_cursor]
      refine ⟨it, ?_, hc⟩
      rw [read_loop, hne, List.append_nil]
  | cons x rest ih =>
    intro it acc fuel hcur hexp href hce hf
    cases fuel with
    | zero => simp at hf
    | succ f =>
      obtain ⟨h1, h2, h3, c2, h4, h5⟩ := cursorAt_step s.set s.bins hlen it.current x rest hcur
      have hne : it.op_ne (s.end_ this) s = Except.ok true := by
        unfold Iterator.op_ne
        rw [if_neg (by simp [hexp]), if_neg (by simp [href, end_, Iterator.ctor])]
        simp [end_, Iterator.ctor, first_cursor, h2]
      have hde : it.deref s = Except.ok x := by
        unfold Iterator.deref
        rw [if_neg (by simp [hexp]), if_neg (by simp [hce, h1, h2]), h3]
      have hin : it.incr s = Except.ok { it with current := c2 } := by
        unfold Iterator.incr
        rw [if_neg (by simp [hexp]), if_neg (fun h => h1 h.1), if_pos hce]
        unfold Iterator.advance_cursors
        rw [h4]
      obtain ⟨it2, h6, h7⟩ := ih { it with current := c2 } (acc ++ [x]) f h5 hexp href hce
        (by simp at hf; omega)
      refine ⟨it2, ?_, h7⟩
      rw [read_loop, hne]
      dsimp only
      rw [hde]
      dsimp only
      rw [hin]
      dsimp only
      rw [h6, List.append_assoc]; rfl

/-- On a well-formed set the loop from `begin()` ends at the cursor of `end()` and has
dereferenced the chains in bin order. -/
theorem WF.set_read_loop_begin {s : HashSet T thash} (hwf : s.WF) (this fuel : Nat)
    (hf : s.used < fuel) :
    ∃ it2 : Iterator, read_loop this fuel (s.begin this) s [] =
        some (Except.ok s.set.flatten, it2) ∧ it2.current = (s.end_ this).current := by
  obtain ⟨it2, h1, h2⟩ := set_read_loop_spec this s hwf.1.len s.set.flatten (s.begin this) [] fuel
    (first_cursor_at s.set s.bins s.used hwf.1.len hwf.2) rfl rfl rfl (by rw [← hwf.2]; exact hf)
  exact ⟨it2, by rw [h1, List.nil_append], by rw [h2]; simp [end_, Iterator.ctor, first_cursor]⟩

end HashSet

theorem explore_successors_items (reached_set : ArraySet String) :
    ∀ (l : List String) (q : ArrayQueue String),
      (explore_successors reached_set l q).items =
        q.items ++ l.filter (fun e => !reached_set.contains e) := by
  intro l
  induction l with
  | nil => intro q; simp [explore_successors]
  | cons e rest ih =>
    intro q
    rw [explore_successors, ih]
    by_cases h : reached_set.contains e = true
    · simp [h]
    · simp [h, ArrayQueue.enqueue]

theorem arraySet_insert_set (s : ArraySet String) (x : String) :
    (s.insert x).2.set = if x ∈ s.set then s.set else s.set ++ [x] := by
  unfold ArraySet.insert ArraySet.contains
  by_cases h : x ∈ s.set
  · simp [h]
  · simp [h]

theorem canReach_mem_nodes (graph : ArrayMap String (ArraySet String)) (start x : String)
    (h : CanReach graph start x) : x ∈ graph_nodes graph start := by
  cases h with
  | refl => exact List.mem_cons_self _ _
  | tail _ he =>
    obtain ⟨s, hs, hx⟩ := he
    refine List.mem_cons_of_mem _ (List.mem_flatMap.2 ⟨_, ArrayMap.am_find_mem _ _ _ hs, hx⟩)

/-- One round of the loop of `reachable` on a queue that is not empty. -/
theorem reachable_loop_round (graph : ArrayMap String (ArraySet String)) (fuel : Nat)
    (r : ArraySet String) (first : String) (rest : List String) :
    reachable_loop graph (fuel + 1) r ⟨first :: rest⟩ =
      reachable_loop graph fuel (r.insert first).2
        (match ArrayMap.find graph.map first with
         | some s => explore_successors (r.insert first).2 s.set ⟨rest⟩
         | none => ⟨rest⟩) := by
  rw [reachable_loop]
  simp only [ArrayQueue.empty, List.isEmpty_cons, Bool.false_eq_true, if_false,
    ArrayQueue.dequeue, ArrayMap.has_key, ArrayMap.index_const]
  cases hf : ArrayMap.find graph.map first with
  | none => simp
  | some s => simp

theorem arraySet_mem_insert (s : ArraySet String) (x y : String) :
    y ∈ (s.insert x).2.set ↔ y ∈ s.set ∨ y = x := by
  rw [arraySet_insert_set]
  by_cases h : x ∈ s.set
  · rw [if_pos h]
    exact ⟨Or.inl, fun h2 => h2.elim id (fun e => e ▸ h)⟩
  · rw [if_neg h]
    simp

theorem arraySet_insert_of_mem (s : ArraySet String) (x : String) (h : x ∈ s.set) :
    (s.insert x).2 = s := by
  unfold ArraySet.insert ArraySet.contains
  simp [h]

theorem reachInv_round (graph : ArrayMap String (ArraySet String)) (start : String)
    (r : ArraySet String) (first : String) (rest : List String)
    (inv : ReachInv graph start r ⟨first :: rest⟩) :
    ReachInv graph start (r.insert first).2
      (match ArrayMap.find graph.map first with
       | some s => explore_successors (r.insert first).2 s.set ⟨rest⟩
       | none => ⟨rest⟩) := by
  have hfirst : CanReach graph start first := inv.queue_sound first (List.mem_cons_self _ _)
  have hrest : ∀ y, y ∈ rest →
      y ∈ (match ArrayMap.find graph.map first with
       | some s => explore_successors (r.insert first).2 s.set ⟨rest⟩
       | none => (⟨rest⟩ : ArrayQueue String)).items := by
    intro y hy
    cases hf : ArrayMap.find graph.map first with
    | none => exact hy
    | some s =>
      dsimp only
      rw [explore_successors_items]
      exact List.mem_append_left _ hy
  refine ⟨?_, ?_, ?_, ?_, ?_⟩
  · intro x hx
    rcases (arraySet_mem_insert r first x).1 hx with h | h
    · exact inv.set_sound x h
    · rw [h]; exact hfirst
  · intro x hx
    cases hf : ArrayMap.find graph.map first with
    | none =>
      rw [hf] at hx
      exact inv.queue_sound x (List.mem_cons_of_mem _ hx)
    | some s =>
      rw [hf] at hx
      dsimp only at hx
      rw [explore_successors_items] at hx
      rcases List.mem_append.1 hx with h | h
      · exact inv.queue_sound x (List.mem_cons_of_mem _ h)
      · exact Relation.ReflTransGen.tail hfirst ⟨s, hf, (List.mem_filter.1 h).1⟩
  · rcases inv.start_in with h | h
    · exact Or.inl ((arraySet_mem_insert r first start).2 (Or.inl h))
    · rcases List.mem_cons.1 h with h | h
      · exact Or.inl ((arraySet_mem_insert r first start).2 (Or.inr h))
      · exact Or.inr (hrest start h)
  · intro x hx y hxy
    rcases (arraySet_mem_insert r first x).1 hx with h | h
    · rcases inv.closed x h y hxy with h2 | h2
      · exact Or.inl ((arraySet_mem_insert r first y).2 (Or.inl h2))
      · rcases List.mem_cons.1 h2 with h3 | h3
        · exact Or.inl ((arraySet_mem_insert r first y).2 (Or.inr h3))
        · exact Or.inr (hrest y h3)
    · subst h
      obtain ⟨s, hs, hy⟩ := hxy
      by_cases hin : y ∈ (r.insert x).2.set
      · exact Or.inl hin
      · refine Or.inr ?_
        rw [hs]
        dsimp only
        rw [explore_successors_items]
        refine List.mem_append_right _ (List.mem_filter.2 ⟨hy, ?_⟩)
        simp [ArraySet.contains, hin]
  · rw [arraySet_insert_set]
    by_cases h : first ∈ r.set
    · rw [if_pos h]; exact inv.nodup
    · rw [if_neg h]
      exact List.Nodup.append inv.nodup (List.nodup_singleton _)
        (by
          intro a ha hb
          rw [List.mem_singleton] at hb
          exact h (hb ▸ ha))

theorem reachable_loop_spec (graph : ArrayMap String (ArraySet String)) (start : String) :
    ∀ (k c : Nat) (r : ArraySet String) (q : ArrayQueue String),
      ReachInv graph start r q →
      (graph_nodes graph start).length - r.set.length < k →
      q.items.countP (fun x => r.contains x) < c →
      ∃ n, ∀ fuel, n ≤ fuel → ∃ res, reachable_loop graph fuel r q = some (Except.ok res) ∧
        (∀ x, x ∈ res.set ↔ CanReach graph start x) ∧ res.set.Nodup := by
  intro k
  induction k with
  | zero => intro c r q _ h; omega
  | succ k ihk =>
    intro c
    induction c with
    | zero => intro r q _ _ h; omega
    | succ c ihc =>
      intro r q inv hk hc
      obtain ⟨items⟩ := q
      cases items with
      | nil =>
        refine ⟨1, fun fuel hf => ⟨r, ?_, ?_, inv.nodup⟩⟩
        · obtain ⟨f, rfl⟩ : ∃ f, fuel = f + 1 := ⟨fuel - 1, by omega⟩
          rw [reachable_loop]
          simp [ArrayQueue.empty]
        · intro x
          refine ⟨inv.set_sound x, fun hx => ?_⟩
          induction hx with
          | refl =>
            rcases inv.start_in with h | h
            · exact h
            · cases h
          | tail _ he ih =>
            rcases inv.closed _ ih _ he with h | h
            · exact h
            · cases h
      | cons first rest =>
        have inv2 := reachInv_round graph start r first rest inv
        have key : ∃ n, ∀ fuel, n ≤ fuel → ∃ res,
            reachable_loop graph fuel (r.insert first).2
              (match ArrayMap.find graph.map first with
               | some s => explore_successors (r.insert first).2 s.set ⟨rest⟩
               | none => ⟨rest⟩) = some (Except.ok res) ∧
            (∀ x, x ∈ res.set ↔ CanReach graph start x) ∧ res.set.Nodup := by
          by_cases hin : first ∈ r.set
          · have hr : (r.insert first).2 = r := arraySet_insert_of_mem r first hin
            rw [hr] at inv2 ⊢
            refine ihc r _ inv2 hk ?_
            have h1 : List.countP (fun x => r.contains x) (first :: rest) =
                List.countP (fun x => r.contains x) rest + 1 := by
              rw [List.countP_cons_of_pos]
              simp [ArraySet.contains, hin]
            have hc : List.countP (fun x => r.contains x) (first :: rest) < c + 1 := hc
            rw [h1] at hc
            have h2 : List.countP (fun x => r.contains x)
                (match ArrayMap.find graph.map first with
                 | some s => explore_successors r s.set ⟨rest⟩
                 | none => (⟨rest⟩ : ArrayQueue String)).items =
                List.countP (fun x => r.contains x) rest := by
              cases hf : ArrayMap.find graph.map first with
              | none => rfl
              | some s =>
                dsimp only
                rw [explore_successors_items, List.countP_append]
                have : List.countP (fun x => r.contains x)
                    (List.filter (fun e => !r.contains e) s.set) = 0 := by
                  rw [List.countP_eq_zero]
                  intro a ha
                  have := (List.mem_filter.1 ha).2
                  simpa using this
                rw [this]; rfl
            rw [h2]; omega
          · refine ihk _ (r.insert first).2 _ inv2 ?_ (Nat.lt_succ_self _)
            have hlen : (r.insert first).2.set.length = r.set.length + 1 := by
              rw [arraySet_insert_set, if_neg hin]; simp
            have hsub : (r.insert first).2.set.length ≤ (graph_nodes graph start).length :=
              (inv2.nodup.subperm (fun x hx =>
                canReach_mem_nodes graph start x (inv2.set_sound x hx))).length_le
            omega
        obtain ⟨n, hn⟩ := key
        refine ⟨n + 1, fun fuel hf => ?_⟩
        obtain ⟨f, rfl⟩ : ∃ f, fuel = f + 1 := ⟨fuel - 1, by omega⟩
        rw [reachable_loop_round]
        exact hn f (by omega)

/-- What `extended_dijkstra` does for the nodes that can be reached: for every graph `g`
whose edges end in nodes of `g` and have values that are not negative, with every walk from `s` without repeated nodes of weight
below `INT_MAX`, and every start node `s` of `g`, `extended_dijkstra(g, s)` returns a map
(its main loop ends within `fuel` rounds when `fuel` is more than the number of nodes, and
raises no exception) in which every node `v` that can be reached from `s` has an entry; the
cost recorded in it is the weight of a walk from `s` to `v`, no walk from `s` to `v` weighs
less, and it is `0` for `s` itself. Nothing is stated of the nodes that cannot be
reached. -/
theorem dijkstra_reachable_min_cost (g : DistGraph) (s : String) (hg : g.WF)
    (hs : s ∈ g.all_nodes) (hsum : ∀ v p w, Walk g s v p w → p.Nodup → w < INT_MAX)
    (fuel : Nat) (hfuel : g.all_nodes.length < fuel) :
    ∃ m : CostMap, extended_dijkstra fuel g s = some (Except.ok m) ∧
      ∀ v, (∃ p w, Walk g s v p w) →
        ∃ i, m.lookup v = some i ∧ (∃ p, Walk g s v p i.cost) ∧
          (∀ p w, Walk g s v p w → i.cost ≤ w) ∧ (v = s → i.cost = 0) := by
  obtain ⟨info_map, info_pq, h1, h2, h3, h4⟩ := @dijkstra_init g s hs
  obtain ⟨m, h5, h6⟩ := dijkstra_loop_spec hg hs hsum fuel info_map ArrayMap.ctor_default
    info_pq h3 (Or.inl h4) (by omega)
  refine ⟨m, by rw [h1, h5], fun v hv => ?_⟩
  obtain ⟨p, w, hw⟩ := hv
  obtain ⟨i, hi⟩ := Option.ne_none_iff_exists'.1 (h6.all v p w hw)
  obtain ⟨⟨p2, hp2⟩, hlow⟩ := h6.final v i hi ⟨p, w, hw⟩
  refine ⟨i, hi, ⟨p2, hp2⟩, hlow, fun e => ?_⟩
  subst e
  have h7 := hlow _ _ Walk.start
  have h8 := (walk_props hg hs hp2).2.1
  omega

/-- In the example graph with a cycle, from `a`, the cost recorded for `c` is `3`, the weight of the walk over `b`, and no walk from `a` to `c` weighs less. -/
theorem dijkstra_reachable_min_cost_graphFour :
    (extended_dijkstra 5 graphFour "a").map
        (fun r => r.map (fun m => (m.lookup "c").map (fun i => i.cost))) =
      some (Except.ok (some 3)) ∧
    ∃ (m : CostMap) (i : Info), extended_dijkstra 5 graphFour "a" = some (Except.ok m) ∧
      m.lookup "c" = some i ∧ ∀ p w, Walk graphFour "a" "c" p w → i.cost ≤ w := by
  have hg : graphFour.WF := by unfold DistGraph.WF; decide
  have hs : "a" ∈ graphFour.all_nodes := by decide
  obtain ⟨m, h1, h2⟩ := dijkstra_reachable_min_cost graphFour "a" hg hs
    (walk_weight_lt hg hs 7 (by decide) (by decide) (by decide)) 5 (by decide)
  obtain ⟨i, h3, _, h4, _⟩ := h2 "c" ⟨_, _,
    Walk.step "c" (Walk.step "b" Walk.start (by decide)) (by decide)⟩
  exact ⟨by decide, m, i, h1, h3, h4⟩

/-- The guard `if(mini_cost_info.cost==INT_MAX) break;`: in the graph with the nodes `a`
and `b` and no edge, which has no walk of weight `INT_MAX` or more, `extended_dijkstra(g, "a")` returns a map whose only
entry is that of `a`: the node `b`, which cannot be reached, has no entry. -/
theorem dijkstra_sentinel_break_graphNoEdge :
    graphNoEdge.WF ∧ "a" ∈ graphNoEdge.all_nodes ∧ "b" ∈ graphNoEdge.all_nodes ∧
    (∀ v p w, Walk graphNoEdge "a" v p w → w < INT_MAX) ∧
    (extended_dijkstra 3 graphNoEdge "a").map (fun r => r.map (fun m => m.map)) =
      some (Except.ok [("a", { node := "a", cost := 0, from_ := "?" })]) ∧
    (extended_dijkstra 3 graphNoEdge "a").map (fun r => r.map (fun m => m.has_key "b")) =
      some (Except.ok false) := by
  refine ⟨by unfold DistGraph.WF; decide, by decide, by decide, ?_, by decide, by decide⟩
  intro v p w hw
  cases hw with
  | start => decide
  | step y _ hy => simp [graphNoEdge] at hy

/-- The walks of the example graph `graphStale` from `s` end in `s`, `w` or `v`. -/
theorem graphStale_walks (v : String) (p : List String) (w : Int)
    (h : Walk graphStale "s" v p w) :
    (v = "s" ∧ w = 0) ∨ (v = "w" ∧ w = 1) ∨ (v = "v" ∧ (w = 10 ∨ w = 7)) := by
  induction h with
  | start => exact Or.inl ⟨rfl, rfl⟩
  | step y _ hy ih =>
    rcases ih with ⟨rfl, rfl⟩ | ⟨rfl, rfl⟩ | ⟨rfl, _⟩
    · have hy : y ∈ ["v", "w"] := hy
      simp only [List.mem_cons, List.mem_singleton, List.not_mem_nil, or_false] at hy
      rcases hy with rfl | rfl
      · exact Or.inr (Or.inr ⟨rfl, Or.inl (by decide)⟩)
      · exact Or.inr (Or.inl ⟨rfl, by decide⟩)
    · have hy : y ∈ ["v"] := hy
      simp only [List.mem_singleton] at hy
      subst hy
      exact Or.inr (Or.inr ⟨rfl, Or.inr (by decide)⟩)
    · have hy : y ∈ ([] : List String) := hy
      cases hy

/-! ## Claims -/

/-- C1: for every finite sequence of `put` calls on an initially empty `HashMap` (made by
the default or the `initial_bins` constructor), `size()` is the number of distinct keys
of the sequence and `has_key(k)` is true exactly for the keys occurring in it; likewise
for `insert` calls on an initially empty `HashSet` with `contains`, and a further
`insert(v)` returns `1` exactly when `v` was not yet inserted and `0` otherwise. The hash
function never returns `INT_MIN`, the one value on which `std::abs` is undefined. -/
theorem C1_size_and_membership_after_inserts {KEY T : Type} [DecidableEq KEY]
    {thash : hashfunc KEY} {sthash : hashfunc KEY}
    (n : Int) (t : Threshold) (chash : hashfunc KEY) (m0 : HashMap KEY T thash)
    (hm : HashMap.ctor_default thash t chash = Except.ok m0 ∨
          HashMap.ctor_bins thash n t chash = Except.ok m0)
    (hmh : m0.hash.NoAbsOverflow)
    (sn : Int) (st : Threshold) (schash : hashfunc KEY) (s0 : HashSet KEY sthash)
    (hs : HashSet.ctor_default sthash st schash = Except.ok s0 ∨
          HashSet.ctor_bins sthash sn st schash = Except.ok s0)
    (hsh : s0.hash.NoAbsOverflow)
    (kvs : List (KEY × T)) (vs : List KEY) :
    ((m0.puts kvs).size = (kvs.map Prod.fst).dedup.length ∧
      ∀ k, (m0.puts kvs).has_key k = true ↔ k ∈ kvs.map Prod.fst) ∧
    ((s0.inserts vs).size = vs.dedup.length ∧
      (∀ v, (s0.inserts vs).contains v = true ↔ v ∈ vs) ∧
      (∀ v, (v ∉ vs → ((s0.inserts vs).insert v).1 = 1) ∧
            (v ∈ vs → ((s0.inserts vs).insert v).1 = 0))) := by
  obtain ⟨b, hb, rfl⟩ := HashMap.ctor_empty hm
  obtain ⟨sb, hsb, rfl⟩ := HashSet.set_ctor_empty hs
  obtain ⟨w, _, _, _, hk⟩ := HashMap.puts_spec kvs _ (HashMap.fresh_WF _ t b hb) hmh
  obtain ⟨sw, sh, _, _, sk⟩ := HashSet.inserts_spec vs _ (HashSet.set_fresh_WF _ st sb hsb) hsh
  have hk2 : ∀ k, (HashMap.puts (HashMap.fresh thash (pick_hash thash chash) t b) kvs).has_key k = true ↔
      k ∈ kvs.map Prod.fst := by
    intro k; rw [hk k, HashMap.has_key_fresh]; simp
  have sk2 : ∀ v, (HashSet.inserts (HashSet.fresh sthash (pick_hash sthash schash) st sb) vs).contains v = true ↔
      v ∈ vs := by
    intro v; rw [sk v, HashSet.contains_fresh]; simp
  refine ⟨⟨w.used_eq_of_keys _ hk2, hk2⟩, sw.used_eq_of_elems _ sk2, sk2, ?_⟩
  intro v
  obtain ⟨_, _, _, _, h⟩ := HashSet.insert_spec _ sw (sh.symm ▸ hsh) v
  constructor
  · intro hv
    rcases h with ⟨hc, _⟩ | ⟨_, h1, _⟩
    · exact absurd ((sk2 v).1 hc) hv
    · exact h1
  · intro hv
    rcases h with ⟨_, h0, _⟩ | ⟨hc, _⟩
    · exact h0
    · rw [(sk2 v).2 hv] at hc; cases hc

/-- Witness of C1: three `put` calls with two distinct keys on a new map of three bins
leave two entries. -/
theorem C1_witness :
    ((HashMap.fresh natHash natHash Threshold.one 3 : HashMap Nat Nat natHash).puts
      [(1, 10), (2, 20), (1, 30)]).size = 2 ∧
    ((HashSet.fresh natHash natHash Threshold.one 1 : HashSet Nat natHash).inserts
      [5, 7, 5]).size = 2 :=
  have h := @C1_size_and_membership_after_inserts Nat Nat _ natHash natHash 3 Threshold.one
    undefinedhash (HashMap.fresh natHash natHash Threshold.one 3) (Or.inr rfl)
    natHash_noAbsOverflow 1 Threshold.one undefinedhash
    (HashSet.fresh natHash natHash Threshold.one 1) (Or.inl rfl) natHash_noAbsOverflow
    [(1, 10), (2, 20), (1, 30)] [5, 7, 5]
  ⟨h.1.1.trans (by decide), h.2.1.trans (by decide)⟩

/-- C2: for every `HashMap` and every key `k` present with value `v` (so `m[k]` is `v`),
`put(k, v2)` returns the old value `v`, leaves `size()` unchanged, and afterwards `m[k]`
is `v2`, through the const and the non-const `operator[]`, which leaves the table as it is. -/
theorem C2_put_overwrites_present_key {KEY T : Type} [DecidableEq KEY] [Inhabited T]
    {thash : hashfunc KEY} (m : HashMap KEY T thash) (k : KEY) (v v2 : T)
    (hpresent : m.index_const k = Except.ok v) :
    (m.put k v2).1 = v ∧ (m.put k v2).2.size = m.size ∧
    (m.put k v2).2.index_const k = Except.ok v2 ∧
    ((m.put k v2).2.index k).1 = v2 ∧ ((m.put k v2).2.index k).2 = (m.put k v2).2 := by
  obtain ⟨e, hf, hv⟩ := (HashMap.index_const_ok_iff m k v).1 hpresent
  have hf2 := HashMap.find_key_put_present m k v2 e hf
  refine ⟨?_, ?_, ?_, ?_, ?_⟩
  · rw [HashMap.put_of_some m k v2 e hf]; exact hv
  · rw [HashMap.put_of_some m k v2 e hf]; rfl
  · rw [HashMap.index_const_ok_iff]; exact ⟨_, hf2, rfl⟩
  · simp only [HashMap.index, hf2]
  · simp only [HashMap.index, hf2]

/-- Witness of C2, the scenario of the specification: after putting `("a",1)`, `("b",2)`,
`("c",3)` into a new map, `put("b",20)` returns `2`, `m["b"]` is `20` and `size()` is `3`. -/
theorem C2_witness :
    (((HashMap.fresh strHash strHash Threshold.one 1 : HashMap String Nat strHash).puts
        [("a", 1), ("b", 2), ("c", 3)]).put "b" 20).1 = 2 ∧
    (((HashMap.fresh strHash strHash Threshold.one 1 : HashMap String Nat strHash).puts
        [("a", 1), ("b", 2), ("c", 3)]).put "b" 20).2.size = 3 ∧
    ((((HashMap.fresh strHash strHash Threshold.one 1 : HashMap String Nat strHash).puts
        [("a", 1), ("b", 2), ("c", 3)]).put "b" 20).2.index "b").1 = 20 :=
  have h := C2_put_overwrites_present_key
    ((HashMap.fresh strHash strHash Threshold.one 1 : HashMap String Nat strHash).puts
      [("a", 1), ("b", 2), ("c", 3)]) "b" 2 20 (by rfl)
  ⟨h.1, h.2.1.trans (by rfl), h.2.2.2.1⟩

/-- C3: for every `HashMap` and every key `k` present with value `v`, `erase(k)` returns
`v`, decreases `size()` by exactly one, makes `has_key(k)` false and leaves every other
key as it was (present with the same value, or absent); `HashSet::erase` of a present
element returns `1`, decreases `size()` by one and removes only that element. -/
theorem C3_erase_present {KEY T : Type} [DecidableEq KEY] {thash sthash : hashfunc KEY}
    (m : HashMap KEY T thash) (hm : m.WF) (k : KEY) (v : T)
    (hpresent : m.index_const k = Except.ok v)
    (s : HashSet KEY sthash) (hs : s.WF) (x : KEY) (hx : s.contains x = true) :
    ((m.erase k).1 = Except.ok v ∧ (m.erase k).2.size + 1 = m.size ∧
      (m.erase k).2.has_key k = false ∧
      ∀ k2, k2 ≠ k → ((m.erase k).2.has_key k2 = m.has_key k2 ∧
        (m.erase k).2.index_const k2 = m.index_const k2)) ∧
    ((s.erase x).1 = 1 ∧ (s.erase x).2.size + 1 = s.size ∧
      (s.erase x).2.contains x = false ∧
      ∀ x2, x2 ≠ x → (s.erase x).2.contains x2 = s.contains x2) := by
  obtain ⟨e, hf, hv⟩ := (HashMap.index_const_ok_iff m k v).1 hpresent
  obtain ⟨r1, _, _, _, _, _, r2, _⟩ := HashMap.erase_spec m hm k e hf
  obtain ⟨q1, _, _, _, _, _, q2, _⟩ := HashSet.set_erase_spec s hs x hx
  refine ⟨⟨hv ▸ r1, r2, ?_, ?_⟩, q1, q2, ?_, ?_⟩
  · simp [HashMap.has_key, HashMap.erase_find_key_self m hm k e hf]
  · intro k2 hne
    have h := HashMap.erase_find_key_other m hm k e hf k2 hne
    exact ⟨by simp only [HashMap.has_key, h], HashMap.index_const_congr _ _ _ h⟩
  · have := HashSet.contains_erase s hs x hx x
    cases hc : (s.erase x).2.contains x with
    | false => rfl
    | true => exact absurd rfl (this.1 hc).1
  · intro x2 hne
    have := HashSet.contains_erase s hs x hx x2
    cases hc : (s.erase x).2.contains x2 with
    | false =>
      cases hc2 : s.contains x2 with
      | false => rfl
      | true => rw [this.2 ⟨hne, hc2⟩] at hc; cases hc
    | true => exact (this.1 hc).2.symm

/-- Witness of C3: erasing key `2` from the map `1->10, 2->20, 3->30` and element `7` from
the set `5, 7, 9`. -/
theorem C3_witness :
    (((HashMap.fresh natHash natHash Threshold.one 1 : HashMap Nat Nat natHash).puts
        [(1, 10), (2, 20), (3, 30)]).erase 2).1 = Except.ok 20 ∧
    (((HashSet.fresh natHash natHash Threshold.one 1 : HashSet Nat natHash).inserts
        [5, 7, 9]).erase 7).2.contains 7 = false :=
  have h := C3_erase_present
    ((HashMap.fresh natHash natHash Threshold.one 1 : HashMap Nat Nat natHash).puts
      [(1, 10), (2, 20), (3, 30)])
    (HashMap.puts_spec _ _ (HashMap.fresh_WF _ _ 1 (by decide)) natHash_noAbsOverflow).1
    2 20 (by rfl)
    ((HashSet.fresh natHash natHash Threshold.one 1 : HashSet Nat natHash).inserts [5, 7, 9])
    (HashSet.inserts_spec _ _ (HashSet.set_fresh_WF _ _ 1 (by decide)) natHash_noAbsOverflow).1
    7 (by rfl)
  ⟨h.1.1, h.2.2.2.1⟩

/-- C4: erasing an absent key signals "not found" and changes nothing. On a `HashMap` and
a `HashSet` that satisfy the representation invariant and whose hash never returns
`INT_MIN` (so that the bin searched, `hash_compress` of the key, is an index of the bin
array): `HashMap::erase` of a key not in the map raises `KeyError`, `HashSet::erase` of an
element not in the set returns `0`, and in both cases the table, in particular `size()`,
the stored entries and `mod_count`, is exactly as before the call. -/
theorem C4_erase_absent {KEY T : Type} [DecidableEq KEY] {thash sthash : hashfunc KEY}
    (m : HashMap KEY T thash) (hm : m.WF) (hhm : m.hash.NoAbsOverflow)
    (k : KEY) (hk : m.has_key k = false)
    (s : HashSet KEY sthash) (hs : s.WF) (hhs : s.hash.NoAbsOverflow)
    (x : KEY) (hx : s.contains x = false) :
    ((0 ≤ m.hash_compress k ∧ (m.hash_compress k).toNat < m.map.length) ∧
      (m.erase k).1 = Except.error IcsError.KeyError ∧ (m.erase k).2 = m ∧
      (m.erase k).2.size = m.size ∧ (m.erase k).2.map = m.map ∧
      (m.erase k).2.mod_count = m.mod_count) ∧
    ((0 ≤ s.hash_compress x ∧ (s.hash_compress x).toNat < s.set.length) ∧
      (s.erase x).1 = 0 ∧ (s.erase x).2 = s ∧
      (s.erase x).2.size = s.size ∧ (s.erase x).2.set = s.set ∧
      (s.erase x).2.mod_count = s.mod_count) := by
  have hf : m.find_key k = none := by
    simpa [HashMap.has_key] using hk
  have hg : s.find_element x = none := by
    simpa [HashSet.contains] using hx
  have rm := HashMap.hash_compress_range m hhm hm.1.pos k
  have rs := HashSet.set_hash_compress_range s hhs hs.1.pos x
  rw [HashMap.erase_of_none m k hf, HashSet.set_erase_of_none s x hg, hm.1.len, hs.1.len]
  exact ⟨⟨rm, rfl, rfl, rfl, rfl, rfl⟩, rs, rfl, rfl, rfl, rfl, rfl⟩

/-- Witness of C4: erasing key `4` from the map `1->10, 2->20` and element `4` from the
set `5, 7`. -/
theorem C4_witness :
    (((HashMap.fresh natHash natHash Threshold.one 1 : HashMap Nat Nat natHash).puts
        [(1, 10), (2, 20)]).erase 4).1 = Except.error IcsError.KeyError ∧
    (((HashSet.fresh natHash natHash Threshold.one 1 : HashSet Nat natHash).inserts
        [5, 7]).erase 4).1 = 0 :=
  have h := C4_erase_absent
    ((HashMap.fresh natHash natHash Threshold.one 1 : HashMap Nat Nat natHash).puts
      [(1, 10), (2, 20)])
    (HashMap.puts_spec _ _ (HashMap.fresh_WF _ _ 1 (by decide)) natHash_noAbsOverflow).1
    natHash_noAbsOverflow 4 (by rfl)
    ((HashSet.fresh natHash natHash Threshold.one 1 : HashSet Nat natHash).inserts [5, 7])
    (HashSet.inserts_spec _ _ (HashSet.set_fresh_WF _ _ 1 (by decide)) natHash_noAbsOverflow).1
    natHash_noAbsOverflow 4 (by rfl)
  ⟨h.1.2.1, h.2.2.1⟩

/-- C5: round trip. Putting any list of entries into a new `HashMap` and then erasing each
distinct key once raises no `KeyError` and leaves a map with `empty()` true that compares
`==`, in both directions, to any freshly constructed empty map, whatever the bin counts,
load thresholds and hash functions of the two; likewise for `insert` and `erase` on a
`HashSet`, where every `erase` returns `1`. The hash functions of the tables that
receive entries never return `INT_MIN`. -/
theorem C5_round_trip {KEY T : Type} [DecidableEq KEY] [DecidableEq T]
    {thash sthash : hashfunc KEY}
    (n : Int) (t : Threshold) (chash : hashfunc KEY) (m0 : HashMap KEY T thash)
    (hm : HashMap.ctor_default thash t chash = Except.ok m0 ∨
          HashMap.ctor_bins thash n t chash = Except.ok m0)
    (hmh : m0.hash.NoAbsOverflow)
    (n2 : Int) (t2 : Threshold) (chash2 : hashfunc KEY) (mf : HashMap KEY T thash)
    (hmf : HashMap.ctor_default thash t2 chash2 = Except.ok mf ∨
           HashMap.ctor_bins thash n2 t2 chash2 = Except.ok mf)
    (kvs : List (KEY × T)) (ks : List KEY) (hks : ks.Nodup)
    (hcover : ∀ k, k ∈ ks ↔ k ∈ kvs.map Prod.fst)
    (sn : Int) (st : Threshold) (schash : hashfunc KEY) (s0 : HashSet KEY sthash)
    (hs : HashSet.ctor_default sthash st schash = Except.ok s0 ∨
          HashSet.ctor_bins sthash sn st schash = Except.ok s0)
    (hsh : s0.hash.NoAbsOverflow)
    (sn2 : Int) (st2 : Threshold) (schash2 : hashfunc KEY) (sf : HashSet KEY sthash)
    (hsf : HashSet.ctor_default sthash st2 schash2 = Except.ok sf ∨
           HashSet.ctor_bins sthash sn2 st2 schash2 = Except.ok sf)
    (vs : List KEY) (xs : List KEY) (hxs : xs.Nodup) (hscover : ∀ x, x ∈ xs ↔ x ∈ vs) :
    ((∀ r ∈ ((m0.puts kvs).erases ks).1, ∃ v, r = Except.ok v) ∧
      ((m0.puts kvs).erases ks).2.empty = true ∧
      ((m0.puts kvs).erases ks).2.op_eq mf = true ∧
      mf.op_eq ((m0.puts kvs).erases ks).2 = true) ∧
    ((∀ r ∈ ((s0.inserts vs).erases xs).1, r = 1) ∧
      ((s0.inserts vs).erases xs).2.empty = true ∧
      ((s0.inserts vs).erases xs).2.op_eq sf = true ∧
      sf.op_eq ((s0.inserts vs).erases xs).2 = true) := by
  obtain ⟨b, hb, rfl⟩ := HashMap.ctor_empty hm
  obtain ⟨b2, hb2, rfl⟩ := HashMap.ctor_empty hmf
  obtain ⟨sb, hsb, rfl⟩ := HashSet.set_ctor_empty hs
  obtain ⟨sb2, hsb2, rfl⟩ := HashSet.set_ctor_empty hsf
  obtain ⟨w, _, _, _, hk⟩ := HashMap.puts_spec kvs _ (HashMap.fresh_WF _ t b hb) hmh
  obtain ⟨sw, _, _, _, sk⟩ := HashSet.inserts_spec vs _ (HashSet.set_fresh_WF _ st sb hsb) hsh
  obtain ⟨r, w2, _, _, hk2⟩ := HashMap.erases_spec ks _ w hks
    (fun k hkin => (hk k).2 (Or.inr ((hcover k).1 hkin)))
  obtain ⟨sr, sw2, _, _, sk2⟩ := HashSet.set_erases_spec xs _ sw hxs
    (fun x hxin => (sk x).2 (Or.inr ((hscover x).1 hxin)))
  have hu : ((HashMap.puts (HashMap.fresh thash (pick_hash thash chash) t b) kvs).erases ks).2.used = 0 := by
    have := w2.used_eq_of_keys [] (by
      intro k
      rw [hk2 k, hk k, HashMap.has_key_fresh, ← hcover k]
      simp)
    simpa using this
  have su : ((HashSet.inserts (HashSet.fresh sthash (pick_hash sthash schash) st sb) vs).erases xs).2.used = 0 := by
    have := sw2.used_eq_of_elems [] (by
      intro x
      rw [sk2 x, sk x, HashSet.contains_fresh, ← hscover x]
      simp)
    simpa using this
  refine ⟨⟨r, by simp [HashMap.empty, hu], ?_, ?_⟩, sr, by simp [HashSet.empty, su], ?_, ?_⟩
  · exact HashMap.op_eq_of_empty _ _ hu rfl (w2.chains_nil_of_used_zero hu)
  · exact HashMap.op_eq_of_empty _ _ rfl hu (fun i => chain_at_replicate_nil b2 i)
  · exact HashSet.set_op_eq_of_empty _ _ su rfl (sw2.set_chains_nil_of_used_zero su)
  · exact HashSet.set_op_eq_of_empty _ _ rfl su (fun i => chain_at_replicate_nil sb2 i)

/-- Witness of C5: five entries with three distinct keys are put into a one-bin map (the
array doubles twice) and the three keys erased; a new map of seven bins under another
hash function is the freshly constructed one. -/
theorem C5_witness :
    (((HashMap.fresh undefinedhash natHash Threshold.one 1 : HashMap Nat Nat undefinedhash).puts
        [(1, 10), (2, 20), (1, 30), (3, 5), (2, 7)]).erases [3, 1, 2]).2.op_eq
      (HashMap.fresh undefinedhash natHash2 Threshold.one 7) = true ∧
    (HashSet.fresh undefinedhash natHash2 Threshold.one 7 : HashSet Nat undefinedhash).op_eq
      (((HashSet.fresh undefinedhash natHash Threshold.one 1 : HashSet Nat undefinedhash).inserts
        [4, 9, 4]).erases [9, 4]).2 = true :=
  have h := @C5_round_trip Nat Nat _ _ undefinedhash undefinedhash
    1 Threshold.one natHash (HashMap.fresh undefinedhash natHash Threshold.one 1) (Or.inl rfl)
    natHash_noAbsOverflow
    7 Threshold.one natHash2 (HashMap.fresh undefinedhash natHash2 Threshold.one 7) (Or.inr rfl)
    [(1, 10), (2, 20), (1, 30), (3, 5), (2, 7)] [3, 1, 2] (by decide)
    (by intro k; simp; omega)
    1 Threshold.one natHash (HashSet.fresh undefinedhash natHash Threshold.one 1) (Or.inl rfl)
    natHash_noAbsOverflow
    7 Threshold.one natHash2 (HashSet.fresh undefinedhash natHash2 Threshold.one 7) (Or.inr rfl)
    [4, 9, 4] [9, 4] (by decide) (by intro x; simp; omega)
  ⟨h.1.2.2.1, h.2.2.2.2⟩

/-- C6, the code at a failing input: with `load_threshold = 0.25` and one bin, the first
`insert`, `put` or `operator[]` of a new key doubles the array once, to two bins, and
returns with `used = 1`, where the test `used/bins > load_threshold` of
`ensure_load_threshold` still holds: `used <= load_threshold * bins` is false. -/
theorem C6_load_factor_exceeded_after_insert :
    (HashSet.ctor_default natHash ⟨1, 4⟩ undefinedhash =
        Except.ok (HashSet.fresh natHash natHash ⟨1, 4⟩ 1)) ∧
    (((HashSet.fresh natHash natHash ⟨1, 4⟩ 1 : HashSet Nat natHash).insert 7).2.used = 1 ∧
     ((HashSet.fresh natHash natHash ⟨1, 4⟩ 1 : HashSet Nat natHash).insert 7).2.bins = 2 ∧
     load_factor_exceeds 1 2 ⟨1, 4⟩ = true) ∧
    (((HashMap.fresh natHash natHash ⟨1, 4⟩ 1 : HashMap Nat Nat natHash).put 7 70).2.used = 1 ∧
     ((HashMap.fresh natHash natHash ⟨1, 4⟩ 1 : HashMap Nat Nat natHash).put 7 70).2.bins = 2) ∧
    (((HashMap.fresh natHash natHash ⟨1, 4⟩ 1 : HashMap Nat Nat natHash).index 7).2.used = 1 ∧
     ((HashMap.fresh natHash natHash ⟨1, 4⟩ 1 : HashMap Nat Nat natHash).index 7).2.bins = 2) :=
  ⟨rfl, ⟨by decide, by decide, by decide⟩, ⟨by decide, by decide⟩, by decide, by decide⟩

/-- C7: with `load_threshold = 1.0` and one initial bin, after inserting `n >= 1` distinct
elements into a `HashSet`, `size()` is `n` and the bin count is the least power of two
that is at least `n`; no `insert`, `erase` or `clear` on any set makes the bin count
smaller. The hash function never returns `INT_MIN`. -/
theorem C7_bins_least_power_of_two {T : Type} [DecidableEq T] {thash : hashfunc T}
    (chash : hashfunc T) (s0 : HashSet T thash)
    (hctor : HashSet.ctor_bins thash 1 Threshold.one chash = Except.ok s0)
    (hh : s0.hash.NoAbsOverflow) (vs : List T) (hnd : vs.Nodup) (hn : 1 ≤ vs.length) :
    (s0.inserts vs).size = vs.length ∧
    (∃ k, (s0.inserts vs).bins = 2 ^ k ∧ vs.length ≤ 2 ^ k ∧
      ∀ j, vs.length ≤ 2 ^ j → 2 ^ k ≤ 2 ^ j) ∧
    (∀ (s : HashSet T thash) (v : T),
      s.bins ≤ (s.insert v).2.bins ∧ (s.erase v).2.bins = s.bins ∧ s.clear.bins = s.bins) := by
  have h0 := HashSet.set_ctor_bins_ok hctor
  subst h0
  obtain ⟨u, hP⟩ := HashSet.inserts_bins_one vs
    (HashSet.fresh thash (pick_hash thash chash) Threshold.one 1 : HashSet T thash)
    (HashSet.set_fresh_WF _ _ 1 (by decide)) hh rfl hnd
    (fun v _ => HashSet.contains_fresh _ _ _ v)
    ⟨0, rfl, Nat.zero_le _, fun _ => rfl, fun h => (Nat.not_succ_le_zero 0 h).elim⟩
  have hu : (HashSet.fresh thash (pick_hash thash chash) Threshold.one 1 : HashSet T thash).used = 0 := rfl
  rw [hu, Nat.zero_add] at u hP
  exact ⟨u, least_pow_final _ _ hn hP,
    fun s v => ⟨HashSet.insert_bins_ge s v, HashSet.erase_bins_eq s v, rfl⟩⟩

/-- Witness of C7: five distinct elements inserted into a one-bin set with threshold `1.0`
give `size() == 5` and `8` bins, after `1`, `2`, `4` bins on the way. -/
theorem C7_witness :
    ((HashSet.fresh natHash natHash Threshold.one 1 : HashSet Nat natHash).inserts
      [10, 20, 30, 40, 50]).size = 5 ∧
    ((HashSet.fresh natHash natHash Threshold.one 1 : HashSet Nat natHash).inserts
      [10, 20, 30, 40, 50]).bins = 8 ∧
    ((HashSet.fresh natHash natHash Threshold.one 1 : HashSet Nat natHash).inserts [10]).bins = 1 ∧
    ((HashSet.fresh natHash natHash Threshold.one 1 : HashSet Nat natHash).inserts [10, 20]).bins = 2 ∧
    ((HashSet.fresh natHash natHash Threshold.one 1 : HashSet Nat natHash).inserts
      [10, 20, 30]).bins = 4 :=
  have h := C7_bins_least_power_of_two undefinedhash
    (HashSet.fresh natHash natHash Threshold.one 1 : HashSet Nat natHash) rfl
    natHash_noAbsOverflow [10, 20, 30, 40, 50] (by decide) (by decide)
  ⟨h.1, by decide, by decide, by decide, by decide⟩

/-- C8: for every two `HashMap`s `a` and `b` that satisfy the representation invariant and
whose hash functions never return `INT_MIN` (so that every bin searched by `find_key`,
in either map, is an index of its bin array), whatever their bin counts, load thresholds,
insertion orders and hash functions, `a == b` is true if and only if
`a.size() == b.size()` and every key of `a` is a key of `b` with an equal value;
consequently `==` is symmetric, and `a != b` is its negation. -/
theorem C8_equality_by_content {KEY T : Type} [DecidableEq KEY] [DecidableEq T]
    {thash : hashfunc KEY} (a b : HashMap KEY T thash) (ha : a.WF) (hb : b.WF)
    (hha : a.hash.NoAbsOverflow) (hhb : b.hash.NoAbsOverflow) :
    (∀ k, (0 ≤ a.hash_compress k ∧ (a.hash_compress k).toNat < a.map.length) ∧
      (0 ≤ b.hash_compress k ∧ (b.hash_compress k).toNat < b.map.length)) ∧
    (a.op_eq b = true ↔
      a.size = b.size ∧
      ∀ k, a.has_key k = true → b.has_key k = true ∧ b.index_const k = a.index_const k) ∧
    a.op_eq b = b.op_eq a ∧
    a.op_ne b = !(a.op_eq b) := by
  refine ⟨fun k => ⟨by rw [ha.1.len]; exact HashMap.hash_compress_range a hha ha.1.pos k,
    by rw [hb.1.len]; exact HashMap.hash_compress_range b hhb hb.1.pos k⟩, ?_, ?_, rfl⟩
  · rw [HashMap.op_eq_iff a b ha, HashMap.entries_found_iff a b ha]
    rfl
  · cases h1 : a.op_eq b with
    | true => exact (HashMap.op_eq_symm a b ha hb h1).symm
    | false =>
      cases h2 : b.op_eq a with
      | false => rfl
      | true => rw [HashMap.op_eq_symm b a hb ha h2] at h1; cases h1

/-- Witness of C8: the same three entries put in different orders into a one-bin map and
into a five-bin map with another hash function and load threshold `0.5`. -/
theorem C8_witness :
    ((HashMap.fresh undefinedhash natHash Threshold.one 1 : HashMap Nat Nat undefinedhash).puts
        [(1, 10), (2, 20), (3, 30)]).op_eq
      ((HashMap.fresh undefinedhash natHash2 ⟨1, 2⟩ 5 : HashMap Nat Nat undefinedhash).puts
        [(3, 30), (1, 10), (2, 20)]) = true ∧
    ((HashMap.fresh undefinedhash natHash2 ⟨1, 2⟩ 5 : HashMap Nat Nat undefinedhash).puts
        [(3, 30), (1, 10), (2, 20)]).op_eq
      ((HashMap.fresh undefinedhash natHash Threshold.one 1 : HashMap Nat Nat undefinedhash).puts
        [(1, 10), (2, 20), (3, 30)]) = true :=
  have h := C8_equality_by_content
    ((HashMap.fresh undefinedhash natHash Threshold.one 1 : HashMap Nat Nat undefinedhash).puts
      [(1, 10), (2, 20), (3, 30)])
    ((HashMap.fresh undefinedhash natHash2 ⟨1, 2⟩ 5 : HashMap Nat Nat undefinedhash).puts
      [(3, 30), (1, 10), (2, 20)])
    (HashMap.puts_spec _ _ (HashMap.fresh_WF _ _ 1 (by decide)) natHash_noAbsOverflow).1
    (HashMap.puts_spec _ _ (HashMap.fresh_WF _ _ 5 (by decide)) natHash2_noAbsOverflow).1
    natHash_noAbsOverflow natHash2_noAbsOverflow
  ⟨by decide, h.2.2.1 ▸ (by decide)⟩

/-- C9 as stated fails: the initializer-list constructor given one entry and a hash
function succeeds with a table that is not empty. -/
theorem C9_counterexample :
    Except.map (fun m => (m.empty, m.size))
      (HashMap.ctor_il undefinedhash [(1, 10)] Threshold.one natHash :
        Except IcsError (HashMap Nat Nat undefinedhash)) = Except.ok (false, 1) := by
  rfl

/-- C9, amended: each non-copy `HashMap`/`HashSet` constructor raises
`TemplateFunctionError` if and only if neither `thash` nor `chash` is supplied, or both
are supplied and are different functions; in every other case construction succeeds and
the hash of the table is the one supplied function; the table of the default and of the
`initial_bins` constructor is empty, and the table of the initializer-list and of the
Iterable constructor holds what `put_all`/`insert_all` stored and is empty exactly when
no entry was given. -/
theorem C9_hash_resolution {KEY T : Type} [DecidableEq KEY] (thash chash : hashfunc KEY)
    (t : Threshold) (n : Int) (il : List (KEY × T)) (sl : List KEY) :
    ((HashMap.ctor_default thash t chash : Except IcsError (HashMap KEY T thash)) =
        (if hash_unresolved thash chash then Except.error IcsError.TemplateFunctionError
         else Except.ok (HashMap.fresh thash (pick_hash thash chash) t 1)) ∧
     (HashMap.ctor_bins thash n t chash : Except IcsError (HashMap KEY T thash)) =
        (if hash_unresolved thash chash then Except.error IcsError.TemplateFunctionError
         else Except.ok (HashMap.fresh thash (pick_hash thash chash) t
           (if n < 1 then 1 else n.toNat))) ∧
     (HashMap.ctor_il thash il t chash : Except IcsError (HashMap KEY T thash)) =
        (if hash_unresolved thash chash then Except.error IcsError.TemplateFunctionError
         else Except.ok ((HashMap.fresh thash (pick_hash thash chash) t 1).put_all il).2) ∧
     (HashMap.ctor_iterable thash il t chash : Except IcsError (HashMap KEY T thash)) =
        (if hash_unresolved thash chash then Except.error IcsError.TemplateFunctionError
         else Except.ok ((HashMap.fresh thash (pick_hash thash chash) t 1).put_all il).2)) ∧
    ((HashSet.ctor_default thash t chash : Except IcsError (HashSet KEY thash)) =
        (if hash_unresolved thash chash then Except.error IcsError.TemplateFunctionError
         else Except.ok (HashSet.fresh thash (pick_hash thash chash) t 1)) ∧
     (HashSet.ctor_bins thash n t chash : Except IcsError (HashSet KEY thash)) =
        (if hash_unresolved thash chash then Except.error IcsError.TemplateFunctionError
         else Except.ok (HashSet.fresh thash (pick_hash thash chash) t
           (if n < 1 then 1 else n.toNat))) ∧
     (HashSet.ctor_il thash sl t chash : Except IcsError (HashSet KEY thash)) =
        (if hash_unresolved thash chash then Except.error IcsError.TemplateFunctionError
         else Except.ok ((HashSet.fresh thash (pick_hash thash chash) t 1).insert_all sl).2) ∧
     (HashSet.ctor_iterable thash sl t chash : Except IcsError (HashSet KEY thash)) =
        (if hash_unresolved thash chash then Except.error IcsError.TemplateFunctionError
         else Except.ok ((HashSet.fresh thash (pick_hash thash chash) t 1).insert_all sl).2)) ∧
    (hash_unresolved thash chash = false →
      (pick_hash thash chash).same undefinedhash = false ∧
      (thash.same undefinedhash = false → pick_hash thash chash = thash) ∧
      (thash.same undefinedhash = true → pick_hash thash chash = chash) ∧
      (thash.same undefinedhash = false → chash.same undefinedhash = false →
        thash.same chash = true)) ∧
    (∀ (h : hashfunc KEY) (b : Nat),
      ((HashMap.fresh thash h t b : HashMap KEY T thash).hash = h ∧
       (HashMap.fresh thash h t b : HashMap KEY T thash).empty = true ∧
       (HashMap.fresh thash h t b : HashMap KEY T thash).map.flatten = []) ∧
      (((HashMap.fresh thash h t b : HashMap KEY T thash).put_all il).2.hash = h ∧
       (((HashMap.fresh thash h t b : HashMap KEY T thash).put_all il).2.empty = true ↔ il = [])) ∧
      ((HashSet.fresh thash h t b : HashSet KEY thash).hash = h ∧
       (HashSet.fresh thash h t b : HashSet KEY thash).empty = true ∧
       (HashSet.fresh thash h t b : HashSet KEY thash).set.flatten = []) ∧
      (((HashSet.fresh thash h t b : HashSet KEY thash).insert_all sl).2.hash = h ∧
       (((HashSet.fresh thash h t b : HashSet KEY thash).insert_all sl).2.empty = true ↔ sl = []))) := by
  refine ⟨?_, ?_, pick_hash_supplied thash chash, ?_⟩
  · unfold HashMap.ctor_default HashMap.ctor_bins HashMap.ctor_il HashMap.ctor_iterable
      hash_unresolved both_different pick_hash
    cases h1 : thash.same undefinedhash <;> cases h2 : chash.same undefinedhash <;>
      cases h3 : thash.same chash <;> simp [h1, h2, h3]
  · unfold HashSet.ctor_default HashSet.ctor_bins HashSet.ctor_il HashSet.ctor_iterable
      hash_unresolved both_different pick_hash
    cases h1 : thash.same undefinedhash <;> cases h2 : chash.same undefinedhash <;>
      cases h3 : thash.same chash <;> simp [h1, h2, h3]
  · intro h b
    exact ⟨⟨rfl, rfl, flatten_replicate_nil_chain b⟩, HashMap.fresh_put_all h t b il,
      ⟨rfl, rfl, flatten_replicate_nil_chain b⟩, HashSet.fresh_insert_all h t b sl⟩

/-- C10 as stated fails: copying a map made with the type-level hash `natHash` while
passing the different instance-level hash `natHash2` raises `TemplateFunctionError`, for
`HashMap` and for `HashSet`. -/
theorem C10_counterexample :
    (HashMap.ctor_default natHash Threshold.one undefinedhash =
        Except.ok (HashMap.fresh natHash natHash Threshold.one 1 : HashMap Nat Nat natHash) ∧
      HashMap.ctor_copy natHash
        (HashMap.fresh natHash natHash Threshold.one 1 : HashMap Nat Nat natHash)
        Threshold.one natHash2 = Except.error IcsError.TemplateFunctionError) ∧
    (HashSet.ctor_default natHash Threshold.one undefinedhash =
        Except.ok (HashSet.fresh natHash natHash Threshold.one 1 : HashSet Nat natHash) ∧
      HashSet.ctor_copy natHash
        (HashSet.fresh natHash natHash Threshold.one 1 : HashSet Nat natHash)
        Threshold.one natHash2 = Except.error IcsError.TemplateFunctionError) :=
  ⟨⟨rfl, rfl⟩, rfl, rfl⟩

/-- C10, amended: copy construction of a `HashMap`/`HashSet` raises an error, which is
`TemplateFunctionError`, if and only if both a type-level and an instance-level hash are
supplied and they are different functions; in every other case it succeeds, also when no
hash is supplied at either level, and then the copy uses the hash of the source table. -/
theorem C10_copy_construction {KEY T : Type} [DecidableEq KEY] (thash chash : hashfunc KEY)
    (t : Threshold) (m : HashMap KEY T thash) (s : HashSet KEY thash) :
    ((HashMap.ctor_copy thash m t chash = Except.error IcsError.TemplateFunctionError ↔
        both_different thash chash = true) ∧
     (both_different thash chash = false →
        ∃ c, HashMap.ctor_copy thash m t chash = Except.ok c ∧
          (thash.same undefinedhash = true → chash.same undefinedhash = true →
            c.hash = m.hash))) ∧
    ((HashSet.ctor_copy thash s t chash = Except.error IcsError.TemplateFunctionError ↔
        both_different thash chash = true) ∧
     (both_different thash chash = false →
        ∃ c, HashSet.ctor_copy thash s t chash = Except.ok c ∧
          (thash.same undefinedhash = true → chash.same undefinedhash = true →
            c.hash = s.hash))) := by
  have hsame : ∀ h : hashfunc KEY, h.same h = true := fun h => by simp [hashfunc.same]
  have hpick : thash.same undefinedhash = true → chash.same undefinedhash = true →
      (if (pick_hash thash chash).same undefinedhash = true then m.hash
        else pick_hash thash chash) = m.hash ∧
      (if (pick_hash thash chash).same undefinedhash = true then s.hash
        else pick_hash thash chash) = s.hash := by
    intro h1 h2
    simp [pick_hash, h1, h2]
  cases hb : both_different thash chash with
  | true =>
    refine ⟨⟨?_, fun h => by cases h⟩, ?_, fun h => by cases h⟩
    · simp [HashMap.ctor_copy, hb]
    · simp [HashSet.ctor_copy, hb]
  | false =>
    refine ⟨⟨?_, fun _ => ?_⟩, ?_, fun _ => ?_⟩
    · simp only [HashMap.ctor_copy, hb, Bool.false_eq_true, if_false, iff_false]
      by_cases hc : (if (pick_hash thash chash).same undefinedhash = true then m.hash
          else pick_hash thash chash).same m.hash = true
      · rw [if_pos hc]; exact fun h => by cases h
      · rw [if_neg hc]; exact fun h => by cases h
    · simp only [HashMap.ctor_copy, hb, Bool.false_eq_true, if_false]
      by_cases hc : (if (pick_hash thash chash).same undefinedhash = true then m.hash
          else pick_hash thash chash).same m.hash = true
      · rw [if_pos hc]
        exact ⟨_, rfl, fun h1 h2 => (hpick h1 h2).1⟩
      · rw [if_neg hc]
        refine ⟨_, rfl, fun h1 h2 => ?_⟩
        rw [(hpick h1 h2).1] at hc
        exact absurd (hsame m.hash) hc
    · simp only [HashSet.ctor_copy, hb, Bool.false_eq_true, if_false, iff_false]
      by_cases hc : (if (pick_hash thash chash).same undefinedhash = true then s.hash
          else pick_hash thash chash).same s.hash = true
      · rw [if_pos hc]; exact fun h => by cases h
      · rw [if_neg hc]; exact fun h => by cases h
    · simp only [HashSet.ctor_copy, hb, Bool.false_eq_true, if_false]
      by_cases hc : (if (pick_hash thash chash).same undefinedhash = true then s.hash
          else pick_hash thash chash).same s.hash = true
      · rw [if_pos hc]
        exact ⟨_, rfl, fun h1 h2 => (hpick h1 h2).2⟩
      · rw [if_neg hc]
        refine ⟨_, rfl, fun h1 h2 => ?_⟩
        rw [(hpick h1 h2).2] at hc
        exact absurd (hsame s.hash) hc

/-- C12: `HashMap` indexed access. On an absent key the non-const `operator[]` yields
`T()` and leaves the table that `put(key, T())` leaves: `size()` has grown by one, the
bin count has doubled exactly when `ensure_load_threshold` finds the load factor above
the threshold, `m[key]` is `T()`, every other key is as before and `mod_count` has grown
by one; on a present key it yields the stored value and changes nothing; the const
`operator[]` on an absent key raises `KeyError`. The hash never returns `INT_MIN`. -/
theorem C12_indexed_access {KEY T : Type} [DecidableEq KEY] [Inhabited T]
    {thash : hashfunc KEY} (m : HashMap KEY T thash) (hm : m.WF)
    (hh : m.hash.NoAbsOverflow) (k : KEY) :
    (m.has_key k = false →
      (m.index k).1 = default ∧ (m.index k).2 = (m.put k default).2 ∧
      (m.index k).2.size = m.size + 1 ∧
      (m.index k).2.bins =
        (if load_factor_exceeds (m.used + 1) m.bins m.load_threshold then m.bins * 2
         else m.bins) ∧
      (m.index k).2.index_const k = Except.ok default ∧
      (∀ k2, k2 ≠ k → (m.index k).2.has_key k2 = m.has_key k2 ∧
        (m.index k).2.index_const k2 = m.index_const k2) ∧
      (m.index k).2.mod_count = m.mod_count + 1 ∧
      m.index_const k = Except.error IcsError.KeyError) ∧
    (∀ v, m.index_const k = Except.ok v → (m.index k).1 = v ∧ (m.index k).2 = m) := by
  constructor
  · intro hk
    have hf := HashMap.find_key_none_of_has_key_false m k hk
    rw [HashMap.index_of_none m k hf]
    obtain ⟨_, _, _, hmc, h⟩ := HashMap.put_spec m hm hh k (default : T)
    rcases h with ⟨e, he, _⟩ | ⟨_, _, hu, hb, _⟩
    · rw [hf] at he; cases he
    · refine ⟨rfl, rfl, hu, hb, ?_, ?_, hmc, ?_⟩
      · rw [HashMap.index_const_ok_iff]
        exact ⟨_, HashMap.put_find_key_self m hm hh k default, rfl⟩
      · intro k2 hne
        have h2 := HashMap.put_find_key_other m hm hh k default k2 hne
        exact ⟨by simp only [HashMap.has_key, h2], HashMap.index_const_congr _ _ _ h2⟩
      · simp only [HashMap.index_const, hf]
  · intro v hv
    obtain ⟨e, he, hev⟩ := (HashMap.index_const_ok_iff m k v).1 hv
    rw [HashMap.index_of_some m k e he]
    exact ⟨hev, rfl⟩

/-- Witness of C12: `m[4]` on the map `1->10, 2->20` made from one bin inserts `4->0` and
doubles the two bins to four; `m[2]` is `20`. -/
theorem C12_witness :
    (((HashMap.fresh natHash natHash Threshold.one 1 : HashMap Nat Nat natHash).puts
        [(1, 10), (2, 20)]).index 4).1 = 0 ∧
    (((HashMap.fresh natHash natHash Threshold.one 1 : HashMap Nat Nat natHash).puts
        [(1, 10), (2, 20)]).index 4).2.bins = 4 ∧
    (((HashMap.fresh natHash natHash Threshold.one 1 : HashMap Nat Nat natHash).puts
        [(1, 10), (2, 20)]).index 2).1 = 20 :=
  have h := C12_indexed_access
    ((HashMap.fresh natHash natHash Threshold.one 1 : HashMap Nat Nat natHash).puts
      [(1, 10), (2, 20)])
    (HashMap.puts_spec _ _ (HashMap.fresh_WF _ _ 1 (by decide)) natHash_noAbsOverflow).1
    natHash_noAbsOverflow
  ⟨((h 4).1 (by rfl)).1, ((h 4).1 (by rfl)).2.2.2.1.trans (by decide),
    ((h 2).2 20 (by rfl)).1⟩

/-- C13: `clear()` on any `HashMap` (whose bin array has `bins` chains) or `HashSet` with at
least one bin and a hash that never returns `INT_MIN` (so that the bin `has_key`/`contains`
searches afterwards is an index of the bin array) leaves `size() == 0` and `empty()` true,
makes `has_key`/`contains` false for every key, keeps the number of bins, with every bin
an empty chain, and strictly increases `mod_count`. -/
theorem C13_clear {KEY T : Type} [DecidableEq KEY] {thash sthash : hashfunc KEY}
    (m : HashMap KEY T thash) (hlen : m.map.length = m.bins) (hbm : 0 < m.bins)
    (hhm : m.hash.NoAbsOverflow)
    (s : HashSet KEY sthash) (hbs : 0 < s.bins) (hhs : s.hash.NoAbsOverflow) :
    (m.clear.size = 0 ∧ m.clear.empty = true ∧
      (∀ k, (0 ≤ m.clear.hash_compress k ∧
          (m.clear.hash_compress k).toNat < m.clear.map.length) ∧
        m.clear.has_key k = false) ∧
      m.clear.bins = m.bins ∧ m.clear.map = List.replicate m.bins [] ∧
      m.mod_count < m.clear.mod_count) ∧
    (s.clear.size = 0 ∧ s.clear.empty = true ∧
      (∀ v, (0 ≤ s.clear.hash_compress v ∧
          (s.clear.hash_compress v).toNat < s.clear.set.length) ∧
        s.clear.contains v = false) ∧
      s.clear.bins = s.bins ∧ s.clear.set = List.replicate s.bins [] ∧
      s.mod_count < s.clear.mod_count) := by
  refine ⟨⟨rfl, rfl, ?_, rfl, HashMap.clear_map m hlen, Nat.lt_succ_self _⟩,
    rfl, rfl, ?_, rfl, rfl, Nat.lt_succ_self _⟩
  · intro k
    refine ⟨?_, ?_⟩
    · rw [HashMap.clear_map m hlen, List.length_replicate]
      exact HashMap.hash_compress_range m.clear hhm hbm k
    · simp [HashMap.has_key, HashMap.find_key, HashMap.clear_map m hlen, chain_at_replicate_nil]
  · intro v
    refine ⟨?_, ?_⟩
    · show _ ∧ _ < (List.replicate s.bins ([] : List KEY)).length
      rw [List.length_replicate]
      exact HashSet.set_hash_compress_range s.clear hhs hbs v
    · simp [HashSet.contains, HashSet.find_element, HashSet.clear, chain_at_replicate_nil]

/-- Witness of C13: clearing the map `1->10, 2->20, 3->30` of four bins. -/
theorem C13_witness :
    ((HashMap.fresh natHash natHash Threshold.one 1 : HashMap Nat Nat natHash).puts
      [(1, 10), (2, 20), (3, 30)]).clear.map = [[], [], [], []] ∧
    ((HashMap.fresh natHash natHash Threshold.one 1 : HashMap Nat Nat natHash).puts
      [(1, 10), (2, 20), (3, 30)]).clear.has_key 2 = false :=
  have h := @C13_clear Nat Nat _ natHash natHash
    ((HashMap.fresh natHash natHash Threshold.one 1 : HashMap Nat Nat natHash).puts
      [(1, 10), (2, 20), (3, 30)]) (by decide) (by decide) natHash_noAbsOverflow
    ((HashSet.fresh natHash natHash Threshold.one 1 : HashSet Nat natHash).inserts [5, 7])
    (by decide) natHash_noAbsOverflow
  ⟨h.1.2.2.2.2.1.trans (by decide), (h.1.2.2.1 2).2⟩

/-- C14, the code at the failing input: `operator <` begins with
`if (this == &rhs) return true;`, so for every set `s < s` is true, and so is `s > s`,
which is `s < s` with the operands exchanged; on the set `{5, 7}` both are true although
its size is not smaller than itself. -/
theorem C14_set_less_than_itself {T : Type} [DecidableEq T] {thash : hashfunc T}
    (s : HashSet T thash) :
    s.op_lt s true = true ∧ s.op_gt s true = true ∧
    ((HashSet.fresh natHash natHash Threshold.one 1 : HashSet Nat natHash).inserts [5, 7]).op_lt
      ((HashSet.fresh natHash natHash Threshold.one 1 : HashSet Nat natHash).inserts [5, 7])
      true = true ∧
    ((HashSet.fresh natHash natHash Threshold.one 1 : HashSet Nat natHash).inserts [5, 7]).op_lt
      ((HashSet.fresh natHash natHash Threshold.one 1 : HashSet Nat natHash).inserts [5, 7])
      false = false :=
  ⟨rfl, rfl, by decide, by decide⟩

/-- C15, the code at the failing input: on a set whose hash was given only to the
constructor (`thash` is `undefinedhash`) `retain_all` constructs `HashSet s(i)` with no
hash at either level, so it raises `TemplateFunctionError` and leaves the set as it was,
whatever the elements of `i`; with the same elements and a type-level hash it removes
`2` and `3` and returns `2`. -/
theorem C15_retain_all_without_type_level_hash {T : Type} [DecidableEq T]
    (s : HashSet T undefinedhash) (i : List T) (fuel : Nat) :
    s.retain_all i fuel = some (Except.error IcsError.TemplateFunctionError, s) ∧
    Except.map (fun s => (s.set, s.used))
        (HashSet.ctor_il undefinedhash [1, 2, 3, 5, 9] Threshold.one natHash :
          Except IcsError (HashSet Nat undefinedhash)) =
      Except.ok ([[], [9, 1], [2], [3], [], [5], [], []], 5) ∧
    (({ hash := natHash, set := [[], [9, 1], [2], [3], [], [5], [], []],
        load_threshold := Threshold.one, bins := 8, used := 5, mod_count := 5 } :
        HashSet Nat undefinedhash).retain_all [1, 5, 7, 9] 10).map
        (fun r => (r.1, r.2.set, r.2.used)) =
      some (Except.error IcsError.TemplateFunctionError,
        [[], [9, 1], [2], [3], [], [5], [], []], 5) ∧
    (({ hash := natHash, set := [[], [9, 1], [2], [3], [], [5], [], []],
        load_threshold := Threshold.one, bins := 8, used := 5, mod_count := 5 } :
        HashSet Nat natHash).retain_all [1, 5, 7, 9] 10).map
        (fun r => (r.1, r.2.set, r.2.used)) =
      some (Except.ok 2, [[], [9, 1], [], [], [], [5], [], []], 3) := by
  refine ⟨?_, by decide, by decide, by decide⟩
  simp [HashSet.retain_all, HashSet.ctor_iterable, pick_hash, hashfunc.same]

/-- C16: fail-fast. For every `HashMap`/`HashSet` iterator obtained from `begin()` or
`end()`, after a structural mutation made directly on the container (`put`/`insert` of a
new key, `operator[]` on an absent key, `erase` of a present key, `clear`, assignment
from another table), each of `++` (prefix and postfix), `*`, `->` and `erase()` on that
iterator raises `ConcurrentModificationError`, and `erase()` changes nothing. -/
theorem C16_fail_fast {KEY T : Type} [DecidableEq KEY] [Inhabited T]
    {thash sthash : hashfunc KEY}
    (m m2 : HashMap KEY T thash) (this : Nat) (it : HashMap.Iterator)
    (hit : it = m.begin this ∨ it = m.end_ this)
    (hmut : (∃ k v, m.has_key k = false ∧ m2 = (m.put k v).2) ∨
            (∃ k, m.has_key k = false ∧ m2 = (m.index k).2) ∨
            (∃ k, m.has_key k = true ∧ m2 = (m.erase k).2) ∨
            m2 = m.clear ∨
            (∃ rhs, m2 = m.assign rhs false))
    (s s2 : HashSet KEY sthash) (sthis : Nat) (sit : HashSet.Iterator)
    (hsit : sit = s.begin sthis ∨ sit = s.end_ sthis)
    (hsmut : (∃ v, s.contains v = false ∧ s2 = (s.insert v).2) ∨
             (∃ v, s.contains v = true ∧ s2 = (s.erase v).2) ∨
             s2 = s.clear ∨
             (∃ rhs, s2 = s.assign rhs false)) :
    (it.incr m2 = Except.error IcsError.ConcurrentModificationError ∧
      it.post_incr m2 = Except.error IcsError.ConcurrentModificationError ∧
      it.deref m2 = Except.error IcsError.ConcurrentModificationError ∧
      it.arrow m2 = Except.error IcsError.ConcurrentModificationError ∧
      it.erase m2 = (Except.error IcsError.ConcurrentModificationError, it, m2)) ∧
    (sit.incr s2 = Except.error IcsError.ConcurrentModificationError ∧
      sit.post_incr s2 = Except.error IcsError.ConcurrentModificationError ∧
      sit.deref s2 = Except.error IcsError.ConcurrentModificationError ∧
      sit.arrow s2 = Except.error IcsError.ConcurrentModificationError ∧
      sit.erase s2 = (Except.error IcsError.ConcurrentModificationError, sit, s2)) := by
  have hexp : it.expected_mod_count = m.mod_count := by
    rcases hit with rfl | rfl <;> rfl
  have hsexp : sit.expected_mod_count = s.mod_count := by
    rcases hsit with rfl | rfl <;> rfl
  have hlt : m.mod_count < m2.mod_count := by
    rcases hmut with ⟨k, v, _, rfl⟩ | ⟨k, hk, rfl⟩ | ⟨k, hk, rfl⟩ | rfl | ⟨rhs, rfl⟩
    · rw [HashMap.put_mod_count]; exact Nat.lt_succ_self _
    · rw [HashMap.index_mod_count m k hk]; exact Nat.lt_succ_self _
    · rw [HashMap.erase_mod_count m k hk]; exact Nat.lt_succ_self _
    · exact Nat.lt_succ_self _
    · exact HashMap.assign_mod_count m rhs
  have hslt : s.mod_count < s2.mod_count := by
    rcases hsmut with ⟨v, _, rfl⟩ | ⟨v, hv, rfl⟩ | rfl | ⟨rhs, rfl⟩
    · rw [HashSet.insert_mod_count]; exact Nat.lt_succ_self _
    · rw [HashSet.set_erase_mod_count s v hv]; exact Nat.lt_succ_self _
    · exact Nat.lt_succ_self _
    · exact HashSet.set_assign_mod_count s rhs
  exact ⟨HashMap.Iterator.stale_ops it m2 (by omega),
    HashSet.Iterator.set_stale_ops sit s2 (by omega)⟩

/-- Witness of C16: an iterator from `begin()` of the map `1->10, 2->20`, then `put(3, 30)`
on the map; an iterator from `end()` of the set `5, 7`, then `erase(5)` on the set. -/
theorem C16_witness :
    (((HashMap.fresh natHash natHash Threshold.one 1 : HashMap Nat Nat natHash).puts
        [(1, 10), (2, 20)]).begin 0).deref
      (((HashMap.fresh natHash natHash Threshold.one 1 : HashMap Nat Nat natHash).puts
        [(1, 10), (2, 20)]).put 3 30).2 =
      Except.error IcsError.ConcurrentModificationError ∧
    (((HashSet.fresh natHash natHash Threshold.one 1 : HashSet Nat natHash).inserts
        [5, 7]).end_ 0).incr
      (((HashSet.fresh natHash natHash Threshold.one 1 : HashSet Nat natHash).inserts
        [5, 7]).erase 5).2 =
      Except.error IcsError.ConcurrentModificationError :=
  have h := @C16_fail_fast Nat Nat _ _ natHash natHash
    ((HashMap.fresh natHash natHash Threshold.one 1 : HashMap Nat Nat natHash).puts
      [(1, 10), (2, 20)])
    (((HashMap.fresh natHash natHash Threshold.one 1 : HashMap Nat Nat natHash).puts
      [(1, 10), (2, 20)]).put 3 30).2 0 _ (Or.inl rfl)
    (Or.inl ⟨3, 30, by rfl, rfl⟩)
    ((HashSet.fresh natHash natHash Threshold.one 1 : HashSet Nat natHash).inserts [5, 7])
    (((HashSet.fresh natHash natHash Threshold.one 1 : HashSet Nat natHash).inserts
      [5, 7]).erase 5).2 0 _ (Or.inr rfl)
    (Or.inr (Or.inl ⟨5, by rfl, rfl⟩))
  ⟨h.1.2.2.1, h.2.1⟩

/-- C18: the iterator-driven erase loop on the `HashSet` holding `1` and `3` (identity
hash, load threshold `1.0`, so both elements are in the chain of bin `1`). The first
`erase()` returns `3`, but it has advanced the cursor to the node of `1` before
`ref_set->erase(3)` deletes exactly that node: the cursor is left on a deleted node. After
`++` the cursor is still that node, `*` reads it, and the loop ends in the second
`erase()` reading it, for every number of rounds allowed, with `1` still in the set. The
same loop on the `HashMap` with the keys `1` and `3` returns both entries and empties
the map. -/
theorem C18_set_iterator_erase_leaves_dangling_cursor :
    ((HashSet.fresh natHash natHash Threshold.one 1 : HashSet Nat natHash).inserts [1, 3]).set
      = [[], [3, 1]] ∧
    ((((HashSet.fresh natHash natHash Threshold.one 1 : HashSet Nat natHash).inserts
        [1, 3]).begin 0).erase
      ((HashSet.fresh natHash natHash Threshold.one 1 : HashSet Nat natHash).inserts [1, 3])).1
      = Except.ok 3 ∧
    ((((HashSet.fresh natHash natHash Threshold.one 1 : HashSet Nat natHash).inserts
        [1, 3]).begin 0).erase
      ((HashSet.fresh natHash natHash Threshold.one 1 : HashSet Nat natHash).inserts
        [1, 3])).2.1.current = ⟨1, NodePtr.freed⟩ ∧
    ((((HashSet.fresh natHash natHash Threshold.one 1 : HashSet Nat natHash).inserts
        [1, 3]).begin 0).erase
      ((HashSet.fresh natHash natHash Threshold.one 1 : HashSet Nat natHash).inserts
        [1, 3])).2.2.set = [[], [1]] ∧
    (((((HashSet.fresh natHash natHash Threshold.one 1 : HashSet Nat natHash).inserts
        [1, 3]).begin 0).erase
      ((HashSet.fresh natHash natHash Threshold.one 1 : HashSet Nat natHash).inserts
        [1, 3])).2.1.incr
      ((((HashSet.fresh natHash natHash Threshold.one 1 : HashSet Nat natHash).inserts
        [1, 3]).begin 0).erase
      ((HashSet.fresh natHash natHash Threshold.one 1 : HashSet Nat natHash).inserts
        [1, 3])).2.2)
      = Except.ok { current := ⟨1, NodePtr.freed⟩, ref_set := 0, expected_mod_count := 3,
                    can_erase := true } ∧
    ({ current := ⟨1, NodePtr.freed⟩, ref_set := 0, expected_mod_count := 3,
       can_erase := true } : HashSet.Iterator).deref
      ((((HashSet.fresh natHash natHash Threshold.one 1 : HashSet Nat natHash).inserts
        [1, 3]).begin 0).erase
      ((HashSet.fresh natHash natHash Threshold.one 1 : HashSet Nat natHash).inserts
        [1, 3])).2.2
      = Except.error IcsError.UndefinedBehaviour ∧
    (∀ fuel : Nat,
      (HashSet.erase_loop 0 (fuel + 2)
        (((HashSet.fresh natHash natHash Threshold.one 1 : HashSet Nat natHash).inserts
          [1, 3]).begin 0)
        ((HashSet.fresh natHash natHash Threshold.one 1 : HashSet Nat natHash).inserts [1, 3])
        []).map (fun r => (r.1, r.2.2.set, r.2.2.size))
      = some (Except.error IcsError.UndefinedBehaviour, [[], [1]], 1)) ∧
    (HashMap.erase_loop 0 3
        (((HashMap.fresh natHash natHash Threshold.one 1 : HashMap Nat Nat natHash).puts
          [(1, 10), (3, 30)]).begin 0)
        ((HashMap.fresh natHash natHash Threshold.one 1 : HashMap Nat Nat natHash).puts
          [(1, 10), (3, 30)])
        []).map (fun r => (r.1, r.2.2.map, r.2.2.size))
      = some (Except.ok [(3, 30), (1, 10)], [[], []], 0) := by
  refine ⟨by decide, by decide, by decide, by decide, by decide, by decide, ?_, by decide⟩
  intro fuel
  rfl

/-- C19: cursor validity on a non-stale `HashMap`/`HashSet` iterator. `erase()` raises
`CannotEraseError` exactly when `can_erase` is false (an `erase()` without a `++` since,
as every successful `erase()` leaves the iterator non-stale with `can_erase` false) or the
cursor is exhausted; `*` and `->` raise `IteratorPositionIllegal` exactly in the same
situations; a `++` (prefix or postfix) after an `erase()` leaves the cursor where it is and
sets `can_erase` again; `++` never moves an exhausted cursor, and on the cursor
`(-1, nullptr)` it changes nothing at all. -/
theorem C19_cursor_validity {KEY T : Type} [DecidableEq KEY] {thash sthash : hashfunc KEY}
    (it : HashMap.Iterator) (m : HashMap KEY T thash)
    (h : it.expected_mod_count = m.mod_count)
    (sit : HashSet.Iterator) (s : HashSet KEY sthash)
    (hs : sit.expected_mod_count = s.mod_count) :
    (((it.erase m).1 = Except.error IcsError.CannotEraseError ↔
        (it.can_erase = false ∨ it.current.first = -1 ∨ it.current.second = NodePtr.null)) ∧
      (it.deref m = Except.error IcsError.IteratorPositionIllegal ↔
        (it.can_erase = false ∨ it.current.first = -1 ∨ it.current.second = NodePtr.null)) ∧
      (it.arrow m = Except.error IcsError.IteratorPositionIllegal ↔
        (it.can_erase = false ∨ it.current.first = -1 ∨ it.current.second = NodePtr.null)) ∧
      (∀ x it2 m2, it.erase m = (Except.ok x, it2, m2) →
        it2.can_erase = false ∧ it2.expected_mod_count = m2.mod_count) ∧
      (it.can_erase = false →
        ¬ (it.current.first = -1 ∧ it.current.second = NodePtr.null) →
        it.incr m = Except.ok { it with can_erase := true } ∧
        it.post_incr m = Except.ok (it, { it with can_erase := true })) ∧
      (it.current.first = -1 ∨ it.current.second = NodePtr.null →
        ∃ it2, it.incr m = Except.ok it2 ∧ it2.current = it.current) ∧
      (it.current.first = -1 ∧ it.current.second = NodePtr.null →
        it.incr m = Except.ok it ∧ it.post_incr m = Except.ok (it, it))) ∧
    (((sit.erase s).1 = Except.error IcsError.CannotEraseError ↔
        (sit.can_erase = false ∨ sit.current.first = -1 ∨ sit.current.second = NodePtr.null)) ∧
      (sit.deref s = Except.error IcsError.IteratorPositionIllegal ↔
        (sit.can_erase = false ∨ sit.current.first = -1 ∨ sit.current.second = NodePtr.null)) ∧
      (sit.arrow s = Except.error IcsError.IteratorPositionIllegal ↔
        (sit.can_erase = false ∨ sit.current.first = -1 ∨ sit.current.second = NodePtr.null)) ∧
      (∀ x sit2 s2, sit.erase s = (Except.ok x, sit2, s2) →
        sit2.can_erase = false ∧ sit2.expected_mod_count = s2.mod_count) ∧
      (sit.can_erase = false →
        ¬ (sit.current.first = -1 ∧ sit.current.second = NodePtr.null) →
        sit.incr s = Except.ok { sit with can_erase := true } ∧
        sit.post_incr s = Except.ok (sit, { sit with can_erase := true })) ∧
      (sit.current.first = -1 ∨ sit.current.second = NodePtr.null →
        ∃ sit2, sit.incr s = Except.ok sit2 ∧ sit2.current = sit.current) ∧
      (sit.current.first = -1 ∧ sit.current.second = NodePtr.null →
        sit.incr s = Except.ok sit ∧ sit.post_incr s = Except.ok (sit, sit))) := by
  have hm := HashMap.Iterator.incr_flags it m h
  have hsf := HashSet.Iterator.set_incr_flags sit s hs
  exact ⟨⟨HashMap.Iterator.erase_cannot_iff it m h,
      (HashMap.Iterator.deref_illegal_iff it m h).1,
      (HashMap.Iterator.deref_illegal_iff it m h).2,
      fun x it2 m2 he =>
        ⟨(HashMap.Iterator.erase_ok it it2 m m2 x he).1,
         (HashMap.Iterator.erase_ok it it2 m m2 x he).2.1⟩,
      hm.1, hm.2.1, hm.2.2⟩,
    ⟨HashSet.Iterator.set_erase_cannot_iff sit s hs,
      (HashSet.Iterator.set_deref_illegal_iff sit s hs).1,
      (HashSet.Iterator.set_deref_illegal_iff sit s hs).2,
      fun x sit2 s2 he =>
        ⟨(HashSet.Iterator.set_erase_ok sit sit2 s s2 x he).1,
         (HashSet.Iterator.set_erase_ok sit sit2 s s2 x he).2.1⟩,
      hsf.1, hsf.2.1, hsf.2.2⟩⟩

/-- Witness of C19: the iterator `end()` of the map `1->10, 2->20` (exhausted, so
`erase()` raises `CannotEraseError`) and the iterator `begin()` of the set `5, 7` (a live
cursor, so `*` does not raise `IteratorPositionIllegal`). -/
theorem C19_witness :
    ((((HashMap.fresh natHash natHash Threshold.one 1 : HashMap Nat Nat natHash).puts
        [(1, 10), (2, 20)]).end_ 0).erase
      ((HashMap.fresh natHash natHash Threshold.one 1 : HashMap Nat Nat natHash).puts
        [(1, 10), (2, 20)])).1 = Except.error IcsError.CannotEraseError ∧
    (((HashSet.fresh natHash natHash Threshold.one 1 : HashSet Nat natHash).inserts
        [5, 7]).begin 0).deref
      ((HashSet.fresh natHash natHash Threshold.one 1 : HashSet Nat natHash).inserts
        [5, 7]) ≠ Except.error IcsError.IteratorPositionIllegal :=
  have h := @C19_cursor_validity Nat Nat _ natHash natHash
    (((HashMap.fresh natHash natHash Threshold.one 1 : HashMap Nat Nat natHash).puts
      [(1, 10), (2, 20)]).end_ 0)
    ((HashMap.fresh natHash natHash Threshold.one 1 : HashMap Nat Nat natHash).puts
      [(1, 10), (2, 20)]) rfl
    (((HashSet.fresh natHash natHash Threshold.one 1 : HashSet Nat natHash).inserts
      [5, 7]).begin 0)
    ((HashSet.fresh natHash natHash Threshold.one 1 : HashSet Nat natHash).inserts [5, 7]) rfl
  ⟨h.1.1.2 (Or.inr (Or.inl rfl)), fun hd => by
    have hc := h.2.2.1.1 hd
    revert hc
    decide⟩

/-- C20: assignment between tables with different hash functions. `rhs` holds `1->10` and
`2->20` under the hash `x + 1`, `a` holds `7->70` under the identity hash (no type-level
hash). In `a = rhs` the entries are stored by `put_all(rhs)` while `a.hash` is still the
identity, and only then `hash = rhs.hash` is assigned: `a` has the size and the hash of
`rhs`, but key `1` is in bin `1` and key `2` in bin `0`, where the new hash does not look,
so `has_key` is false for both keys and `rhs == a` is false (while `a == rhs` is true).
The same holds for the `HashSet` with the elements `1` and `2`. -/
theorem C20_assignment_stores_under_old_hash :
    (((HashMap.fresh undefinedhash natHash Threshold.one 1 : HashMap Nat Nat undefinedhash).puts
        [(7, 70)]).assign
      ((HashMap.fresh undefinedhash natHash3 Threshold.one 1 : HashMap Nat Nat undefinedhash).puts
        [(1, 10), (2, 20)]) false).hash = natHash3 ∧
    ((HashMap.fresh undefinedhash natHash3 Threshold.one 1 : HashMap Nat Nat undefinedhash).puts
        [(1, 10), (2, 20)]).map = [[(1, 10)], [(2, 20)]] ∧
    (((HashMap.fresh undefinedhash natHash Threshold.one 1 : HashMap Nat Nat undefinedhash).puts
        [(7, 70)]).assign
      ((HashMap.fresh undefinedhash natHash3 Threshold.one 1 : HashMap Nat Nat undefinedhash).puts
        [(1, 10), (2, 20)]) false).map = [[(2, 20)], [(1, 10)]] ∧
    (((HashMap.fresh undefinedhash natHash Threshold.one 1 : HashMap Nat Nat undefinedhash).puts
        [(7, 70)]).assign
      ((HashMap.fresh undefinedhash natHash3 Threshold.one 1 : HashMap Nat Nat undefinedhash).puts
        [(1, 10), (2, 20)]) false).size = 2 ∧
    (((HashMap.fresh undefinedhash natHash Threshold.one 1 : HashMap Nat Nat undefinedhash).puts
        [(7, 70)]).assign
      ((HashMap.fresh undefinedhash natHash3 Threshold.one 1 : HashMap Nat Nat undefinedhash).puts
        [(1, 10), (2, 20)]) false).has_key 1 = false ∧
    (((HashMap.fresh undefinedhash natHash Threshold.one 1 : HashMap Nat Nat undefinedhash).puts
        [(7, 70)]).assign
      ((HashMap.fresh undefinedhash natHash3 Threshold.one 1 : HashMap Nat Nat undefinedhash).puts
        [(1, 10), (2, 20)]) false).has_key 2 = false ∧
    (((HashMap.fresh undefinedhash natHash Threshold.one 1 : HashMap Nat Nat undefinedhash).puts
        [(7, 70)]).assign
      ((HashMap.fresh undefinedhash natHash3 Threshold.one 1 : HashMap Nat Nat undefinedhash).puts
        [(1, 10), (2, 20)]) false).op_eq
      ((HashMap.fresh undefinedhash natHash3 Threshold.one 1 : HashMap Nat Nat undefinedhash).puts
        [(1, 10), (2, 20)]) = true ∧
    ((HashMap.fresh undefinedhash natHash3 Threshold.one 1 : HashMap Nat Nat undefinedhash).puts
        [(1, 10), (2, 20)]).op_eq
      (((HashMap.fresh undefinedhash natHash Threshold.one 1 : HashMap Nat Nat undefinedhash).puts
        [(7, 70)]).assign
      ((HashMap.fresh undefinedhash natHash3 Threshold.one 1 : HashMap Nat Nat undefinedhash).puts
        [(1, 10), (2, 20)]) false) = false ∧
    (((HashSet.fresh undefinedhash natHash Threshold.one 1 : HashSet Nat undefinedhash).inserts
        [7]).assign
      ((HashSet.fresh undefinedhash natHash3 Threshold.one 1 : HashSet Nat undefinedhash).inserts
        [1, 2]) false).hash = natHash3 ∧
    (((HashSet.fresh undefinedhash natHash Threshold.one 1 : HashSet Nat undefinedhash).inserts
        [7]).assign
      ((HashSet.fresh undefinedhash natHash3 Threshold.one 1 : HashSet Nat undefinedhash).inserts
        [1, 2]) false).set = [[2], [1]] ∧
    (((HashSet.fresh undefinedhash natHash Threshold.one 1 : HashSet Nat undefinedhash).inserts
        [7]).assign
      ((HashSet.fresh undefinedhash natHash3 Threshold.one 1 : HashSet Nat undefinedhash).inserts
        [1, 2]) false).size = 2 ∧
    (((HashSet.fresh undefinedhash natHash Threshold.one 1 : HashSet Nat undefinedhash).inserts
        [7]).assign
      ((HashSet.fresh undefinedhash natHash3 Threshold.one 1 : HashSet Nat undefinedhash).inserts
        [1, 2]) false).contains 1 = false ∧
    (((HashSet.fresh undefinedhash natHash Threshold.one 1 : HashSet Nat undefinedhash).inserts
        [7]).assign
      ((HashSet.fresh undefinedhash natHash3 Threshold.one 1 : HashSet Nat undefinedhash).inserts
        [1, 2]) false).contains 2 = false ∧
    ((HashSet.fresh undefinedhash natHash3 Threshold.one 1 : HashSet Nat undefinedhash).inserts
        [1, 2]).op_eq
      (((HashSet.fresh undefinedhash natHash Threshold.one 1 : HashSet Nat undefinedhash).inserts
        [7]).assign
      ((HashSet.fresh undefinedhash natHash3 Threshold.one 1 : HashSet Nat undefinedhash).inserts
        [1, 2]) false) = false := by
  refine ⟨rfl, by decide, by decide, by decide, by decide, by decide, by decide, by decide,
    rfl, by decide, by decide, by decide, by decide, by decide⟩

/-- C21: for every finite sequence `l` of elements enqueued into a `HeapPriorityQueue`
made by the default constructor, with `gt` a strict weak order, repeated `dequeue` until
the queue is empty (more than `l.length` rounds allowed) raises no exception, ends with
the queue empty, and returns a rearrangement of `l` in which no element has higher
priority than one returned before it. -/
theorem C21_heap_dequeue_order {T : Type} [Inhabited T] {tgt : gtfunc T}
    (cgt : gtfunc T) (q0 : HeapPriorityQueue T tgt)
    (h0 : HeapPriorityQueue.ctor_default tgt cgt = Except.ok q0)
    (hgt : q0.gt.StrictWeak) (l : List T) (fuel : Nat) (hfuel : l.length < fuel) :
    ∃ (out : List T) (q2 : HeapPriorityQueue T tgt),
      HeapPriorityQueue.drain fuel (q0.enqueues l) [] = some (Except.ok out, q2) ∧
      q2.empty = true ∧ out.Perm l ∧ out.Pairwise (fun a b => q0.gt.call b a = false) := by
  have hq0 := HeapPriorityQueue.heap_ctor_default_ok h0
  subst hq0
  obtain ⟨w, g, u, _, p⟩ := HeapPriorityQueue.heap_enqueues_spec l
    (HeapPriorityQueue.fresh tgt (pick_gt tgt cgt) 0) (HeapPriorityQueue.heap_fresh_WF _ _) hgt
  obtain ⟨out, q2, h1, h2, h3, h4, _⟩ := HeapPriorityQueue.heap_drain_spec l.length
    ((HeapPriorityQueue.fresh tgt (pick_gt tgt cgt) 0).enqueues l) [] fuel w (g.symm ▸ hgt)
    (by rw [u]; simp [HeapPriorityQueue.fresh]) hfuel
  refine ⟨out, q2, by simpa using h1, by simp [HeapPriorityQueue.empty, h4], ?_, ?_⟩
  · refine h2.trans (p.trans ?_)
    simp [HeapPriorityQueue.elements, HeapPriorityQueue.content, HeapPriorityQueue.fresh]
  · rw [g] at h3; exact h3

/-- Witness of C21, the scenario of the specification: enqueueing `3, 1, 4, 1, 5, 9, 2, 6`
under numeric `>` and dequeueing until the queue is empty gives `9, 6, 5, 4, 3, 2, 1, 1`. -/
theorem C21_witness :
    ∃ q2 : HeapPriorityQueue Nat natGt,
      HeapPriorityQueue.drain 9
        ((HeapPriorityQueue.fresh natGt natGt 0).enqueues [3, 1, 4, 1, 5, 9, 2, 6]) [] =
        some (Except.ok [9, 6, 5, 4, 3, 2, 1, 1], q2) ∧ q2.empty = true := by
  obtain ⟨out, q2, h1, h2, _, _⟩ := C21_heap_dequeue_order undefinedgt
    (HeapPriorityQueue.fresh natGt natGt 0) rfl natGt_strictWeak [3, 1, 4, 1, 5, 9, 2, 6] 9
    (by decide)
  have hev : (HeapPriorityQueue.drain 9
      ((HeapPriorityQueue.fresh natGt natGt 0).enqueues [3, 1, 4, 1, 5, 9, 2, 6]) []).map
      (fun r => r.1) = some (Except.ok [9, 6, 5, 4, 3, 2, 1, 1]) := by decide
  rw [h1] at hev
  simp only [Option.map_some', Option.some.injEq, Except.ok.injEq] at hev
  exact ⟨q2, by rw [h1, hev], h2⟩

/-- C22: `peek` and `dequeue` of `HeapPriorityQueue`, `LinkedPriorityQueue` and
`LinkedQueue` raise `EmptyError` exactly when `empty()` is true, and the `dequeue` that
raises leaves the queue, so `size()` and `mod_count`, as it was (`peek` changes nothing in
any case). When the representation invariant holds (`used` is the number of stored
elements, for the heap `used <= length`, the number of cells of the array), `empty()` is
true exactly when `size() == 0`, and on a queue that is not empty `peek` and `dequeue`
both return the same element without raising, and `dequeue` lowers `size()` by one. -/
theorem C22_empty_error {T : Type} [Inhabited T] {tgt ltgt : gtfunc T}
    (h : HeapPriorityQueue T tgt) (hh : h.WF)
    (p : LinkedPriorityQueue T ltgt) (hp : p.WF)
    (q : LinkedQueue T) (hq : q.WF) :
    ((h.peek = Except.error IcsError.EmptyError ↔ h.empty = true) ∧
      (h.dequeue.1 = Except.error IcsError.EmptyError ↔ h.empty = true) ∧
      (h.empty = true → h.dequeue.2 = h) ∧ (h.empty = true ↔ h.size = 0) ∧
      (h.empty = false → ∃ x, h.peek = Except.ok x ∧ h.dequeue.1 = Except.ok x ∧
        h.dequeue.2.size + 1 = h.size)) ∧
    ((p.peek = Except.error IcsError.EmptyError ↔ p.empty = true) ∧
      (p.dequeue.1 = Except.error IcsError.EmptyError ↔ p.empty = true) ∧
      (p.empty = true → p.dequeue.2 = p) ∧ (p.empty = true ↔ p.size = 0) ∧
      (p.empty = false → ∃ x, p.peek = Except.ok x ∧ p.dequeue.1 = Except.ok x ∧
        p.dequeue.2.size + 1 = p.size)) ∧
    ((q.peek = Except.error IcsError.EmptyError ↔ q.empty = true) ∧
      (q.dequeue.1 = Except.error IcsError.EmptyError ↔ q.empty = true) ∧
      (q.empty = true → q.dequeue.2 = q) ∧ (q.empty = true ↔ q.size = 0) ∧
      (q.empty = false → ∃ x, q.peek = Except.ok x ∧ q.dequeue.1 = Except.ok x ∧
        q.dequeue.2.size + 1 = q.size)) := by
  refine ⟨?_, ?_, ?_⟩
  · have hsz : h.empty = true ↔ h.size = 0 := by
      simp [HeapPriorityQueue.empty, HeapPriorityQueue.size]
    cases he : h.empty with
    | true =>
      refine ⟨by simp [HeapPriorityQueue.peek, he], by simp [HeapPriorityQueue.dequeue, he],
        (fun _ => by simp [HeapPriorityQueue.dequeue, he]), (by rw [← hsz, he]),
        (fun hc => by cases hc)⟩
    | false =>
      have hu : h.used ≠ 0 := by simpa [HeapPriorityQueue.empty] using he
      obtain ⟨h1, h2, _⟩ := hh
      cases hpq : h.pq with
      | nil => rw [hpq] at h1; simp at h1; omega
      | cons x rest =>
        refine ⟨(by simp [HeapPriorityQueue.peek, he, hpq]),
          (by simp [HeapPriorityQueue.dequeue, he, hpq]),
          (fun hc => by cases hc), (by rw [← hsz, he]),
          fun _ => ⟨x, by simp [HeapPriorityQueue.peek, he, hpq],
            by simp [HeapPriorityQueue.dequeue, he, hpq], ?_⟩⟩
        simp only [HeapPriorityQueue.dequeue, he, hpq, HeapPriorityQueue.size]
        show h.used - 1 + 1 = h.used
        omega
  · have hsz : p.empty = true ↔ p.size = 0 := by
      simp [LinkedPriorityQueue.empty, LinkedPriorityQueue.size]
    cases he : p.empty with
    | true =>
      refine ⟨by simp [LinkedPriorityQueue.peek, he],
        by simp [LinkedPriorityQueue.dequeue, he],
        (fun _ => by simp [LinkedPriorityQueue.dequeue, he]), (by rw [← hsz, he]),
        (fun hc => by cases hc)⟩
    | false =>
      have hu : p.used ≠ 0 := by simpa [LinkedPriorityQueue.empty] using he
      cases hf : p.front with
      | nil => rw [LinkedPriorityQueue.WF, hf] at hp; exact absurd hp hu
      | cons x rest =>
        refine ⟨(by simp [LinkedPriorityQueue.peek, he, hf]),
          (by simp [LinkedPriorityQueue.dequeue, he, hf]),
          (fun hc => by cases hc), (by rw [← hsz, he]),
          fun _ => ⟨x, by simp [LinkedPriorityQueue.peek, he, hf],
            by simp [LinkedPriorityQueue.dequeue, he, hf], ?_⟩⟩
        simp only [LinkedPriorityQueue.dequeue, he, hf, LinkedPriorityQueue.size]
        show p.used - 1 + 1 = p.used
        omega
  · have hsz : q.empty = true ↔ q.size = 0 := by
      rw [LinkedQueue.empty, LinkedQueue.size, hq, List.isEmpty_iff, List.length_eq_zero]
    cases hf : q.front with
    | nil =>
      refine ⟨by simp [LinkedQueue.peek, LinkedQueue.empty, hf],
        by simp [LinkedQueue.dequeue, LinkedQueue.empty, hf],
        (fun _ => by simp [LinkedQueue.dequeue, hf]), hsz,
        (fun hc => by simp [LinkedQueue.empty, hf] at hc)⟩
    | cons x rest =>
      have hu : q.used = rest.length + 1 := by rw [hq, hf]; rfl
      refine ⟨by simp [LinkedQueue.peek, LinkedQueue.empty, hf],
        by simp [LinkedQueue.dequeue, LinkedQueue.empty, hf],
        (fun hc => by simp [LinkedQueue.empty, hf] at hc), hsz,
        fun _ => ⟨x, by simp [LinkedQueue.peek, hf], by simp [LinkedQueue.dequeue, hf], ?_⟩⟩
      simp only [LinkedQueue.dequeue, hf, LinkedQueue.size]
      show q.used - 1 + 1 = q.used
      omega

/-- Witness of C22: the three queues as their constructors make them, where `dequeue`
raises `EmptyError`, and a `LinkedQueue` holding `4, 2`, where `dequeue` lowers `size()`
to `1`. -/
theorem C22_witness :
    (HeapPriorityQueue.fresh natGt natGt 0).dequeue.1 = Except.error IcsError.EmptyError ∧
    (LinkedPriorityQueue.fresh natGt natGt).peek = Except.error IcsError.EmptyError ∧
    (LinkedQueue.ctor_default : LinkedQueue Nat).dequeue.1 = Except.error IcsError.EmptyError ∧
    ((LinkedQueue.ctor_default : LinkedQueue Nat).enqueues [4, 2]).dequeue.2.size = 1 :=
  have h1 := C22_empty_error (HeapPriorityQueue.fresh natGt natGt 0)
    ⟨rfl, Nat.le_refl _, fun i _ hi => absurd hi (Nat.not_lt_zero i)⟩
    (LinkedPriorityQueue.fresh natGt natGt) rfl
    (LinkedQueue.ctor_default : LinkedQueue Nat) rfl
  have h2 := C22_empty_error (HeapPriorityQueue.fresh natGt natGt 0)
    ⟨rfl, Nat.le_refl _, fun i _ hi => absurd hi (Nat.not_lt_zero i)⟩
    (LinkedPriorityQueue.fresh natGt natGt) rfl
    ((LinkedQueue.ctor_default : LinkedQueue Nat).enqueues [4, 2]) rfl
  ⟨h1.1.2.1.2 rfl, h1.2.1.1.2 rfl, h1.2.2.2.1.2 rfl, by
    obtain ⟨x, _, _, h3⟩ := h2.2.2.2.2.2.2 rfl
    have h4 : ((LinkedQueue.ctor_default : LinkedQueue Nat).enqueues [4, 2]).size = 2 := rfl
    omega⟩

/-- C23: `BSTMap::erase` under a strict total order `lt`, on a map with the
binary-search-tree ordering whose `used` is its number of nodes (every map built by `put`
calls is one). For every key `k` in the map, `erase(k)` returns the value of `k`,
`size()` drops by one, `mod_count` grows by one, the tree is still a binary search tree,
its entries from left to right are the old ones without the entry of `k` (so the in-order
key sequence is the old one with `k` removed), and `k` is no longer a key while every
other key keeps its value; also when the node of `k` has two children. -/
theorem C23_bst_erase {KEY T : Type} [DecidableEq KEY] {tlt : ltfunc KEY}
    (m : BSTMap KEY T tlt) (hwf : m.WF) (hlt : m.lt.StrictTotal) (k : KEY) (v : T)
    (hk : m.index_const k = Except.ok v) :
    (m.erase k).1 = Except.ok v ∧ (m.erase k).2.size + 1 = m.size ∧
    (m.erase k).2.mod_count = m.mod_count + 1 ∧ (m.erase k).2.WF ∧
    (m.erase k).2.map.inorder = m.map.inorder.filter (fun x => decide (x.1 ≠ k)) ∧
    (m.erase k).2.map.inorder.map Prod.fst = (m.map.inorder.map Prod.fst).erase k ∧
    (m.erase k).2.has_key k = false ∧
    ∀ k2, k2 ≠ k → (m.erase k).2.index_const k2 = m.index_const k2 := by
  unfold BSTMap.index_const at hk
  cases hf : BSTMap.find_key m.lt m.map k with
  | none => rw [hf] at hk; cases hk
  | some e =>
    rw [hf] at hk
    injection hk with hk
    obtain ⟨h1, w, hl, hu, hc, hin, hkeys⟩ := BSTMap.bst_erase_spec m hwf hlt k e hf
    have hlt2 : (m.erase k).2.lt.StrictTotal := hl.symm ▸ hlt
    refine ⟨by rw [h1, hk], hu, hc, w, hin, hkeys, ?_, ?_⟩
    · cases hh : (m.erase k).2.has_key k with
      | false => rfl
      | true =>
        have := (w.bst_has_key_iff hlt2 k).1 hh
        rw [hkeys] at this
        exact absurd this (List.Nodup.not_mem_erase (hwf.bst_keys_nodup hlt))
    · intro k2 hk2
      have key : ∀ x, BSTMap.find_key (m.erase k).2.lt (m.erase k).2.map k2 = some x ↔
          BSTMap.find_key m.lt m.map k2 = some x := by
        intro x
        rw [w.bst_find_some_iff hlt2, hwf.bst_find_some_iff hlt, hin, List.mem_filter]
        constructor
        · rintro ⟨⟨h, _⟩, hx⟩; exact ⟨h, hx⟩
        · rintro ⟨h, hx⟩
          refine ⟨⟨h, ?_⟩, hx⟩
          simp only [ne_eq, decide_eq_true_eq]
          rw [hx]; exact hk2
      unfold BSTMap.index_const
      cases h2 : BSTMap.find_key m.lt m.map k2 with
      | some x => rw [(key x).2 h2]
      | none =>
        cases h3 : BSTMap.find_key (m.erase k).2.lt (m.erase k).2.map k2 with
        | none => rfl
        | some y => rw [(key y).1 h3] at h2; cases h2

/-- Witness of C23, the scenario of the specification: after putting the keys
`5, 3, 8, 1, 4`, `erase(3)` (a node with two children) returns the value of `3` and leaves
the in-order key sequence `1, 4, 5, 8`. -/
theorem C23_witness :
    (((BSTMap.fresh natLt natLt : BSTMap Nat Nat natLt).puts
        [(5, 50), (3, 30), (8, 80), (1, 10), (4, 40)]).erase 3).1 = Except.ok 30 ∧
    (((BSTMap.fresh natLt natLt : BSTMap Nat Nat natLt).puts
        [(5, 50), (3, 30), (8, 80), (1, 10), (4, 40)]).erase 3).2.map.inorder.map Prod.fst
      = [1, 4, 5, 8] :=
  have h := C23_bst_erase
    ((BSTMap.fresh natLt natLt : BSTMap Nat Nat natLt).puts
      [(5, 50), (3, 30), (8, 80), (1, 10), (4, 40)])
    (BSTMap.bst_puts_spec [(5, 50), (3, 30), (8, 80), (1, 10), (4, 40)]
      (BSTMap.fresh natLt natLt : BSTMap Nat Nat natLt) (BSTMap.bst_fresh_WF _)
      natLt_strictTotal).1
    natLt_strictTotal 3 30 (by decide)
  ⟨h.1, h.2.2.2.2.2.1.trans (by decide)⟩

/-- C24: `BSTMap::put` under a strict total order `lt`, on a map with the
binary-search-tree ordering whose `used` is its number of nodes. On a key already present
it returns the old value and leaves `size()` and the shape of the tree unchanged, and the
key then has the new value; on an absent key it returns the new value, `size()` grows by
one and the tree is the old tree with one `nullptr` replaced by a leaf holding the entry;
in both cases the ordering is preserved and every other key is as before. So after any
sequence of `put` calls on a map made by the default constructor, `has_key(k)` is true
exactly for the keys put and `size()` is the number of distinct keys. -/
theorem C24_bst_put {KEY T : Type} [DecidableEq KEY] {tlt : ltfunc KEY}
    (m : BSTMap KEY T tlt) (hwf : m.WF) (hlt : m.lt.StrictTotal) (k : KEY) (v : T)
    (clt : ltfunc KEY) (m0 : BSTMap KEY T tlt)
    (h0 : BSTMap.ctor_default tlt clt = Except.ok m0) (h0lt : m0.lt.StrictTotal)
    (kvs : List (KEY × T)) :
    (∀ old, m.index_const k = Except.ok old →
      (m.put k v).1 = old ∧ (m.put k v).2.size = m.size ∧
      (m.put k v).2.map.shape = m.map.shape) ∧
    (m.has_key k = false →
      (m.put k v).1 = v ∧ (m.put k v).2.size = m.size + 1 ∧
      TN.AddsLeaf (k, v) m.map (m.put k v).2.map) ∧
    ((m.put k v).2.WF ∧ (m.put k v).2.index_const k = Except.ok v ∧
      ∀ k2, k2 ≠ k → (m.put k v).2.has_key k2 = m.has_key k2 ∧
        (m.put k v).2.index_const k2 = m.index_const k2) ∧
    ((m0.puts kvs).WF ∧ (m0.puts kvs).size = (kvs.map Prod.fst).dedup.length ∧
      ∀ k2, (m0.puts kvs).has_key k2 = true ↔ k2 ∈ kvs.map Prod.fst) := by
  obtain ⟨w, hl, _, hself, hother, hpres, habs⟩ := BSTMap.bst_put_spec m hwf hlt k v
  refine ⟨?_, ?_, ⟨w, ?_, ?_⟩, ?_⟩
  · intro old hold
    unfold BSTMap.index_const at hold
    cases hf : BSTMap.find_key m.lt m.map k with
    | none => rw [hf] at hold; cases hold
    | some e =>
      rw [hf] at hold
      injection hold with hold
      obtain ⟨h1, h2, h3⟩ := hpres e hf
      exact ⟨h1.trans hold, h2, h3⟩
  · intro hk
    have hf : BSTMap.find_key m.lt m.map k = none := by
      cases hf : BSTMap.find_key m.lt m.map k with
      | none => rfl
      | some e => simp [BSTMap.has_key, hf] at hk
    exact habs hf
  · unfold BSTMap.index_const
    rw [hl, hself]
  · intro k2 hk2
    unfold BSTMap.has_key BSTMap.index_const
    rw [hl, hother k2 hk2]
    exact ⟨rfl, rfl⟩
  · have hm0 := BSTMap.bst_ctor_default_ok h0
    subst hm0
    obtain ⟨pw, _, _, pk⟩ := BSTMap.bst_puts_spec kvs _ (BSTMap.bst_fresh_WF _) h0lt
    have pk2 : ∀ k2, (BSTMap.puts (BSTMap.fresh tlt (pick_lt tlt clt)) kvs).has_key k2 = true ↔
        k2 ∈ kvs.map Prod.fst := by
      intro k2
      rw [pk k2, BSTMap.bst_has_key_fresh]
      simp
    have plt : (BSTMap.puts (BSTMap.fresh tlt (pick_lt tlt clt) : BSTMap KEY T tlt) kvs).lt.StrictTotal := by
      rw [(BSTMap.bst_puts_spec kvs _ (BSTMap.bst_fresh_WF _) h0lt).2.1]
      exact h0lt
    exact ⟨pw, pw.bst_used_eq_of_keys plt _ pk2, pk2⟩

/-- Witness of C24: on the map built by putting `5, 3, 8, 1, 4`, `put(3, 31)` returns the old
value `30` and `put(7, 70)` returns `70`; the map itself has size `5`. -/
theorem C24_witness :
    (((BSTMap.fresh natLt natLt : BSTMap Nat Nat natLt).puts
        [(5, 50), (3, 30), (8, 80), (1, 10), (4, 40)]).put 3 31).1 = 30 ∧
    (((BSTMap.fresh natLt natLt : BSTMap Nat Nat natLt).puts
        [(5, 50), (3, 30), (8, 80), (1, 10), (4, 40)]).put 7 70).1 = 70 ∧
    ((BSTMap.fresh natLt natLt : BSTMap Nat Nat natLt).puts
        [(5, 50), (3, 30), (8, 80), (1, 10), (4, 40)]).size = 5 :=
  have hw := (BSTMap.bst_puts_spec [(5, 50), (3, 30), (8, 80), (1, 10), (4, 40)]
    (BSTMap.fresh natLt natLt : BSTMap Nat Nat natLt) (BSTMap.bst_fresh_WF _)
    natLt_strictTotal).1
  ⟨((C24_bst_put _ hw natLt_strictTotal 3 31 undefinedlt
        (BSTMap.fresh natLt natLt) rfl natLt_strictTotal
        [(5, 50), (3, 30), (8, 80), (1, 10), (4, 40)]).1 30 (by decide)).1,
   ((C24_bst_put _ hw natLt_strictTotal 7 70 undefinedlt
        (BSTMap.fresh natLt natLt) rfl natLt_strictTotal
        [(5, 50), (3, 30), (8, 80), (1, 10), (4, 40)]).2.1 (by decide)).1,
   (C24_bst_put _ hw natLt_strictTotal 7 70 undefinedlt
        (BSTMap.fresh natLt natLt) rfl natLt_strictTotal
        [(5, 50), (3, 30), (8, 80), (1, 10), (4, 40)]).2.2.2.2.1.trans (by decide)⟩

/-- C25: for every well-formed `HeapPriorityQueue` `q` whose `gt` is a strict weak order
(and is `tgt` when `tgt` is specified), `begin()` returns an iterator, and the loop that
applies `*` then `++` to it `size()` times visits `size()` elements and leaves the iterator
exhausted (`*` then raises `IteratorPositionIllegal`); the elements visited are exactly the
sequence that repeated `dequeue` on `q` returns, a rearrangement of the elements of `q` in
which no element has higher priority than one before it. `begin`, `*` and `++` only read
the queue: its elements, `size()` and `mod_count` are those of `q` throughout. -/
theorem C25_heap_iteration_order {T : Type} [Inhabited T] {tgt : gtfunc T}
    (q : HeapPriorityQueue T tgt) (this : Nat) (hwf : q.WF) (hgt : q.gt.StrictWeak)
    (hq : tgt.same undefinedgt = false → q.gt = tgt) :
    ∃ (it0 it2 : HeapPriorityQueue.Iterator T tgt) (out : List T)
      (q2 : HeapPriorityQueue T tgt),
      q.begin this = Except.ok it0 ∧
      HeapPriorityQueue.visit_count q q.size it0 [] = (Except.ok out, it2) ∧
      out.length = q.size ∧ it2.it.empty = true ∧
      it2.deref q = Except.error IcsError.IteratorPositionIllegal ∧
      HeapPriorityQueue.drain (q.size + 1) q [] = some (Except.ok out, q2) ∧
      out.Perm q.elements ∧ out.Pairwise (fun a b => q.gt.call b a = false) := by
  have hlen : q.used ≤ q.pq.length := by rw [hwf.1]; exact hwf.2.1
  obtain ⟨c, hb, c1, c2, c3, c4⟩ := HeapPriorityQueue.heap_begin_spec q this hlen hq
  obtain ⟨out, it2, p2, r1, r2, r3, r4, r5, r6, _⟩ :=
    HeapPriorityQueue.heap_visit_count_drain q q.used
      { it := c, ref_pq := this, expected_mod_count := q.mod_count, can_erase := true }
      q [] (q.used + 1) rfl rfl c2 rfl c3 hlen (by rw [c1]) c4 (by omega)
  obtain ⟨out2, q2, s1, s2, s3, _⟩ :=
    HeapPriorityQueue.heap_drain_spec q.used q [] (q.used + 1) hwf hgt rfl (by omega)
  rw [List.nil_append] at r1 r2 s1
  have ho : out2 = out := by
    rw [r2] at s1
    injection s1 with s1
    injection s1 with s1
    injection s1 with s1
    exact s1.symm
  subst ho
  refine ⟨_, it2, out2, p2, hb, r1, r3, by simp [HeapPriorityQueue.empty, r4], ?_, r2, s2, s3⟩
  unfold HeapPriorityQueue.Iterator.deref
  rw [if_neg (by simp [r6]), if_pos (Or.inr (by simp [HeapPriorityQueue.empty, r4]))]

/-- Witness of C25: iterating over the queue that holds `3, 1, 4, 1, 5, 9, 2, 6` under
numeric `>` visits `9, 6, 5, 4, 3, 2, 1, 1`. -/
theorem C25_witness :
    (((HeapPriorityQueue.fresh natGt natGt 0).enqueues [3, 1, 4, 1, 5, 9, 2, 6]).begin 0).map
        (fun it => (HeapPriorityQueue.visit_count
          ((HeapPriorityQueue.fresh natGt natGt 0).enqueues [3, 1, 4, 1, 5, 9, 2, 6]) 8 it []).1)
      = Except.ok (Except.ok [9, 6, 5, 4, 3, 2, 1, 1]) ∧
    ∃ (out : List Nat) (q2 : HeapPriorityQueue Nat natGt),
      HeapPriorityQueue.drain 9
        ((HeapPriorityQueue.fresh natGt natGt 0).enqueues [3, 1, 4, 1, 5, 9, 2, 6]) [] =
        some (Except.ok out, q2) ∧ out.Perm [9, 6, 5, 4, 1, 3, 2, 1] := by
  have hs := HeapPriorityQueue.heap_enqueues_spec [3, 1, 4, 1, 5, 9, 2, 6]
    (HeapPriorityQueue.fresh natGt natGt 0) (HeapPriorityQueue.heap_fresh_WF _ _)
    natGt_strictWeak
  obtain ⟨_, _, out, q2, _, _, _, _, _, h6, h7, _⟩ := C25_heap_iteration_order
    ((HeapPriorityQueue.fresh natGt natGt 0).enqueues [3, 1, 4, 1, 5, 9, 2, 6]) 0 hs.1
    (hs.2.1.symm ▸ natGt_strictWeak) (fun _ => hs.2.1)
  exact ⟨by decide, out, q2, h6, h7⟩

/-- C26: iterating a `BSTMap` with `for (it = begin(); it != end(); ++it) visit(*it);`,
allowed more rounds than the tree has nodes, ends without an exception and visits the
entries of the tree in pre-order (a node, then its left subtree, then its right subtree);
when the map has the binary-search-tree ordering under a strict total order and `used` is
its number of nodes, these are `size()` entries with pairwise different keys, and an
entry is visited exactly when the map holds it. -/
theorem C26_bst_iteration_preorder {KEY T : Type} [DecidableEq KEY] {tlt : ltfunc KEY}
    (m : BSTMap KEY T tlt) (this fuel : Nat) (hfuel : m.map.preorder.length < fuel) :
    (∃ it2 : BSTMap.Iterator KEY T,
      BSTMap.visit_loop this m fuel (m.begin this) [] = some (Except.ok m.map.preorder, it2) ∧
      it2.it.empty = true) ∧
    (m.WF → m.lt.StrictTotal →
      m.map.preorder.length = m.size ∧ (m.map.preorder.map Prod.fst).Nodup ∧
      ∀ e, e ∈ m.map.preorder ↔ BSTMap.find_key m.lt m.map e.1 = some e) := by
  constructor
  · obtain ⟨it2, h1, h2⟩ := BSTMap.visit_loop_spec this m m.map.preorder fuel (m.begin this) []
      (by simp [BSTMap.begin, BSTMap.Iterator.ctor, BSTMap.copy_to_queue_items])
      rfl rfl rfl hfuel
    exact ⟨it2, by simpa using h1, by simp [ArrayQueue.empty, h2]⟩
  · intro hwf hlt
    have p := BSTMap.preorder_perm_inorder m.map
    refine ⟨?_, ?_, ?_⟩
    · rw [p.length_eq]; exact hwf.2.symm
    · exact ((p.map Prod.fst).nodup_iff).2 (hwf.bst_keys_nodup hlt)
    · intro e
      rw [hwf.bst_find_some_iff hlt, p.mem_iff]
      simp

/-- Witness of C26: the loop over the map built by putting `5, 3, 8, 1, 4` visits the keys
in the pre-order `5, 3, 1, 4, 8`. -/
theorem C26_witness :
    (BSTMap.visit_loop 0
        ((BSTMap.fresh natLt natLt : BSTMap Nat Nat natLt).puts
          [(5, 50), (3, 30), (8, 80), (1, 10), (4, 40)]) 6
        (((BSTMap.fresh natLt natLt : BSTMap Nat Nat natLt).puts
          [(5, 50), (3, 30), (8, 80), (1, 10), (4, 40)]).begin 0) []).map (fun r => r.1) =
      some (Except.ok [(5, 50), (3, 30), (1, 10), (4, 40), (8, 80)]) := by
  obtain ⟨it2, h, _⟩ := (C26_bst_iteration_preorder
    ((BSTMap.fresh natLt natLt : BSTMap Nat Nat natLt).puts
      [(5, 50), (3, 30), (8, 80), (1, 10), (4, 40)]) 0 6 (by decide)).1
  rw [h]
  rfl

/-- C27, the code at the failing input: the non-const `operator[]` is
`return find_addempty(map, key);`, and `find_addempty` adds the node and runs `used++`
without touching `mod_count`, so `mod_count` is the same after every `operator[]`. On the
map built by putting `5, 3, 8`, with an iterator from `begin()`, `m[7]` inserts key `7`
(`size()` goes from `3` to `4`), and the iterator's `++`, `*` and `erase()` then run as if
nothing had happened instead of raising `ConcurrentModificationError`; after `put(7, 70)`,
`erase(3)` or `clear()` instead, each of them raises it. -/
theorem C27_bst_index_keeps_mod_count :
    (∀ (KEY T : Type) [Inhabited T] (tlt : ltfunc KEY) (m : BSTMap KEY T tlt) (k : KEY),
      (m.index k).2.mod_count = m.mod_count) ∧
    ((BSTMap.fresh natLt natLt : BSTMap Nat Nat natLt).puts
        [(5, 50), (3, 30), (8, 80)]).has_key 7 = false ∧
    (((BSTMap.fresh natLt natLt : BSTMap Nat Nat natLt).puts
        [(5, 50), (3, 30), (8, 80)]).index 7).2.has_key 7 = true ∧
    ((BSTMap.fresh natLt natLt : BSTMap Nat Nat natLt).puts
        [(5, 50), (3, 30), (8, 80)]).size = 3 ∧
    (((BSTMap.fresh natLt natLt : BSTMap Nat Nat natLt).puts
        [(5, 50), (3, 30), (8, 80)]).index 7).2.size = 4 ∧
    ((((BSTMap.fresh natLt natLt : BSTMap Nat Nat natLt).puts
        [(5, 50), (3, 30), (8, 80)]).begin 0).incr
      (((BSTMap.fresh natLt natLt : BSTMap Nat Nat natLt).puts
        [(5, 50), (3, 30), (8, 80)]).index 7).2).map (fun i => i.it.items) =
      Except.ok [(3, 30), (8, 80)] ∧
    (((BSTMap.fresh natLt natLt : BSTMap Nat Nat natLt).puts
        [(5, 50), (3, 30), (8, 80)]).begin 0).deref
      (((BSTMap.fresh natLt natLt : BSTMap Nat Nat natLt).puts
        [(5, 50), (3, 30), (8, 80)]).index 7).2 = Except.ok (5, 50) ∧
    ((((BSTMap.fresh natLt natLt : BSTMap Nat Nat natLt).puts
        [(5, 50), (3, 30), (8, 80)]).begin 0).erase
      (((BSTMap.fresh natLt natLt : BSTMap Nat Nat natLt).puts
        [(5, 50), (3, 30), (8, 80)]).index 7).2).1 = Except.ok (5, 50) ∧
    (((BSTMap.fresh natLt natLt : BSTMap Nat Nat natLt).puts
        [(5, 50), (3, 30), (8, 80)]).begin 0).deref
      (((BSTMap.fresh natLt natLt : BSTMap Nat Nat natLt).puts
        [(5, 50), (3, 30), (8, 80)]).put 7 70).2 =
      Except.error IcsError.ConcurrentModificationError ∧
    ((((BSTMap.fresh natLt natLt : BSTMap Nat Nat natLt).puts
        [(5, 50), (3, 30), (8, 80)]).begin 0).incr
      (((BSTMap.fresh natLt natLt : BSTMap Nat Nat natLt).puts
        [(5, 50), (3, 30), (8, 80)]).erase 3).2).map (fun i => i.it.items) =
      Except.error IcsError.ConcurrentModificationError ∧
    ((((BSTMap.fresh natLt natLt : BSTMap Nat Nat natLt).puts
        [(5, 50), (3, 30), (8, 80)]).begin 0).erase
      ((BSTMap.fresh natLt natLt : BSTMap Nat Nat natLt).puts
        [(5, 50), (3, 30), (8, 80)]).clear).1 =
      Except.error IcsError.ConcurrentModificationError := by
  refine ⟨fun _ _ _ _ _ _ => rfl, by decide, by decide, by decide, by decide, by decide,
    by decide, by decide, by decide, by decide, by decide⟩

/-- C28, the code at the failing input: in the graph with the edges `s -> v` (10),
`s -> w` (1), `w -> v` (6), `u -> x` (5) and `x -> u` (5), whose edge values are not
negative and whose walks from `s` weigh at most `10`, the nodes `u` and `x` cannot be
reached from `s`. `extended_dijkstra(g, "s")` returns the costs `s: 0`, `w: 1`, `v: 7`,
`x: INT_MAX` and `u: -2147483644`: the cost recorded for the unreachable node `u` is not
the sentinel `INT_MAX` but `5 + INT_MAX` wrapped around, with `from` set to `x`. -/
theorem C28_unreachable_node_gets_wrapped_cost :
    graphStale.WF ∧ "s" ∈ graphStale.all_nodes ∧
    (∀ v p w, Walk graphStale "s" v p w → w ≤ 10) ∧
    (¬ ∃ p w, Walk graphStale "s" "u" p w) ∧ (¬ ∃ p w, Walk graphStale "s" "x" p w) ∧
    (extended_dijkstra 6 graphStale "s").map
        (fun r => r.map (fun m => m.map.map (fun e => (e.1, e.2.cost, e.2.from_)))) =
      some (Except.ok [("s", 0, "?"), ("w", 1, "s"), ("v", 7, "w"),
        ("x", INT_MAX, "?"), ("u", -2147483644, "x")]) ∧
    INT_MAX = 2147483647 := by
  refine ⟨by unfold DistGraph.WF; decide, by decide, ?_, ?_, ?_, by decide, by decide⟩
  · intro v p w hw
    rcases graphStale_walks v p w hw with ⟨_, rfl⟩ | ⟨_, rfl⟩ | ⟨_, rfl | rfl⟩ <;> decide
  · rintro ⟨p, w, hw⟩
    rcases graphStale_walks _ p w hw with ⟨h, _⟩ | ⟨h, _⟩ | ⟨h, _⟩ <;> revert h <;> decide
  · rintro ⟨p, w, hw⟩
    rcases graphStale_walks _ p w hw with ⟨h, _⟩ | ⟨h, _⟩ | ⟨h, _⟩ <;> revert h <;> decide

/-- C30, the code at a failing input: `hash_compress` is `std::abs(hash_value) % bins`, and
`std::abs` of the minimum `int` is the minimum `int` again, so with the identity hash, the
key `-2147483648` and `3` bins (`initial_bins = 3`) the index is `-2`, below `0`, in
`HashMap` and in `HashSet`. For every other hash value, and every bin count from `1` on,
the index is in `[0, bins)`; for the minimum `int` it is `0` when the bin count is a power
of two up to `2^31`. -/
theorem C30_hash_compress_of_min_int :
    abs32 INT_MIN = INT_MIN ∧ compress INT_MIN 3 = -2 ∧
    Except.map (fun m => (m.bins, m.hash_compress INT_MIN))
      (HashMap.ctor_bins undefinedhash 3 Threshold.one intHash :
        Except IcsError (HashMap Int Nat undefinedhash)) = Except.ok (3, -2) ∧
    Except.map (fun s => (s.bins, s.hash_compress INT_MIN))
      (HashSet.ctor_bins undefinedhash 3 Threshold.one intHash :
        Except IcsError (HashSet Int undefinedhash)) = Except.ok (3, -2) ∧
    (∀ (h : Int) (bins : Nat), h ≠ INT_MIN → 0 < bins →
      0 ≤ compress h bins ∧ compress h bins < (bins : Int)) ∧
    (∀ k : Nat, k ≤ 31 → compress INT_MIN (2 ^ k) = 0) := by
  refine ⟨by decide, by decide, by decide, by decide, ?_, ?_⟩
  · intro h bins hh hb
    exact ⟨compress_nonneg hh bins, compress_lt bins hb⟩
  · intro k hk
    interval_cases k <;> decide

/-- C31: representation invariant of `HashMap` and `HashSet`. In every state that can be
reached from a constructor by `put`/`insert`, the non-const `operator []`, `erase` and
`clear` (every doubling of the bin array in `ensure_load_threshold` included; the hash
never returns `INT_MIN`): the bin array has `bins >= 1` chains; every stored entry lies in
the chain of the bin `hash_compress(key)`, which is an index of the array; no key is stored
in more than one node; and `used` is the number of stored nodes. A chain is the list of
its nodes before the one trailer node that ends it. -/
theorem C31_representation_invariant {KEY T V : Type} [DecidableEq KEY] [Inhabited T]
    [DecidableEq V] {thash : hashfunc KEY} {vhash : hashfunc V}
    (m : HashMap KEY T thash) (s : HashSet V vhash) :
    (m.Reachable →
      m.map.length = m.bins ∧ 1 ≤ m.bins ∧
      (∀ e ∈ m.map.flatten, 0 ≤ m.hash_compress e.1 ∧ m.hash_compress e.1 < m.bins ∧
        e ∈ chain_at m.map (m.hash_compress e.1) ∧
        ∀ i : Nat, e ∈ chain_at m.map i → m.hash_compress e.1 = i) ∧
      (m.map.flatten.map Prod.fst).Nodup ∧ m.used = m.map.flatten.length) ∧
    (s.Reachable →
      s.set.length = s.bins ∧ 1 ≤ s.bins ∧
      (∀ e ∈ s.set.flatten, 0 ≤ s.hash_compress e ∧ s.hash_compress e < s.bins ∧
        e ∈ chain_at s.set (s.hash_compress e) ∧
        ∀ i : Nat, e ∈ chain_at s.set i → s.hash_compress e = i) ∧
      s.set.flatten.Nodup ∧ s.used = s.set.flatten.length) := by
  constructor
  · intro h
    obtain ⟨hwf, hno⟩ := HashMap.reachable_WF h
    refine ⟨hwf.1.len, hwf.1.pos, fun e he => ?_, hwf.1.nodup, hwf.2⟩
    obtain ⟨h1, h2⟩ := HashMap.hash_compress_range m hno hwf.1.pos e.1
    exact ⟨h1, by omega, hwf.1.mem_home he, fun i hi => hwf.1.home i e hi⟩
  · intro h
    obtain ⟨hwf, hno⟩ := HashSet.set_reachable_WF h
    refine ⟨hwf.1.len, hwf.1.pos, fun e he => ?_, by simpa using hwf.1.nodup, hwf.2⟩
    obtain ⟨h1, h2⟩ := HashSet.set_hash_compress_range s hno hwf.1.pos e
    exact ⟨h1, by omega, hwf.1.mem_home he, fun i hi => hwf.1.home i e hi⟩

/-- Witness of C31: the map made by the default constructor, then `put(1,10)`, `put(2,20)`,
`put(4,40)` (two doublings), `erase(2)` and `m[5]`, and the set made from the list
`7, 5, 7`, then `erase(5)` and `insert(9)`. -/
theorem C31_witness :
    (((((((HashMap.fresh natHash natHash Threshold.one 1 : HashMap Nat Nat natHash).put
      1 10).2.put 2 20).2.put 4 40).2.erase 2).2.index 5).2.bins = 4 ∧
     ((((((HashMap.fresh natHash natHash Threshold.one 1 : HashMap Nat Nat natHash).put
      1 10).2.put 2 20).2.put 4 40).2.erase 2).2.index 5).2.used =
      ((((((HashMap.fresh natHash natHash Threshold.one 1 : HashMap Nat Nat natHash).put
        1 10).2.put 2 20).2.put 4 40).2.erase 2).2.index 5).2.map.flatten.length) ∧
    (((((HashSet.fresh natHash natHash Threshold.one 1 : HashSet Nat natHash).insert_all
      [7, 5, 7]).2.erase 5).2.insert 9).2.set.flatten.Nodup) := by
  have h := C31_representation_invariant
    ((((((HashMap.fresh natHash natHash Threshold.one 1 : HashMap Nat Nat natHash).put
      1 10).2.put 2 20).2.put 4 40).2.erase 2).2.index 5).2
    ((((HashSet.fresh natHash natHash Threshold.one 1 : HashSet Nat natHash).insert_all
      [7, 5, 7]).2.erase 5).2.insert 9).2
  have hm := h.1 (HashMap.Reachable.by_index _ 5 (HashMap.Reachable.by_erase _ 2
    (HashMap.Reachable.by_put _ 4 40 (HashMap.Reachable.by_put _ 2 20
      (HashMap.Reachable.by_put _ 1 10
        (HashMap.Reachable.by_default Threshold.one undefinedhash _
          natHash_noAbsOverflow rfl))))))
  have hs := h.2 (HashSet.Reachable.by_insert _ 9 (HashSet.Reachable.by_erase _ 5
    (HashSet.Reachable.by_il [7, 5, 7] Threshold.one undefinedhash _
      natHash_noAbsOverflow rfl)))
  exact ⟨⟨by decide, hm.2.2.2.2⟩, hs.2.2.2.1⟩

/-- C32: read-only traversal. On every `HashMap` and `HashSet` that satisfies the
representation invariant, the loop `for (it = begin(); it != end(); ++it) visit(*it)` ends
without an exception once it has run `size()` rounds, with the iterator at the cursor of
`end()`; the entries dereferenced are the chains of bin `0`, bin `1`, ..., bin `bins - 1`
one after the other, each front to back; they are `size()` many and none occurs twice.
`begin()` of an empty table is the iterator `end()`, and the cursor of `end()` is always
`(-1, nullptr)`. -/
theorem C32_read_only_traversal {KEY T E : Type} {thash : hashfunc KEY} {ehash : hashfunc E}
    (m : HashMap KEY T thash) (s : HashSet E ehash) (this fuel : Nat)
    (hm : m.WF) (hs : s.WF) (hfm : m.size < fuel) (hfs : s.size < fuel) :
    ((∃ it2 : HashMap.Iterator,
        HashMap.read_loop this fuel (m.begin this) m [] =
          some (Except.ok ((List.range m.bins).flatMap (fun (i : Nat) => chain_at m.map (i : Int))),
            it2) ∧
        it2.current = (m.end_ this).current) ∧
      ((List.range m.bins).flatMap (fun (i : Nat) => chain_at m.map (i : Int))).length = m.size ∧
      ((List.range m.bins).flatMap (fun (i : Nat) => chain_at m.map (i : Int))).Nodup ∧
      (m.size = 0 → m.begin this = m.end_ this) ∧
      (m.end_ this).current = ⟨-1, NodePtr.null⟩) ∧
    ((∃ it2 : HashSet.Iterator,
        HashSet.read_loop this fuel (s.begin this) s [] =
          some (Except.ok ((List.range s.bins).flatMap (fun (i : Nat) => chain_at s.set (i : Int))),
            it2) ∧
        it2.current = (s.end_ this).current) ∧
      ((List.range s.bins).flatMap (fun (i : Nat) => chain_at s.set (i : Int))).length = s.size ∧
      ((List.range s.bins).flatMap (fun (i : Nat) => chain_at s.set (i : Int))).Nodup ∧
      (s.size = 0 → s.begin this = s.end_ this) ∧
      (s.end_ this).current = ⟨-1, NodePtr.null⟩) := by
  have em : (List.range m.bins).flatMap (fun (i : Nat) => chain_at m.map (i : Int)) =
      m.map.flatten := by
    rw [← hm.1.len]; exact range_flatMap_chain_at m.map
  have es : (List.range s.bins).flatMap (fun (i : Nat) => chain_at s.set (i : Int)) =
      s.set.flatten := by
    rw [← hs.1.len]; exact range_flatMap_chain_at s.set
  rw [em, es]
  refine ⟨⟨hm.read_loop_begin this fuel hfm, hm.2.symm, List.Nodup.of_map _ hm.1.nodup, ?_, ?_⟩,
    ⟨hs.set_read_loop_begin this fuel hfs, hs.2.symm, List.Nodup.of_map _ hs.1.nodup, ?_, ?_⟩⟩
  · intro h0
    have h0 : m.used = 0 := h0
    simp [HashMap.begin, HashMap.end_, HashMap.Iterator.ctor, first_cursor, h0]
  · simp [HashMap.end_, HashMap.Iterator.ctor, first_cursor]
  · intro h0
    have h0 : s.used = 0 := h0
    simp [HashSet.begin, HashSet.end_, HashSet.Iterator.ctor, first_cursor, h0]
  · simp [HashSet.end_, HashSet.Iterator.ctor, first_cursor]

/-- Witness of C32: the map `1->10, 2->20, 4->40` (four bins after two doublings) and the set
`5, 7`, each read with four rounds of the loop. -/
theorem C32_witness :
    (HashMap.read_loop 0 4
        (((HashMap.fresh natHash natHash Threshold.one 1 : HashMap Nat Nat natHash).puts
          [(1, 10), (2, 20), (4, 40)]).begin 0)
        ((HashMap.fresh natHash natHash Threshold.one 1 : HashMap Nat Nat natHash).puts
          [(1, 10), (2, 20), (4, 40)]) []).map (fun r => r.1) =
      some (Except.ok [(4, 40), (1, 10), (2, 20)]) ∧
    (HashSet.read_loop 0 4
        (((HashSet.fresh natHash natHash Threshold.one 1 : HashSet Nat natHash).inserts
          [5, 7]).begin 0)
        ((HashSet.fresh natHash natHash Threshold.one 1 : HashSet Nat natHash).inserts
          [5, 7]) []).map (fun r => r.1) =
      some (Except.ok [7, 5]) := by
  have h := C32_read_only_traversal
    ((HashMap.fresh natHash natHash Threshold.one 1 : HashMap Nat Nat natHash).puts
      [(1, 10), (2, 20), (4, 40)])
    ((HashSet.fresh natHash natHash Threshold.one 1 : HashSet Nat natHash).inserts [5, 7]) 0 4
    (HashMap.puts_spec _ _ (HashMap.fresh_WF _ _ 1 (by decide)) natHash_noAbsOverflow).1
    (HashSet.inserts_spec _ _ (HashSet.set_fresh_WF _ _ 1 (by decide)) natHash_noAbsOverflow).1
    (by decide) (by decide)
  obtain ⟨⟨⟨i1, h1, _⟩, _⟩, ⟨⟨i2, h2, _⟩, _⟩⟩ := h
  rw [h1, h2]
  dsimp only [Option.map]
  exact ⟨congrArg some (congrArg Except.ok (by decide)),
    congrArg some (congrArg Except.ok (by decide))⟩

/-- C33: frame of `put`. For every `HashMap` `m` that satisfies the representation invariant
(its hash never returns `INT_MIN`), every key `k` and value `v`, after `m.put(k, v)`,
whether or not the call doubled the bin array and rehashed: every other key `k2` is found
with the same entry as before, or is absent as before; `has_key` and the const `operator[]`
answer for it as before; and a key present afterwards is `k` or was present before. -/
theorem C33_put_frame {KEY T : Type} [DecidableEq KEY] {thash : hashfunc KEY}
    (m : HashMap KEY T thash) (hwf : m.WF) (hh : m.hash.NoAbsOverflow) (k : KEY) (v : T) :
    (∀ k2, k2 ≠ k → (m.put k v).2.find_key k2 = m.find_key k2) ∧
    (∀ k2, k2 ≠ k → (m.put k v).2.has_key k2 = m.has_key k2) ∧
    (∀ k2, k2 ≠ k → (m.put k v).2.index_const k2 = m.index_const k2) ∧
    (∀ k2, (m.put k v).2.has_key k2 = true → k2 = k ∨ m.has_key k2 = true) := by
  have h := HashMap.put_find_key_other m hwf hh k v
  refine ⟨h, fun k2 hk => ?_, fun k2 hk => ?_, fun k2 hk => ?_⟩
  · simp only [HashMap.has_key, h k2 hk]
  · simp only [HashMap.index_const, h k2 hk]
  · exact (HashMap.has_key_put m hwf hh k v k2).1 hk

/-- Witness of C33: `put(4, 40)` on the map `1->10, 2->20` doubles the two bins to four
and rehashes; the keys `1` and `2` keep their values and the key `3` stays absent. -/
theorem C33_witness :
    (((HashMap.fresh natHash natHash Threshold.one 1 : HashMap Nat Nat natHash).puts
        [(1, 10), (2, 20)]).put 4 40).2.bins = 4 ∧
    (((HashMap.fresh natHash natHash Threshold.one 1 : HashMap Nat Nat natHash).puts
        [(1, 10), (2, 20)]).put 4 40).2.find_key 1 = some (1, 10) ∧
    (((HashMap.fresh natHash natHash Threshold.one 1 : HashMap Nat Nat natHash).puts
        [(1, 10), (2, 20)]).put 4 40).2.find_key 2 = some (2, 20) ∧
    (((HashMap.fresh natHash natHash Threshold.one 1 : HashMap Nat Nat natHash).puts
        [(1, 10), (2, 20)]).put 4 40).2.find_key 3 = none :=
  have h := C33_put_frame
    ((HashMap.fresh natHash natHash Threshold.one 1 : HashMap Nat Nat natHash).puts
      [(1, 10), (2, 20)])
    (HashMap.puts_spec _ _ (HashMap.fresh_WF _ _ 1 (by decide)) natHash_noAbsOverflow).1
    natHash_noAbsOverflow 4 40
  ⟨by decide, (h.1 1 (by decide)).trans (by decide), (h.1 2 (by decide)).trans (by decide),
    (h.1 3 (by decide)).trans (by decide)⟩

/-- C34: heap-order invariant. In every state of a `HeapPriorityQueue` that can be reached
from a constructor (the initializer-list and Iterable constructors and the copy
constructor, which run `heapify`, included) by `enqueue`, `dequeue` and `clear`, with `gt`
a strict weak order: for all `0 < i < size()`, `gt(pq[i], pq[(i-1)/2])` is false; and on
a queue that is not empty `peek()` returns an element that no element of the queue has
higher priority than. -/
theorem C34_heap_order_invariant {T : Type} [Inhabited T] {tgt : gtfunc T}
    (q : HeapPriorityQueue T tgt) (h : q.Reachable) :
    (∀ i, 0 < i → i < q.size →
      q.gt.call (q.pq.getD i default) (q.pq.getD ((i - 1) / 2) default) = false) ∧
    (q.empty = false →
      ∃ x, q.peek = Except.ok x ∧
        ∀ i, i < q.size → q.gt.call (q.pq.getD i default) x = false) := by
  obtain ⟨hwf, hgt⟩ := HeapPriorityQueue.heap_reachable_WF h
  refine ⟨fun i hi hiu => hwf.2.2 i hi hiu, fun he => ?_⟩
  have hu : q.used ≠ 0 := by simpa [HeapPriorityQueue.empty] using he
  cases hpq : q.pq with
  | nil =>
    have := hwf.1
    rw [hpq] at this
    have h2 := hwf.2.1
    simp at this
    omega
  | cons x rest =>
    refine ⟨x, ?_, fun i hi => ?_⟩
    · unfold HeapPriorityQueue.peek
      rw [he, hpq]
      rfl
    · have := HeapPriorityQueue.root_max q.gt hgt q.pq q.used hwf.2.2 i hi
      rw [hpq] at this
      exact this

/-- Witness of C34: the queue made from the list `3, 1, 4, 1, 5, 9, 2, 6` under numeric
`>`, then `enqueue(7)` and `dequeue()`: `peek()` is `7`, and no element is higher. -/
theorem C34_witness :
    ∃ q : HeapPriorityQueue Nat natGt,
      HeapPriorityQueue.ctor_il natGt [3, 1, 4, 1, 5, 9, 2, 6] undefinedgt = Except.ok q ∧
      (q.enqueue 7).2.dequeue.2.peek = Except.ok 7 ∧
      ∀ i, i < (q.enqueue 7).2.dequeue.2.size →
        natGt.call ((q.enqueue 7).2.dequeue.2.pq.getD i default) 7 = false := by
  obtain ⟨q, hq⟩ : ∃ q : HeapPriorityQueue Nat natGt,
      HeapPriorityQueue.ctor_il natGt [3, 1, 4, 1, 5, 9, 2, 6] undefinedgt = Except.ok q :=
    ⟨_, rfl⟩
  have h := C34_heap_order_invariant (q.enqueue 7).2.dequeue.2
    (HeapPriorityQueue.Reachable.by_dequeue _ (HeapPriorityQueue.Reachable.by_enqueue _ 7
      (HeapPriorityQueue.Reachable.by_il [3, 1, 4, 1, 5, 9, 2, 6] undefinedgt q
        natGt_strictWeak hq)))
  have hq2 := HeapPriorityQueue.heap_ctor_il_ok (Or.inl hq)
  have hpk : (q.enqueue 7).2.dequeue.2.peek = Except.ok 7 := by rw [hq2]; decide
  have hgt : (q.enqueue 7).2.dequeue.2.gt = natGt := by rw [hq2]; rfl
  have hne : (q.enqueue 7).2.dequeue.2.empty = false := by rw [hq2]; decide
  obtain ⟨x, hx, hmax⟩ := h.2 hne
  have h7 : x = 7 := by
    have e : (Except.ok x : Except IcsError Nat) = Except.ok 7 := hx.symm.trans hpk
    injection e
  rw [h7, hgt] at hmax
  exact ⟨q, hq, hpk, hmax⟩

/-- C35, the code at the failing input: on the queue that holds the pairwise distinct
elements `6, 5, 3, 4, 2, 1` under numeric `>` (heap array `6, 5, 3, 4, 2, 1`), `erase()`
on the iterator returned by `begin()` returns `6` and leaves the array `5, 3, 1, 4, 2`, in
which `4` lies under `3`; repeated `dequeue` on the queue then returns `5, 3, 4, 2, 1`, the
element `3` before the element `4` of higher priority. -/
theorem C35_iterator_erase_breaks_heap_order :
    (((HeapPriorityQueue.fresh natGt natGt 0).enqueues [6, 5, 3, 4, 2, 1]).begin 0).map
      (fun it =>
        ((it.erase ((HeapPriorityQueue.fresh natGt natGt 0).enqueues [6, 5, 3, 4, 2, 1])).1,
         (it.erase ((HeapPriorityQueue.fresh natGt natGt 0).enqueues
           [6, 5, 3, 4, 2, 1])).2.2.elements,
         (HeapPriorityQueue.drain 6
           (it.erase ((HeapPriorityQueue.fresh natGt natGt 0).enqueues
             [6, 5, 3, 4, 2, 1])).2.2 []).map (fun r => r.1))) =
      Except.ok (Except.ok 6, [5, 3, 1, 4, 2], some (Except.ok [5, 3, 4, 2, 1])) ∧
    natGt.call 4 3 = true := by
  decide

/-- C36, the code at the failing input: with `a` empty and `rhs` holding `1 -> 10`, both
with the comparison `<`, after `a = rhs` the map `a` reports `size() == 1` but holds no
key: `a.has_key(1)` is false while `rhs.has_key(1)` is true, the const `a[1]` raises
`KeyError`, and `rhs == a` is false although `a == rhs` is true. -/
theorem C36_assignment_drops_the_copy :
    ((BSTMap.fresh natLt natLt : BSTMap Nat Nat natLt).assign
      ((BSTMap.fresh natLt natLt : BSTMap Nat Nat natLt).puts [(1, 10)]) false).size = 1 ∧
    ((BSTMap.fresh natLt natLt : BSTMap Nat Nat natLt).puts [(1, 10)]).size = 1 ∧
    ((BSTMap.fresh natLt natLt : BSTMap Nat Nat natLt).assign
      ((BSTMap.fresh natLt natLt : BSTMap Nat Nat natLt).puts [(1, 10)]) false).has_key 1
      = false ∧
    ((BSTMap.fresh natLt natLt : BSTMap Nat Nat natLt).puts [(1, 10)]).has_key 1 = true ∧
    ((BSTMap.fresh natLt natLt : BSTMap Nat Nat natLt).assign
      ((BSTMap.fresh natLt natLt : BSTMap Nat Nat natLt).puts [(1, 10)]) false).index_const 1
      = Except.error IcsError.KeyError ∧
    ((BSTMap.fresh natLt natLt : BSTMap Nat Nat natLt).puts [(1, 10)]).op_eq
      ((BSTMap.fresh natLt natLt : BSTMap Nat Nat natLt).assign
        ((BSTMap.fresh natLt natLt : BSTMap Nat Nat natLt).puts [(1, 10)]) false) false
      = false ∧
    ((BSTMap.fresh natLt natLt : BSTMap Nat Nat natLt).assign
      ((BSTMap.fresh natLt natLt : BSTMap Nat Nat natLt).puts [(1, 10)]) false).op_eq
      ((BSTMap.fresh natLt natLt : BSTMap Nat Nat natLt).puts [(1, 10)]) false = true := by
  decide

/-- C37: the two priority queues agree. For a `HeapPriorityQueue` and a
`LinkedPriorityQueue` made by their default constructors with the same priority function,
a strict total order, and every finite sequence of `enqueue` and `dequeue` calls made on
both: every call returns the same value or raises the same exception on both (`dequeue`
returns the same element, `EmptyError` on both when empty), and `size()` is the same on
both after every call. The elements need not be pairwise distinct. -/
theorem C37_priority_queues_agree {T : Type} [Inhabited T] {tgt tgt2 : gtfunc T}
    (cgt cgt2 : gtfunc T) (h0 : HeapPriorityQueue T tgt) (l0 : LinkedPriorityQueue T tgt2)
    (hh : HeapPriorityQueue.ctor_default tgt cgt = Except.ok h0)
    (hl : LinkedPriorityQueue.ctor_default tgt2 cgt2 = Except.ok l0)
    (hsame : l0.gt = h0.gt) (hgt : h0.gt.StrictTotal) (cs : List (PQCall T)) :
    h0.calls cs = l0.calls cs := by
  have e1 := HeapPriorityQueue.heap_ctor_default_ok hh
  have e2 := lpq_ctor_default_ok hl
  refine pq_calls_agree h0.gt hgt cs h0 l0 ?_ ?_ rfl hsame ?_ ?_
  · rw [e1]; exact HeapPriorityQueue.heap_fresh_WF _ _
  · rw [e2]; rfl
  · rw [e1, e2]; exact List.Perm.refl _
  · rw [e2]; exact List.Pairwise.nil

/-- Witness of C37: the calls `enqueue(3)`, `enqueue(1)`, `dequeue()`, `enqueue(4)`,
`enqueue(4)`, `dequeue()`, `dequeue()`, `dequeue()`, `dequeue()` under numeric `>`: both
queues return `3`, `4`, `4`, `1` and then raise `EmptyError`. -/
theorem C37_witness :
    (HeapPriorityQueue.fresh natGt natGt 0).calls
        [PQCall.enqueue 3, PQCall.enqueue 1, PQCall.dequeue, PQCall.enqueue 4,
         PQCall.enqueue 4, PQCall.dequeue, PQCall.dequeue, PQCall.dequeue, PQCall.dequeue] =
      (LinkedPriorityQueue.fresh natGt natGt).calls
        [PQCall.enqueue 3, PQCall.enqueue 1, PQCall.dequeue, PQCall.enqueue 4,
         PQCall.enqueue 4, PQCall.dequeue, PQCall.dequeue, PQCall.dequeue, PQCall.dequeue] ∧
    ((LinkedPriorityQueue.fresh natGt natGt).calls
        [PQCall.enqueue 3, PQCall.enqueue 1, PQCall.dequeue, PQCall.enqueue 4,
         PQCall.enqueue 4, PQCall.dequeue, PQCall.dequeue, PQCall.dequeue,
         PQCall.dequeue]).map (fun r => r.2) = [1, 2, 1, 2, 3, 2, 1, 0, 0] :=
  ⟨C37_priority_queues_agree undefinedgt undefinedgt
    (HeapPriorityQueue.fresh natGt natGt 0) (LinkedPriorityQueue.fresh natGt natGt) rfl rfl rfl
    natGt_strictTotal _, by decide⟩

/-- C38, the code at the failing input: a queue whose priority function is given to the
constructor only (`tgt` is `undefinedgt`) is constructed, and `begin()` returns an
iterator, but `end()` raises `TemplateFunctionError`, on that queue as on every queue of
the type. -/
theorem C38_end_raises_template_function_error :
    (∃ q : HeapPriorityQueue Nat undefinedgt,
      HeapPriorityQueue.ctor_default undefinedgt natGt = Except.ok q ∧
      (∃ it, q.begin 0 = Except.ok it) ∧
      q.end_ 0 = Except.error IcsError.TemplateFunctionError) ∧
    ∀ (q : HeapPriorityQueue Nat undefinedgt) (this : Nat),
      q.end_ this = Except.error IcsError.TemplateFunctionError :=
  ⟨⟨_, rfl, ⟨_, rfl⟩, rfl⟩, fun _ _ => rfl⟩

/-- C39, the code at the failing input: with the one voter `v1` who prefers `A` to `B` and
both candidates still in the election, the tally returned by `evaluate_ballot` is
`A -> 1` alone: the candidate `B` of the set is not a key of it. -/
theorem C39_candidate_without_votes_is_no_key :
    (evaluate_ballot ⟨[("v1", ⟨["A", "B"]⟩)]⟩ ⟨["A", "B"]⟩).map = [("A", 1)] ∧
    (evaluate_ballot ⟨[("v1", ⟨["A", "B"]⟩)]⟩ ⟨["A", "B"]⟩).has_key "B" = false ∧
    (⟨["A", "B"]⟩ : ArraySet String).contains "B" = true := by
  decide

/-- C40: `reachable(graph, start)` terminates and is exact. For every graph given as a map
from node names to sets of successor names (cycles and nodes with several predecessors
included) and every start node there is a number of rounds after which the loop of
`reachable` has ended without an exception; the set returned contains a node exactly when
the node can be reached from `start` by following zero or more edges (so `start` itself is
in it), and it holds no node twice. -/
theorem C40_reachable_terminates_and_is_exact (graph : ArrayMap String (ArraySet String))
    (start : String) :
    ∃ n, ∀ fuel, n ≤ fuel → ∃ res : ArraySet String,
      reachable graph start fuel = some (Except.ok res) ∧
      (∀ x, res.contains x = true ↔ CanReach graph start x) ∧
      res.contains start = true ∧ res.set.Nodup := by
  have inv : ReachInv graph start ArraySet.ctor_default
      ((ArrayQueue.ctor_default : ArrayQueue String).enqueue start) := by
    refine ⟨?_, ?_, ?_, ?_, List.nodup_nil⟩
    · intro x hx; cases hx
    · intro x hx
      have hx : x ∈ [start] := hx
      rw [List.mem_singleton] at hx
      rw [hx]; exact Relation.ReflTransGen.refl
    · exact Or.inr (List.mem_singleton.2 rfl)
    · intro x hx; cases hx
  obtain ⟨n, hn⟩ := reachable_loop_spec graph start _ _ _ _ inv (Nat.lt_succ_self _)
    (Nat.lt_succ_self _)
  refine ⟨n, fun fuel hf => ?_⟩
  obtain ⟨res, h1, h2, h3⟩ := hn fuel hf
  have h4 : ∀ x, res.contains x = true ↔ CanReach graph start x := by
    intro x
    rw [← h2 x]
    simp [ArraySet.contains]
  exact ⟨res, h1, h4, (h4 start).2 Relation.ReflTransGen.refl, h3⟩

/-- Witness of C40: the graph `a -> {b, c}`, `b -> {c}`, `c -> {a}`, `d -> {a}` has the cycle
`a -> c -> a` and the node `c` with two predecessors; from `a` the loop ends after five
rounds with the set `a, b, c`. -/
theorem C40_witness :
    reachable ⟨[("a", ⟨["b", "c"]⟩), ("b", ⟨["c"]⟩), ("c", ⟨["a"]⟩), ("d", ⟨["a"]⟩)]⟩ "a" 6 =
      some (Except.ok ⟨["a", "b", "c"]⟩) ∧
    ∃ n, ∀ fuel, n ≤ fuel → ∃ res : ArraySet String,
      reachable ⟨[("a", ⟨["b", "c"]⟩), ("b", ⟨["c"]⟩), ("c", ⟨["a"]⟩), ("d", ⟨["a"]⟩)]⟩ "a" fuel =
        some (Except.ok res) ∧
      (∀ x, res.contains x = true ↔
        CanReach ⟨[("a", ⟨["b", "c"]⟩), ("b", ⟨["c"]⟩), ("c", ⟨["a"]⟩), ("d", ⟨["a"]⟩)]⟩ "a" x) ∧
      res.contains "a" = true ∧ res.set.Nodup :=
  ⟨rfl, C40_reachable_terminates_and_is_exact
    ⟨[("a", ⟨["b", "c"]⟩), ("b", ⟨["c"]⟩), ("c", ⟨["a"]⟩), ("d", ⟨["a"]⟩)]⟩ "a"⟩

end ics
